import Mathlib

/-!
# Desbordante: FDep miner, cover tree, FD storage and FD verifier

A shallow embedding of the functional-dependency core of Desbordante
(`core/algorithms/fd/fdep`, `core/algorithms/fd/fd_verifier`,
`core/algorithms/fd/*_fd_storage_builder.h`, `core/util/normalize_indices.h`)
together with theorems about it.

Conventions of the embedding.

* `std::bitset<256>` (`model::Bitset<kMaxAttrNum>`) is the natural number whose
  binary digits are the bits; `boost::dynamic_bitset<>` is a width together with
  such a number.
* `std::vector<std::unique_ptr<FDTreeElement>>` is `List (Option FDTreeElement)`.
* Reference parameters that the source mutates (`spec_lhs`, `active_path`, `lhs`,
  the storage builder, the positive cover tree) are threaded through explicitly.
* Recursions of the source that are not structural in Lean carry a fuel argument;
  the callers pass a bound that the recursion cannot exceed (`kMaxAttrNum` for the
  cursor recursions, the height of the tree for the tree recursions).  The one
  unbounded loop of the source, the `while` of `SpecializePositiveCover`, returns
  `none` when its fuel runs out, and the theorems prove that it does not.
-/

namespace model

/-- The bitset `std::bitset<N>`: bit `i` of the bitset is binary digit `i`. -/
abbrev Bitset := Nat

/-- The column index type `model::Index`. -/
abbrev Index := Nat

/-- The struct `model::TableHeader`. -/
structure TableHeader where
  table_name : String
  column_names : List String
deriving DecidableEq, Repr

end model

/-- The constant `FDTreeElement::kMaxAttrNum`. -/
def kMaxAttrNum : Nat := 256

namespace Bitset

/-- Member `test(i)` and `operator[]` used as an rvalue. -/
def test (b : Nat) (i : Nat) : Bool := Nat.testBit b i

/-- Member `set(i)`. -/
def set (b : Nat) (i : Nat) : Nat := b ||| 2 ^ i

/-- Member `reset(i)`. -/
def reset (b : Nat) (i : Nat) : Nat := b ^^^ (b &&& 2 ^ i)

/-- Member `set(i, v)` and `operator[]` used as an lvalue. -/
def assign (b : Nat) (i : Nat) (v : Bool) : Nat := if v then set b i else reset b i

/-- Member `any()`. -/
def any (b : Nat) : Bool := b != 0

/-- Operator `~` on a bitset of `kMaxAttrNum` bits. -/
def flip (b : Nat) : Nat := (2 ^ kMaxAttrNum - 1) ^^^ (b % 2 ^ kMaxAttrNum)

/-- Search upwards from position `p` for the first set bit, looking at `k` positions;
`kMaxAttrNum` when there is none. -/
def findFrom (b : Nat) : Nat → Nat → Nat
  | 0, _ => kMaxAttrNum
  | k + 1, p => if Nat.testBit b p then p else findFrom b k (p + 1)

/-- Member `_Find_first()`: the lowest set bit, `kMaxAttrNum` when there is none. -/
def Find_first (b : Nat) : Nat := findFrom b kMaxAttrNum 0

/-- Member `_Find_next(i)`: the lowest set bit above `i`, `kMaxAttrNum` when there is
none. -/
def Find_next (b : Nat) (i : Nat) : Nat := findFrom b (kMaxAttrNum - (i + 1)) (i + 1)

/-- The positions visited by
`for (i = b._Find_first(); i != kMaxAttrNum; i = b._Find_next(i))`, in order. -/
def indices (b : Nat) : List Nat := (List.range kMaxAttrNum).filter (fun i => Nat.testBit b i)

end Bitset

/-- The class `boost::dynamic_bitset<>`: a width and the bits below it. -/
structure DynamicBitset where
  size : Nat
  bits : Nat
deriving DecidableEq, Repr

namespace DynamicBitset

/-- Constructor `dynamic_bitset(size)`: all bits clear. -/
def zeros (size : Nat) : DynamicBitset := ⟨size, 0⟩

/-- Member `test(i)`. -/
def test (b : DynamicBitset) (i : Nat) : Bool := Nat.testBit b.bits i

/-- Member `set(i)`. -/
def set (b : DynamicBitset) (i : Nat) : DynamicBitset := ⟨b.size, Bitset.set b.bits i⟩

/-- Member `reset(i)`. -/
def reset (b : DynamicBitset) (i : Nat) : DynamicBitset := ⟨b.size, Bitset.reset b.bits i⟩

/-- Member `set(i, v)`. -/
def assign (b : DynamicBitset) (i : Nat) (v : Bool) : DynamicBitset :=
  ⟨b.size, Bitset.assign b.bits i v⟩

/-- Member `count()`: the number of set bits. -/
def count (b : DynamicBitset) : Nat := (List.range b.size).countP (fun i => Nat.testBit b.bits i)

/-- Member `any()`. -/
def any (b : DynamicBitset) : Bool := (List.range b.size).any (fun i => Nat.testBit b.bits i)

end DynamicBitset

/-- The helper `BitsetToDynamicBitset(b, size)`: copies bits `0 .. size-1`. -/
def BitsetToDynamicBitset (b : Nat) (size : Nat) : DynamicBitset :=
  (List.range size).foldl (fun d i => d.assign i (Bitset.test b i)) (DynamicBitset.zeros size)

/-! ## The cover tree `FDTreeElement` -/

/-- The class `FDTreeElement`, with its four data members. -/
inductive FDTreeElement where
  | mk (children_ : List (Option FDTreeElement)) (rhs_attributes_ : Nat)
      (max_attribute_number_ : Nat) (is_fd_ : Nat)
deriving Repr

namespace FDTreeElement

/-- Data member `children_`. -/
def children_ : FDTreeElement → List (Option FDTreeElement)
  | mk c _ _ _ => c

/-- Data member `rhs_attributes_` (positions are 1-based attribute numbers). -/
def rhs_attributes_ : FDTreeElement → Nat
  | mk _ r _ _ => r

/-- Data member `max_attribute_number_`. -/
def max_attribute_number_ : FDTreeElement → Nat
  | mk _ _ m _ => m

/-- Data member `is_fd_` (positions are 0-based attribute numbers). -/
def is_fd_ : FDTreeElement → Nat
  | mk _ _ _ f => f

/-- Constructor `FDTreeElement(max_attribute_number)`: `children_.resize(n)`, empty
bitsets. -/
def new (max_attribute_number : Nat) : FDTreeElement :=
  mk (List.replicate max_attribute_number none) 0 max_attribute_number 0

/-- Method `CheckFd(index)`. -/
def CheckFd (self : FDTreeElement) (index : Nat) : Bool := Bitset.test self.is_fd_ index

/-- Method `GetChild(index)`, that is `children_[index].get()`; `none` is the null
pointer.  (An index outside the vector is undefined in the source; the model
answers `none`.) -/
def GetChild (self : FDTreeElement) (index : Nat) : Option FDTreeElement :=
  self.children_.getD index none

/-- Assignment `children_[index] = child`.  (Outside the vector: no effect.) -/
def setChild (self : FDTreeElement) (index : Nat) (child : FDTreeElement) : FDTreeElement :=
  mk (self.children_.set index (some child)) self.rhs_attributes_ self.max_attribute_number_
    self.is_fd_

/-- Method `AddRhsAttribute(index)`, that is `rhs_attributes_.set(index)`.  (For
`index ≥ 256` the `set` of `std::bitset<256>` throws `std::out_of_range`; the model, whose
bitsets are unbounded numbers, sets the bit.  The two agree for positions below 256.) -/
def AddRhsAttribute (self : FDTreeElement) (index : Nat) : FDTreeElement :=
  mk self.children_ (Bitset.set self.rhs_attributes_ index) self.max_attribute_number_ self.is_fd_

/-- Statement `rhs_attributes_.reset(index)`. -/
def resetRhsAttribute (self : FDTreeElement) (index : Nat) : FDTreeElement :=
  mk self.children_ (Bitset.reset self.rhs_attributes_ index) self.max_attribute_number_
    self.is_fd_

/-- Method `GetRhsAttributes()`. -/
def GetRhsAttributes (self : FDTreeElement) : Nat := self.rhs_attributes_

/-- Method `MarkAsLast(index)`. -/
def MarkAsLast (self : FDTreeElement) (index : Nat) : FDTreeElement :=
  mk self.children_ self.rhs_attributes_ self.max_attribute_number_ (Bitset.set self.is_fd_ index)

/-- Statement `is_fd_.reset(index)`. -/
def resetIsFd (self : FDTreeElement) (index : Nat) : FDTreeElement :=
  mk self.children_ self.rhs_attributes_ self.max_attribute_number_
    (Bitset.reset self.is_fd_ index)

/-- The condition `children_[i] && children_[i]->GetRhsAttributes()[attr_num]`. -/
def childHasRhs (self : FDTreeElement) (i : Nat) (attr_num : Nat) : Bool :=
  match self.GetChild i with
  | some child => Bitset.test child.GetRhsAttributes attr_num
  | none => false

/-- Method `IsFinalNode(attr_num)`. -/
def IsFinalNode (self : FDTreeElement) (attr_num : Nat) : Bool :=
  if !Bitset.test self.rhs_attributes_ attr_num then false
  else !(List.range self.max_attribute_number_).any (fun attr => self.childHasRhs attr attr_num)

mutual
/-- The height of a tree: the number of nodes on its longest downward path. -/
def height : FDTreeElement → Nat
  | mk cs _ _ _ => heightChildren cs + 1
/-- The largest height among the children present in a `children_` vector. -/
def heightChildren : List (Option FDTreeElement) → Nat
  | [] => 0
  | none :: rest => heightChildren rest
  | some c :: rest => max (height c) (heightChildren rest)
end

/-- Method `ContainsGeneralization(lhs, attr_num, current_attr)`.  Every recursive
call raises `current_attr`, which stays below `kMaxAttrNum`; callers pass
`kMaxAttrNum` as fuel. -/
def ContainsGeneralization : Nat → FDTreeElement → Nat → Nat → Nat → Bool
  | 0, _, _, _, _ => false
  | fuel + 1, self, lhs, attr_num, current_attr =>
    if Bitset.test self.is_fd_ (attr_num - 1) then true
    else
      let next_set_attr := Bitset.Find_next lhs current_attr
      if next_set_attr = kMaxAttrNum then false
      else
        let found :=
          match self.GetChild (next_set_attr - 1) with
          | some child =>
            if Bitset.test child.GetRhsAttributes attr_num then
              ContainsGeneralization fuel child lhs attr_num next_set_attr
            else false
          | none => false
        if found then true
        else ContainsGeneralization fuel self lhs attr_num next_set_attr

/-- Method `GetGeneralizationAndDelete(lhs, attr_num, current_attr, spec_lhs)`.  The
result is the return value, the tree after the call and `spec_lhs` after the call.
Fuel as for `ContainsGeneralization`. -/
def GetGeneralizationAndDelete :
    Nat → FDTreeElement → Nat → Nat → Nat → Nat → Bool × FDTreeElement × Nat
  | 0, self, _, _, _, spec_lhs => (false, self, spec_lhs)
  | fuel + 1, self, lhs, attr_num, current_attr, spec_lhs =>
    if Bitset.test self.is_fd_ (attr_num - 1) then
      (true, (self.resetIsFd (attr_num - 1)).resetRhsAttribute attr_num, spec_lhs)
    else
      let next_set_attr := Bitset.Find_next lhs current_attr
      if next_set_attr = kMaxAttrNum then (false, self, spec_lhs)
      else
        match self.GetChild (next_set_attr - 1) with
        | some child =>
          if Bitset.test child.GetRhsAttributes attr_num then
            match GetGeneralizationAndDelete fuel child lhs attr_num next_set_attr spec_lhs with
            | (true, child1, spec1) =>
              let self1 := self.setChild (next_set_attr - 1) child1
              let self2 :=
                if self1.IsFinalNode attr_num then self1.resetRhsAttribute attr_num else self1
              (true, self2, Bitset.set spec1 next_set_attr)
            | (false, child1, spec1) =>
              GetGeneralizationAndDelete fuel (self.setChild (next_set_attr - 1) child1) lhs
                attr_num next_set_attr spec1
          else GetGeneralizationAndDelete fuel self lhs attr_num next_set_attr spec_lhs
        | none => GetGeneralizationAndDelete fuel self lhs attr_num next_set_attr spec_lhs

/-- The loop
`while (!found && attr < bound) { if (child attr-1 has rhs) found = child->rec(...); ++attr; }`
of `GetSpecialization`, run for at most `steps` iterations; `rec` is the recursive
call on a child.  Returns `found`, `attr` and `spec_lhs_out` after the loop. -/
def GetSpecialization.scan (self : FDTreeElement) (attr_num : Nat)
    (rec : FDTreeElement → Nat → Bool × Nat) : Nat → Nat → Bool → Nat → Bool × Nat × Nat
  | 0, attr, found, out => (found, attr, out)
  | steps + 1, attr, found, out =>
    if found then (found, attr, out)
    else
      match self.GetChild (attr - 1) with
      | some child =>
        if Bitset.test child.GetRhsAttributes attr_num then
          let r := rec child out
          GetSpecialization.scan self attr_num rec steps (attr + 1) r.1 r.2
        else GetSpecialization.scan self attr_num rec steps (attr + 1) false out
      | none => GetSpecialization.scan self attr_num rec steps (attr + 1) false out

/-- Method `GetSpecialization(lhs, attr_num, current_attr, spec_lhs_out)`.  The result
is the return value and `spec_lhs_out` after the call.  Every recursive call
descends to a child; callers pass the height of the tree as fuel. -/
def GetSpecialization : Nat → FDTreeElement → Nat → Nat → Nat → Nat → Bool × Nat
  | 0, _, _, _, _, spec_lhs_out => (false, spec_lhs_out)
  | fuel + 1, self, lhs, attr_num, current_attr, spec_lhs_out =>
    if !Bitset.test self.rhs_attributes_ attr_num then (false, spec_lhs_out)
    else
      let attr := if current_attr > 1 then current_attr else 1
      let next_set_attr := Bitset.Find_next lhs current_attr
      if next_set_attr = kMaxAttrNum then
        let r := GetSpecialization.scan self attr_num
          (fun child out => GetSpecialization fuel child lhs attr_num current_attr out)
          (self.max_attribute_number_ + 1 - attr) attr false spec_lhs_out
        (true, if r.1 then Bitset.set r.2.2 (r.2.1 - 1) else r.2.2)
      else
        let r := GetSpecialization.scan self attr_num
          (fun child out => GetSpecialization fuel child lhs attr_num current_attr out)
          (next_set_attr - attr) attr false spec_lhs_out
        let r2 : Bool × Nat :=
          if !r.1 && self.childHasRhs (next_set_attr - 1) attr_num then
            match self.GetChild (next_set_attr - 1) with
            | some child => GetSpecialization fuel child lhs attr_num next_set_attr r.2.2
            | none => (false, r.2.2)
          else (r.1, r.2.2)
        (r2.1, Bitset.assign r2.2 (r.2.1 - 1) r2.1)

/-- Method `AddMostGeneralDependencies()`. -/
def AddMostGeneralDependencies (self : FDTreeElement) : FDTreeElement :=
  let rhs := (List.range' 1 self.max_attribute_number_).foldl
    (fun b i => Bitset.set b i) self.rhs_attributes_
  let is_fd := (List.range self.max_attribute_number_).foldl
    (fun b i => Bitset.assign b i true) self.is_fd_
  mk self.children_ rhs self.max_attribute_number_ is_fd

/-- The loop of `AddFunctionalDependency` over the set bits `i` of `lhs`, from
`current_node` downwards: the child `i - 1` is created when absent, gets
`AddRhsAttribute(attr_num)`, and the last node gets `MarkAsLast(attr_num - 1)`.
`max_attr` is the root's `max_attribute_number_`. -/
def AddFunctionalDependency.walk (max_attr : Nat) (attr_num : Nat) :
    List Nat → FDTreeElement → FDTreeElement
  | [], current_node => current_node.MarkAsLast (attr_num - 1)
  | i :: rest, current_node =>
    let child :=
      match current_node.GetChild (i - 1) with
      | some c => c
      | none => FDTreeElement.new max_attr
    current_node.setChild (i - 1)
      (AddFunctionalDependency.walk max_attr attr_num rest (child.AddRhsAttribute attr_num))

/-- Method `AddFunctionalDependency(lhs, attr_num)`.  (The model agrees with the source
for `attr_num < 256` and child positions inside the vectors: for `attr_num ≥ 256` the
source throws in `AddRhsAttribute`, and a child position outside `children_` is an
undefined access there.) -/
def AddFunctionalDependency (self : FDTreeElement) (lhs : Nat) (attr_num : Nat) :
    FDTreeElement :=
  AddFunctionalDependency.walk self.max_attribute_number_ attr_num (Bitset.indices lhs)
    (self.AddRhsAttribute attr_num)

/-- One round of the first loop of `FilterSpecializationsHelper`, for the child at
`attr - 1`: `active_path.set(attr)`, the recursive call `rec`, `active_path.reset(attr)`.
The state is `filtered_tree` and `active_path`. -/
def FilterSpecializationsHelper.child (rec : FDTreeElement → FDTreeElement → Nat → FDTreeElement × Nat)
    (self : FDTreeElement) (s : FDTreeElement × Nat) (attr : Nat) : FDTreeElement × Nat :=
  match self.GetChild (attr - 1) with
  | some child =>
    let r := rec child s.1 (Bitset.set s.2 attr)
    (r.1, Bitset.reset r.2 attr)
  | none => s

/-- One round of the second loop of `FilterSpecializationsHelper`: the FD
`active_path → attr` of this node is added to `filtered_tree` unless
`GetSpecialization` finds it there (its `spec_lhs_out` is a fresh local). -/
def FilterSpecializationsHelper.own (self : FDTreeElement) (active_path : Nat)
    (filtered_tree : FDTreeElement) (attr : Nat) : FDTreeElement :=
  if Bitset.test self.is_fd_ (attr - 1) &&
      !(GetSpecialization filtered_tree.height filtered_tree active_path attr 0 0).1 then
    filtered_tree.AddFunctionalDependency active_path attr
  else filtered_tree

/-- Method `FilterSpecializationsHelper(filtered_tree, active_path)`.  The result is
`filtered_tree` and `active_path` after the call.  Fuel: the height of `self`. -/
def FilterSpecializationsHelper :
    Nat → FDTreeElement → FDTreeElement → Nat → FDTreeElement × Nat
  | 0, _, filtered_tree, active_path => (filtered_tree, active_path)
  | fuel + 1, self, filtered_tree, active_path =>
    let s1 := (List.range' 1 self.max_attribute_number_).foldl
      (FilterSpecializationsHelper.child (FilterSpecializationsHelper fuel) self)
      (filtered_tree, active_path)
    let f2 := (List.range' 1 self.max_attribute_number_).foldl
      (FilterSpecializationsHelper.own self s1.2) s1.1
    (f2, s1.2)

/-- Method `FilterSpecializations()`: only `children_` and `is_fd_` are taken from the
rebuilt tree. -/
def FilterSpecializations (self : FDTreeElement) : FDTreeElement :=
  let filtered_tree :=
    (FilterSpecializationsHelper self.height self (FDTreeElement.new self.max_attribute_number_)
      0).1
  mk filtered_tree.children_ self.rhs_attributes_ self.max_attribute_number_ filtered_tree.is_fd_

end FDTreeElement

/-! ## FD storage and its LHS-capped builder -/

namespace algos

/-- The struct `FdStorage::StrippedFd`. -/
structure StrippedFd where
  lhs : DynamicBitset
  rhs : DynamicBitset
deriving DecidableEq, Repr

/-- The class `FdStorage`: a table header and the deque of stripped FDs. -/
structure FdStorage where
  table_header_ : model.TableHeader
  stripped_fds_ : List StrippedFd
deriving DecidableEq, Repr

/-- Method `FdStorage::GetStripped()`. -/
def FdStorage.GetStripped (self : FdStorage) : List StrippedFd := self.stripped_fds_

/-- The value `std::numeric_limits<unsigned int>::max()`, the default of `max_lhs`. -/
def kMaxLhsUnlimited : Nat := 4294967295

/-- The class `LhsLimFdStorageBuilder`. -/
structure LhsLimFdStorageBuilder where
  stripped_fds_ : List StrippedFd
  max_lhs_ : Nat
deriving DecidableEq, Repr

namespace LhsLimFdStorageBuilder

/-- Constructor `LhsLimFdStorageBuilder(max_lhs)`. -/
def new (max_lhs : Nat) : LhsLimFdStorageBuilder := ⟨[], max_lhs⟩

/-- Method `AddFd(fd)`. -/
def AddFd (self : LhsLimFdStorageBuilder) (fd : StrippedFd) : LhsLimFdStorageBuilder :=
  if fd.lhs.count > self.max_lhs_ then self
  else ⟨self.stripped_fds_ ++ [fd], self.max_lhs_⟩

/-- Method `Build(table_header)`. -/
def Build (self : LhsLimFdStorageBuilder) (table_header : model.TableHeader) : FdStorage :=
  ⟨table_header, self.stripped_fds_⟩

/-- Method `Reset()`. -/
def Reset (self : LhsLimFdStorageBuilder) : LhsLimFdStorageBuilder := ⟨[], self.max_lhs_⟩

end LhsLimFdStorageBuilder

end algos

namespace FDTreeElement

/-- One round of the loop of `TransformTreeFdCollection`, for the child at `attr`:
`lhs.set(attr)`, the recursive call `rec`, `lhs.reset(attr)`.  The state is `lhs` and
the builder. -/
def TransformTreeFdCollection.child
    (rec : FDTreeElement → DynamicBitset → algos.LhsLimFdStorageBuilder →
      DynamicBitset × algos.LhsLimFdStorageBuilder)
    (self : FDTreeElement) (s : DynamicBitset × algos.LhsLimFdStorageBuilder) (attr : Nat) :
    DynamicBitset × algos.LhsLimFdStorageBuilder :=
  match self.GetChild attr with
  | some child =>
    let r := rec child (s.1.set attr) s.2
    (r.1.reset attr, r.2)
  | none => s

/-- Method `TransformTreeFdCollection(lhs, builder, max_lhs)`.  The result is `lhs` and
`builder` after the call.  Fuel: the height of `self`. -/
def TransformTreeFdCollection :
    Nat → FDTreeElement → DynamicBitset → algos.LhsLimFdStorageBuilder → Nat →
      DynamicBitset × algos.LhsLimFdStorageBuilder
  | 0, _, lhs, builder, _ => (lhs, builder)
  | fuel + 1, self, lhs, builder, max_lhs =>
    if lhs.count > max_lhs then (lhs, builder)
    else
      let builder1 :=
        if Bitset.any self.is_fd_ then
          builder.AddFd ⟨lhs, BitsetToDynamicBitset self.is_fd_ lhs.size⟩
        else builder
      (List.range lhs.size).foldl
        (TransformTreeFdCollection.child
          (fun child l b => TransformTreeFdCollection fuel child l b max_lhs) self)
        (lhs, builder1)

/-- Method `CreateAnswer(attr_num, builder, max_lhs)`. -/
def CreateAnswer (self : FDTreeElement) (attr_num : Nat) (builder : algos.LhsLimFdStorageBuilder)
    (max_lhs : Nat) : algos.LhsLimFdStorageBuilder :=
  (TransformTreeFdCollection self.height self (DynamicBitset.zeros attr_num) builder max_lhs).2

end FDTreeElement

/-! ## The FDep miner -/

namespace algos

/-- The data members of class `FDep`.  `tuples_` holds the per-cell hashes of the rows
(`LoadDataInternal`). -/
structure FDep where
  fd_storage_ : Option FdStorage
  max_lhs_ : Nat
  table_header_ : model.TableHeader
  neg_cover_tree_ : Option FDTreeElement
  pos_cover_tree_ : Option FDTreeElement
  tuples_ : List (List Nat)

namespace FDep

/-- Reduction of an integer to the range of a 32-bit `int` (two's complement). -/
def wrapInt32 (z : Int) : Int := (z + 2 ^ 31) % 2 ^ 32 - 2 ^ 31

/-- The constructor argument of `equal_attr` in `AddViolatedFDs`: the `int` expression
`(2 << n) - 1`, converted to `unsigned long long`.  The value is that of the source for
`n ≤ 29`, where nothing overflows, and for `n = 31`, where `2 << 31` is 0 in a 32-bit
`int` and the mask is `-1`.  For `n = 30` the subtraction overflows `int`, and for
`n ≥ 32` the shift count is not below the width of `int`: both are undefined in the
source (and builds differ from the wrapped value there); the model wraps to 32 bits, and
the statements that depend on the value of the mask are made for `n ≤ 29` and `n = 31`
only. -/
def equalAttrInit (n : Nat) : Nat :=
  Int.toNat (wrapInt32 (wrapInt32 (2 * 2 ^ n) - 1) % 2 ^ 64)

/-- Element access `t[attr]` on a row of `tuples_`. -/
def cell (t : List Nat) (attr : Nat) : Nat := t.getD attr 0

/-- The bitset `diff_attr` of `AddViolatedFDs`: bit `attr + 1` tells whether the rows
differ in column `attr`. -/
def diffAttr (n : Nat) (t1 t2 : List Nat) : Nat :=
  (List.range n).foldl
    (fun d attr => Bitset.assign d (attr + 1) (cell t1 attr != cell t2 attr)) 0

/-- The bitset `equal_attr` of `AddViolatedFDs` after `equal_attr &= ~diff_attr`. -/
def equalAttr (n : Nat) (t1 t2 : List Nat) : Nat :=
  Bitset.reset (equalAttrInit n) 0 &&& Bitset.flip (diffAttr n t1 t2)

/-- Method `AddViolatedFDs(t1, t2)`, acting on the negative cover tree; `n` is
`table_header_.column_names.size()`. -/
def AddViolatedFDs (n : Nat) (neg_cover_tree : FDTreeElement) (t1 t2 : List Nat) :
    FDTreeElement :=
  (Bitset.indices (diffAttr n t1 t2)).foldl
    (fun tree attr => tree.AddFunctionalDependency (equalAttr n t1 t2) attr) neg_cover_tree

/-- The double loop of `BuildNegativeCover` over all pairs `i < j` of rows. -/
def BuildNegativeCover.pairs (n : Nat) : List (List Nat) → FDTreeElement → FDTreeElement
  | [], tree => tree
  | t1 :: rest, tree =>
    BuildNegativeCover.pairs n rest (rest.foldl (fun tr t2 => AddViolatedFDs n tr t1 t2) tree)

/-- Method `BuildNegativeCover()`: the resulting `neg_cover_tree_`. -/
def BuildNegativeCover (n : Nat) (tuples : List (List Nat)) : FDTreeElement :=
  (BuildNegativeCover.pairs n tuples (FDTreeElement.new n)).FilterSpecializations

/-- One round of the `for` loop in the body of the `while` of
`SpecializePositiveCover`: for `attr` outside `lhs` and different from `a`, the FD
`spec_lhs ∪ attr → a` is added unless a generalization of it is recorded.  The state
is the positive cover tree and `spec_lhs`. -/
def SpecializePositiveCover.step (lhs : Nat) (a : Nat) (s : FDTreeElement × Nat) (attr : Nat) :
    FDTreeElement × Nat :=
  if !Bitset.test lhs attr && attr != a then
    let spec1 := Bitset.set s.2 attr
    let tree1 :=
      if !FDTreeElement.ContainsGeneralization kMaxAttrNum s.1 spec1 a 0 then
        s.1.AddFunctionalDependency spec1 a
      else s.1
    (tree1, Bitset.reset spec1 attr)
  else s

/-- The `for` loop in the body of the `while` of `SpecializePositiveCover`, over
`attr = n, ..., 1`. -/
def SpecializePositiveCover.body (n : Nat) (lhs : Nat) (a : Nat)
    (pos_cover_tree : FDTreeElement) (spec_lhs : Nat) : FDTreeElement × Nat :=
  (List.range' 1 n).reverse.foldl (SpecializePositiveCover.step lhs a)
    (pos_cover_tree, spec_lhs)

/-- The `while` loop of `SpecializePositiveCover`; `none` when the fuel runs out. -/
def SpecializePositiveCover.loop (n : Nat) (lhs : Nat) (a : Nat) :
    Nat → FDTreeElement → Nat → Option FDTreeElement
  | 0, _, _ => none
  | fuel + 1, pos_cover_tree, spec_lhs =>
    match FDTreeElement.GetGeneralizationAndDelete kMaxAttrNum pos_cover_tree lhs a 0 spec_lhs with
    | (false, tree1, _) => some tree1
    | (true, tree1, spec1) =>
      SpecializePositiveCover.loop n lhs a fuel
        (SpecializePositiveCover.body n lhs a tree1 spec1).1 0

/-- Method `SpecializePositiveCover(lhs, a)`, acting on the positive cover tree.  The
loop is given `2 ^ n + 1` rounds, one more than there are attribute sets. -/
def SpecializePositiveCover (n : Nat) (pos_cover_tree : FDTreeElement) (lhs : Nat) (a : Nat) :
    Option FDTreeElement :=
  SpecializePositiveCover.loop n lhs a (2 ^ n + 1) pos_cover_tree 0

/-- One round of the first loop of `CalculatePositiveCover`: when the node records an
FD for `attr`, `SpecializePositiveCover(active_path, attr)`.  The state is the positive
cover tree and `active_path`; `none` is passed on. -/
def CalculatePositiveCover.own (n : Nat) (neg_cover_subtree : FDTreeElement)
    (acc : Option (FDTreeElement × Nat)) (attr : Nat) : Option (FDTreeElement × Nat) :=
  acc.bind fun st =>
    if neg_cover_subtree.CheckFd (attr - 1) then
      (SpecializePositiveCover n st.1 st.2 attr).map fun tree => (tree, st.2)
    else some st

/-- One round of the second loop of `CalculatePositiveCover`, for the child at
`attr - 1`: `active_path.set(attr)`, the recursive call `rec`, `active_path.reset(attr)`. -/
def CalculatePositiveCover.child
    (rec : FDTreeElement → FDTreeElement × Nat → Option (FDTreeElement × Nat))
    (neg_cover_subtree : FDTreeElement) (acc : Option (FDTreeElement × Nat)) (attr : Nat) :
    Option (FDTreeElement × Nat) :=
  acc.bind fun st =>
    match neg_cover_subtree.GetChild (attr - 1) with
    | some child =>
      (rec child (st.1, Bitset.set st.2 attr)).map fun r => (r.1, Bitset.reset r.2 attr)
    | none => some st

/-- Method `CalculatePositiveCover(neg_cover_subtree, active_path)`.  The state is the
positive cover tree and `active_path`.  Fuel: the height of `neg_cover_subtree`. -/
def CalculatePositiveCover (n : Nat) :
    Nat → FDTreeElement → FDTreeElement × Nat → Option (FDTreeElement × Nat)
  | 0, _, _ => none
  | fuel + 1, neg_cover_subtree, s =>
    (List.range' 1 n).foldl
      (CalculatePositiveCover.child (CalculatePositiveCover n fuel) neg_cover_subtree)
      ((List.range' 1 n).foldl (CalculatePositiveCover.own n neg_cover_subtree) (some s))

/-- Method `ResetState()`. -/
def ResetState (self : FDep) : FDep :=
  { self with fd_storage_ := none, neg_cover_tree_ := none, pos_cover_tree_ := none }

/-- Method `ExecuteInternal()`: the object after the call (the elapsed time it returns
is not modelled); `none` when the mining loop does not finish. -/
def ExecuteInternal (self : FDep) : Option FDep :=
  let n := self.table_header_.column_names.length
  let storage_builder := LhsLimFdStorageBuilder.new self.max_lhs_
  let neg := BuildNegativeCover n self.tuples_
  let pos0 := (FDTreeElement.new n).AddMostGeneralDependencies
  (CalculatePositiveCover n neg.height neg (pos0, 0)).map fun r =>
    let storage_builder1 := r.1.CreateAnswer n storage_builder self.max_lhs_
    { self with
      neg_cover_tree_ := some neg
      pos_cover_tree_ := some r.1
      fd_storage_ := some (storage_builder1.Build self.table_header_) }

/-- Method `GetFdStorage()`. -/
def GetFdStorage (self : FDep) : Option FdStorage := self.fd_storage_

end FDep

end algos

/-! ## Index normalization -/

namespace util

/-- The algorithm `std::unique` followed by `erase`: of every run of equal neighbours
only the first element is kept. -/
def unique {α : Type} [DecidableEq α] : List α → List α
  | [] => []
  | x :: rest =>
    match rest with
    | [] => [x]
    | y :: _ => if x = y then unique rest else x :: unique rest

/-- The function `util::NormalizeIndices(indices)`: `std::sort`, then `std::unique`
and `erase`. -/
def NormalizeIndices {α : Type} [LinearOrder α] (indices : List α) : List α :=
  unique (indices.insertionSort (fun a b => a ≤ b))

end util

/-! ## Position list indexes -/

namespace model

/-- Modelled from the spec: the class `model::PLI` (`PositionListIndex`), which is not
part of the sources at hand.  A stripped position list index is its ordered
collection of clusters, each a list of row identifiers. -/
structure PLI where
  clusters : List (List Nat)
deriving DecidableEq, Repr

namespace PLI

/-- Modelled from the spec: `GetNumCluster()` of the missing class `model::PLI`
"returns the cluster count". -/
def GetNumCluster (p : PLI) : Nat := p.clusters.length

/-- Modelled from the spec: the probing vector of the missing class `model::PLI`,
"row → cluster-id (or sentinel)"; the sentinel is `none`.  The cluster-id is the
position of the cluster, counted from `first`. -/
def probeFrom : List (List Nat) → Nat → Nat → Option Nat
  | [], _, _ => none
  | c :: rest, first, row => if row ∈ c then some first else probeFrom rest (first + 1) row

/-- Modelled from the spec: lookup in the probing vector of the missing class
`model::PLI`. -/
def probe (p : PLI) (row : Nat) : Option Nat := probeFrom p.clusters 0 row

/-- Modelled from the spec: one step of the bucketing inside `Intersect` of the
missing class `model::PLI`: `row` joins the bucket of `key`, a new bucket being
opened behind the existing ones when `key` is seen for the first time. -/
def bucketInsert (key : Nat) (row : Nat) : List (Nat × List Nat) → List (Nat × List Nat)
  | [] => [(key, [row])]
  | b :: rest =>
    if b.1 = key then (b.1, b.2 ++ [row]) :: rest else b :: bucketInsert key row rest

/-- Modelled from the spec: the buckets of one cluster `C` of `P` inside `Intersect` of
the missing class `model::PLI`: "bucket each row of `C` by its cluster-id in `Q` using
`Q`'s probing vector (rows whose `Q`-probe is the sentinel are excluded)". -/
def buckets (q : PLI) (c : List Nat) : List (Nat × List Nat) :=
  c.foldl
    (fun bs row =>
      match q.probe row with
      | some key => bucketInsert key row bs
      | none => bs)
    []

/-- Modelled from the spec: `Intersect(other)` of the missing class `model::PLI`: "for
each cluster `C` in `P`, bucket each row of `C` by its cluster-id in `Q` ...; every
resulting bucket with ≥ 2 rows becomes a cluster of the result", in the scan order
of `P`, then first-seen order of the `Q`-cluster-ids. -/
def Intersect (p q : PLI) : PLI :=
  ⟨p.clusters.flatMap fun c => ((buckets q c).map Prod.snd).filter (fun b => 2 ≤ b.length)⟩

/-- Modelled from the spec: whether two cells agree under the null policy of the
missing relation loader: "under `equal_nulls = true` two nulls agree, otherwise they
never agree".  A null cell is `none`. -/
def agree (equal_nulls : Bool) : Option Nat → Option Nat → Bool
  | some x, some y => x == y
  | none, none => equal_nulls
  | _, _ => false

/-- Modelled from the spec: one step of the column scan of the missing PLI
construction: row `row` with cell `v` joins the group of the cells it agrees with,
or opens a new group. -/
def groupInsert (equal_nulls : Bool) (v : Option Nat) (row : Nat) :
    List (Option Nat × List Nat) → List (Option Nat × List Nat)
  | [] => [(v, [row])]
  | g :: rest =>
    if agree equal_nulls g.1 v then (g.1, g.2 ++ [row]) :: rest
    else g :: groupInsert equal_nulls v row rest

/-- Modelled from the spec: the groups of equal cells of a column, for the missing PLI
construction; `first` is the row identifier of the first cell. -/
def groups (equal_nulls : Bool) : List (Option Nat) → Nat → List (Option Nat × List Nat) →
    List (Option Nat × List Nat)
  | [], _, acc => acc
  | v :: rest, first, acc => groups equal_nulls rest (first + 1) (groupInsert equal_nulls v first acc)

/-- Modelled from the spec: the PLI of one attribute, built by the missing
`ColumnLayoutRelationData::CreateFrom`: "constructed per attribute by scanning the
column once, grouping identical values, stripping singleton groups". -/
def ofColumn (equal_nulls : Bool) (column : List (Option Nat)) : PLI :=
  ⟨((groups equal_nulls column 0 []).map Prod.snd).filter (fun g => 2 ≤ g.length)⟩

end PLI

/-- Modelled from the spec: the missing class `ColumnLayoutRelationData`, reduced to
what the verifier reads: the cells of each column (a null cell is `none`) and the
null policy it was loaded with. -/
structure ColumnLayoutRelationData where
  columns : List (List (Option Nat))
  is_null_equal_null : Bool
deriving DecidableEq, Repr

/-- Modelled from the spec: `GetColumnData(i).GetPositionListIndex()` of the missing
class `ColumnLayoutRelationData`. -/
def ColumnLayoutRelationData.GetPositionListIndex (rel : ColumnLayoutRelationData) (i : Nat) :
    PLI :=
  PLI.ofColumn rel.is_null_equal_null (rel.columns.getD i [])

/-- One element of an `FdInput` side: `std::variant<std::string, model::Index>`. -/
inductive ColumnId where
  | name (s : String)
  | index (i : Nat)
deriving DecidableEq, Repr

/-- The struct `model::FdInput`. -/
structure FdInput where
  lhs : List ColumnId
  rhs : List ColumnId
deriving DecidableEq, Repr

end model

namespace config

/-- The exception `config::ConfigurationError`, with its message. -/
structure ConfigurationError where
  what : String
deriving DecidableEq, Repr

end config

/-! ## The FD verifier -/

namespace algos.fd_verifier

/-- The lambda `not_empty` of `FDVerifier::RegisterOptions`. -/
def not_empty (fd_input : model.FdInput) : Except config.ConfigurationError Unit :=
  if fd_input.rhs.isEmpty then
    Except.error ⟨"RHS is empty, there is nothing to check"⟩
  else if fd_input.lhs.isEmpty then
    Except.error ⟨"FDs with empty LHS are unsupported"⟩
  else Except.ok ()

/-- The lambda `normalize_index` of `FDVerifier::RegisterOptions`, for the header's
`column_names`. -/
def normalize_index (column_names : List String) :
    model.ColumnId → Except config.ConfigurationError Nat
  | model.ColumnId.name arg =>
    let it := column_names.indexOf arg
    if it = column_names.length then
      Except.error ⟨"No column named " ++ arg⟩
    else if arg ∈ column_names.drop (it + 1) then
      Except.error ⟨"Reference to " ++ arg ++ " in column identifier list is ambiguous"⟩
    else Except.ok it
  | model.ColumnId.index arg =>
    if arg ≥ column_names.length then
      Except.error ⟨"Column index is out of bounds"⟩
    else Except.ok arg

/-- The lambda `normalize_fd_input` of `FDVerifier::RegisterOptions`: every element of
a side is replaced by its index, then the side goes through `NormalizeIndices`; the
left side first. -/
def normalize_fd_input (column_names : List String) (fd_input : model.FdInput) :
    Except config.ConfigurationError model.FdInput :=
  match fd_input.lhs.mapM (normalize_index column_names) with
  | Except.error e => Except.error e
  | Except.ok lhs =>
    match fd_input.rhs.mapM (normalize_index column_names) with
    | Except.error e => Except.error e
    | Except.ok rhs =>
      Except.ok ⟨(util.NormalizeIndices lhs).map model.ColumnId.index,
        (util.NormalizeIndices rhs).map model.ColumnId.index⟩

/-- The helper `ConvertToIndexVector`: `std::get<model::Index>` of every element (a
name, which cannot occur after normalization, is dropped). -/
def ConvertToIndexVector (variant_vector : List model.ColumnId) : List Nat :=
  variant_vector.filterMap fun v =>
    match v with
    | model.ColumnId.index i => some i
    | model.ColumnId.name _ => none

/-- Method `FDVerifier::CalculatePLI(indices)`; `none` stands for the read of
`indices[0]` in an empty vector. -/
def CalculatePLI (relation : model.ColumnLayoutRelationData) : List Nat → Option model.PLI
  | [] => none
  | first :: rest =>
    some (rest.foldl (fun pli i => pli.Intersect (relation.GetPositionListIndex i))
      (relation.GetPositionListIndex first))

/-- Method `FDVerifier::VerifyFD(lhs_indices, rhs_indices)`: the outcome of its test
`lhs_pli->GetNumCluster() == intersection_pli->GetNumCluster()`, on which the method
returns without computing any error statistics: the FD is reported to hold. -/
def VerifyFD (relation : model.ColumnLayoutRelationData) (lhs_indices rhs_indices : List Nat) :
    Option Bool :=
  match CalculatePLI relation lhs_indices, CalculatePLI relation rhs_indices with
  | some lhs_pli, some rhs_pli =>
    some (lhs_pli.GetNumCluster == (lhs_pli.Intersect rhs_pli).GetNumCluster)
  | _, _ => none

/-- Modelled from the spec: the missing option framework, which on setting the option
`fd` runs its normalization function and then its value check ("after normalization
... `rhs non-empty`, `lhs non-empty`"), followed by `ExecuteInternal`: the error
raised by the option, or the decision of `VerifyFD`. -/
def verify (column_names : List String) (relation : model.ColumnLayoutRelationData)
    (fd_input : model.FdInput) : Except config.ConfigurationError (Option Bool) :=
  match normalize_fd_input column_names fd_input with
  | Except.error e => Except.error e
  | Except.ok fd =>
    match not_empty fd with
    | Except.error e => Except.error e
    | Except.ok _ =>
      Except.ok (VerifyFD relation (ConvertToIndexVector fd.lhs) (ConvertToIndexVector fd.rhs))

end algos.fd_verifier

/-! ## What a cover tree records, and its invariants -/

namespace FDTreeElement

/-- The node reached from `t` by following the child positions `p` (0-based, as in
`children_`). -/
def lookup : FDTreeElement → List Nat → Option FDTreeElement
  | t, [] => some t
  | t, i :: p =>
    match t.GetChild i with
    | some c => lookup c p
    | none => none

/-- The tree records the FD whose LHS is the set of columns `p` (the path of child
positions from the root) and whose RHS is column `a` (both 0-based): the node at the
end of `p` has bit `a` of `is_fd_` set. -/
def Rec (t : FDTreeElement) (p : List Nat) (a : Nat) : Prop :=
  ∃ v, lookup t p = some v ∧ Nat.testBit v.is_fd_ a = true

/-- Shape of a tree for `n` attributes below a node with attribute number `k`: every
node has `n` child slots and `max_attribute_number_ = n`, and the children present
sit at positions `≥ k`, so that paths are strictly ascending. -/
inductive WF (n : Nat) : Nat → FDTreeElement → Prop
  | mk (k : Nat) (t : FDTreeElement) :
      t.children_.length = n → t.max_attribute_number_ = n →
      (∀ i c, t.GetChild i = some c → k ≤ i) →
      (∀ i c, t.GetChild i = some c → WF n (i + 1) c) → WF n k t

/-- At every node, `rhs_attributes_` has the bit of every RHS recorded in the subtree
of the node (so that pruning by `rhs_attributes_` hides nothing). -/
inductive Over : FDTreeElement → Prop
  | mk (t : FDTreeElement) :
      (∀ q a, Rec t q a → Nat.testBit t.rhs_attributes_ (a + 1) = true) →
      (∀ i c, t.GetChild i = some c → Over c) → Over t

/-- At every node, a set bit of `rhs_attributes_` is witnessed by an FD recorded in the
subtree of the node. -/
inductive Under : FDTreeElement → Prop
  | mk (t : FDTreeElement) :
      (∀ a, Nat.testBit t.rhs_attributes_ (a + 1) = true → ∃ q, Rec t q a) →
      (∀ i c, t.GetChild i = some c → Under c) → Under t

end FDTreeElement

/-- The path `p` (0-based columns, ascending) runs through set bits of the 1-based
bitset `lhs` above the cursor `cur`. -/
def PathIn (lhs : Nat) : Nat → List Nat → Prop
  | _, [] => True
  | cur, i :: p => cur ≤ i ∧ i + 1 < kMaxAttrNum ∧ Nat.testBit lhs (i + 1) = true ∧ PathIn lhs (i + 1) p

/-- Every column of the path `p` (0-based) has its bit set in the 1-based bitset
`lhs`. -/
def Within (p : List Nat) (lhs : Nat) : Prop := ∀ i ∈ p, Nat.testBit lhs (i + 1) = true

namespace FDTreeElement

/-- No node that records an FD for RHS `a` has a proper descendant that records one
for `a` too. -/
def NoNested (t : FDTreeElement) (a : Nat) : Prop :=
  ∀ p q, Rec t p a → Rec t (p ++ q) a → q = []

/-- The contract of `GetGeneralizationAndDelete` on the subtree `t` with cursor `cur`,
for the result `r`: without a recorded path through `lhs` nothing changes; otherwise
one such path `p` is removed and written to `spec_lhs`, every other recorded FD
stays, and the invariants survive. -/
@[reducible] def GetGeneralizationAndDelete.Post (n k lhs a cur : Nat) (t : FDTreeElement) (spec : Nat)
    (r : Bool × FDTreeElement × Nat) : Prop :=
  (r.1 = false → (¬ ∃ p, PathIn lhs cur p ∧ Rec t p (a - 1)) ∧ r.2.1 = t ∧ r.2.2 = spec) ∧
  (r.1 = true → ∃ p, PathIn lhs cur p ∧ Rec t p (a - 1) ∧
    (∀ j, Nat.testBit r.2.2 j = true ↔ (Nat.testBit spec j = true ∨ ∃ i ∈ p, j = i + 1)) ∧
    (∀ q b, Rec r.2.1 q b ↔ (Rec t q b ∧ ¬ (q = p ∧ b = a - 1))) ∧
    WF n k r.2.1 ∧ Over r.2.1)

end FDTreeElement

/-- The path of child positions (0-based) that `AddFunctionalDependency` follows for the
1-based bitset `lhs`. -/
def pathOf (lhs : Nat) : List Nat := (Bitset.indices lhs).map (fun i => i - 1)

/-- The 1-based bitset `lhs` has no bit outside the attribute numbers `1 .. n`. -/
def LhsOk (n : Nat) (lhs : Nat) : Prop :=
  ∀ i, i < kMaxAttrNum → Nat.testBit lhs i = true → 1 ≤ i ∧ i ≤ n

namespace FDTreeElement

/-- The LHSs recorded for one RHS are pairwise incomparable under inclusion. -/
def Antichain (t : FDTreeElement) : Prop :=
  ∀ p q a, Rec t p a → Rec t q a → p ⊆ q → p = q

/-- No recorded FD has its RHS among its LHS columns. -/
def NonTrivial (t : FDTreeElement) : Prop :=
  ∀ p a, Rec t p a → a ∉ p

end FDTreeElement

namespace algos.FDep

/-- The state of the positive cover tree inside one round of the `while` of
`SpecializePositiveCover(lhs, a)`, after the generalization `p0` has been taken out
(leaving `t1`) and the attributes `done` have been tried: the tree keeps its
invariants, has gained only FDs `p0 ∪ {attr} → a` with `attr` outside `lhs`, has lost
none, and covers `p0 ∪ {attr}` for every attribute tried. -/
structure SpecializePositiveCover.BodyInv (n lhs a : Nat) (p0 : List Nat) (t1 : FDTreeElement)
    (done : List Nat) (tree : FDTreeElement) : Prop where
  wf : FDTreeElement.WF n 0 tree
  over : FDTreeElement.Over tree
  antichain : FDTreeElement.Antichain tree
  nontrivial : FDTreeElement.NonTrivial tree
  keeps : ∀ q b, FDTreeElement.Rec t1 q b → FDTreeElement.Rec tree q b
  gains : ∀ q b, FDTreeElement.Rec tree q b → FDTreeElement.Rec t1 q b ∨
    (b = a - 1 ∧ ∃ attr, 1 ≤ attr ∧ Nat.testBit lhs attr = false ∧ attr ≠ a ∧
      ∀ j, j ∈ q ↔ (j ∈ p0 ∨ j = attr - 1))
  covers : ∀ attr ∈ done, Nat.testBit lhs attr = false → attr ≠ a →
    ∃ q, FDTreeElement.Rec tree q (a - 1) ∧ ∀ j ∈ q, j ∈ p0 ∨ j = attr - 1

end algos.FDep

namespace algos.FDep

/-- The state of the positive cover tree between two rounds of the `while` of
`SpecializePositiveCover(lhs, a)`, the tree at the start of the call being `T0`: the
tree keeps its invariants, the FDs for other RHSs are untouched, every FD for `a`
specializes one of `T0`, and every column set `Z` not within `lhs` that was covered
for `a` by `T0` is still covered. -/
structure SpecializePositiveCover.LoopInv (n lhs a : Nat) (T0 tree : FDTreeElement) : Prop where
  wf : FDTreeElement.WF n 0 tree
  over : FDTreeElement.Over tree
  antichain : FDTreeElement.Antichain tree
  nontrivial : FDTreeElement.NonTrivial tree
  frame : ∀ q b, b ≠ a - 1 → (FDTreeElement.Rec tree q b ↔ FDTreeElement.Rec T0 q b)
  refines : ∀ q, FDTreeElement.Rec tree q (a - 1) →
    ∃ q0, FDTreeElement.Rec T0 q0 (a - 1) ∧ q0 ⊆ q
  covers : ∀ Z : List Nat, (∃ q0, FDTreeElement.Rec T0 q0 (a - 1) ∧ q0 ⊆ Z) →
    (∀ z ∈ Z, z < n) → a - 1 ∉ Z → ¬ Within Z lhs →
    ∃ q, FDTreeElement.Rec tree q (a - 1) ∧ q ⊆ Z

end algos.FDep

/-- The 1-based bitset `active_path` has exactly the bits of the columns of the path
`P` (0-based). -/
def PathBits (P : List Nat) (active_path : Nat) : Prop :=
  ∀ j, Nat.testBit active_path j = true ↔ ∃ i ∈ P, j = i + 1

namespace algos.FDep

/-- The state of the positive cover tree while `CalculatePositiveCover` runs, `D X a`
being the negative witnesses `X ↛ a` handled so far (0-based): the tree keeps its
invariants, records no LHS for `a` inside a handled `X`, and covers every column set
`Z` (with `a ∉ Z`) that lies inside no handled `X`. -/
structure CalculatePositiveCover.Inv (n : Nat) (D : List Nat → Nat → Prop)
    (pos : FDTreeElement) : Prop where
  wf : FDTreeElement.WF n 0 pos
  over : FDTreeElement.Over pos
  antichain : FDTreeElement.Antichain pos
  nontrivial : FDTreeElement.NonTrivial pos
  sound : ∀ X a, D X a → ¬ ∃ p, FDTreeElement.Rec pos p a ∧ p ⊆ X
  complete : ∀ Z a, a < n → (∀ z ∈ Z, z < n) → a ∉ Z → (∀ X, D X a → ¬ Z ⊆ X) →
    ∃ q, FDTreeElement.Rec pos q a ∧ q ⊆ Z

end algos.FDep

namespace FDTreeElement

/-- The state of `filtered_tree` while `FilterSpecializationsHelper` runs, `Src` being
the FDs recorded in the tree that is filtered: the tree is well formed, its
`rhs_attributes_` are witnessed, and every FD it records lies within an FD of `Src`
for the same RHS. -/
structure FilterSpecializations.Inv (n : Nat) (Src : List Nat → Nat → Prop)
    (f : FDTreeElement) : Prop where
  wf : WF n 0 f
  under : Under f
  src : ∀ X b, Rec f X b → ∃ X0, Src X0 b ∧ X ⊆ X0

end FDTreeElement

/-- The `lhs` bitset that `TransformTreeFdCollection` holds at the node with path `P`:
width `n`, the bits of the columns of `P` set. -/
def lhsOf (n : Nat) (P : List Nat) : DynamicBitset :=
  P.foldl (fun d i => d.set i) (DynamicBitset.zeros n)

namespace FDTreeElement

/-- The stripped FDs that `TransformTreeFdCollection` hands to the builder for the
subtree `t`, in order, when it arrives with the bitset `lhs`. -/
def emitList (max_lhs : Nat) : Nat → FDTreeElement → DynamicBitset → List algos.StrippedFd
  | 0, _, _ => []
  | fuel + 1, t, lhs =>
    if lhs.count > max_lhs then []
    else
      (if Bitset.any t.is_fd_ then [⟨lhs, BitsetToDynamicBitset t.is_fd_ lhs.size⟩] else []) ++
        (List.range lhs.size).flatMap fun attr =>
          match t.GetChild attr with
          | some child => emitList max_lhs fuel child (lhs.set attr)
          | none => []

end FDTreeElement

namespace algos.FDep

/-- The object after `LoadDataInternal`: every row of `tuples_` holds one hash per
column of the table header. -/
def Loaded (self : FDep) : Prop :=
  ∀ t ∈ self.tuples_, t.length = self.table_header_.column_names.length

instance (self : FDep) : Decidable self.Loaded := by
  unfold Loaded
  infer_instance

end algos.FDep

namespace algos.FDep

/-- A loaded miner: the table with columns `K`, `V` and the rows `(10,1)`, `(10,2)`,
`(11,3)` (cells given by their hashes), `max_lhs` at its default. -/
def sample : FDep :=
  { fd_storage_ := none
    max_lhs_ := kMaxLhsUnlimited
    table_header_ := ⟨"sample", ["K", "V"]⟩
    neg_cover_tree_ := none
    pos_cover_tree_ := none
    tuples_ := [[10, 1], [10, 2], [11, 3]] }

end algos.FDep

namespace model.PLI

/-- The number of rows held by the clusters of a PLI. -/
def numRows (p : PLI) : Nat := (p.clusters.map List.length).sum

end model.PLI

namespace algos.fd_verifier

/-- The relation with columns `K = (10, 10, 10)` and `V = (1, 1, 2)`: the FD `K → V`
does not hold on it (rows 0 and 2). -/
def lostRowRelation : model.ColumnLayoutRelationData :=
  ⟨[[some 10, some 10, some 10], [some 1, some 1, some 2]], true⟩

/-- The relation with columns `K = (10, 11, 12)` and `V = (1, 1, 1)`, whose column `V`
is constant. -/
def constantColumnRelation : model.ColumnLayoutRelationData :=
  ⟨[[some 10, some 11, some 12], [some 1, some 1, some 1]], true⟩

end algos.fd_verifier

namespace algos.FDep

/-- A loaded miner for the table of `constantColumnRelation`. -/
def constantColumn : FDep :=
  { fd_storage_ := none
    max_lhs_ := kMaxLhsUnlimited
    table_header_ := ⟨"constant", ["K", "V"]⟩
    neg_cover_tree_ := none
    pos_cover_tree_ := none
    tuples_ := [[10, 1], [11, 1], [12, 1]] }

end algos.FDep

/-! ## Trees that the operations of the class produce -/

namespace FDTreeElement

/-- A tree built from `FDTreeElement(n)` by calls of `AddFunctionalDependency` only, with
`lhs` within `{1..n}` and `1 ≤ attr_num ≤ n`. -/
inductive BuiltByAdd (n : Nat) : FDTreeElement → Prop
  | fresh : BuiltByAdd n (new n)
  | add (t : FDTreeElement) (lhs a : Nat) : BuiltByAdd n t → LhsOk n lhs → 1 ≤ a → a ≤ n →
      BuiltByAdd n (t.AddFunctionalDependency lhs a)

/-- A tree built from `FDTreeElement(n)` by calls of `AddFunctionalDependency` (with
`lhs` within `{1..n}` and `1 ≤ attr_num ≤ n`) and of `AddMostGeneralDependencies`. -/
inductive BuiltByAddAndMostGeneral (n : Nat) : FDTreeElement → Prop
  | fresh : BuiltByAddAndMostGeneral n (new n)
  | add (t : FDTreeElement) (lhs a : Nat) : BuiltByAddAndMostGeneral n t → LhsOk n lhs →
      1 ≤ a → a ≤ n → BuiltByAddAndMostGeneral n (t.AddFunctionalDependency lhs a)
  | mostGeneral (t : FDTreeElement) : BuiltByAddAndMostGeneral n t →
      BuiltByAddAndMostGeneral n t.AddMostGeneralDependencies

/-- A tree reachable from `FDTreeElement(n)` by the public operations
`AddFunctionalDependency`, `AddMostGeneralDependencies`, `FilterSpecializations` and
`GetGeneralizationAndDelete`, with `lhs` within `{1..n}` and `1 ≤ attr_num ≤ n`.
`guard t attr_num` restricts the trees on which `GetGeneralizationAndDelete` is called
for `attr_num`. -/
inductive Reachable (n : Nat) (guard : FDTreeElement → Nat → Prop) : FDTreeElement → Prop
  | fresh : Reachable n guard (new n)
  | add (t : FDTreeElement) (lhs a : Nat) : Reachable n guard t → LhsOk n lhs → 1 ≤ a → a ≤ n →
      Reachable n guard (t.AddFunctionalDependency lhs a)
  | mostGeneral (t : FDTreeElement) : Reachable n guard t →
      Reachable n guard t.AddMostGeneralDependencies
  | filter (t : FDTreeElement) : Reachable n guard t → Reachable n guard t.FilterSpecializations
  | getGeneralization (t : FDTreeElement) (lhs a current_attr spec_lhs : Nat) :
      Reachable n guard t → LhsOk n lhs → 1 ≤ a → a ≤ n → current_attr < kMaxAttrNum →
      guard t a →
      Reachable n guard
        (GetGeneralizationAndDelete kMaxAttrNum t lhs a current_attr spec_lhs).2.1

/-- The invariant of the cover tree: whenever a node `v` (at path `p`) records an FD for
the attribute `a` (bit `a - 1` of `is_fd_`), every node `u` on the path from the root to
`v`, `v` included, has bit `a` of `rhs_attributes_` set. -/
def RhsOnPath (t : FDTreeElement) : Prop :=
  ∀ (p : List Nat) (v : FDTreeElement) (a : Nat), lookup t p = some v → 1 ≤ a →
    Nat.testBit v.is_fd_ (a - 1) = true →
    ∀ (q : List Nat) (u : FDTreeElement), q <+: p → lookup t q = some u →
      Nat.testBit u.rhs_attributes_ a = true

/-- The flags `rhs_attributes_` are exact: at every node, bit `a` is set exactly when the
node or one of its descendants records an FD for the attribute `a`. -/
def ExactRhs (t : FDTreeElement) : Prop :=
  ∀ (q : List Nat) (u : FDTreeElement), lookup t q = some u → ∀ a, 1 ≤ a →
    (Nat.testBit u.rhs_attributes_ a = true ↔ ∃ s, Rec u s (a - 1))

/-- The tree for 2 attributes after `AddFunctionalDependency({}, 1)`,
`AddFunctionalDependency({2}, 1)` and `GetGeneralizationAndDelete({2}, 1, 0, {})`. -/
def nestedThenDeleted : FDTreeElement :=
  (GetGeneralizationAndDelete kMaxAttrNum
    (((new 2).AddFunctionalDependency 0 1).AddFunctionalDependency 4 1) 4 1 0 0).2.1

/-- The tree for 2 attributes after `AddFunctionalDependency({1}, 2)`. -/
def singleFd : FDTreeElement := (new 2).AddFunctionalDependency 2 2

/-- The tree for 3 attributes after `AddFunctionalDependency({1}, 3)` and
`AddFunctionalDependency({1, 2}, 3)`. -/
def nestedPair : FDTreeElement :=
  ((new 3).AddFunctionalDependency 2 3).AddFunctionalDependency 6 3

end FDTreeElement

namespace FDTreeElement

/-- The state of `filtered_tree` while `FilterSpecializationsHelper` runs, `D` being the
FDs of the filtered tree's source that have been handled so far: the tree keeps its
shape and exact `rhs_attributes_`, its LHSs for one RHS are pairwise incomparable, it
records only handled FDs, and every handled FD lies within a recorded one. -/
structure FilterSpecializations.Exact (n : Nat) (D : List Nat → Nat → Prop)
    (f : FDTreeElement) : Prop where
  wf : WF n 0 f
  over : Over f
  under : Under f
  antichain : Antichain f
  sub : ∀ X b, Rec f X b → D X b
  covers : ∀ Z b, D Z b → ∃ X, Rec f X b ∧ Z ⊆ X

end FDTreeElement

namespace FDTreeElement

/-- Whether a tree records an FD is decided by looking the node up. -/
instance (t : FDTreeElement) (p : List Nat) (a : Nat) : Decidable (Rec t p a) :=
  match h : lookup t p with
  | none => isFalse (by
      rintro ⟨v, hv, _⟩
      rw [h] at hv
      cases hv)
  | some v =>
    if hb : Nat.testBit v.is_fd_ a = true then isTrue ⟨v, h, hb⟩
    else isFalse (by
      rintro ⟨w, hw, hbw⟩
      rw [h] at hw
      cases hw
      exact hb hbw)

end FDTreeElement

/-! ## Materialized FDs -/

namespace model

/-- The struct `model::Attribute`. -/
structure Attribute where
  name : String
  id : Nat
deriving DecidableEq, Repr

/-- Modelled from the spec: the class `model::FunctionalDependency` of
`core/algorithms/fd/fd.h`, which is not part of the sources at hand: "`(table_name, lhs:
sequence of Attribute, rhs: sequence of Attribute)`". -/
structure FunctionalDependency where
  table_name : String
  lhs : List Attribute
  rhs : List Attribute
deriving DecidableEq, Repr

end model

namespace util

/-- Modelled from the spec: the function `util::ForEachIndex(bitset, f)` of
`core/util/bitset_utils.h`, which is not part of the sources at hand: it "must visit
indices in ascending order and nowhere else".  The calls of `f` act on a state. -/
def ForEachIndex {σ : Type} (bitset : DynamicBitset) (f : σ → Nat → σ) (init : σ) : σ :=
  ((List.range bitset.size).filter (fun i => bitset.test i)).foldl f init

end util

namespace algos

/-- Method `FdStorage::StrippedFd::ToFd(table_header)`; `emplace_back` appends to the
vector of attributes.  (Element access `column_names[i]` outside the vector is
undefined in the source; the model answers the empty string.) -/
def StrippedFd.ToFd (self : StrippedFd) (table_header : model.TableHeader) :
    model.FunctionalDependency :=
  let lhs_attrs : List model.Attribute := util.ForEachIndex self.lhs
    (fun attrs i => attrs ++ [⟨table_header.column_names.getD i "", i⟩]) []
  let rhs_attrs : List model.Attribute := util.ForEachIndex self.rhs
    (fun attrs i => attrs ++ [⟨table_header.column_names.getD i "", i⟩]) []
  ⟨table_header.table_name, lhs_attrs, rhs_attrs⟩

/-- The FDs that a list of stripped FDs encodes, in single-RHS form: for every stripped
FD and every set bit `a` of its `rhs`, the pair of the set bits of `lhs` (ascending) and
`a`. -/
def singleRhs (fds : List StrippedFd) : List (List Nat × Nat) :=
  fds.flatMap fun fd =>
    ((List.range fd.rhs.size).filter (fun a => fd.rhs.test a)).map fun a =>
      ((List.range fd.lhs.size).filter (fun x => fd.lhs.test x), a)

namespace FDep

/-- A loaded miner for scenario S1: the table with columns `K`, `V` and the rows
`(a,1)`, `(b,2)`, `(c,3)` (cells given by their hashes, distinct strings having
distinct hashes), `max_lhs` at its default. -/
def scenarioS1 : FDep :=
  { fd_storage_ := none
    max_lhs_ := kMaxLhsUnlimited
    table_header_ := ⟨"S1", ["K", "V"]⟩
    neg_cover_tree_ := none
    pos_cover_tree_ := none
    tuples_ := [[10, 1], [11, 2], [12, 3]] }

/-- A row of 31 equal cells. -/
def row31a : List Nat := List.replicate 31 0

/-- A row of 31 cells that differs from `row31a` in column 0 only. -/
def row31b : List Nat := 1 :: List.replicate 30 0

/-- A loaded miner for a table with 31 columns and the two rows `row31a`, `row31b`. -/
def wide31 : FDep :=
  { fd_storage_ := none
    max_lhs_ := kMaxLhsUnlimited
    table_header_ := ⟨"wide", List.replicate 31 "C"⟩
    neg_cover_tree_ := none
    pos_cover_tree_ := none
    tuples_ := [row31a, row31b] }

/-- A row of 256 equal cells. -/
def row256a : List Nat := List.replicate 256 0

/-- A row of 256 cells that differs from `row256a` in the last column only. -/
def row256b : List Nat := List.replicate 255 0 ++ [1]

end FDep

end algos

namespace FDTreeElement

/-- The nodes of the subtree `t`, each with its path (the path `P` of `t`, then the
child positions below `t`), in depth-first pre-order, the children of a node in
ascending order of their position.  Fuel: the height of `t`. -/
def preorder : Nat → FDTreeElement → List Nat → List (List Nat × FDTreeElement)
  | 0, _, _ => []
  | fuel + 1, t, P =>
    (P, t) :: (List.range t.children_.length).flatMap fun i =>
      match t.GetChild i with
      | some child => preorder fuel child (P ++ [i])
      | none => []

/-- The emission as the specification words it: one stripped FD for each node, in
depth-first pre-order, whose `is_fd_` is non-empty and whose path has at most `max_lhs`
columns; its `lhs` is the width-`n` bitset of the path and its `rhs` the `is_fd_` of the
node restricted to the positions `0 .. n - 1`. -/
def emissionSpec (n max_lhs : Nat) (t : FDTreeElement) : List algos.StrippedFd :=
  ((preorder t.height t []).filter fun e =>
      Bitset.any e.2.is_fd_ && decide (e.1.length ≤ max_lhs)).map
    fun e => ⟨lhsOf n e.1, BitsetToDynamicBitset e.2.is_fd_ n⟩

end FDTreeElement

/-! ## Loading the table -/

namespace model

/-- Modelled from the spec: the input table behind `input_table_`, whose interface is
not part of the sources at hand: "`GetNumberOfColumns(), GetColumnName(i),
GetRelationName(), HasNextRow(), GetNextRow() → sequence of strings`".  The table is
given by its relation name, its column names and the rows that are yet to be read. -/
structure IDatasetStream where
  relation_name : String
  column_names : List String
  rows : List (List String)
deriving DecidableEq, Repr

namespace IDatasetStream

/-- Modelled from the spec: method `GetNumberOfColumns()`. -/
def GetNumberOfColumns (self : IDatasetStream) : Nat := self.column_names.length

/-- Modelled from the spec: method `GetColumnName(i)`. -/
def GetColumnName (self : IDatasetStream) (i : Nat) : String := self.column_names.getD i ""

/-- Modelled from the spec: method `GetRelationName()`. -/
def GetRelationName (self : IDatasetStream) : String := self.relation_name

/-- Modelled from the spec: method `HasNextRow()`: whether a row is left to be read. -/
def HasNextRow (self : IDatasetStream) : Bool := !self.rows.isEmpty

end IDatasetStream

end model

namespace algos.FDep

/-- The `while` loop of `LoadDataInternal` over the rows that the table still holds:
`GetNextRow()` hands out the first of them, an empty row ends the loop, and every other
row is appended to `tuples_` as the vector of the hashes of its first `attr_num` cells.
`hash` is `std::hash<std::string>`.  (Element access `next_line[i]` outside the row is
undefined in the source; the model reads the empty string.) -/
def LoadDataInternal.read (hash : String → Nat) (attr_num : Nat) :
    List (List String) → List (List Nat) → List (List Nat)
  | [], tuples => tuples
  | next_line :: rest, tuples =>
    if next_line.isEmpty then tuples
    else
      LoadDataInternal.read hash attr_num rest
        (tuples ++ [(List.range attr_num).map fun i => hash (next_line.getD i "")])

/-- Method `LoadDataInternal()`, reading from `input_table`.  `Except.error` is the
`std::runtime_error` of the source; it is thrown before any data member is assigned,
so that the object is then still `self`. -/
def LoadDataInternal (hash : String → Nat) (self : FDep) (input_table : model.IDatasetStream) :
    Except String FDep :=
  let attr_num := input_table.GetNumberOfColumns
  if attr_num = 0 then Except.error "Unable to work on an empty dataset."
  else
    let column_names := (List.range attr_num).map fun i => input_table.GetColumnName i
    Except.ok
      { self with
        table_header_ := ⟨input_table.GetRelationName, column_names⟩
        tuples_ :=
          if input_table.HasNextRow then
            LoadDataInternal.read hash attr_num input_table.rows self.tuples_
          else self.tuples_ }

/-- A hash of strings to run `LoadDataInternal` with, in place of
`std::hash<std::string>`: the characters of the string read as the digits of a number. -/
def sampleHash (s : String) : Nat := s.data.foldl (fun h ch => h * 1114112 + ch.toNat) 0

/-- A miner object before any table is loaded. -/
def unloaded : FDep :=
  { fd_storage_ := none
    max_lhs_ := kMaxLhsUnlimited
    table_header_ := ⟨"", []⟩
    neg_cover_tree_ := none
    pos_cover_tree_ := none
    tuples_ := [] }

end algos.FDep

namespace algos.FDep

end algos.FDep

namespace FDTreeElement

/-- The tree for 3 attributes after `AddFunctionalDependency({1, 2}, 3)`. -/
def twoColumnFd : FDTreeElement := (new 3).AddFunctionalDependency 6 3

end FDTreeElement

/-! ## String forms of FDs -/

namespace std

/-- The part of `std::stringstream` that the string forms use: the character sequence,
the put position, and whether an operation has failed (after which nothing is
written). -/
structure stringstream where
  buf : List Char
  pos : Nat
  fail : Bool
deriving DecidableEq, Repr

namespace stringstream

/-- A default-constructed `std::stringstream`. -/
def empty : stringstream := ⟨[], 0, false⟩

/-- The insertion `ss << s`: the characters of `s` are written from the put position on,
over the characters that are there and beyond the end, and the put position moves behind
them. -/
def put (ss : stringstream) (s : String) : stringstream :=
  if ss.fail then ss
  else ⟨ss.buf.take ss.pos ++ s.data ++ ss.buf.drop (ss.pos + s.length), ss.pos + s.length,
    false⟩

/-- The call `ss.seekp(-1, std::stringstream::cur)`: the put position moves one
character back; at position 0 the call fails. -/
def seekpBack (ss : stringstream) : stringstream :=
  if ss.fail then ss
  else if ss.pos = 0 then ⟨ss.buf, ss.pos, true⟩
  else ⟨ss.buf, ss.pos - 1, false⟩

/-- Method `str()`. -/
def str (ss : stringstream) : String := ⟨ss.buf⟩

end stringstream

end std

namespace python_bindings

/-- The function `AttributeStr(attr)`: the name of the attribute (passed through a Python
`str`, which leaves it as it is). -/
def AttributeStr (attr : model.Attribute) : String := attr.name

/-- The function `FdToStringShort(fd)`. -/
def FdToStringShort (fd : model.FunctionalDependency) : String :=
  let ss := std.stringstream.empty
  let ss := ss.put "["
  let ss := fd.lhs.foldl (fun ss attr => (ss.put (AttributeStr attr)).put " ") ss
  let ss := ss.seekpBack
  let ss := ss.put "]"
  let ss := ss.put " -> "
  let ss := ss.put "["
  let ss := fd.rhs.foldl (fun ss attr => (ss.put (AttributeStr attr)).put " ") ss
  let ss := ss.seekpBack
  let ss := ss.put "]"
  ss.str

/-- The short string form as the specification words it: `[`, the names of the `lhs`
attributes joined by single spaces, `] -> [`, the names of the `rhs` attributes joined by
single spaces, `]`. -/
def FdToStringShortSpec (fd : model.FunctionalDependency) : String :=
  ⟨"[".data ++ List.intercalate " ".data (fd.lhs.map fun attr => attr.name.data) ++
    "] -> [".data ++ List.intercalate " ".data (fd.rhs.map fun attr => attr.name.data) ++
    "]".data⟩

end python_bindings

/-! ## The serialization behind the test hash -/

namespace tests

/-- The `for` loop of `ToIndicesString` over the set positions of `lhs` in ascending
order (`find_first`, `find_next`), `result` being the string so far: the position is
appended, and a comma when `find_next(index)` finds a further position. -/
def ToIndicesString.loop : List Nat → String → String
  | [], result => result
  | [index], result => result ++ toString index
  | index :: next :: rest, result =>
    ToIndicesString.loop (next :: rest) (result ++ toString index ++ ",")

/-- The string that `ToIndicesString` builds for the set positions `positions`. -/
def ToIndicesString.ofPositions (positions : List Nat) : String :=
  if positions.isEmpty then "[]"
  else ToIndicesString.loop positions "[" ++ "]"

/-- The function `ToIndicesString(lhs)`. -/
def ToIndicesString (lhs : DynamicBitset) : String :=
  ToIndicesString.ofPositions ((List.range lhs.size).filter fun i => lhs.test i)

namespace AlgorithmTestNew

/-- The string that `FDToJsonStrings` pushes for the FD with the LHS positions `e.1` and
the RHS position `e.2`. -/
def FDToJsonStrings.single (e : List Nat × Nat) : String :=
  "\x7b\"lhs\": " ++ ToIndicesString.ofPositions e.1 ++ ", \"rhs\": " ++ toString e.2 ++ "\x7d"

/-- The function `FDToJsonStrings(fd)`. -/
def FDToJsonStrings (fd : algos.StrippedFd) : List String :=
  let pre_rhs_portion := "\x7b\"lhs\": " ++ ToIndicesString fd.lhs ++ ", \"rhs\": "
  util.ForEachIndex fd.rhs
    (fun strings i => strings ++ [pre_rhs_portion ++ toString i ++ "\x7d"]) []

/-- The vector `discovered_fd_strings` of `FDsToJson` after `std::sort`, which orders
strings lexicographically by their characters (`a.data ≤ b.data` is the lexicographic
order of the character sequences). -/
def FDsToJson.sorted (fds : List algos.StrippedFd) : List String :=
  (fds.foldl
    (fun discovered_fd_strings fd =>
      (FDToJsonStrings fd).foldl (fun strings s => strings ++ [s]) discovered_fd_strings)
    []).insertionSort (fun a b => a.data ≤ b.data)

/-- The rest of `FDsToJson`, from the sorted strings on: every string is appended with a
comma behind it, a trailing comma is erased, and the brackets are closed. -/
def FDsToJson.join (sorted : List String) : String :=
  let result := sorted.foldl (fun result fd => result ++ (fd ++ ",")) "\x7b\"fds\": ["
  let result : String :=
    if result.data.getLast? = some ',' then ⟨result.data.dropLast⟩ else result
  result ++ "]\x7d"

/-- The function `FDsToJson(fds)`. -/
def FDsToJson (fds : List algos.StrippedFd) : String :=
  FDsToJson.join (FDsToJson.sorted fds)

/-- The function `Fletcher16(str)`.  (Both sums stay below 255, so that `unsigned int`
does not wrap; the characters of the serialization are ASCII, for which `char` is not
negative.) -/
def Fletcher16 (str : String) : Nat :=
  let sums := str.data.foldl
    (fun (s : Nat × Nat) ch =>
      let sum1 := (s.1 + ch.toNat) % 255
      let sum2 := (s.2 + sum1) % 255
      (sum1, sum2))
    (0, 0)
  (sums.2 <<< 8) ||| sums.1

end AlgorithmTestNew

end tests

namespace algos

/-- A stripped FD taken apart: for every set bit `a` of `rhs`, in ascending order, the
stripped FD with the same `lhs` and the `rhs` that has bit `a` only. -/
def StrippedFd.split (fd : StrippedFd) : List StrippedFd :=
  ((List.range fd.rhs.size).filter fun a => fd.rhs.test a).map fun a =>
    ⟨fd.lhs, (DynamicBitset.zeros fd.rhs.size).set a⟩

end algos

/-! ## The states of the positive cover tree -/

namespace algos.FDep

/-- A state of the positive cover tree during `ExecuteInternal`, for `n` columns: the
tree after `AddMostGeneralDependencies`, and the tree after each round of the `while`
of a call `SpecializePositiveCover(lhs, a)`, `1 ≤ a`, that is made in such a state (a
round is one successful `GetGeneralizationAndDelete` followed by the `for` loop). -/
inductive PosCoverState (n : Nat) : FDTreeElement → Prop
  | seeded : PosCoverState n (FDTreeElement.new n).AddMostGeneralDependencies
  | round (t : FDTreeElement) (lhs a : Nat) : PosCoverState n t → 1 ≤ a →
      (FDTreeElement.GetGeneralizationAndDelete kMaxAttrNum t lhs a 0 0).1 = true →
      PosCoverState n
        (SpecializePositiveCover.body n lhs a
          (FDTreeElement.GetGeneralizationAndDelete kMaxAttrNum t lhs a 0 0).2.1
          (FDTreeElement.GetGeneralizationAndDelete kMaxAttrNum t lhs a 0 0).2.2).1

end algos.FDep

namespace FDTreeElement

/-- The recorded generalizations of `lhs → a`: the paths of the FDs `Y → a` that `t`
records with every column of `Y` in `lhs`. -/
def generalizations (t : FDTreeElement) (lhs a : Nat) : List (List Nat) :=
  ((preorder t.height t []).filter fun e =>
    Nat.testBit e.2.is_fd_ (a - 1) && e.1.all fun i => Nat.testBit lhs (i + 1)).map Prod.fst

end FDTreeElement

namespace algos.FDep

/-- The FD `Z → a` (columns 0-based) holds on the rows `tuples`: two rows that agree on
every column of `Z` agree on column `a`. -/
def Holds (tuples : List (List Nat)) (Z : List Nat) (a : Nat) : Prop :=
  ∀ t1 ∈ tuples, ∀ t2 ∈ tuples, (∀ j ∈ Z, cell t1 j = cell t2 j) → cell t1 a = cell t2 a

/-- The table of `sample` with its rows in another order and the row `(10, 1)` twice. -/
def sampleShuffled : FDep :=
  { sample with tuples_ := [[11, 3], [10, 1], [10, 2], [10, 1]] }

end algos.FDep

/-! # Theorems -/

/-! ## Bit-level facts -/

namespace Bitset

theorem test_set (b i j : Nat) : test (set b i) j = (test b j || decide (i = j)) := by
  simp only [test, set, Nat.testBit_or, Nat.testBit_two_pow]

theorem test_reset (b i j : Nat) : test (reset b i) j = (test b j && !decide (i = j)) := by
  simp only [test, reset, Nat.testBit_xor, Nat.testBit_and, Nat.testBit_two_pow]
  by_cases h : i = j <;> simp [h]

theorem test_set_self (b i : Nat) : test (set b i) i = true := by
  simp [test_set]

theorem test_set_ne (b : Nat) {i j : Nat} (h : i ≠ j) : test (set b i) j = test b j := by
  simp [test_set, h]

theorem test_reset_self (b i : Nat) : test (reset b i) i = false := by
  simp [test_reset]

theorem test_reset_ne (b : Nat) {i j : Nat} (h : i ≠ j) : test (reset b i) j = test b j := by
  simp [test_reset, h]

theorem reset_set_of_not (b i : Nat) (h : test b i = false) : reset (set b i) i = b := by
  apply Nat.eq_of_testBit_eq
  intro j
  have := test_reset (set b i) i j
  simp only [test] at this h
  rw [this]
  have h2 := test_set b i j
  simp only [test] at h2
  rw [h2]
  by_cases hij : i = j
  · subst hij; simp [h]
  · simp [hij]

theorem test_zero (j : Nat) : test 0 j = false := by
  simp [test]

theorem findFrom_spec (b : Nat) : ∀ k p, p + k = kMaxAttrNum →
    (findFrom b k p = kMaxAttrNum ∧ ∀ j, p ≤ j → j < kMaxAttrNum → Nat.testBit b j = false) ∨
    (p ≤ findFrom b k p ∧ findFrom b k p < kMaxAttrNum ∧ Nat.testBit b (findFrom b k p) = true ∧
      ∀ j, p ≤ j → j < findFrom b k p → Nat.testBit b j = false) := by
  intro k
  induction k with
  | zero =>
    intro p hp
    left
    refine ⟨rfl, ?_⟩
    intro j h1 h2
    omega
  | succ k ih =>
    intro p hp
    unfold findFrom
    by_cases hb : Nat.testBit b p = true
    · right
      simp only [if_pos hb]
      refine ⟨le_refl _, by omega, hb, ?_⟩
      intro j h1 h2
      omega
    · simp only [if_neg hb]
      have hb' : Nat.testBit b p = false := by simpa using hb
      rcases ih (p + 1) (by omega) with ⟨h1, h2⟩ | ⟨h1, h2, h3, h4⟩
      · left
        refine ⟨h1, ?_⟩
        intro j hj1 hj2
        rcases Nat.eq_or_lt_of_le hj1 with rfl | hlt
        · exact hb'
        · exact h2 j hlt hj2
      · right
        refine ⟨by omega, h2, h3, ?_⟩
        intro j hj1 hj2
        rcases Nat.eq_or_lt_of_le hj1 with rfl | hlt
        · exact hb'
        · exact h4 j hlt hj2

/-- What `_Find_next` returns, for a cursor below the width. -/
theorem Find_next_spec (b c : Nat) (hc : c < kMaxAttrNum) :
    (Find_next b c = kMaxAttrNum ∧ ∀ j, c < j → j < kMaxAttrNum → Nat.testBit b j = false) ∨
    (c < Find_next b c ∧ Find_next b c < kMaxAttrNum ∧ Nat.testBit b (Find_next b c) = true ∧
      ∀ j, c < j → j < Find_next b c → Nat.testBit b j = false) := by
  unfold Find_next
  rcases findFrom_spec b (kMaxAttrNum - (c + 1)) (c + 1) (by omega) with h | h
  · left; exact h
  · right; exact h

theorem mem_indices (b i : Nat) : i ∈ indices b ↔ i < kMaxAttrNum ∧ Nat.testBit b i = true := by
  simp [indices]

theorem indices_pairwise (b : Nat) : (indices b).Pairwise (fun x y => x < y) :=
  List.Pairwise.sublist (List.filter_sublist _) (List.pairwise_lt_range _)

end Bitset

namespace FDTreeElement

theorem eta (t : FDTreeElement) :
    t = mk t.children_ t.rhs_attributes_ t.max_attribute_number_ t.is_fd_ := by
  cases t; rfl

theorem GetChild_lt {t : FDTreeElement} {i : Nat} {c : FDTreeElement}
    (h : t.GetChild i = some c) : i < t.children_.length := by
  by_contra hlt
  unfold GetChild at h
  rw [List.getD_eq_default _ _ (by omega)] at h
  cases h

theorem GetChild_setChild (t : FDTreeElement) (j i : Nat) (c : FDTreeElement) :
    (t.setChild j c).GetChild i =
      if i = j ∧ j < t.children_.length then some c else t.GetChild i := by
  unfold GetChild
  rw [show (t.setChild j c).children_ = t.children_.set j (some c) from rfl]
  simp only [List.getD_eq_getElem?_getD, List.getElem?_set]
  by_cases hij : j = i
  · subst hij
    by_cases hl : j < t.children_.length
    · simp [hl]
    · simp [hl, List.getElem?_eq_none (not_lt.1 hl)]
  · have : ¬ i = j := fun h => hij h.symm
    simp [hij, this]

theorem setChild_self {t : FDTreeElement} {j : Nat} {c : FDTreeElement}
    (h : t.GetChild j = some c) : t.setChild j c = t := by
  have hl := GetChild_lt h
  conv_rhs => rw [eta t]
  unfold setChild
  congr 1
  apply List.ext_getElem?
  intro i
  rw [List.getElem?_set]
  by_cases hij : j = i
  · subst hij
    simp only [if_true, hl]
    unfold GetChild at h
    rw [List.getD_eq_getElem?_getD] at h
    rw [List.getElem?_eq_getElem hl] at h ⊢
    simp only [Option.getD_some] at h
    rw [h]
  · simp [hij]

@[simp] theorem children_setChild (t : FDTreeElement) (j : Nat) (c : FDTreeElement) :
    (t.setChild j c).children_ = t.children_.set j (some c) := rfl
@[simp] theorem rhs_setChild (t : FDTreeElement) (j : Nat) (c : FDTreeElement) :
    (t.setChild j c).rhs_attributes_ = t.rhs_attributes_ := rfl
@[simp] theorem max_setChild (t : FDTreeElement) (j : Nat) (c : FDTreeElement) :
    (t.setChild j c).max_attribute_number_ = t.max_attribute_number_ := rfl
@[simp] theorem is_fd_setChild (t : FDTreeElement) (j : Nat) (c : FDTreeElement) :
    (t.setChild j c).is_fd_ = t.is_fd_ := rfl

@[simp] theorem children_AddRhs (t : FDTreeElement) (a : Nat) :
    (t.AddRhsAttribute a).children_ = t.children_ := rfl
@[simp] theorem rhs_AddRhs (t : FDTreeElement) (a : Nat) :
    (t.AddRhsAttribute a).rhs_attributes_ = Bitset.set t.rhs_attributes_ a := rfl
@[simp] theorem max_AddRhs (t : FDTreeElement) (a : Nat) :
    (t.AddRhsAttribute a).max_attribute_number_ = t.max_attribute_number_ := rfl
@[simp] theorem is_fd_AddRhs (t : FDTreeElement) (a : Nat) :
    (t.AddRhsAttribute a).is_fd_ = t.is_fd_ := rfl
@[simp] theorem GetChild_AddRhs (t : FDTreeElement) (a i : Nat) :
    (t.AddRhsAttribute a).GetChild i = t.GetChild i := rfl

@[simp] theorem children_resetRhs (t : FDTreeElement) (a : Nat) :
    (t.resetRhsAttribute a).children_ = t.children_ := rfl
@[simp] theorem rhs_resetRhs (t : FDTreeElement) (a : Nat) :
    (t.resetRhsAttribute a).rhs_attributes_ = Bitset.reset t.rhs_attributes_ a := rfl
@[simp] theorem max_resetRhs (t : FDTreeElement) (a : Nat) :
    (t.resetRhsAttribute a).max_attribute_number_ = t.max_attribute_number_ := rfl
@[simp] theorem is_fd_resetRhs (t : FDTreeElement) (a : Nat) :
    (t.resetRhsAttribute a).is_fd_ = t.is_fd_ := rfl
@[simp] theorem GetChild_resetRhs (t : FDTreeElement) (a i : Nat) :
    (t.resetRhsAttribute a).GetChild i = t.GetChild i := rfl

@[simp] theorem children_MarkAsLast (t : FDTreeElement) (a : Nat) :
    (t.MarkAsLast a).children_ = t.children_ := rfl
@[simp] theorem rhs_MarkAsLast (t : FDTreeElement) (a : Nat) :
    (t.MarkAsLast a).rhs_attributes_ = t.rhs_attributes_ := rfl
@[simp] theorem max_MarkAsLast (t : FDTreeElement) (a : Nat) :
    (t.MarkAsLast a).max_attribute_number_ = t.max_attribute_number_ := rfl
@[simp] theorem is_fd_MarkAsLast (t : FDTreeElement) (a : Nat) :
    (t.MarkAsLast a).is_fd_ = Bitset.set t.is_fd_ a := rfl
@[simp] theorem GetChild_MarkAsLast (t : FDTreeElement) (a i : Nat) :
    (t.MarkAsLast a).GetChild i = t.GetChild i := rfl

@[simp] theorem children_resetIsFd (t : FDTreeElement) (a : Nat) :
    (t.resetIsFd a).children_ = t.children_ := rfl
@[simp] theorem rhs_resetIsFd (t : FDTreeElement) (a : Nat) :
    (t.resetIsFd a).rhs_attributes_ = t.rhs_attributes_ := rfl
@[simp] theorem max_resetIsFd (t : FDTreeElement) (a : Nat) :
    (t.resetIsFd a).max_attribute_number_ = t.max_attribute_number_ := rfl
@[simp] theorem is_fd_resetIsFd (t : FDTreeElement) (a : Nat) :
    (t.resetIsFd a).is_fd_ = Bitset.reset t.is_fd_ a := rfl
@[simp] theorem GetChild_resetIsFd (t : FDTreeElement) (a i : Nat) :
    (t.resetIsFd a).GetChild i = t.GetChild i := rfl

@[simp] theorem children_new (n : Nat) : (new n).children_ = List.replicate n none := rfl
@[simp] theorem rhs_new (n : Nat) : (new n).rhs_attributes_ = 0 := rfl
@[simp] theorem is_fd_new (n : Nat) : (new n).is_fd_ = 0 := rfl

theorem GetChild_new (n i : Nat) : (new n).GetChild i = none := by
  unfold GetChild
  rw [children_new, List.getD_eq_getElem?_getD]
  by_cases h : i < n
  · rw [List.getElem?_eq_getElem (by simpa using h)]
    simp
  · rw [List.getElem?_eq_none (by simpa using h)]
    rfl

/-! ### lookup and Rec -/

@[simp] theorem lookup_nil (t : FDTreeElement) : lookup t [] = some t := by
  unfold lookup; rfl

theorem lookup_cons (t : FDTreeElement) (i : Nat) (p : List Nat) :
    lookup t (i :: p) = (t.GetChild i).bind (fun c => lookup c p) := by
  conv_lhs => unfold lookup
  cases t.GetChild i <;> rfl

theorem lookup_cons_some {t c : FDTreeElement} {i : Nat} (h : t.GetChild i = some c)
    (p : List Nat) : lookup t (i :: p) = lookup c p := by
  rw [lookup_cons, h]; rfl

theorem lookup_cons_none {t : FDTreeElement} {i : Nat} (h : t.GetChild i = none)
    (p : List Nat) : lookup t (i :: p) = none := by
  rw [lookup_cons, h]; rfl

theorem Rec_nil (t : FDTreeElement) (a : Nat) : Rec t [] a ↔ Nat.testBit t.is_fd_ a = true := by
  unfold Rec
  simp only [lookup_nil, Option.some.injEq, exists_eq_left']

theorem Rec_cons_some {t c : FDTreeElement} {i : Nat} (h : t.GetChild i = some c)
    (p : List Nat) (a : Nat) : Rec t (i :: p) a ↔ Rec c p a := by
  unfold Rec
  rw [lookup_cons_some h]

theorem Rec_cons_none {t : FDTreeElement} {i : Nat} (h : t.GetChild i = none)
    (p : List Nat) (a : Nat) : ¬ Rec t (i :: p) a := by
  unfold Rec
  rw [lookup_cons_none h]
  rintro ⟨v, hv, _⟩
  cases hv

theorem Rec_cons {t : FDTreeElement} {i : Nat} {p : List Nat} {a : Nat}
    (h : Rec t (i :: p) a) : ∃ c, t.GetChild i = some c ∧ Rec c p a := by
  cases hc : t.GetChild i with
  | none => exact absurd h (Rec_cons_none hc p a)
  | some c => exact ⟨c, rfl, (Rec_cons_some hc p a).1 h⟩

theorem Rec_new (n : Nat) (p : List Nat) (a : Nat) : ¬ Rec (new n) p a := by
  cases p with
  | nil => rw [Rec_nil]; simp
  | cons i p => exact Rec_cons_none (GetChild_new n i) p a

/-! ### height -/

theorem heightChildren_le (cs : List (Option FDTreeElement)) (i : Nat) (c : FDTreeElement)
    (h : cs.getD i none = some c) : height c ≤ heightChildren cs := by
  induction cs generalizing i with
  | nil => simp at h
  | cons x rest ih =>
    cases i with
    | zero =>
      simp only [List.getD_cons_zero] at h
      subst h
      simp only [heightChildren]
      exact le_max_left _ _
    | succ i =>
      simp only [List.getD_cons_succ] at h
      have := ih i h
      cases x with
      | none => simpa only [heightChildren] using this
      | some y =>
        simp only [heightChildren]
        exact le_trans this (le_max_right _ _)

theorem height_child {t c : FDTreeElement} {i : Nat} (h : t.GetChild i = some c) :
    height c < height t := by
  cases t with
  | mk cs r m f =>
    simp only [height]
    have := heightChildren_le cs i c h
    omega

theorem height_pos (t : FDTreeElement) : 0 < height t := by
  cases t with
  | mk cs r m f => simp only [height]; omega

end FDTreeElement

namespace FDTreeElement

/-! ### The invariants, one node at a time -/

theorem WF.len {n k : Nat} {t : FDTreeElement} (h : WF n k t) : t.children_.length = n := by
  cases h with
  | mk _ _ h1 _ _ _ => exact h1

theorem WF.max {n k : Nat} {t : FDTreeElement} (h : WF n k t) : t.max_attribute_number_ = n := by
  cases h with
  | mk _ _ _ h2 _ _ => exact h2

theorem WF.child {n k : Nat} {t c : FDTreeElement} {i : Nat} (h : WF n k t)
    (hc : t.GetChild i = some c) : k ≤ i ∧ i < n ∧ WF n (i + 1) c := by
  have hl := GetChild_lt hc
  cases h with
  | mk _ _ h1 _ h3 h4 => exact ⟨h3 i c hc, by omega, h4 i c hc⟩

theorem WF.mono {n k k' : Nat} {t : FDTreeElement} (h : WF n k t) (hk : k' ≤ k) : WF n k' t := by
  cases h with
  | mk _ _ h1 h2 h3 h4 =>
    exact WF.mk k' t h1 h2 (fun i c hc => le_trans hk (h3 i c hc)) h4

theorem WF_new (n k : Nat) : WF n k (new n) :=
  WF.mk k _ (by simp) rfl
    (fun i c hc => by rw [GetChild_new] at hc; cases hc)
    (fun i c hc => by rw [GetChild_new] at hc; cases hc)

theorem WF.lookup {n : Nat} : ∀ (p : List Nat) {k : Nat} {t v : FDTreeElement}, WF n k t →
    lookup t p = some v →
    p.Pairwise (fun x y => x < y) ∧ (∀ i ∈ p, k ≤ i ∧ i < n) ∧ ∃ k', WF n k' v
  | [], k, t, v, h, hl => by
    simp only [lookup_nil, Option.some.injEq] at hl
    subst hl
    exact ⟨List.Pairwise.nil, by simp, k, h⟩
  | i :: p, k, t, v, h, hl => by
    cases hc : t.GetChild i with
    | none => rw [lookup_cons_none hc] at hl; cases hl
    | some c =>
      rw [lookup_cons_some hc] at hl
      obtain ⟨h1, h2, h3⟩ := h.child hc
      obtain ⟨ih1, ih2, ih3⟩ := WF.lookup p h3 hl
      refine ⟨List.pairwise_cons.2 ⟨fun j hj => ?_, ih1⟩, ?_, ih3⟩
      · have := (ih2 j hj).1
        omega
      · intro j hj
        rcases List.mem_cons.1 hj with rfl | hj
        · exact ⟨h1, h2⟩
        · have := ih2 j hj
          omega

theorem Over.root {t : FDTreeElement} (h : Over t) {q : List Nat} {a : Nat} (hr : Rec t q a) :
    Nat.testBit t.rhs_attributes_ (a + 1) = true := by
  cases h with
  | mk _ h1 _ => exact h1 q a hr

theorem Over.child_over {t c : FDTreeElement} {i : Nat} (h : Over t) (hc : t.GetChild i = some c) :
    Over c := by
  cases h with
  | mk _ _ h2 => exact h2 i c hc

theorem Over_new (n : Nat) : Over (new n) :=
  Over.mk _ (fun q a hr => absurd hr (Rec_new n q a))
    (fun i c hc => by rw [GetChild_new] at hc; cases hc)

theorem Under.root_witness {t : FDTreeElement} (h : Under t) {a : Nat}
    (hr : Nat.testBit t.rhs_attributes_ (a + 1) = true) : ∃ q, Rec t q a := by
  cases h with
  | mk _ h1 _ => exact h1 a hr

theorem Under.child_under {t c : FDTreeElement} {i : Nat} (h : Under t) (hc : t.GetChild i = some c) :
    Under c := by
  cases h with
  | mk _ _ h2 => exact h2 i c hc

theorem Under_new (n : Nat) : Under (new n) :=
  Under.mk _ (fun a hr => by simp at hr)
    (fun i c hc => by rw [GetChild_new] at hc; cases hc)

/-! ### Recorded FDs after replacing a child -/

theorem Rec_setChild_nil (t c : FDTreeElement) (j a : Nat) :
    Rec (t.setChild j c) [] a ↔ Rec t [] a := by
  rw [Rec_nil, Rec_nil, is_fd_setChild]

theorem Rec_setChild_same {t : FDTreeElement} (c : FDTreeElement) {j : Nat}
    (hj : j < t.children_.length) (p : List Nat) (a : Nat) :
    Rec (t.setChild j c) (j :: p) a ↔ Rec c p a := by
  have : (t.setChild j c).GetChild j = some c := by
    rw [GetChild_setChild]; simp [hj]
  exact Rec_cons_some this p a

theorem GetChild_setChild_ne (t c : FDTreeElement) {i j : Nat} (h : i ≠ j) :
    (t.setChild j c).GetChild i = t.GetChild i := by
  rw [GetChild_setChild]; simp [h]

theorem GetChild_setChild_same {t : FDTreeElement} (c : FDTreeElement) {j : Nat}
    (hj : j < t.children_.length) : (t.setChild j c).GetChild j = some c := by
  rw [GetChild_setChild]; simp [hj]

theorem Rec_setChild_ne (t c : FDTreeElement) {i j : Nat} (h : i ≠ j) (p : List Nat) (a : Nat) :
    Rec (t.setChild j c) (i :: p) a ↔ Rec t (i :: p) a := by
  unfold Rec
  rw [lookup_cons, lookup_cons, GetChild_setChild_ne t c h]

/-! ### AddFunctionalDependency -/

theorem walk_nil (n a : Nat) (t : FDTreeElement) :
    AddFunctionalDependency.walk n a [] t = t.MarkAsLast (a - 1) := by
  unfold AddFunctionalDependency.walk; rfl

theorem walk_cons_some (n a i : Nat) (rest : List Nat) {t c : FDTreeElement}
    (h : t.GetChild (i - 1) = some c) :
    AddFunctionalDependency.walk n a (i :: rest) t =
      t.setChild (i - 1) (AddFunctionalDependency.walk n a rest (c.AddRhsAttribute a)) := by
  conv_lhs => unfold AddFunctionalDependency.walk
  simp only [h]

theorem walk_cons_none (n a i : Nat) (rest : List Nat) {t : FDTreeElement}
    (h : t.GetChild (i - 1) = none) :
    AddFunctionalDependency.walk n a (i :: rest) t =
      t.setChild (i - 1)
        (AddFunctionalDependency.walk n a rest ((new n).AddRhsAttribute a)) := by
  conv_lhs => unfold AddFunctionalDependency.walk
  simp only [h]

/-- The child that `walk` descends into: the one present, or a fresh node. -/
theorem walk_cons (n a i : Nat) (rest : List Nat) (t : FDTreeElement) :
    ∃ c, (t.GetChild (i - 1) = some c ∨ (t.GetChild (i - 1) = none ∧ c = new n)) ∧
      AddFunctionalDependency.walk n a (i :: rest) t =
        t.setChild (i - 1) (AddFunctionalDependency.walk n a rest (c.AddRhsAttribute a)) := by
  cases h : t.GetChild (i - 1) with
  | none => exact ⟨new n, Or.inr ⟨rfl, rfl⟩, walk_cons_none n a i rest h⟩
  | some c => exact ⟨c, Or.inl rfl, walk_cons_some n a i rest h⟩

theorem Rec_AddRhs (t : FDTreeElement) (a : Nat) (q : List Nat) (b : Nat) :
    Rec (t.AddRhsAttribute a) q b ↔ Rec t q b := by
  cases q with
  | nil => rw [Rec_nil, Rec_nil, is_fd_AddRhs]
  | cons i p =>
    unfold Rec
    rw [lookup_cons, lookup_cons, GetChild_AddRhs]

theorem WF_AddRhs {n k : Nat} {t : FDTreeElement} (h : WF n k t) (a : Nat) :
    WF n k (t.AddRhsAttribute a) := by
  cases h with
  | mk _ _ h1 h2 h3 h4 => exact WF.mk k _ h1 h2 h3 h4

/-- The FDs recorded after the walk of `AddFunctionalDependency`: those recorded
before, and the one added. -/
theorem walk_Rec (n a : Nat) : ∀ (L : List Nat) {k : Nat} {t : FDTreeElement}, WF n k t →
    (∀ i ∈ L, 1 ≤ i ∧ i ≤ n) → ∀ q b,
    (Rec (AddFunctionalDependency.walk n a L (t.AddRhsAttribute a)) q b ↔
      Rec t q b ∨ (q = L.map (fun i => i - 1) ∧ b = a - 1))
  | [], k, t, h, hL, q, b => by
    rw [walk_nil]
    cases q with
    | nil =>
      rw [Rec_nil, Rec_nil, is_fd_MarkAsLast, is_fd_AddRhs]
      have := Bitset.test_set t.is_fd_ (a - 1) b
      simp only [Bitset.test] at this
      rw [this]
      simp only [List.map_nil, true_and, Bool.or_eq_true, decide_eq_true_eq]
      constructor
      · rintro (h1 | h1)
        · exact Or.inl h1
        · exact Or.inr h1.symm
      · rintro (h1 | h1)
        · exact Or.inl h1
        · exact Or.inr h1.symm
    | cons i p =>
      have : Rec ((t.AddRhsAttribute a).MarkAsLast (a - 1)) (i :: p) b ↔ Rec t (i :: p) b := by
        unfold Rec
        rw [lookup_cons, lookup_cons, GetChild_MarkAsLast, GetChild_AddRhs]
      rw [this]
      simp
  | i :: rest, k, t, h, hL, q, b => by
    have hi := hL i (List.mem_cons_self _ _)
    have hrest : ∀ j ∈ rest, 1 ≤ j ∧ j ≤ n := fun j hj => hL j (List.mem_cons_of_mem _ hj)
    have hlen : i - 1 < (t.AddRhsAttribute a).children_.length := by
      rw [children_AddRhs, h.len]; omega
    obtain ⟨c, hc, hw⟩ := walk_cons n a i rest (t.AddRhsAttribute a)
    rw [hw]
    have hcWF : ∃ k', WF n k' c := by
      rcases hc with hc | ⟨_, hc⟩
      · rw [GetChild_AddRhs] at hc
        exact ⟨_, (h.child hc).2.2⟩
      · subst hc; exact ⟨0, WF_new n 0⟩
    obtain ⟨k', hcWF⟩ := hcWF
    have ih := walk_Rec n a rest hcWF hrest
    cases q with
    | nil =>
      rw [Rec_setChild_nil, Rec_AddRhs]
      simp
    | cons j p =>
      by_cases hj : j = i - 1
      · subst hj
        rw [Rec_setChild_same _ hlen, ih p b]
        simp only [List.map_cons, List.cons.injEq, true_and]
        have : Rec c p b ↔ Rec t ((i - 1) :: p) b := by
          rcases hc with hc | ⟨hc1, hc2⟩
          · rw [GetChild_AddRhs] at hc
            exact (Rec_cons_some hc p b).symm
          · rw [GetChild_AddRhs] at hc1
            subst hc2
            constructor
            · intro hr; exact absurd hr (Rec_new n p b)
            · intro hr; exact absurd hr (Rec_cons_none hc1 p b)
        rw [this]
      · rw [Rec_setChild_ne _ _ hj, Rec_AddRhs]
        simp only [List.map_cons, List.cons.injEq, hj, false_and, or_false]

theorem walk_WF (n a : Nat) : ∀ (L : List Nat) {k : Nat} {t : FDTreeElement}, WF n k t →
    L.Pairwise (fun x y => x < y) → (∀ i ∈ L, k + 1 ≤ i ∧ i ≤ n) →
    WF n k (AddFunctionalDependency.walk n a L (t.AddRhsAttribute a))
  | [], k, t, h, _, _ => by
    rw [walk_nil]
    cases h with
    | mk _ _ h1 h2 h3 h4 => exact WF.mk k _ h1 h2 h3 h4
  | i :: rest, k, t, h, hp, hL => by
    have hi := hL i (List.mem_cons_self _ _)
    obtain ⟨c, hc, hw⟩ := walk_cons n a i rest (t.AddRhsAttribute a)
    rw [hw]
    have hlen : i - 1 < (t.AddRhsAttribute a).children_.length := by
      rw [children_AddRhs, h.len]; omega
    have hcWF : WF n i c := by
      rcases hc with hc | ⟨_, hc⟩
      · rw [GetChild_AddRhs] at hc
        have := (h.child hc).2.2
        have e : i - 1 + 1 = i := by omega
        rwa [e] at this
      · subst hc; exact WF_new n i
    have hrest : ∀ j ∈ rest, i + 1 ≤ j ∧ j ≤ n := fun j hj =>
      ⟨(List.pairwise_cons.1 hp).1 j hj, (hL j (List.mem_cons_of_mem _ hj)).2⟩
    have ih := walk_WF n a rest hcWF (List.pairwise_cons.1 hp).2 hrest
    refine WF.mk k _ ?_ ?_ ?_ ?_
    · rw [children_setChild, List.length_set, children_AddRhs, h.len]
    · rw [max_setChild, max_AddRhs, h.max]
    · intro j d hd
      by_cases hj : j = i - 1
      · subst hj; omega
      · rw [GetChild_setChild_ne _ _ hj, GetChild_AddRhs] at hd
        exact (h.child hd).1
    · intro j d hd
      by_cases hj : j = i - 1
      · subst hj
        rw [GetChild_setChild_same _ hlen] at hd
        cases hd
        have e : i - 1 + 1 = i := by omega
        rw [e]; exact ih
      · rw [GetChild_setChild_ne _ _ hj, GetChild_AddRhs] at hd
        exact (h.child hd).2.2

theorem walk_rhs (n a : Nat) (L : List Nat) (t : FDTreeElement) :
    (AddFunctionalDependency.walk n a L t).rhs_attributes_ = t.rhs_attributes_ := by
  cases L with
  | nil => rw [walk_nil, rhs_MarkAsLast]
  | cons i rest =>
    obtain ⟨c, _, hw⟩ := walk_cons n a i rest t
    rw [hw, rhs_setChild]

theorem walk_Over (n a : Nat) (ha : 1 ≤ a) : ∀ (L : List Nat) {k : Nat} {t : FDTreeElement},
    WF n k t → Over t → (∀ i ∈ L, 1 ≤ i ∧ i ≤ n) →
    Over (AddFunctionalDependency.walk n a L (t.AddRhsAttribute a))
  | L, k, t, h, ho, hL => by
    refine Over.mk _ ?_ ?_
    · intro q b hr
      rw [walk_rhs, rhs_AddRhs]
      have := Bitset.test_set t.rhs_attributes_ a (b + 1)
      simp only [Bitset.test] at this
      rw [this]
      rcases (walk_Rec n a L h hL q b).1 hr with h1 | ⟨_, h1⟩
      · rw [ho.root h1]; rfl
      · have : a = b + 1 := by omega
        simp [this]
    · cases L with
      | nil =>
        intro i c hc
        rw [walk_nil, GetChild_MarkAsLast, GetChild_AddRhs] at hc
        exact ho.child_over hc
      | cons i rest =>
        intro j d hd
        have hi := hL i (List.mem_cons_self _ _)
        have hrest : ∀ j ∈ rest, 1 ≤ j ∧ j ≤ n := fun j hj => hL j (List.mem_cons_of_mem _ hj)
        obtain ⟨c, hc, hw⟩ := walk_cons n a i rest (t.AddRhsAttribute a)
        rw [hw] at hd
        have hlen : i - 1 < (t.AddRhsAttribute a).children_.length := by
          rw [children_AddRhs, h.len]; omega
        by_cases hj : j = i - 1
        · subst hj
          rw [GetChild_setChild_same _ hlen] at hd
          cases hd
          rcases hc with hc | ⟨_, hc⟩
          · rw [GetChild_AddRhs] at hc
            exact walk_Over n a ha rest (h.child hc).2.2 (ho.child_over hc) hrest
          · subst hc
            exact walk_Over n a ha rest (WF_new n 0) (Over_new n) hrest
        · rw [GetChild_setChild_ne _ _ hj, GetChild_AddRhs] at hd
          exact ho.child_over hd
termination_by L => L.length

theorem walk_Under (n a : Nat) (ha : 1 ≤ a) : ∀ (L : List Nat) {k : Nat} {t : FDTreeElement},
    WF n k t → Under t → (∀ i ∈ L, 1 ≤ i ∧ i ≤ n) →
    Under (AddFunctionalDependency.walk n a L (t.AddRhsAttribute a))
  | L, k, t, h, hu, hL => by
    refine Under.mk _ ?_ ?_
    · intro b hb
      rw [walk_rhs, rhs_AddRhs] at hb
      have := Bitset.test_set t.rhs_attributes_ a (b + 1)
      simp only [Bitset.test] at this
      rw [this] at hb
      simp only [Bool.or_eq_true, decide_eq_true_eq] at hb
      rcases hb with hb | hb
      · obtain ⟨q, hq⟩ := hu.root_witness hb
        exact ⟨q, (walk_Rec n a L h hL q b).2 (Or.inl hq)⟩
      · exact ⟨L.map (fun i => i - 1), (walk_Rec n a L h hL _ b).2 (Or.inr ⟨rfl, by omega⟩)⟩
    · cases L with
      | nil =>
        intro i c hc
        rw [walk_nil, GetChild_MarkAsLast, GetChild_AddRhs] at hc
        exact hu.child_under hc
      | cons i rest =>
        intro j d hd
        have hi := hL i (List.mem_cons_self _ _)
        have hrest : ∀ j ∈ rest, 1 ≤ j ∧ j ≤ n := fun j hj => hL j (List.mem_cons_of_mem _ hj)
        obtain ⟨c, hc, hw⟩ := walk_cons n a i rest (t.AddRhsAttribute a)
        rw [hw] at hd
        have hlen : i - 1 < (t.AddRhsAttribute a).children_.length := by
          rw [children_AddRhs, h.len]; omega
        by_cases hj : j = i - 1
        · subst hj
          rw [GetChild_setChild_same _ hlen] at hd
          cases hd
          rcases hc with hc | ⟨_, hc⟩
          · rw [GetChild_AddRhs] at hc
            exact walk_Under n a ha rest (h.child hc).2.2 (hu.child_under hc) hrest
          · subst hc
            exact walk_Under n a ha rest (WF_new n 0) (Under_new n) hrest
        · rw [GetChild_setChild_ne _ _ hj, GetChild_AddRhs] at hd
          exact hu.child_under hd
termination_by L => L.length

end FDTreeElement

theorem PathIn.mono_cursor {lhs : Nat} {cur cur' : Nat} {p : List Nat} (h : PathIn lhs cur p)
    (hc : cur' ≤ cur) : PathIn lhs cur' p := by
  cases p with
  | nil => trivial
  | cons i p =>
    obtain ⟨h1, h2, h3, h4⟩ := h
    exact ⟨le_trans hc h1, h2, h3, h4⟩

theorem PathIn.within {lhs : Nat} : ∀ {cur : Nat} {p : List Nat}, PathIn lhs cur p → Within p lhs
  | _, [], _ => by intro i hi; cases hi
  | _, i :: p, h => by
    obtain ⟨_, _, h3, h4⟩ := h
    intro j hj
    rcases List.mem_cons.1 hj with rfl | hj
    · exact h3
    · exact PathIn.within h4 j hj

theorem PathIn.pairwise {lhs : Nat} : ∀ {cur : Nat} {p : List Nat}, PathIn lhs cur p →
    p.Pairwise (fun x y => x < y) ∧ ∀ i ∈ p, cur ≤ i ∧ i + 1 < kMaxAttrNum
  | _, [], _ => ⟨List.Pairwise.nil, by intro i hi; cases hi⟩
  | cur, i :: p, h => by
    obtain ⟨h1, h2, _, h4⟩ := h
    obtain ⟨ih1, ih2⟩ := PathIn.pairwise h4
    refine ⟨List.pairwise_cons.2 ⟨fun j hj => ?_, ih1⟩, ?_⟩
    · have := (ih2 j hj).1; omega
    · intro j hj
      rcases List.mem_cons.1 hj with rfl | hj
      · exact ⟨h1, h2⟩
      · have := ih2 j hj; omega

theorem PathIn.of_pairwise {lhs : Nat} : ∀ {cur : Nat} {p : List Nat},
    p.Pairwise (fun x y => x < y) → (∀ i ∈ p, cur ≤ i ∧ i + 1 < kMaxAttrNum) → Within p lhs →
    PathIn lhs cur p
  | _, [], _, _, _ => trivial
  | cur, i :: p, hp, hb, hw => by
    have hi := hb i (List.mem_cons_self _ _)
    refine ⟨hi.1, hi.2, hw i (List.mem_cons_self _ _), ?_⟩
    apply PathIn.of_pairwise (List.pairwise_cons.1 hp).2
    · intro j hj
      have h1 := (List.pairwise_cons.1 hp).1 j hj
      have h2 := hb j (List.mem_cons_of_mem _ hj)
      omega
    · intro j hj
      exact hw j (List.mem_cons_of_mem _ hj)

namespace FDTreeElement

/-- What `ContainsGeneralization` decides: whether the subtree records, for `attr_num`,
a path through set bits of `lhs` above the cursor. -/
theorem ContainsGeneralization_iff (lhs a : Nat) (ha : 1 ≤ a) :
    ∀ (fuel : Nat) (t : FDTreeElement) (cur : Nat), Over t → cur < kMaxAttrNum →
      kMaxAttrNum ≤ cur + fuel →
      (ContainsGeneralization fuel t lhs a cur = true ↔ ∃ p, PathIn lhs cur p ∧ Rec t p (a - 1))
  | 0, t, cur, _, h1, h2 => by omega
  | fuel + 1, t, cur, ho, h1, h2 => by
    unfold ContainsGeneralization
    by_cases hfd : Bitset.test t.is_fd_ (a - 1) = true
    · simp only [hfd, if_true, true_iff]
      exact ⟨[], trivial, (Rec_nil t _).2 hfd⟩
    · simp only [hfd, if_false, Bool.false_eq_true]
      have hnil : ¬ Rec t [] (a - 1) := fun h => hfd ((Rec_nil t _).1 h)
      rcases Bitset.Find_next_spec lhs cur h1 with ⟨hn, hnone⟩ | ⟨hn1, hn2, hn3, hn4⟩
      · simp only [hn, if_true, Bool.false_eq_true, false_iff]
        rintro ⟨p, hp, hr⟩
        cases p with
        | nil => exact hnil hr
        | cons i p =>
          obtain ⟨p1, p2, p3, _⟩ := hp
          have := hnone (i + 1) (by omega) p2
          rw [this] at p3; cases p3
      · have hne : Bitset.Find_next lhs cur ≠ kMaxAttrNum := by omega
        simp only [hne, if_false]
        generalize hnx : Bitset.Find_next lhs cur = next at *
        have ihself := ContainsGeneralization_iff lhs a ha fuel t next ho hn2 (by omega)
        constructor
        · intro h
          split at h
          · rename_i hfound
            cases hc : t.GetChild (next - 1) with
            | none => rw [hc] at hfound; simp at hfound
            | some c =>
              rw [hc] at hfound
              simp only at hfound
              split at hfound
              · have ihc := ContainsGeneralization_iff lhs a ha fuel c next (ho.child_over hc) hn2 (by omega)
                obtain ⟨p, hp, hr⟩ := ihc.1 hfound
                refine ⟨(next - 1) :: p, ⟨by omega, by omega, ?_, ?_⟩, (Rec_cons_some hc p _).2 hr⟩
                · have e : next - 1 + 1 = next := by omega
                  rw [e]; exact hn3
                · have e : next - 1 + 1 = next := by omega
                  rw [e]; exact hp
              · cases hfound
          · obtain ⟨p, hp, hr⟩ := ihself.1 h
            exact ⟨p, hp.mono_cursor (by omega), hr⟩
        · rintro ⟨p, hp, hr⟩
          cases p with
          | nil => exact absurd hr hnil
          | cons i p =>
            obtain ⟨p1, p2, p3, p4⟩ := hp
            have hle : next ≤ i + 1 := by
              by_contra hlt
              have := hn4 (i + 1) (by omega) (by omega)
              rw [this] at p3; cases p3
            split
            · rfl
            · rename_i hfound
              rcases Nat.eq_or_lt_of_le hle with heq | hlt
              · exfalso
                apply hfound
                obtain ⟨c, hc, hrc⟩ := Rec_cons hr
                have e : next - 1 = i := by omega
                rw [e, hc]
                simp only
                have hov := (ho.child_over hc).root hrc
                have e2 : a - 1 + 1 = a := by omega
                rw [e2] at hov
                simp only [Bitset.test, GetRhsAttributes, hov, if_true]
                have ihc := ContainsGeneralization_iff lhs a ha fuel c next (ho.child_over hc) hn2 (by omega)
                apply ihc.2
                refine ⟨p, ?_, hrc⟩
                rw [heq]; exact p4
              · exact ihself.2 ⟨i :: p, ⟨by omega, p2, p3, p4⟩, hr⟩

end FDTreeElement

namespace FDTreeElement

theorem NoNested.child_noNested {t c : FDTreeElement} {i a : Nat} (h : NoNested t a)
    (hc : t.GetChild i = some c) : NoNested c a := by
  intro p q h1 h2
  exact h (i :: p) q ((Rec_cons_some hc p a).2 h1) ((Rec_cons_some hc (p ++ q) a).2 h2)

theorem Rec_resetRhs (t : FDTreeElement) (a : Nat) (q : List Nat) (b : Nat) :
    Rec (t.resetRhsAttribute a) q b ↔ Rec t q b := by
  cases q with
  | nil => rw [Rec_nil, Rec_nil, is_fd_resetRhs]
  | cons i p =>
    unfold Rec
    rw [lookup_cons, lookup_cons, GetChild_resetRhs]

theorem Rec_resetIsFd (t : FDTreeElement) (a : Nat) (q : List Nat) (b : Nat) :
    Rec (t.resetIsFd a) q b ↔ (Rec t q b ∧ ¬ (q = [] ∧ b = a)) := by
  cases q with
  | nil =>
    rw [Rec_nil, Rec_nil, is_fd_resetIsFd]
    have := Bitset.test_reset t.is_fd_ a b
    simp only [Bitset.test] at this
    rw [this]
    simp only [Bool.and_eq_true, Bool.not_eq_true', decide_eq_false_iff_not, true_and]
    constructor
    · rintro ⟨h1, h2⟩; exact ⟨h1, fun h => h2 h.symm⟩
    · rintro ⟨h1, h2⟩; exact ⟨h1, fun h => h2 h.symm⟩
  | cons i p =>
    have : Rec (t.resetIsFd a) (i :: p) b ↔ Rec t (i :: p) b := by
      unfold Rec
      rw [lookup_cons, lookup_cons, GetChild_resetIsFd]
    rw [this]
    simp

theorem IsFinalNode_true {t : FDTreeElement} {a : Nat} (h : t.IsFinalNode a = true) :
    ∀ i, i < t.max_attribute_number_ → t.childHasRhs i a = false := by
  unfold IsFinalNode at h
  split at h
  · cases h
  · intro i hi
    simp only [Bool.not_eq_true', List.any_eq_false, List.mem_range] at h
    have := h i hi
    simpa using this

/-- After the search has failed in the child below `next`, the paths through `lhs`
above `cur` are those above `next`. -/
theorem skip_child {lhs a cur : Nat} {t : FDTreeElement}
    (hfd : ¬ Bitset.test t.is_fd_ (a - 1) = true)
    (hn4 : ∀ j, cur < j → j < Bitset.Find_next lhs cur → Nat.testBit lhs j = false)
    (hno : ¬ ∃ p, PathIn lhs (Bitset.Find_next lhs cur) p ∧
      Rec t ((Bitset.Find_next lhs cur - 1) :: p) (a - 1)) :
    (∃ p, PathIn lhs cur p ∧ Rec t p (a - 1)) →
      ∃ p, PathIn lhs (Bitset.Find_next lhs cur) p ∧ Rec t p (a - 1) := by
  rintro ⟨p, hp, hr⟩
  cases p with
  | nil => exact absurd ((Rec_nil t _).1 hr) hfd
  | cons i p =>
    obtain ⟨p1, p2, p3, p4⟩ := hp
    have hle : Bitset.Find_next lhs cur ≤ i + 1 := by
      by_contra hlt
      have := hn4 (i + 1) (by omega) (by omega)
      rw [this] at p3; cases p3
    rcases Nat.eq_or_lt_of_le hle with heq | hlt
    · exfalso
      apply hno
      refine ⟨p, ?_, ?_⟩
      · rw [heq]; exact p4
      · have e : Bitset.Find_next lhs cur - 1 = i := by omega
        rw [e]; exact hr
    · exact ⟨i :: p, ⟨by omega, p2, p3, p4⟩, hr⟩

theorem Post_skip {n k lhs a cur : Nat} {t : FDTreeElement} {spec : Nat}
    {r : Bool × FDTreeElement × Nat}
    (hfd : ¬ Bitset.test t.is_fd_ (a - 1) = true)
    (hn1 : cur < Bitset.Find_next lhs cur)
    (hn4 : ∀ j, cur < j → j < Bitset.Find_next lhs cur → Nat.testBit lhs j = false)
    (hno : ¬ ∃ p, PathIn lhs (Bitset.Find_next lhs cur) p ∧
      Rec t ((Bitset.Find_next lhs cur - 1) :: p) (a - 1))
    (h : GetGeneralizationAndDelete.Post n k lhs a (Bitset.Find_next lhs cur) t spec r) :
    GetGeneralizationAndDelete.Post n k lhs a cur t spec r := by
  obtain ⟨h1, h2⟩ := h
  refine ⟨fun hr => ?_, fun hr => ?_⟩
  · obtain ⟨h3, h4, h5⟩ := h1 hr
    exact ⟨fun hex => h3 (skip_child hfd hn4 hno hex), h4, h5⟩
  · obtain ⟨p, hp, hrest⟩ := h2 hr
    exact ⟨p, hp.mono_cursor (by omega), hrest⟩

theorem GetGeneralizationAndDelete_post (n lhs a : Nat) (ha : 1 ≤ a) :
    ∀ (fuel : Nat) (t : FDTreeElement) (cur spec k : Nat), WF n k t → Over t →
      NoNested t (a - 1) → cur < kMaxAttrNum → kMaxAttrNum ≤ cur + fuel →
      GetGeneralizationAndDelete.Post n k lhs a cur t spec
        (GetGeneralizationAndDelete fuel t lhs a cur spec)
  | 0, t, cur, spec, k, _, _, _, h1, h2 => by omega
  | fuel + 1, t, cur, spec, k, hwf, ho, hnn, h1, h2 => by
    unfold GetGeneralizationAndDelete
    by_cases hfd : Bitset.test t.is_fd_ (a - 1) = true
    · simp only [hfd, if_true]
      refine ⟨(fun h => by cases h), fun _ => ⟨[], trivial, (Rec_nil t _).2 hfd, ?_, ?_, ?_, ?_⟩⟩
      · intro j; simp
      · intro q b
        rw [Rec_resetRhs, Rec_resetIsFd]
      · exact WF.mk k _ hwf.len hwf.max (fun i c hc => (hwf.child hc).1)
          (fun i c hc => (hwf.child hc).2.2)
      · refine Over.mk _ ?_ (fun i c hc => ho.child_over hc)
        intro q b hr
        rw [Rec_resetRhs, Rec_resetIsFd] at hr
        rw [rhs_resetRhs, rhs_resetIsFd]
        have := Bitset.test_reset t.rhs_attributes_ a (b + 1)
        simp only [Bitset.test] at this
        rw [this, ho.root hr.1]
        simp only [Bool.true_and, Bool.not_eq_true', decide_eq_false_iff_not]
        intro hab
        have hb : b = a - 1 := by omega
        subst hb
        have hq := hnn [] q ((Rec_nil t _).2 hfd) hr.1
        exact hr.2 ⟨hq, rfl⟩
    · simp only [hfd, if_false, Bool.false_eq_true]
      have hnil : ¬ Rec t [] (a - 1) := fun h => hfd ((Rec_nil t _).1 h)
      rcases Bitset.Find_next_spec lhs cur h1 with ⟨hn, hnone⟩ | ⟨hn1, hn2, hn3, hn4⟩
      · simp only [hn, if_true]
        refine ⟨fun _ => ⟨?_, rfl, rfl⟩, fun h => by cases h⟩
        rintro ⟨p, hp, hr⟩
        cases p with
        | nil => exact hnil hr
        | cons i p =>
          obtain ⟨p1, p2, p3, _⟩ := hp
          have := hnone (i + 1) (by omega) p2
          rw [this] at p3; cases p3
      · have hne : Bitset.Find_next lhs cur ≠ kMaxAttrNum := by omega
        simp only [hne, if_false]
        have ihself := GetGeneralizationAndDelete_post n lhs a ha fuel t
          (Bitset.Find_next lhs cur) spec k hwf ho hnn hn2 (by omega)
        have e1 : Bitset.Find_next lhs cur - 1 + 1 = Bitset.Find_next lhs cur := by omega
        have ea : a - 1 + 1 = a := by omega
        cases hc : t.GetChild (Bitset.Find_next lhs cur - 1) with
        | none =>
          simp only
          apply Post_skip hfd hn1 hn4 _ ihself
          rintro ⟨p, _, hr⟩
          exact Rec_cons_none hc p _ hr
        | some c =>
          simp only
          by_cases hrhs : Bitset.test c.GetRhsAttributes a = true
          · simp only [hrhs, if_true]
            have hcw := hwf.child hc
            have ihc := GetGeneralizationAndDelete_post n lhs a ha fuel c
              (Bitset.Find_next lhs cur) spec _ hcw.2.2 (ho.child_over hc) (hnn.child_noNested hc) hn2
              (by omega)
            rcases hres : GetGeneralizationAndDelete fuel c lhs a (Bitset.Find_next lhs cur) spec
              with ⟨f, c1, s1⟩
            rw [hres] at ihc
            cases f with
            | false =>
              simp only
              obtain ⟨hno, hc1, hs1⟩ := ihc.1 rfl
              simp only at hc1 hs1
              subst hc1 hs1
              rw [setChild_self hc]
              apply Post_skip hfd hn1 hn4 _ ihself
              rintro ⟨p, hp, hr⟩
              exact hno ⟨p, hp, (Rec_cons_some hc p _).1 hr⟩
            | true =>
              simp only
              obtain ⟨p, hp, hr, hbits, hrec, hwf1, hov1⟩ := ihc.2 rfl
              simp only at hbits hrec hwf1 hov1
              have hlen : Bitset.Find_next lhs cur - 1 < t.children_.length := GetChild_lt hc
              -- the tree after the child has been replaced
              have hrec1 : ∀ q b, Rec (t.setChild (Bitset.Find_next lhs cur - 1) c1) q b ↔
                  (Rec t q b ∧ ¬ (q = (Bitset.Find_next lhs cur - 1) :: p ∧ b = a - 1)) := by
                intro q b
                cases q with
                | nil => rw [Rec_setChild_nil]; simp
                | cons j q =>
                  by_cases hj : j = Bitset.Find_next lhs cur - 1
                  · subst hj
                    rw [Rec_setChild_same _ hlen, hrec, Rec_cons_some hc]
                    simp
                  · rw [Rec_setChild_ne _ _ hj]
                    simp [hj]
              have hchild1 : ∀ j d, (t.setChild (Bitset.Find_next lhs cur - 1) c1).GetChild j
                  = some d → k ≤ j ∧ WF n (j + 1) d ∧ Over d := by
                intro j d hd
                by_cases hj : j = Bitset.Find_next lhs cur - 1
                · subst hj
                  rw [GetChild_setChild_same _ hlen] at hd
                  cases hd
                  exact ⟨hcw.1, hwf1, hov1⟩
                · rw [GetChild_setChild_ne _ _ hj] at hd
                  exact ⟨(hwf.child hd).1, (hwf.child hd).2.2, ho.child_over hd⟩
              refine ⟨(fun h => by cases h), fun _ => ⟨(Bitset.Find_next lhs cur - 1) :: p, ?_, ?_, ?_, ?_, ?_, ?_⟩⟩
              · refine ⟨by omega, by omega, ?_, ?_⟩
                · rw [e1]; exact hn3
                · rw [e1]; exact hp
              · exact (Rec_cons_some hc p _).2 hr
              · intro j
                have := Bitset.test_set s1 (Bitset.Find_next lhs cur) j
                simp only [Bitset.test] at this
                rw [this]
                simp only [Bool.or_eq_true, decide_eq_true_eq, hbits j, List.mem_cons,
                  exists_eq_or_imp, e1]
                constructor
                · rintro ((h | h) | h)
                  · exact Or.inl h
                  · exact Or.inr (Or.inr h)
                  · exact Or.inr (Or.inl h.symm)
                · rintro (h | h | h)
                  · exact Or.inl (Or.inl h)
                  · exact Or.inr h.symm
                  · exact Or.inl (Or.inr h)
              · intro q b
                split
                · rw [Rec_resetRhs]; exact hrec1 q b
                · exact hrec1 q b
              · split
                · exact WF.mk k _ (by simp [hwf.len]) hwf.max
                    (fun j d hd => (hchild1 j d hd).1) (fun j d hd => (hchild1 j d hd).2.1)
                · exact WF.mk k _ (by simp [hwf.len]) hwf.max
                    (fun j d hd => (hchild1 j d hd).1) (fun j d hd => (hchild1 j d hd).2.1)
              · split
                · rename_i hfin
                  refine Over.mk _ ?_ (fun j d hd => (hchild1 j d hd).2.2)
                  intro q b hq
                  rw [Rec_resetRhs] at hq
                  rw [rhs_resetRhs, rhs_setChild]
                  have := Bitset.test_reset t.rhs_attributes_ a (b + 1)
                  simp only [Bitset.test] at this
                  rw [this, ho.root ((hrec1 q b).1 hq).1]
                  simp only [Bool.true_and, Bool.not_eq_true', decide_eq_false_iff_not]
                  intro hab
                  have hb : b = a - 1 := by omega
                  subst hb
                  cases q with
                  | nil => exact hnil ((Rec_setChild_nil _ _ _ _).1 hq)
                  | cons j q =>
                    obtain ⟨d, hd, hrd⟩ := Rec_cons hq
                    have hov := (hchild1 j d hd).2.2.root hrd
                    rw [ea] at hov
                    have hjlt : j < (t.setChild (Bitset.Find_next lhs cur - 1) c1).max_attribute_number_ := by
                      have := GetChild_lt hd
                      rw [max_setChild, hwf.max]
                      rw [children_setChild, List.length_set, hwf.len] at this
                      exact this
                    have := IsFinalNode_true hfin j hjlt
                    unfold childHasRhs at this
                    rw [hd] at this
                    simp only [Bitset.test, GetRhsAttributes] at this
                    rw [hov] at this
                    cases this
                · refine Over.mk _ ?_ (fun j d hd => (hchild1 j d hd).2.2)
                  intro q b hq
                  rw [rhs_setChild]
                  exact ho.root ((hrec1 q b).1 hq).1
          · simp only [hrhs, if_false, Bool.false_eq_true]
            apply Post_skip hfd hn1 hn4 _ ihself
            rintro ⟨p, _, hr⟩
            have := (ho.child_over hc).root ((Rec_cons_some hc p _).1 hr)
            rw [ea] at this
            exact hrhs this

end FDTreeElement

theorem mem_pathOf {n lhs : Nat} (h : LhsOk n lhs) (j : Nat) :
    j ∈ pathOf lhs ↔ (j + 1 < kMaxAttrNum ∧ Nat.testBit lhs (j + 1) = true) := by
  unfold pathOf
  simp only [List.mem_map, Bitset.mem_indices]
  constructor
  · rintro ⟨i, ⟨h1, h2⟩, rfl⟩
    have := h i h1 h2
    have e : i - 1 + 1 = i := by omega
    rw [e]; exact ⟨h1, h2⟩
  · rintro ⟨h1, h2⟩
    exact ⟨j + 1, ⟨h1, h2⟩, by omega⟩

theorem pathOf_pairwise {n lhs : Nat} (h : LhsOk n lhs) :
    (pathOf lhs).Pairwise (fun x y => x < y) := by
  unfold pathOf
  rw [List.pairwise_map]
  refine List.Pairwise.imp_of_mem ?_ (Bitset.indices_pairwise lhs)
  intro x y hx hy hxy
  have := h x ((Bitset.mem_indices lhs x).1 hx).1 ((Bitset.mem_indices lhs x).1 hx).2
  omega

theorem LhsOk.indices {n lhs : Nat} (h : LhsOk n lhs) :
    ∀ i ∈ Bitset.indices lhs, 1 ≤ i ∧ i ≤ n := by
  intro i hi
  exact h i ((Bitset.mem_indices lhs i).1 hi).1 ((Bitset.mem_indices lhs i).1 hi).2

theorem LhsOk_zero (n : Nat) : LhsOk n 0 := by
  intro i _ h
  simp at h

namespace FDTreeElement

theorem AddFunctionalDependency_Rec {n k : Nat} {t : FDTreeElement} (hwf : WF n k t)
    {lhs : Nat} (hl : LhsOk n lhs) (a : Nat) (q : List Nat) (b : Nat) :
    Rec (t.AddFunctionalDependency lhs a) q b ↔ (Rec t q b ∨ (q = pathOf lhs ∧ b = a - 1)) := by
  unfold AddFunctionalDependency
  rw [hwf.max]
  exact walk_Rec n a _ hwf hl.indices q b

theorem AddFunctionalDependency_WF {n : Nat} {t : FDTreeElement} (hwf : WF n 0 t)
    {lhs : Nat} (hl : LhsOk n lhs) (a : Nat) : WF n 0 (t.AddFunctionalDependency lhs a) := by
  unfold AddFunctionalDependency
  rw [hwf.max]
  refine walk_WF n a _ hwf (Bitset.indices_pairwise lhs) ?_
  intro i hi
  have := hl.indices i hi
  omega

theorem AddFunctionalDependency_Over {n k : Nat} {t : FDTreeElement} (hwf : WF n k t)
    (ho : Over t) {lhs : Nat} (hl : LhsOk n lhs) {a : Nat} (ha : 1 ≤ a) :
    Over (t.AddFunctionalDependency lhs a) := by
  unfold AddFunctionalDependency
  rw [hwf.max]
  exact walk_Over n a ha _ hwf ho hl.indices

theorem AddFunctionalDependency_Under {n k : Nat} {t : FDTreeElement} (hwf : WF n k t)
    (hu : Under t) {lhs : Nat} (hl : LhsOk n lhs) {a : Nat} (ha : 1 ≤ a) :
    Under (t.AddFunctionalDependency lhs a) := by
  unfold AddFunctionalDependency
  rw [hwf.max]
  exact walk_Under n a ha _ hwf hu hl.indices

/-- A recorded path of a well-formed tree runs through `lhs` as soon as its columns
are in `lhs`. -/
theorem PathIn_of_Rec {n : Nat} (hn : n < kMaxAttrNum) {t : FDTreeElement} (hwf : WF n 0 t)
    {p : List Nat} {a : Nat} (hr : Rec t p a) {lhs : Nat} (hw : Within p lhs) :
    PathIn lhs 0 p := by
  obtain ⟨v, hv, _⟩ := hr
  obtain ⟨h1, h2, _⟩ := hwf.lookup p hv
  refine PathIn.of_pairwise h1 ?_ hw
  intro i hi
  have := h2 i hi
  omega

/-- `ContainsGeneralization(lhs, a, 0)` on a whole tree: some recorded LHS for `a` lies
within `lhs`. -/
theorem ContainsGeneralization_top {n : Nat} (hn : n < kMaxAttrNum) {t : FDTreeElement}
    (hwf : WF n 0 t) (ho : Over t) (lhs : Nat) {a : Nat} (ha : 1 ≤ a) :
    ContainsGeneralization kMaxAttrNum t lhs a 0 = true ↔
      ∃ p, Rec t p (a - 1) ∧ Within p lhs := by
  rw [ContainsGeneralization_iff lhs a ha kMaxAttrNum t 0 ho (by decide) (by omega)]
  constructor
  · rintro ⟨p, hp, hr⟩
    exact ⟨p, hr, hp.within⟩
  · rintro ⟨p, hr, hw⟩
    exact ⟨p, PathIn_of_Rec hn hwf hr hw, hr⟩

theorem Antichain.noNested {t : FDTreeElement} (h : Antichain t) (a : Nat) : NoNested t a := by
  intro p q h1 h2
  have := h p (p ++ q) a h1 h2 (List.subset_append_left p q)
  have hl := congrArg List.length this
  simp only [List.length_append] at hl
  exact List.eq_nil_of_length_eq_zero (by omega)

/-- `GetGeneralizationAndDelete(lhs, a, 0, spec_lhs)` on a whole tree, `spec_lhs` being
empty before the call. -/
theorem GetGeneralizationAndDelete_top {n : Nat} (hn : n < kMaxAttrNum) {t : FDTreeElement}
    (hwf : WF n 0 t) (ho : Over t) (hac : Antichain t) (lhs : Nat) {a : Nat} (ha : 1 ≤ a) :
    let r := GetGeneralizationAndDelete kMaxAttrNum t lhs a 0 0
    (r.1 = false → (¬ ∃ p, Rec t p (a - 1) ∧ Within p lhs) ∧ r.2.1 = t) ∧
    (r.1 = true → ∃ p, Rec t p (a - 1) ∧ Within p lhs ∧
      (∀ j, Nat.testBit r.2.2 j = true ↔ ∃ i ∈ p, j = i + 1) ∧
      (∀ q b, Rec r.2.1 q b ↔ (Rec t q b ∧ ¬ (q = p ∧ b = a - 1))) ∧
      WF n 0 r.2.1 ∧ Over r.2.1) := by
  intro r
  have h := GetGeneralizationAndDelete_post n lhs a ha kMaxAttrNum t 0 0 0 hwf ho
    (hac.noNested _) (by decide) (by omega)
  refine ⟨fun hr => ?_, fun hr => ?_⟩
  · obtain ⟨h1, h2, _⟩ := h.1 hr
    refine ⟨?_, h2⟩
    rintro ⟨p, hp, hw⟩
    exact h1 ⟨p, PathIn_of_Rec hn hwf hp hw, hp⟩
  · obtain ⟨p, h1, h2, h3, h4, h5, h6⟩ := h.2 hr
    refine ⟨p, h2, h1.within, ?_, h4, h5, h6⟩
    intro j
    rw [h3 j]
    simp

end FDTreeElement

/-- An invariant of a left fold that may refer to the elements already consumed. -/
theorem foldl_prefix_inv {α β : Type} (f : β → α → β) (P : List α → β → Prop) :
    ∀ (as done : List α) (s : β), P done s →
      (∀ d x s, x ∈ as → P d s → P (d ++ [x]) (f s x)) → P (done ++ as) (as.foldl f s)
  | [], done, s, h0, _ => by simpa using h0
  | x :: rest, done, s, h0, hstep => by
    have h1 := hstep done x s (List.mem_cons_self _ _) h0
    have := foldl_prefix_inv f P rest (done ++ [x]) (f s x) h1
      (fun d y s hy hP => hstep d y s (List.mem_cons_of_mem _ hy) hP)
    simpa using this

namespace algos.FDep

open FDTreeElement

theorem SpecializePositiveCover.body_inv {n lhs a : Nat} (hn : n < kMaxAttrNum) (ha : 1 ≤ a)
    {p0 : List Nat} {t1 : FDTreeElement} {spec0 : Nat}
    (F1 : ∀ r, Rec t1 r (a - 1) → ¬ p0 ⊆ r) (F2 : Within p0 lhs) (F3 : a - 1 ∉ p0)
    (F4 : ∀ j, Nat.testBit spec0 j = true ↔ ∃ i ∈ p0, j = i + 1) (F5 : ∀ i ∈ p0, i < n)
    (hwf : WF n 0 t1) (hov : Over t1) (hac : Antichain t1) (hnt : NonTrivial t1) :
    SpecializePositiveCover.BodyInv n lhs a p0 t1 (List.range' 1 n).reverse
        (SpecializePositiveCover.body n lhs a t1 spec0).1 ∧
      (SpecializePositiveCover.body n lhs a t1 spec0).2 = spec0 := by
  unfold SpecializePositiveCover.body
  have key := foldl_prefix_inv (SpecializePositiveCover.step lhs a)
    (fun done s => SpecializePositiveCover.BodyInv n lhs a p0 t1 done s.1 ∧ s.2 = spec0)
    (List.range' 1 n).reverse [] (t1, spec0)
    ⟨⟨hwf, hov, hac, hnt, fun _ _ h => h, fun _ _ h => Or.inl h,
      fun attr h => by cases h⟩, rfl⟩ ?_
  · simpa using key
  · rintro done attr ⟨tree, spec⟩ hattr ⟨hinv, hspec⟩
    simp only at hspec hinv
    subst hspec
    have hrange : 1 ≤ attr ∧ attr ≤ n := by
      rw [List.mem_reverse, List.mem_range'_1] at hattr
      omega
    unfold SpecializePositiveCover.step
    by_cases hcond : (!Bitset.test lhs attr && attr != a) = true
    · simp only [hcond, if_true]
      simp only [Bool.and_eq_true, Bool.not_eq_true', bne_iff_ne, ne_eq] at hcond
      obtain ⟨hX, hne⟩ := hcond
      simp only [Bitset.test] at hX
      -- `spec_lhs` does not have the bit of `attr`
      have hspec_attr : Bitset.test spec attr = false := by
        cases h : Bitset.test spec attr with
        | false => rfl
        | true =>
          obtain ⟨i, hi, rfl⟩ := (F4 attr).1 h
          rw [F2 i hi] at hX
          cases hX
      have hbits : ∀ j, Nat.testBit (Bitset.set spec attr) (j + 1) = true ↔
          (j ∈ p0 ∨ j = attr - 1) := by
        intro j
        have := Bitset.test_set spec attr (j + 1)
        simp only [Bitset.test] at this
        rw [this]
        simp only [Bool.or_eq_true, decide_eq_true_eq, F4 (j + 1)]
        constructor
        · rintro (⟨i, hi, hij⟩ | h)
          · left
            have : j = i := by omega
            rw [this]; exact hi
          · right; omega
        · rintro (h | h)
          · exact Or.inl ⟨j, h, rfl⟩
          · right; omega
      have hok : LhsOk n (Bitset.set spec attr) := by
        intro i _ hi
        have := Bitset.test_set spec attr i
        simp only [Bitset.test] at this
        rw [this] at hi
        simp only [Bool.or_eq_true, decide_eq_true_eq] at hi
        rcases hi with hi | hi
        · obtain ⟨j, hj, rfl⟩ := (F4 i).1 hi
          have := F5 j hj
          omega
        · omega
      have hmemq : ∀ j, j ∈ pathOf (Bitset.set spec attr) ↔ (j ∈ p0 ∨ j = attr - 1) := by
        intro j
        rw [mem_pathOf hok, hbits]
        constructor
        · exact fun h => h.2
        · intro h
          refine ⟨?_, h⟩
          rcases h with h | h
          · have := F5 j h; omega
          · omega
      have hwithin : ∀ p, Within p (Bitset.set spec attr) ↔ ∀ j ∈ p, j ∈ p0 ∨ j = attr - 1 := by
        intro p
        constructor
        · intro h j hj; exact (hbits j).1 (h j hj)
        · intro h j hj; exact (hbits j).2 (h j hj)
      refine ⟨?_, Bitset.reset_set_of_not spec attr hspec_attr⟩
      by_cases hcg : ContainsGeneralization kMaxAttrNum tree (Bitset.set spec attr) a 0 = true
      · simp only [hcg, Bool.not_true, Bool.false_eq_true, if_false]
        obtain ⟨p, hp, hpw⟩ := (ContainsGeneralization_top hn hinv.wf hinv.over _ ha).1 hcg
        refine ⟨hinv.wf, hinv.over, hinv.antichain, hinv.nontrivial, hinv.keeps, hinv.gains, ?_⟩
        intro attr' hattr' hX' hne'
        rcases List.mem_append.1 hattr' with h | h
        · exact hinv.covers attr' h hX' hne'
        · simp only [List.mem_singleton] at h
          subst h
          exact ⟨p, hp, (hwithin p).1 hpw⟩
      · have hcg' : ContainsGeneralization kMaxAttrNum tree (Bitset.set spec attr) a 0 = false := by
          simpa using hcg
        simp only [hcg', Bool.not_false, if_true]
        have hnone : ¬ ∃ p, Rec tree p (a - 1) ∧ Within p (Bitset.set spec attr) := fun h =>
          hcg ((ContainsGeneralization_top hn hinv.wf hinv.over _ ha).2 h)
        have hrec := AddFunctionalDependency_Rec hinv.wf hok a
        refine ⟨AddFunctionalDependency_WF hinv.wf hok a,
          AddFunctionalDependency_Over hinv.wf hinv.over hok ha, ?_, ?_, ?_, ?_, ?_⟩
        · -- antichain
          intro p q b hp hq hsub
          rcases (hrec p b).1 hp with hp1 | ⟨hpe, hb⟩
          · rcases (hrec q b).1 hq with hq1 | ⟨hqe, hb⟩
            · exact hinv.antichain p q b hp1 hq1 hsub
            · exfalso
              subst hb
              apply hnone
              refine ⟨p, hp1, (hwithin p).2 ?_⟩
              intro j hj
              exact (hmemq j).1 (hqe ▸ hsub hj)
          · rcases (hrec q b).1 hq with hq1 | ⟨hqe, _⟩
            · exfalso
              subst hb
              have hp0q : p0 ⊆ q := by
                intro j hj
                apply hsub
                rw [hpe]
                exact (hmemq j).2 (Or.inl hj)
              have hattrq : attr - 1 ∈ q := by
                apply hsub
                rw [hpe]
                exact (hmemq _).2 (Or.inr rfl)
              rcases hinv.gains q _ hq1 with h1 | ⟨_, attr', h1, h2, h3, h4⟩
              · exact F1 q h1 hp0q
              · rcases (h4 (attr - 1)).1 hattrq with h5 | h5
                · have := F2 (attr - 1) h5
                  have e : attr - 1 + 1 = attr := by omega
                  rw [e, hX] at this
                  cases this
                · apply hnone
                  refine ⟨q, hq1, (hwithin q).2 ?_⟩
                  intro j hj
                  rcases (h4 j).1 hj with h6 | h6
                  · exact Or.inl h6
                  · right; omega
            · rw [hpe, hqe]
        · -- nontrivial
          intro p b hp
          rcases (hrec p b).1 hp with hp1 | ⟨hpe, hb⟩
          · exact hinv.nontrivial p b hp1
          · subst hb
            rw [hpe, hmemq]
            rintro (h | h)
            · exact F3 h
            · omega
        · intro q b hq
          exact (hrec q b).2 (Or.inl (hinv.keeps q b hq))
        · intro q b hq
          rcases (hrec q b).1 hq with hq1 | ⟨hqe, hb⟩
          · exact hinv.gains q b hq1
          · right
            refine ⟨hb, attr, hrange.1, hX, hne, ?_⟩
            intro j
            rw [hqe, hmemq]
        · intro attr' hattr' hX' hne'
          rcases List.mem_append.1 hattr' with h | h
          · obtain ⟨q, hq, hqs⟩ := hinv.covers attr' h hX' hne'
            exact ⟨q, (hrec q _).2 (Or.inl hq), hqs⟩
          · simp only [List.mem_singleton] at h
            rw [h]
            exact ⟨pathOf (Bitset.set spec attr), (hrec _ _).2 (Or.inr ⟨rfl, rfl⟩),
              fun j hj => (hmemq j).1 hj⟩
    · simp only [hcond, if_false, Bool.false_eq_true]
      refine ⟨⟨hinv.wf, hinv.over, hinv.antichain, hinv.nontrivial, hinv.keeps, hinv.gains, ?_⟩,
        trivial⟩
      intro attr' hattr' hX' hne'
      rcases List.mem_append.1 hattr' with h | h
      · exact hinv.covers attr' h hX' hne'
      · simp only [List.mem_singleton] at h
        subst h
        exfalso
        apply hcond
        simp [Bitset.test, hX', hne']

end algos.FDep

namespace algos.FDep

open FDTreeElement

theorem SpecializePositiveCover.loop_spec {n lhs a : Nat} (hn : n < kMaxAttrNum) (ha : 1 ≤ a)
    (T0 : FDTreeElement) :
    ∀ (m fuel : Nat) (tree : FDTreeElement), m < fuel →
      SpecializePositiveCover.LoopInv n lhs a T0 tree →
      (∃ S : Finset (Finset Nat), S.card ≤ m ∧
        ∀ p, Rec tree p (a - 1) → Within p lhs → p.toFinset ∈ S) →
      ∃ tree', SpecializePositiveCover.loop n lhs a fuel tree 0 = some tree' ∧
        SpecializePositiveCover.LoopInv n lhs a T0 tree' ∧
        ¬ ∃ p, Rec tree' p (a - 1) ∧ Within p lhs := by
  intro m
  induction m with
  | zero =>
    intro fuel tree hfuel hinv ⟨S, hS, hcover⟩
    obtain ⟨f, rfl⟩ : ∃ f, fuel = f + 1 := ⟨fuel - 1, by omega⟩
    have htop := GetGeneralizationAndDelete_top hn hinv.wf hinv.over hinv.antichain lhs ha
    simp only at htop
    unfold SpecializePositiveCover.loop
    rcases hres : GetGeneralizationAndDelete kMaxAttrNum tree lhs a 0 0 with ⟨fl, t1, spec0⟩
    rw [hres] at htop
    cases fl with
    | false =>
      obtain ⟨h1, h2⟩ := htop.1 rfl
      simp only at h2
      subst h2
      exact ⟨t1, rfl, hinv, h1⟩
    | true =>
      obtain ⟨p0, hp0, hw0, _⟩ := htop.2 rfl
      have := hcover p0 hp0 hw0
      have hS0 : S = ∅ := Finset.card_eq_zero.1 (by omega)
      rw [hS0] at this
      simp at this
  | succ m ih =>
    intro fuel tree hfuel hinv ⟨S, hS, hcover⟩
    obtain ⟨f, rfl⟩ : ∃ f, fuel = f + 1 := ⟨fuel - 1, by omega⟩
    have htop := GetGeneralizationAndDelete_top hn hinv.wf hinv.over hinv.antichain lhs ha
    simp only at htop
    unfold SpecializePositiveCover.loop
    rcases hres : GetGeneralizationAndDelete kMaxAttrNum tree lhs a 0 0 with ⟨fl, t1, spec0⟩
    rw [hres] at htop
    cases fl with
    | false =>
      obtain ⟨h1, h2⟩ := htop.1 rfl
      simp only at h2
      subst h2
      exact ⟨t1, rfl, hinv, h1⟩
    | true =>
      obtain ⟨p0, hp0, hw0, hbits, hrec, hwf1, hov1⟩ := htop.2 rfl
      simp only at hbits hrec hwf1 hov1
      simp only
      have hsub1 : ∀ q b, Rec t1 q b → Rec tree q b := fun q b h => ((hrec q b).1 h).1
      have F1 : ∀ r, Rec t1 r (a - 1) → ¬ p0 ⊆ r := by
        intro r hr hsub
        have h1 := (hrec r _).1 hr
        exact h1.2 ⟨(hinv.antichain p0 r _ hp0 h1.1 hsub).symm, rfl⟩
      have F3 : a - 1 ∉ p0 := hinv.nontrivial p0 _ hp0
      have F5 : ∀ i ∈ p0, i < n := by
        obtain ⟨v, hv, _⟩ := hp0
        intro i hi
        exact ((hinv.wf.lookup p0 hv).2.1 i hi).2
      have hac1 : Antichain t1 := fun p q b hp hq hs =>
        hinv.antichain p q b (hsub1 p b hp) (hsub1 q b hq) hs
      have hnt1 : NonTrivial t1 := fun p b hp => hinv.nontrivial p b (hsub1 p b hp)
      obtain ⟨hb, _⟩ := SpecializePositiveCover.body_inv hn ha F1 hw0 F3 hbits F5 hwf1 hov1
        hac1 hnt1
      apply ih f _ (by omega)
      · refine ⟨hb.wf, hb.over, hb.antichain, hb.nontrivial, ?_, ?_, ?_⟩
        · intro q b hne
          rw [← hinv.frame q b hne]
          constructor
          · intro h
            rcases hb.gains q b h with h1 | ⟨h1, _⟩
            · exact hsub1 q b h1
            · exact absurd h1 hne
          · intro h
            exact hb.keeps q b ((hrec q b).2 ⟨h, fun hh => hne hh.2⟩)
        · intro q hq
          rcases hb.gains q _ hq with h1 | ⟨_, attr, _, _, _, h4⟩
          · exact hinv.refines q (hsub1 q _ h1)
          · obtain ⟨q0, hq0, hq0s⟩ := hinv.refines p0 hp0
            exact ⟨q0, hq0, fun j hj => (h4 j).2 (Or.inl (hq0s hj))⟩
        · intro Z hZ0 hZn hZa hZw
          obtain ⟨q, hq, hqs⟩ := hinv.covers Z hZ0 hZn hZa hZw
          by_cases hqp : q = p0
          · subst hqp
            have : ∃ z ∈ Z, Nat.testBit lhs (z + 1) = false := by
              by_contra hcon
              apply hZw
              intro z hz
              by_contra hz2
              exact hcon ⟨z, hz, by simpa using hz2⟩
            obtain ⟨z, hz, hzb⟩ := this
            have hmem : z + 1 ∈ (List.range' 1 n).reverse := by
              rw [List.mem_reverse, List.mem_range'_1]
              have := hZn z hz
              omega
            have hza : z + 1 ≠ a := by
              intro h
              apply hZa
              have : z = a - 1 := by omega
              rw [← this]; exact hz
            obtain ⟨q', hq', hq's⟩ := hb.covers (z + 1) hmem hzb hza
            refine ⟨q', hq', ?_⟩
            intro j hj
            rcases hq's j hj with h | h
            · exact hqs h
            · have : j = z := by omega
              rw [this]; exact hz
          · exact ⟨q, hb.keeps q _ ((hrec q _).2 ⟨hq, fun hh => hqp hh.1⟩), hqs⟩
      · refine ⟨S.erase p0.toFinset, ?_, ?_⟩
        · have hmem := hcover p0 hp0 hw0
          rw [Finset.card_erase_of_mem hmem]
          omega
        · intro p hp hpw
          rcases hb.gains p _ hp with h1 | ⟨_, attr, h1, h2, _, h4⟩
          · have h3 := (hrec p _).1 h1
            refine Finset.mem_erase.2 ⟨?_, hcover p h3.1 hpw⟩
            intro heq
            apply h3.2
            refine ⟨hinv.antichain p p0 _ h3.1 hp0 ?_, rfl⟩
            intro j hj
            have : j ∈ p.toFinset := List.mem_toFinset.2 hj
            rw [heq] at this
            exact List.mem_toFinset.1 this
          · exfalso
            have := hpw (attr - 1) ((h4 _).2 (Or.inr rfl))
            have e : attr - 1 + 1 = attr := by omega
            rw [e, h2] at this
            cases this

/-- `SpecializePositiveCover(lhs, a)` finishes, and afterwards no recorded LHS for `a`
lies within `lhs`. -/
theorem SpecializePositiveCover_spec {n lhs a : Nat} (hn : n < kMaxAttrNum) (ha : 1 ≤ a)
    {tree : FDTreeElement} (hwf : WF n 0 tree) (hov : Over tree) (hac : Antichain tree)
    (hnt : NonTrivial tree) :
    ∃ tree', SpecializePositiveCover n tree lhs a = some tree' ∧
      SpecializePositiveCover.LoopInv n lhs a tree tree' ∧
      ¬ ∃ p, Rec tree' p (a - 1) ∧ Within p lhs := by
  unfold SpecializePositiveCover
  apply SpecializePositiveCover.loop_spec hn ha tree (2 ^ n) (2 ^ n + 1) tree (by omega)
  · exact ⟨hwf, hov, hac, hnt, fun _ _ _ => Iff.rfl, fun q hq => ⟨q, hq, fun _ h => h⟩,
      fun Z hZ _ _ _ => hZ⟩
  · refine ⟨(Finset.range n).powerset, ?_, ?_⟩
    · rw [Finset.card_powerset, Finset.card_range]
    · intro p hp _
      rw [Finset.mem_powerset]
      intro j hj
      obtain ⟨v, hv, _⟩ := hp
      exact Finset.mem_range.2 ((hwf.lookup p hv).2.1 j (List.mem_toFinset.1 hj)).2

end algos.FDep

theorem PathBits_nil : PathBits [] 0 := by
  intro j
  simp

theorem PathBits.within_iff {P : List Nat} {ap : Nat} (h : PathBits P ap) (p : List Nat) :
    Within p ap ↔ p ⊆ P := by
  constructor
  · intro hw i hi
    obtain ⟨i', hi', he⟩ := (h (i + 1)).1 (hw i hi)
    have : i = i' := by omega
    rw [this]; exact hi'
  · intro hs i hi
    exact (h (i + 1)).2 ⟨i, hs hi, rfl⟩

theorem PathBits.snoc {P : List Nat} {ap : Nat} (h : PathBits P ap) (i : Nat) :
    PathBits (P ++ [i]) (Bitset.set ap (i + 1)) := by
  intro j
  have := Bitset.test_set ap (i + 1) j
  simp only [Bitset.test] at this
  rw [this]
  simp only [Bool.or_eq_true, decide_eq_true_eq, h j, List.mem_append, List.mem_singleton]
  constructor
  · rintro (⟨i', hi', he⟩ | he)
    · exact ⟨i', Or.inl hi', he⟩
    · exact ⟨i, Or.inr rfl, he.symm⟩
  · rintro ⟨i', hi' | hi', he⟩
    · exact Or.inl ⟨i', hi', he⟩
    · right; rw [he, hi']

theorem PathBits.reset_snoc {P : List Nat} {ap : Nat} (h : PathBits P ap) {i : Nat}
    (hi : i ∉ P) : Bitset.reset (Bitset.set ap (i + 1)) (i + 1) = ap := by
  apply Bitset.reset_set_of_not
  cases hb : Bitset.test ap (i + 1) with
  | false => rfl
  | true =>
    obtain ⟨i', hi', he⟩ := (h (i + 1)).1 hb
    have : i = i' := by omega
    rw [this] at hi
    exact absurd hi' hi

theorem PathBits.lhsOk {P : List Nat} {ap : Nat} (h : PathBits P ap) {n : Nat}
    (hP : ∀ i ∈ P, i < n) : LhsOk n ap := by
  intro j _ hj
  obtain ⟨i, hi, rfl⟩ := (h j).1 hj
  have := hP i hi
  omega

namespace algos.FDep

open FDTreeElement

theorem CalculatePositiveCover.Inv.congr {n : Nat} {D D' : List Nat → Nat → Prop}
    {pos : FDTreeElement} (h : CalculatePositiveCover.Inv n D pos)
    (hD : ∀ X a, D' X a ↔ D X a) : CalculatePositiveCover.Inv n D' pos :=
  ⟨h.wf, h.over, h.antichain, h.nontrivial,
    fun X a hd => h.sound X a ((hD X a).1 hd),
    fun Z a ha hZ haZ hno => h.complete Z a ha hZ haZ (fun X hd => hno X ((hD X a).2 hd))⟩

/-- One call of `SpecializePositiveCover` handles one more negative witness. -/
theorem CalculatePositiveCover.Inv.step {n : Nat} (hn : n < kMaxAttrNum)
    {D : List Nat → Nat → Prop} {pos : FDTreeElement} (h : CalculatePositiveCover.Inv n D pos)
    {X : List Nat} {ap : Nat} (hX : PathBits X ap) {a : Nat} (ha : 1 ≤ a) :
    ∃ pos', SpecializePositiveCover n pos ap a = some pos' ∧
      CalculatePositiveCover.Inv n (fun Y b => D Y b ∨ (Y = X ∧ b = a - 1)) pos' := by
  obtain ⟨pos', h1, h2, h3⟩ := @SpecializePositiveCover_spec n ap a hn ha pos h.wf h.over
    h.antichain h.nontrivial
  refine ⟨pos', h1, h2.wf, h2.over, h2.antichain, h2.nontrivial, ?_, ?_⟩
  · rintro Y b (hd | ⟨rfl, rfl⟩) ⟨p, hp, hps⟩
    · by_cases hb : b = a - 1
      · subst hb
        obtain ⟨q0, hq0, hq0s⟩ := h2.refines p hp
        exact h.sound Y _ hd ⟨q0, hq0, fun j hj => hps (hq0s hj)⟩
      · exact h.sound Y b hd ⟨p, (h2.frame p b hb).1 hp, hps⟩
    · exact h3 ⟨p, hp, (hX.within_iff p).2 hps⟩
  · intro Z b hb hZ hbZ hno
    obtain ⟨q0, hq0, hq0s⟩ := h.complete Z b hb hZ hbZ (fun Y hd => hno Y (Or.inl hd))
    by_cases hba : b = a - 1
    · subst hba
      exact h2.covers Z ⟨q0, hq0, hq0s⟩ hZ hbZ
        (fun hw => hno X (Or.inr ⟨rfl, rfl⟩) ((hX.within_iff Z).1 hw))
    · exact ⟨q0, (h2.frame q0 b hba).2 hq0, hq0s⟩

end algos.FDep

namespace algos.FDep

open FDTreeElement

/-- `CalculatePositiveCover` on the subtree `v` at path `P` of the negative cover
finishes, restores `active_path`, and handles every FD recorded in `v`. -/
theorem CalculatePositiveCover_spec {n : Nat} (hn : n < kMaxAttrNum) :
    ∀ (fuel : Nat) (v : FDTreeElement) (P : List Nat) (ap : Nat) (pos : FDTreeElement)
      (D : List Nat → Nat → Prop) (k : Nat), height v ≤ fuel → WF n k v → (∀ i ∈ P, i < k) →
      PathBits P ap → CalculatePositiveCover.Inv n D pos →
      ∃ pos', CalculatePositiveCover n fuel v (pos, ap) = some (pos', ap) ∧
        CalculatePositiveCover.Inv n
          (fun X b => D X b ∨ ∃ q, X = P ++ q ∧ Rec v q b ∧ b < n) pos'
  | 0, v, _, _, _, _, _, hh, _, _, _, _ => by
    have := height_pos v
    omega
  | fuel + 1, v, P, ap, pos, D, k, hh, hwf, hP, hap, hinv => by
    unfold CalculatePositiveCover
    -- the FDs of the node itself
    have h1 := foldl_prefix_inv (CalculatePositiveCover.own n v)
      (fun done acc => ∃ pos1, acc = some (pos1, ap) ∧
        CalculatePositiveCover.Inv n
          (fun X b => D X b ∨ (X = P ∧ b + 1 ∈ done ∧ Nat.testBit v.is_fd_ b = true)) pos1)
      (List.range' 1 n) [] (some (pos, ap))
      ⟨pos, rfl, hinv.congr (fun X b => by simp)⟩ ?_
    · obtain ⟨pos1, e1, inv1⟩ := h1
      rw [e1]
      -- the subtrees
      have h2 := foldl_prefix_inv
        (CalculatePositiveCover.child (CalculatePositiveCover n fuel) v)
        (fun done acc => ∃ pos2, acc = some (pos2, ap) ∧
          CalculatePositiveCover.Inv n
            (fun X b => (D X b ∨ (X = P ∧ b + 1 ∈ [] ++ List.range' 1 n ∧
                Nat.testBit v.is_fd_ b = true)) ∨
              ∃ i c q, i + 1 ∈ done ∧ v.GetChild i = some c ∧ X = P ++ i :: q ∧ Rec c q b ∧
                b < n) pos2)
        (List.range' 1 n) [] (some (pos1, ap))
        ⟨pos1, rfl, inv1.congr (fun X b => by simp)⟩ ?_
      · obtain ⟨pos2, e2, inv2⟩ := h2
        refine ⟨pos2, e2, inv2.congr ?_⟩
        intro X b
        simp only [List.nil_append, List.mem_range'_1]
        constructor
        · rintro (hd | ⟨q, rfl, hq, hb⟩)
          · exact Or.inl (Or.inl hd)
          · cases q with
            | nil =>
              left; right
              exact ⟨by simp, ⟨by omega, by omega⟩, (Rec_nil v b).1 hq⟩
            | cons i q =>
              right
              obtain ⟨c, hc, hrc⟩ := Rec_cons hq
              have := (hwf.child hc).2.1
              exact ⟨i, c, q, ⟨by omega, by omega⟩, hc, rfl, hrc, hb⟩
        · rintro ((hd | ⟨rfl, hb, hfd⟩) | ⟨i, c, q, _, hc, rfl, hrc, hb⟩)
          · exact Or.inl hd
          · exact Or.inr ⟨[], by simp, (Rec_nil v b).2 hfd, by omega⟩
          · exact Or.inr ⟨i :: q, rfl, (Rec_cons_some hc q b).2 hrc, hb⟩
      · rintro done attr acc hattr ⟨pos2, e2, inv2⟩
        rw [List.mem_range'_1] at hattr
        subst e2
        unfold CalculatePositiveCover.child
        simp only [Option.some_bind]
        cases hc : v.GetChild (attr - 1) with
        | none =>
          simp only
          refine ⟨pos2, rfl, inv2.congr ?_⟩
          intro X b
          constructor
          · rintro (h | ⟨i, c, q, hi, hic, hrest⟩)
            · exact Or.inl h
            · rcases List.mem_append.1 hi with hi | hi
              · exact Or.inr ⟨i, c, q, hi, hic, hrest⟩
              · simp only [List.mem_singleton] at hi
                have : i = attr - 1 := by omega
                rw [this, hc] at hic
                cases hic
          · rintro (h | ⟨i, c, q, hi, hrest⟩)
            · exact Or.inl h
            · exact Or.inr ⟨i, c, q, List.mem_append_left _ hi, hrest⟩
        | some c =>
          simp only
          have hcw := hwf.child hc
          have hnotin : attr - 1 ∉ P := fun h => by
            have := hP _ h
            omega
          have e : attr - 1 + 1 = attr := by omega
          have hap' : PathBits (P ++ [attr - 1]) (Bitset.set ap attr) := by
            have := hap.snoc (attr - 1)
            rwa [e] at this
          obtain ⟨pos3, e3, inv3⟩ := CalculatePositiveCover_spec hn fuel c (P ++ [attr - 1])
            (Bitset.set ap attr) pos2 _ (attr - 1 + 1)
            (by have := height_child hc; omega) hcw.2.2
            (by
              intro i hi
              rcases List.mem_append.1 hi with hi | hi
              · have := hP i hi; omega
              · simp only [List.mem_singleton] at hi; omega)
            hap' inv2
          rw [e3]
          simp only [Option.map_some']
          have hres := hap.reset_snoc hnotin
          rw [e] at hres
          rw [hres]
          refine ⟨pos3, rfl, inv3.congr ?_⟩
          intro X b
          constructor
          · rintro (h | ⟨i, c', q, hi, hic, hX, hrest⟩)
            · exact Or.inl (Or.inl h)
            · rcases List.mem_append.1 hi with hi | hi
              · exact Or.inl (Or.inr ⟨i, c', q, hi, hic, hX, hrest⟩)
              · simp only [List.mem_singleton] at hi
                have hi' : i = attr - 1 := by omega
                subst hi'
                rw [hc] at hic
                cases hic
                exact Or.inr ⟨q, by simp [hX], hrest⟩
          · rintro ((h | ⟨i, c', q, hi, hrest⟩) | ⟨q, hX, hrest⟩)
            · exact Or.inl h
            · exact Or.inr ⟨i, c', q, List.mem_append_left _ hi, hrest⟩
            · exact Or.inr ⟨attr - 1, c, q, by simp [e], hc, by simp [hX], hrest⟩
    · rintro done attr acc hattr ⟨pos1, e1, inv1⟩
      rw [List.mem_range'_1] at hattr
      subst e1
      unfold CalculatePositiveCover.own
      simp only [Option.some_bind]
      by_cases hfd : v.CheckFd (attr - 1) = true
      · simp only [hfd, if_true]
        obtain ⟨pos', hs, inv'⟩ := inv1.step hn hap (show 1 ≤ attr by omega)
        rw [hs]
        simp only [Option.map_some']
        refine ⟨pos', rfl, inv'.congr ?_⟩
        intro X b
        constructor
        · rintro (h | ⟨hX, hb, hbit⟩)
          · exact Or.inl (Or.inl h)
          · rcases List.mem_append.1 hb with hb | hb
            · exact Or.inl (Or.inr ⟨hX, hb, hbit⟩)
            · simp only [List.mem_singleton] at hb
              exact Or.inr ⟨hX, by omega⟩
        · rintro ((h | ⟨hX, hb, hbit⟩) | ⟨hX, hb⟩)
          · exact Or.inl h
          · exact Or.inr ⟨hX, List.mem_append_left _ hb, hbit⟩
          · refine Or.inr ⟨hX, ?_, ?_⟩
            · simp only [List.mem_append, List.mem_singleton]
              right; omega
            · rw [hb]; exact hfd
      · simp only [hfd, if_false, Bool.false_eq_true]
        refine ⟨pos1, rfl, inv1.congr ?_⟩
        intro X b
        constructor
        · rintro (h | ⟨hX, hb, hbit⟩)
          · exact Or.inl h
          · rcases List.mem_append.1 hb with hb | hb
            · exact Or.inr ⟨hX, hb, hbit⟩
            · simp only [List.mem_singleton] at hb
              exfalso
              apply hfd
              have : b = attr - 1 := by omega
              rw [← this]
              exact hbit
        · rintro (h | ⟨hX, hb, hbit⟩)
          · exact Or.inl h
          · exact Or.inr ⟨hX, List.mem_append_left _ hb, hbit⟩

end algos.FDep

namespace FDTreeElement

/-! ### AddMostGeneralDependencies -/

theorem testBit_foldl_set (L : List Nat) (b j : Nat) :
    Nat.testBit (L.foldl (fun b i => Bitset.set b i) b) j = true ↔
      (Nat.testBit b j = true ∨ j ∈ L) := by
  induction L generalizing b with
  | nil => simp
  | cons x rest ih =>
    rw [List.foldl_cons, ih]
    have := Bitset.test_set b x j
    simp only [Bitset.test] at this
    rw [this]
    simp only [Bool.or_eq_true, decide_eq_true_eq, List.mem_cons]
    constructor
    · rintro ((h | h) | h)
      · exact Or.inl h
      · exact Or.inr (Or.inl h.symm)
      · exact Or.inr (Or.inr h)
    · rintro (h | h | h)
      · exact Or.inl (Or.inl h)
      · exact Or.inl (Or.inr h.symm)
      · exact Or.inr h

theorem testBit_foldl_assign_true (L : List Nat) (b j : Nat) :
    Nat.testBit (L.foldl (fun b i => Bitset.assign b i true) b) j = true ↔
      (Nat.testBit b j = true ∨ j ∈ L) := by
  have : (fun (b : Nat) (i : Nat) => Bitset.assign b i true) = fun b i => Bitset.set b i := by
    funext b i
    simp [Bitset.assign]
  rw [this]
  exact testBit_foldl_set L b j

theorem Rec_AddMostGeneral (n : Nat) (p : List Nat) (b : Nat) :
    Rec (new n).AddMostGeneralDependencies p b ↔ (p = [] ∧ b < n) := by
  cases p with
  | nil =>
    rw [Rec_nil]
    show Nat.testBit ((List.range n).foldl (fun b i => Bitset.assign b i true) 0) b = true ↔ _
    rw [testBit_foldl_assign_true]
    simp
  | cons i p =>
    have : (new n).AddMostGeneralDependencies.GetChild i = none := GetChild_new n i
    exact ⟨fun h => absurd h (Rec_cons_none this p b), fun h => by cases h.1⟩

theorem WF_AddMostGeneral (n : Nat) : WF n 0 (new n).AddMostGeneralDependencies :=
  WF.mk 0 _ (by show (List.replicate n none).length = n; simp) rfl
    (fun i c hc => by
      have : (new n).AddMostGeneralDependencies.GetChild i = none := GetChild_new n i
      rw [this] at hc; cases hc)
    (fun i c hc => by
      have : (new n).AddMostGeneralDependencies.GetChild i = none := GetChild_new n i
      rw [this] at hc; cases hc)

theorem Over_AddMostGeneral (n : Nat) : Over (new n).AddMostGeneralDependencies := by
  refine Over.mk _ ?_ ?_
  · intro q a hr
    have ha := ((Rec_AddMostGeneral n q a).1 hr).2
    show Nat.testBit ((List.range' 1 n).foldl (fun b i => Bitset.set b i) 0) (a + 1) = true
    rw [testBit_foldl_set]
    right
    rw [List.mem_range'_1]
    omega
  · intro i c hc
    have : (new n).AddMostGeneralDependencies.GetChild i = none := GetChild_new n i
    rw [this] at hc; cases hc

/-! ### GetSpecialization finds only what is recorded -/

theorem GetSpecialization.scan_true (self : FDTreeElement) (a : Nat)
    (rec : FDTreeElement → Nat → Bool × Nat) :
    ∀ (steps attr out : Nat),
      (GetSpecialization.scan self a rec steps attr false out).1 = true →
      ∃ attr0 c out0, self.GetChild (attr0 - 1) = some c ∧ (rec c out0).1 = true
  | 0, attr, out, h => by
    unfold GetSpecialization.scan at h
    cases h
  | steps + 1, attr, out, h => by
    unfold GetSpecialization.scan at h
    simp only [Bool.false_eq_true, if_false] at h
    cases hc : self.GetChild (attr - 1) with
    | none =>
      rw [hc] at h
      exact GetSpecialization.scan_true self a rec steps (attr + 1) out h
    | some c =>
      rw [hc] at h
      simp only at h
      split at h
      · cases hr : (rec c out).1 with
        | true => exact ⟨attr, c, out, hc, hr⟩
        | false =>
          rw [hr] at h
          exact GetSpecialization.scan_true self a rec steps (attr + 1) _ h
      · exact GetSpecialization.scan_true self a rec steps (attr + 1) out h

/-- When `GetSpecialization` answers `true`, the subtree records an FD for `attr_num`
whose path contains every column of `lhs` above the cursor. -/
theorem GetSpecialization_sound (lhs a : Nat) (ha : 1 ≤ a) :
    ∀ (fuel : Nat) (t : FDTreeElement) (cur out : Nat), Under t → cur < kMaxAttrNum →
      (GetSpecialization fuel t lhs a cur out).1 = true →
      ∃ q, Rec t q (a - 1) ∧
        ∀ j, cur < j → j < kMaxAttrNum → Nat.testBit lhs j = true → j - 1 ∈ q
  | 0, t, cur, out, _, _, h => by
    unfold GetSpecialization at h
    cases h
  | fuel + 1, t, cur, out, hu, hcur, h => by
    unfold GetSpecialization at h
    have ea : a - 1 + 1 = a := by omega
    by_cases hrhs : Bitset.test t.rhs_attributes_ a = true
    · simp only [hrhs, Bool.not_true, Bool.false_eq_true, if_false] at h
      rcases Bitset.Find_next_spec lhs cur hcur with ⟨hn, hnone⟩ | ⟨hn1, hn2, hn3, hn4⟩
      · obtain ⟨q, hq⟩ := hu.root_witness (a := a - 1) (by rw [ea]; exact hrhs)
        refine ⟨q, hq, ?_⟩
        intro j h1 h2 h3
        rw [hnone j h1 h2] at h3
        cases h3
      · have hne : Bitset.Find_next lhs cur ≠ kMaxAttrNum := by omega
        simp only [hne, if_false] at h
        generalize hscan : GetSpecialization.scan t a
          (fun child out => GetSpecialization fuel child lhs a cur out)
          (Bitset.Find_next lhs cur - if cur > 1 then cur else 1)
          (if cur > 1 then cur else 1) false out = r at h
        cases hr1 : r.1 with
        | true =>
          obtain ⟨attr0, c, out0, hc, hrec⟩ := GetSpecialization.scan_true t a _ _ _ _
            (by rw [hscan]; exact hr1)
          obtain ⟨q, hq, hqs⟩ := GetSpecialization_sound lhs a ha fuel c cur out0 (hu.child_under hc)
            hcur hrec
          exact ⟨(attr0 - 1) :: q, (Rec_cons_some hc q _).2 hq,
            fun j h1 h2 h3 => List.mem_cons_of_mem _ (hqs j h1 h2 h3)⟩
        | false =>
          rw [hr1] at h
          simp only [Bool.not_false, Bool.true_and] at h
          by_cases hch : t.childHasRhs (Bitset.Find_next lhs cur - 1) a = true
          · simp only [hch, if_true] at h
            cases hc : t.GetChild (Bitset.Find_next lhs cur - 1) with
            | none =>
              rw [hc] at h
              cases h
            | some c =>
              rw [hc] at h
              simp only at h
              obtain ⟨q, hq, hqs⟩ := GetSpecialization_sound lhs a ha fuel c
                (Bitset.Find_next lhs cur) r.2.2 (hu.child_under hc) hn2 h
              refine ⟨(Bitset.Find_next lhs cur - 1) :: q, (Rec_cons_some hc q _).2 hq, ?_⟩
              intro j h1 h2 h3
              have hle : Bitset.Find_next lhs cur ≤ j := by
                by_contra hlt
                have := hn4 j h1 (by omega)
                rw [this] at h3; cases h3
              rcases Nat.eq_or_lt_of_le hle with heq | hlt
              · rw [← heq]; exact List.mem_cons_self _ _
              · exact List.mem_cons_of_mem _ (hqs j hlt h2 h3)
          · simp only [hch, if_false, Bool.false_eq_true] at h
    · simp only [hrhs, Bool.not_false, if_true] at h
      cases h

end FDTreeElement

namespace FDTreeElement

theorem GetSpecialization.scan_congr (self : FDTreeElement) (a : Nat)
    (rec1 rec2 : FDTreeElement → Nat → Bool × Nat)
    (h : ∀ i c out, self.GetChild i = some c → rec1 c out = rec2 c out) :
    ∀ (steps attr : Nat) (found : Bool) (out : Nat),
      GetSpecialization.scan self a rec1 steps attr found out =
        GetSpecialization.scan self a rec2 steps attr found out
  | 0, attr, found, out => by
    unfold GetSpecialization.scan
    rfl
  | steps + 1, attr, found, out => by
    unfold GetSpecialization.scan
    cases hc : self.GetChild (attr - 1) with
    | none =>
      simp only
      rw [GetSpecialization.scan_congr self a rec1 rec2 h steps]
    | some c =>
      simp only
      rw [h _ c out hc, GetSpecialization.scan_congr self a rec1 rec2 h steps,
        GetSpecialization.scan_congr self a rec1 rec2 h steps]

/-- The fuel of `GetSpecialization` is enough as soon as it reaches the height of the
tree: more fuel does not change the result. -/
theorem GetSpecialization_fuel (lhs a : Nat) :
    ∀ (fuel fuel' : Nat) (t : FDTreeElement) (cur out : Nat), height t ≤ fuel →
      height t ≤ fuel' →
      GetSpecialization fuel t lhs a cur out = GetSpecialization fuel' t lhs a cur out
  | 0, _, t, _, _, h, _ => by
    have := height_pos t
    omega
  | _ + 1, 0, t, _, _, _, h => by
    have := height_pos t
    omega
  | f + 1, f' + 1, t, cur, out, h1, h2 => by
    have hrec : ∀ cur' i c out', t.GetChild i = some c →
        GetSpecialization f c lhs a cur' out' = GetSpecialization f' c lhs a cur' out' := by
      intro cur' i c out' hc
      have := height_child hc
      exact GetSpecialization_fuel lhs a f f' c cur' out' (by omega) (by omega)
    unfold GetSpecialization
    simp only []
    rw [GetSpecialization.scan_congr t a
        (fun child out => GetSpecialization f child lhs a cur out)
        (fun child out => GetSpecialization f' child lhs a cur out)
        (fun i c out' hc => hrec cur i c out' hc),
      GetSpecialization.scan_congr t a
        (fun child out => GetSpecialization f child lhs a cur out)
        (fun child out => GetSpecialization f' child lhs a cur out)
        (fun i c out' hc => hrec cur i c out' hc)]
    cases hc : t.GetChild (Bitset.Find_next lhs cur - 1) with
    | none => rfl
    | some c =>
      simp only
      rw [hrec _ _ c _ hc]

end FDTreeElement

namespace FDTreeElement

theorem FilterSpecializationsHelper_spec {n : Nat} (hn : n < kMaxAttrNum)
    (Src : List Nat → Nat → Prop) :
    ∀ (fuel : Nat) (v : FDTreeElement) (P : List Nat) (ap : Nat) (f : FDTreeElement) (k : Nat),
      height v ≤ fuel → WF n k v → (∀ i ∈ P, i < k) → (∀ i ∈ P, i < n) → PathBits P ap →
      (∀ q b, Rec v q b → Src (P ++ q) b) → FilterSpecializations.Inv n Src f →
      (FilterSpecializationsHelper fuel v f ap).2 = ap ∧
      FilterSpecializations.Inv n Src (FilterSpecializationsHelper fuel v f ap).1 ∧
      (∀ X b, Rec f X b → Rec (FilterSpecializationsHelper fuel v f ap).1 X b) ∧
      (∀ q b, Rec v q b → b < n →
        ∃ X, Rec (FilterSpecializationsHelper fuel v f ap).1 X b ∧ P ++ q ⊆ X)
  | 0, v, _, _, _, _, hh, _, _, _, _, _, _ => by
    have := height_pos v
    omega
  | fuel + 1, v, P, ap, f, k, hh, hwf, hPk, hPn, hap, hsrc, hinv => by
    unfold FilterSpecializationsHelper
    simp only [hwf.max]
    have h1 := foldl_prefix_inv
      (FilterSpecializationsHelper.child (FilterSpecializationsHelper fuel) v)
      (fun done s => s.2 = ap ∧ FilterSpecializations.Inv n Src s.1 ∧
        (∀ X b, Rec f X b → Rec s.1 X b) ∧
        (∀ i c q b, i + 1 ∈ done → v.GetChild i = some c → Rec c q b → b < n →
          ∃ X, Rec s.1 X b ∧ P ++ i :: q ⊆ X))
      (List.range' 1 n) [] (f, ap)
      ⟨rfl, hinv, fun _ _ h => h, fun i c q b hi => by cases hi⟩ ?_
    · generalize List.foldl (FilterSpecializationsHelper.child (FilterSpecializationsHelper fuel) v)
        (f, ap) (List.range' 1 n) = s1 at h1
      obtain ⟨f1, ap1⟩ := s1
      obtain ⟨e1, inv1, mono1, cov1⟩ := h1
      simp only at e1 inv1 mono1 cov1
      subst e1
      have h2 := foldl_prefix_inv (FilterSpecializationsHelper.own v ap1)
        (fun done f' => FilterSpecializations.Inv n Src f' ∧
          (∀ X b, Rec f1 X b → Rec f' X b) ∧
          (∀ b, b + 1 ∈ done → Nat.testBit v.is_fd_ b = true → ∃ X, Rec f' X b ∧ P ⊆ X))
        (List.range' 1 n) [] f1
        ⟨inv1, fun _ _ h => h, fun b hb => by cases hb⟩ ?_
      · obtain ⟨inv2, mono2, cov2⟩ := h2
        refine ⟨rfl, inv2, fun X b h => mono2 X b (mono1 X b h), ?_⟩
        intro q b hq hb
        cases q with
        | nil =>
          obtain ⟨X, hX, hPX⟩ := cov2 b (by simp [List.mem_range'_1]; omega) ((Rec_nil v b).1 hq)
          exact ⟨X, hX, by simpa using hPX⟩
        | cons i q =>
          obtain ⟨c, hc, hrc⟩ := Rec_cons hq
          have := (hwf.child hc).2.1
          obtain ⟨X, hX, hPX⟩ := cov1 i c q b (by simp [List.mem_range'_1]; omega) hc hrc hb
          exact ⟨X, mono2 X b hX, hPX⟩
      · rintro done attr f' hattr ⟨inv', mono', cov'⟩
        rw [List.mem_range'_1] at hattr
        have hok : LhsOk n ap1 := hap.lhsOk hPn
        unfold FilterSpecializationsHelper.own
        by_cases hcond : (Bitset.test v.is_fd_ (attr - 1) &&
            !(GetSpecialization f'.height f' ap1 attr 0 0).1) = true
        · simp only [hcond, if_true]
          simp only [Bool.and_eq_true, Bool.not_eq_true'] at hcond
          have hrec := AddFunctionalDependency_Rec inv'.wf hok attr
          refine ⟨⟨AddFunctionalDependency_WF inv'.wf hok attr,
            AddFunctionalDependency_Under inv'.wf inv'.under hok (by omega), ?_⟩, ?_, ?_⟩
          · intro X b hX
            rcases (hrec X b).1 hX with h | ⟨h1, h2⟩
            · exact inv'.src X b h
            · refine ⟨P, ?_, ?_⟩
              · have := hsrc [] b ((Rec_nil v b).2 (by rw [h2]; exact hcond.1))
                simpa using this
              · intro j hj
                rw [h1, mem_pathOf hok] at hj
                obtain ⟨i, hi, he⟩ := (hap j.succ).1 hj.2
                have : j = i := by omega
                rw [this]; exact hi
          · intro X b hX
            exact (hrec X b).2 (Or.inl (mono' X b hX))
          · intro b hb hbit
            rcases List.mem_append.1 hb with hb | hb
            · obtain ⟨X, hX, hPX⟩ := cov' b hb hbit
              exact ⟨X, (hrec X b).2 (Or.inl hX), hPX⟩
            · simp only [List.mem_singleton] at hb
              refine ⟨pathOf ap1, (hrec _ _).2 (Or.inr ⟨rfl, by omega⟩), ?_⟩
              intro j hj
              rw [mem_pathOf hok]
              have := hPn j hj
              exact ⟨by omega, (hap (j + 1)).2 ⟨j, hj, rfl⟩⟩
        · simp only [hcond, if_false, Bool.false_eq_true]
          refine ⟨inv', mono', ?_⟩
          intro b hb hbit
          rcases List.mem_append.1 hb with hb | hb
          · exact cov' b hb hbit
          · simp only [List.mem_singleton] at hb
            have hb' : b = attr - 1 := by omega
            subst hb'
            have hspec : (GetSpecialization f'.height f' ap1 attr 0 0).1 = true := by
              cases h : (GetSpecialization f'.height f' ap1 attr 0 0).1 with
              | true => rfl
              | false =>
                exfalso
                apply hcond
                simp only [Bitset.test, hbit, h, Bool.not_false, Bool.and_self]
            obtain ⟨q, hq, hqs⟩ := GetSpecialization_sound ap1 attr (by omega) _ f' 0 0
              inv'.under (by decide) hspec
            refine ⟨q, hq, ?_⟩
            intro j hj
            have := hPn j hj
            have := hqs (j + 1) (by omega) (by omega) ((hap (j + 1)).2 ⟨j, hj, rfl⟩)
            simpa using this
    · rintro done attr ⟨f', ap'⟩ hattr ⟨e', inv', mono', cov'⟩
      simp only at e' inv' mono' cov'
      subst e'
      rw [List.mem_range'_1] at hattr
      unfold FilterSpecializationsHelper.child
      cases hc : v.GetChild (attr - 1) with
      | none =>
        simp only
        refine ⟨trivial, inv', mono', ?_⟩
        intro i c q b hi hic hrc hb
        rcases List.mem_append.1 hi with hi | hi
        · exact cov' i c q b hi hic hrc hb
        · simp only [List.mem_singleton] at hi
          have : i = attr - 1 := by omega
          rw [this, hc] at hic
          cases hic
      | some c =>
        simp only
        have hcw := hwf.child hc
        have e : attr - 1 + 1 = attr := by omega
        have hnotin : attr - 1 ∉ P := fun h => by
          have := hPk _ h
          omega
        have hap' : PathBits (P ++ [attr - 1]) (Bitset.set ap' attr) := by
          have := hap.snoc (attr - 1)
          rwa [e] at this
        obtain ⟨r1, r2, r3, r4⟩ := FilterSpecializationsHelper_spec hn Src fuel c
          (P ++ [attr - 1]) (Bitset.set ap' attr) f' (attr - 1 + 1)
          (by have := height_child hc; omega) hcw.2.2
          (by
            intro i hi
            rcases List.mem_append.1 hi with hi | hi
            · have := hPk i hi; omega
            · simp only [List.mem_singleton] at hi; omega)
          (by
            intro i hi
            rcases List.mem_append.1 hi with hi | hi
            · exact hPn i hi
            · simp only [List.mem_singleton] at hi; omega)
          hap'
          (by
            intro q b hq
            have := hsrc ((attr - 1) :: q) b ((Rec_cons_some hc q b).2 hq)
            simpa using this)
          inv'
        refine ⟨?_, r2, fun X b h => r3 X b (mono' X b h), ?_⟩
        · rw [r1]
          have := hap.reset_snoc hnotin
          rwa [e] at this
        · intro i c' q b hi hic hrc hb
          rcases List.mem_append.1 hi with hi | hi
          · obtain ⟨X, hX, hPX⟩ := cov' i c' q b hi hic hrc hb
            exact ⟨X, r3 X b hX, hPX⟩
          · simp only [List.mem_singleton] at hi
            have hi' : i = attr - 1 := by omega
            subst hi'
            rw [hc] at hic
            cases hic
            obtain ⟨X, hX, hPX⟩ := r4 q b hrc hb
            exact ⟨X, hX, by simpa using hPX⟩

end FDTreeElement

namespace FDTreeElement

theorem lookup_congr : ∀ (p : List Nat) {t t' : FDTreeElement}, t.children_ = t'.children_ →
    p ≠ [] → lookup t p = lookup t' p
  | [], _, _, _, h => absurd rfl h
  | i :: p, t, t', hc, _ => by
    rw [lookup_cons, lookup_cons]
    unfold GetChild
    rw [hc]

theorem Rec_congr {t t' : FDTreeElement} (hc : t.children_ = t'.children_)
    (hf : t.is_fd_ = t'.is_fd_) (p : List Nat) (b : Nat) : Rec t p b ↔ Rec t' p b := by
  cases p with
  | nil => rw [Rec_nil, Rec_nil, hf]
  | cons i p =>
    unfold Rec
    rw [lookup_congr (i :: p) hc (by simp)]

theorem WF_congr {n k : Nat} {t t' : FDTreeElement} (h : WF n k t)
    (hc : t'.children_ = t.children_) (hm : t'.max_attribute_number_ = n) : WF n k t' := by
  have hg : ∀ i, t'.GetChild i = t.GetChild i := fun i => by unfold GetChild; rw [hc]
  exact WF.mk k t' (by rw [hc]; exact h.len) hm
    (fun i c hi => (h.child (by rw [← hg]; exact hi)).1)
    (fun i c hi => (h.child (by rw [← hg]; exact hi)).2.2)

/-- `FilterSpecializations` keeps, for every recorded FD, an FD with a larger or equal
LHS, and records nothing outside the FDs it was given. -/
theorem FilterSpecializations_spec {n : Nat} (hn : n < kMaxAttrNum) {raw : FDTreeElement}
    (hwf : WF n 0 raw) :
    WF n 0 raw.FilterSpecializations ∧
    (∀ X b, Rec raw.FilterSpecializations X b → ∃ X0, Rec raw X0 b ∧ X ⊆ X0) ∧
    (∀ q b, Rec raw q b → b < n → ∃ X, Rec raw.FilterSpecializations X b ∧ q ⊆ X) := by
  obtain ⟨_, h2, _, h4⟩ := FilterSpecializationsHelper_spec hn (fun X b => Rec raw X b)
    raw.height raw [] 0 (new raw.max_attribute_number_) 0 (le_refl _) hwf
    (by intro i hi; cases hi) (by intro i hi; cases hi) PathBits_nil
    (by intro q b h; simpa using h)
    ⟨by rw [hwf.max]; exact WF_new n 0, Under_new _, fun X b h => absurd h (Rec_new _ X b)⟩
  have hrec : ∀ p b, Rec raw.FilterSpecializations p b ↔
      Rec (FilterSpecializationsHelper raw.height raw (new raw.max_attribute_number_) 0).1 p b :=
    fun p b => @Rec_congr raw.FilterSpecializations
      (FilterSpecializationsHelper raw.height raw (new raw.max_attribute_number_) 0).1 rfl rfl p b
  refine ⟨WF_congr h2.wf rfl hwf.max, ?_, ?_⟩
  · intro X b hX
    exact h2.src X b ((hrec X b).1 hX)
  · intro q b hq hb
    obtain ⟨X, hX, hqX⟩ := h4 q b hq hb
    exact ⟨X, (hrec X b).2 hX, by simpa using hqX⟩

end FDTreeElement

namespace algos.FDep

open FDTreeElement

theorem equalAttrInit_eq {n : Nat} (hn : n ≤ 30) : equalAttrInit n = 2 ^ (n + 1) - 1 := by
  interval_cases n <;> rfl

theorem testBit_assign (d i j : Nat) (v : Bool) :
    Nat.testBit (Bitset.assign d i v) j = if i = j then v else Nat.testBit d j := by
  unfold Bitset.assign
  cases v with
  | true =>
    have := Bitset.test_set d i j
    simp only [Bitset.test] at this
    simp only [if_true, this]
    by_cases h : i = j <;> simp [h]
  | false =>
    have := Bitset.test_reset d i j
    simp only [Bitset.test] at this
    simp only [Bool.false_eq_true, if_false, this]
    by_cases h : i = j <;> simp [h]

theorem testBit_diffAttr (n : Nat) (t1 t2 : List Nat) (j : Nat) :
    Nat.testBit (diffAttr n t1 t2) j = true ↔
      (1 ≤ j ∧ j ≤ n ∧ cell t1 (j - 1) ≠ cell t2 (j - 1)) := by
  unfold diffAttr
  induction n with
  | zero =>
    simp only [List.range_zero, List.foldl_nil, Nat.zero_testBit, Bool.false_eq_true, false_iff]
    omega
  | succ n ih =>
    rw [List.range_succ, List.foldl_append, List.foldl_cons, List.foldl_nil, testBit_assign]
    by_cases h : n + 1 = j
    · subst h
      simp
    · simp only [h, if_false, ih]
      constructor
      · rintro ⟨h1, h2, h3⟩; exact ⟨h1, by omega, h3⟩
      · rintro ⟨h1, h2, h3⟩; exact ⟨h1, by omega, h3⟩

theorem testBit_equalAttr {n : Nat} (hn : n ≤ 30) (t1 t2 : List Nat) (j : Nat) :
    Nat.testBit (equalAttr n t1 t2) j = true ↔
      (1 ≤ j ∧ j ≤ n ∧ cell t1 (j - 1) = cell t2 (j - 1)) := by
  unfold equalAttr
  rw [Nat.testBit_and, equalAttrInit_eq hn]
  have h1 := Bitset.test_reset (2 ^ (n + 1) - 1) 0 j
  simp only [Bitset.test] at h1
  rw [h1, Nat.testBit_two_pow_sub_one]
  unfold Bitset.flip
  rw [Nat.testBit_xor, Nat.testBit_two_pow_sub_one, Nat.testBit_mod_two_pow]
  have hd := testBit_diffAttr n t1 t2 j
  by_cases hj : 1 ≤ j ∧ j ≤ n
  · have hj256 : j < kMaxAttrNum := by unfold kMaxAttrNum; omega
    have hj0 : ¬ 0 = j := by omega
    have hjn : j < n + 1 := by omega
    simp only [hj256, hjn, hj0, decide_True, decide_False, Bool.not_false, Bool.and_true,
      Bool.true_and, Bool.true_xor, Bool.not_eq_true', hj, true_and]
    constructor
    · intro h
      by_contra hne
      have := hd.2 ⟨hj.1, hj.2, hne⟩
      rw [this] at h; cases h
    · intro h
      cases hb : Nat.testBit (diffAttr n t1 t2) j with
      | false => rfl
      | true => exact absurd h (hd.1 hb).2.2
  · have : ¬ (1 ≤ j ∧ j ≤ n ∧ cell t1 (j - 1) = cell t2 (j - 1)) := fun h => hj ⟨h.1, h.2.1⟩
    simp only [this, iff_false]
    by_cases hj0 : 0 = j
    · simp [hj0]
    · have : ¬ j < n + 1 := by omega
      simp [this]

theorem LhsOk_equalAttr {n : Nat} (hn : n ≤ 30) (t1 t2 : List Nat) :
    LhsOk n (equalAttr n t1 t2) := by
  intro j _ hj
  have := (testBit_equalAttr hn t1 t2 j).1 hj
  exact ⟨this.1, this.2.1⟩

theorem mem_pathOf_equalAttr {n : Nat} (hn : n ≤ 30) (t1 t2 : List Nat) (j : Nat) :
    j ∈ pathOf (equalAttr n t1 t2) ↔ (j < n ∧ cell t1 j = cell t2 j) := by
  rw [mem_pathOf (LhsOk_equalAttr hn t1 t2), testBit_equalAttr hn]
  simp only [Nat.add_sub_cancel]
  constructor
  · rintro ⟨_, _, h2, h3⟩; exact ⟨by omega, h3⟩
  · rintro ⟨h1, h2⟩
    exact ⟨by unfold kMaxAttrNum; omega, by omega, by omega, h2⟩

/-- What one call of `AddViolatedFDs` adds to the negative cover: the agree set of the
two rows, for every column in which they differ. -/
theorem AddViolatedFDs_spec {n : Nat} (hn : n ≤ 30) {tree : FDTreeElement} (hwf : WF n 0 tree)
    (t1 t2 : List Nat) :
    WF n 0 (AddViolatedFDs n tree t1 t2) ∧
    ∀ q b, Rec (AddViolatedFDs n tree t1 t2) q b ↔
      (Rec tree q b ∨ (q = pathOf (equalAttr n t1 t2) ∧ b < n ∧ cell t1 b ≠ cell t2 b)) := by
  unfold AddViolatedFDs
  have hok := LhsOk_equalAttr hn t1 t2
  have key := foldl_prefix_inv
    (fun (tree : FDTreeElement) attr => tree.AddFunctionalDependency (equalAttr n t1 t2) attr)
    (fun done s => WF n 0 s ∧ ∀ q b, Rec s q b ↔
      (Rec tree q b ∨ (q = pathOf (equalAttr n t1 t2) ∧ b + 1 ∈ done)))
    (Bitset.indices (diffAttr n t1 t2)) [] tree ⟨hwf, fun q b => by simp⟩ ?_
  · simp only [List.nil_append] at key
    refine ⟨key.1, fun q b => ?_⟩
    rw [key.2 q b, Bitset.mem_indices, testBit_diffAttr]
    simp only [Nat.add_sub_cancel]
    constructor
    · rintro (h | ⟨h1, _, _, h3, h4⟩)
      · exact Or.inl h
      · exact Or.inr ⟨h1, by omega, h4⟩
    · rintro (h | ⟨h1, h2, h3⟩)
      · exact Or.inl h
      · exact Or.inr ⟨h1, by unfold kMaxAttrNum; omega, by omega, by omega, h3⟩
  · rintro done attr s hattr ⟨hs, hrec⟩
    have hattr1 : 1 ≤ attr := by
      rw [Bitset.mem_indices, testBit_diffAttr] at hattr
      exact hattr.2.1
    refine ⟨AddFunctionalDependency_WF hs hok attr, fun q b => ?_⟩
    rw [AddFunctionalDependency_Rec hs hok, hrec]
    simp only [List.mem_append, List.mem_singleton]
    constructor
    · rintro ((h | ⟨h1, h2⟩) | ⟨h1, h2⟩)
      · exact Or.inl h
      · exact Or.inr ⟨h1, Or.inl h2⟩
      · exact Or.inr ⟨h1, Or.inr (by omega)⟩
    · rintro (h | ⟨h1, h2 | h2⟩)
      · exact Or.inl (Or.inl h)
      · exact Or.inl (Or.inr ⟨h1, h2⟩)
      · exact Or.inr ⟨h1, by omega⟩

theorem pair_sublist_cons (a b t : List Nat) (rest : List (List Nat)) :
    List.Sublist [a, b] (t :: rest) ↔ ((a = t ∧ b ∈ rest) ∨ List.Sublist [a, b] rest) := by
  rw [List.sublist_cons_iff]
  constructor
  · rintro (h | ⟨r, h1, h2⟩)
    · exact Or.inr h
    · simp only [List.cons.injEq] at h1
      obtain ⟨h3, h4⟩ := h1
      subst h4
      exact Or.inl ⟨h3, List.singleton_sublist.1 h2⟩
  · rintro (⟨h1, h2⟩ | h)
    · exact Or.inr ⟨[b], by rw [h1], List.singleton_sublist.2 h2⟩
    · exact Or.inl h

/-- The negative cover before filtering records exactly the agree sets of the pairs
of rows, for the columns in which the rows of the pair differ. -/
theorem BuildNegativeCover.pairs_spec {n : Nat} (hn : n ≤ 30) :
    ∀ (rows : List (List Nat)) (tree : FDTreeElement), WF n 0 tree →
      WF n 0 (BuildNegativeCover.pairs n rows tree) ∧
      ∀ q b, Rec (BuildNegativeCover.pairs n rows tree) q b ↔
        (Rec tree q b ∨ ∃ t1 t2, List.Sublist [t1, t2] rows ∧
          q = pathOf (equalAttr n t1 t2) ∧ b < n ∧ cell t1 b ≠ cell t2 b)
  | [], tree, hwf => by
    unfold BuildNegativeCover.pairs
    refine ⟨hwf, fun q b => ?_⟩
    simp
  | t1 :: rest, tree, hwf => by
    unfold BuildNegativeCover.pairs
    have key := foldl_prefix_inv (fun tr t2 => AddViolatedFDs n tr t1 t2)
      (fun done s => WF n 0 s ∧ ∀ q b, Rec s q b ↔
        (Rec tree q b ∨ ∃ t2 ∈ done, q = pathOf (equalAttr n t1 t2) ∧ b < n ∧
          cell t1 b ≠ cell t2 b))
      rest [] tree ⟨hwf, fun q b => by simp⟩ ?_
    · simp only [List.nil_append] at key
      obtain ⟨h1, h2⟩ := BuildNegativeCover.pairs_spec hn rest _ key.1
      refine ⟨h1, fun q b => ?_⟩
      rw [h2, key.2]
      constructor
      · rintro ((h | ⟨t2, ht2, h⟩) | ⟨a, c, hs, h⟩)
        · exact Or.inl h
        · exact Or.inr ⟨t1, t2, (pair_sublist_cons _ _ _ _).2 (Or.inl ⟨rfl, ht2⟩), h⟩
        · exact Or.inr ⟨a, c, (pair_sublist_cons _ _ _ _).2 (Or.inr hs), h⟩
      · rintro (h | ⟨a, c, hs, h⟩)
        · exact Or.inl (Or.inl h)
        · rcases (pair_sublist_cons _ _ _ _).1 hs with ⟨rfl, hc⟩ | hs
          · exact Or.inl (Or.inr ⟨c, hc, h⟩)
          · exact Or.inr ⟨a, c, hs, h⟩
    · rintro done t2 s _ ⟨hs, hrec⟩
      obtain ⟨h1, h2⟩ := AddViolatedFDs_spec hn hs t1 t2
      refine ⟨h1, fun q b => ?_⟩
      rw [h2, hrec]
      simp only [List.mem_append, List.mem_singleton]
      constructor
      · rintro ((h | ⟨t, ht, h⟩) | h)
        · exact Or.inl h
        · exact Or.inr ⟨t, Or.inl ht, h⟩
        · exact Or.inr ⟨t2, Or.inr rfl, h⟩
      · rintro (h | ⟨t, ht | ht, h⟩)
        · exact Or.inl (Or.inl h)
        · exact Or.inl (Or.inr ⟨t, ht, h⟩)
        · subst ht; exact Or.inr h

theorem mem_pair_cases : ∀ (rows : List (List Nat)) (a b : List Nat), a ∈ rows → b ∈ rows →
    a = b ∨ List.Sublist [a, b] rows ∨ List.Sublist [b, a] rows
  | [], a, _, ha, _ => by cases ha
  | t :: rest, a, b, ha, hb => by
    rcases List.mem_cons.1 ha with ha1 | ha1
    · rcases List.mem_cons.1 hb with hb1 | hb1
      · exact Or.inl (ha1.trans hb1.symm)
      · exact Or.inr (Or.inl ((pair_sublist_cons _ _ _ _).2 (Or.inl ⟨ha1, hb1⟩)))
    · rcases List.mem_cons.1 hb with hb1 | hb1
      · exact Or.inr (Or.inr ((pair_sublist_cons _ _ _ _).2 (Or.inl ⟨hb1, ha1⟩)))
      · rcases mem_pair_cases rest a b ha1 hb1 with h | h | h
        · exact Or.inl h
        · exact Or.inr (Or.inl ((pair_sublist_cons _ _ _ _).2 (Or.inr h)))
        · exact Or.inr (Or.inr ((pair_sublist_cons _ _ _ _).2 (Or.inr h)))

end algos.FDep

theorem lhsOf_size (n : Nat) (P : List Nat) : (lhsOf n P).size = n := by
  unfold lhsOf
  induction P using List.reverseRecOn with
  | nil => rfl
  | append_singleton P i ih =>
    rw [List.foldl_append, List.foldl_cons, List.foldl_nil]
    exact ih

theorem lhsOf_snoc (n : Nat) (P : List Nat) (i : Nat) : lhsOf n (P ++ [i]) = (lhsOf n P).set i := by
  unfold lhsOf
  rw [List.foldl_append, List.foldl_cons, List.foldl_nil]

theorem lhsOf_test (n : Nat) (P : List Nat) (j : Nat) :
    (lhsOf n P).test j = true ↔ j ∈ P := by
  induction P using List.reverseRecOn with
  | nil => simp [lhsOf, DynamicBitset.test, DynamicBitset.zeros]
  | append_singleton P i ih =>
    rw [lhsOf_snoc]
    have := Bitset.test_set (lhsOf n P).bits i j
    simp only [Bitset.test] at this
    simp only [DynamicBitset.test, DynamicBitset.set] at ih ⊢
    rw [this]
    simp only [Bool.or_eq_true, decide_eq_true_eq, ih, List.mem_append, List.mem_singleton]
    constructor
    · rintro (h | h)
      · exact Or.inl h
      · exact Or.inr h.symm
    · rintro (h | h)
      · exact Or.inl h
      · exact Or.inr h.symm

theorem lhsOf_reset_snoc (n : Nat) (P : List Nat) {i : Nat} (hi : i ∉ P) :
    ((lhsOf n P).set i).reset i = lhsOf n P := by
  have hb : Bitset.test (lhsOf n P).bits i = false := by
    cases h : Bitset.test (lhsOf n P).bits i with
    | false => rfl
    | true => exact absurd ((lhsOf_test n P i).1 h) hi
  show DynamicBitset.mk _ _ = _
  simp only [DynamicBitset.set, Bitset.reset_set_of_not _ _ hb]

theorem count_le_size (d : DynamicBitset) : d.count ≤ d.size := by
  unfold DynamicBitset.count
  have := List.countP_le_length (fun i => Nat.testBit d.bits i) (l := List.range d.size)
  simpa using this

theorem lhsOf_count_mono (n : Nat) (P Q : List Nat) (h : P ⊆ Q) :
    (lhsOf n P).count ≤ (lhsOf n Q).count := by
  unfold DynamicBitset.count
  rw [lhsOf_size, lhsOf_size]
  apply List.countP_mono_left
  intro j _ hj
  exact (lhsOf_test n Q j).2 (h ((lhsOf_test n P j).1 hj))

namespace FDTreeElement

/-- `TransformTreeFdCollection` restores `lhs` and appends `emitList` to the builder. -/
theorem TransformTreeFdCollection_eq {n m : Nat} :
    ∀ (fuel : Nat) (t : FDTreeElement) (P : List Nat) (b : algos.LhsLimFdStorageBuilder)
      (k : Nat), WF n k t → (∀ i ∈ P, i < k) → b.max_lhs_ = m →
      TransformTreeFdCollection fuel t (lhsOf n P) b m =
        (lhsOf n P, ⟨b.stripped_fds_ ++ emitList m fuel t (lhsOf n P), m⟩)
  | 0, t, P, b, k, _, _, hb => by
    unfold TransformTreeFdCollection emitList
    cases b
    simp only at hb
    simp [hb]
  | fuel + 1, t, P, b, k, hwf, hP, hb => by
    unfold TransformTreeFdCollection emitList
    by_cases hc : (lhsOf n P).count > m
    · simp only [hc, if_true]
      cases b
      simp only at hb
      simp [hb]
    · simp only [hc, if_false]
      rw [lhsOf_size]
      -- the builder after the node's own FD
      have hb1 : ∀ (own : List algos.StrippedFd) (b1 : algos.LhsLimFdStorageBuilder),
          b1 = ⟨b.stripped_fds_ ++ own, m⟩ →
          List.foldl (TransformTreeFdCollection.child
              (fun child l b => TransformTreeFdCollection fuel child l b m) t)
            (lhsOf n P, b1) (List.range n) =
          (lhsOf n P, ⟨b.stripped_fds_ ++ (own ++ (List.range n).flatMap fun attr =>
            match t.GetChild attr with
            | some child => emitList m fuel child ((lhsOf n P).set attr)
            | none => []), m⟩) := by
        intro own b1 hb1
        have key := foldl_prefix_inv
          (TransformTreeFdCollection.child
            (fun child l b => TransformTreeFdCollection fuel child l b m) t)
          (fun done s => s = (lhsOf n P, (⟨b.stripped_fds_ ++ (own ++ done.flatMap fun attr =>
            match t.GetChild attr with
            | some child => emitList m fuel child ((lhsOf n P).set attr)
            | none => []), m⟩ : algos.LhsLimFdStorageBuilder)))
          (List.range n) [] (lhsOf n P, b1) (by simp [hb1]) ?_
        · simpa using key
        · rintro done attr s _ hs
          subst hs
          unfold TransformTreeFdCollection.child
          cases hch : t.GetChild attr with
          | none => simp [hch]
          | some c =>
            simp only
            have hcw := hwf.child hch
            have hnotin : attr ∉ P := fun h => by
              have := hP _ h
              omega
            have ih := TransformTreeFdCollection_eq fuel c (P ++ [attr])
              ⟨b.stripped_fds_ ++ (own ++ done.flatMap fun attr =>
                match t.GetChild attr with
                | some child => emitList m fuel child ((lhsOf n P).set attr)
                | none => []), m⟩ (attr + 1) hcw.2.2
              (by
                intro i hi
                rcases List.mem_append.1 hi with hi | hi
                · have := hP i hi; omega
                · simp only [List.mem_singleton] at hi; omega)
              rfl
            rw [lhsOf_snoc] at ih
            rw [ih]
            simp only [lhsOf_reset_snoc n P hnotin, List.flatMap_append, List.flatMap_cons,
              List.flatMap_nil, List.append_nil, hch, List.append_assoc]
      by_cases hany : Bitset.any t.is_fd_ = true
      · simp only [hany, if_true]
        apply hb1
        unfold algos.LhsLimFdStorageBuilder.AddFd
        simp only [hb, hc, if_false]
      · simp only [hany, if_false, Bool.false_eq_true]
        apply hb1
        cases b
        simp only at hb
        simp [hb]

end FDTreeElement

theorem BitsetToDynamicBitset_spec (b n : Nat) :
    (BitsetToDynamicBitset b n).size = n ∧
      ∀ j, (BitsetToDynamicBitset b n).test j = true ↔ (j < n ∧ Nat.testBit b j = true) := by
  unfold BitsetToDynamicBitset
  have key := foldl_prefix_inv (fun (d : DynamicBitset) i => d.assign i (Bitset.test b i))
    (fun done d => d.size = n ∧ ∀ j, d.test j = true ↔ (j ∈ done ∧ Nat.testBit b j = true))
    (List.range n) [] (DynamicBitset.zeros n)
    ⟨rfl, fun j => by simp [DynamicBitset.zeros, DynamicBitset.test]⟩ ?_
  · simp only [List.nil_append, List.mem_range] at key
    exact key
  · rintro done i d _ ⟨h1, h2⟩
    refine ⟨h1, fun j => ?_⟩
    have := algos.FDep.testBit_assign d.bits i j (Bitset.test b i)
    simp only [DynamicBitset.test, DynamicBitset.assign] at h2 ⊢
    rw [this]
    by_cases hij : i = j
    · subst hij
      simp [Bitset.test]
    · simp only [hij, if_false, h2 j, List.mem_append, List.mem_singleton]
      constructor
      · rintro ⟨h3, h4⟩; exact ⟨Or.inl h3, h4⟩
      · rintro ⟨h3 | h3, h4⟩
        · exact ⟨h3, h4⟩
        · exact absurd h3.symm hij

theorem filter_flatMap' {α β : Type} (p : β → Bool) (f : α → List β) (l : List α) :
    (l.flatMap f).filter p = l.flatMap (fun x => (f x).filter p) := by
  induction l with
  | nil => rfl
  | cons x rest ih => simp only [List.flatMap_cons, List.filter_append, ih]

theorem flatMap_congr' {α β : Type} (f g : α → List β) (l : List α)
    (h : ∀ x ∈ l, f x = g x) : l.flatMap f = l.flatMap g := by
  induction l with
  | nil => rfl
  | cons x rest ih =>
    simp only [List.flatMap_cons]
    rw [h x (List.mem_cons_self _ _), ih (fun y hy => h y (List.mem_cons_of_mem _ hy))]

namespace FDTreeElement

/-- Every emitted stripped FD comes from a node with a non-empty `is_fd_` whose
path has at most `max_lhs` columns. -/
theorem emitList_sound {n m : Nat} :
    ∀ (fuel : Nat) (t : FDTreeElement) (P : List Nat) (fd : algos.StrippedFd),
      fd ∈ emitList m fuel t (lhsOf n P) →
      ∃ q v, lookup t q = some v ∧ Bitset.any v.is_fd_ = true ∧
        fd = ⟨lhsOf n (P ++ q), BitsetToDynamicBitset v.is_fd_ n⟩ ∧
        (lhsOf n (P ++ q)).count ≤ m
  | 0, t, P, fd, h => by
    unfold emitList at h
    cases h
  | fuel + 1, t, P, fd, h => by
    unfold emitList at h
    by_cases hc : (lhsOf n P).count > m
    · simp only [hc, if_true] at h
      cases h
    · simp only [hc, if_false, lhsOf_size, List.mem_append, List.mem_flatMap] at h
      rcases h with h | ⟨attr, _, h⟩
      · by_cases hany : Bitset.any t.is_fd_ = true
        · simp only [hany, if_true, List.mem_singleton] at h
          exact ⟨[], t, lookup_nil t, hany, by simpa using h, by simpa using hc⟩
        · simp only [hany, if_false, Bool.false_eq_true] at h
          cases h
      · cases hch : t.GetChild attr with
        | none =>
          rw [hch] at h
          cases h
        | some c =>
          rw [hch] at h
          simp only at h
          rw [← lhsOf_snoc] at h
          obtain ⟨q, v, h1, h2, h3, h4⟩ := emitList_sound fuel c (P ++ [attr]) fd h
          refine ⟨attr :: q, v, ?_, h2, ?_, ?_⟩
          · rw [lookup_cons_some hch]; exact h1
          · simpa using h3
          · simpa using h4

/-- Every node with a non-empty `is_fd_` whose path has at most `max_lhs` columns is
emitted. -/
theorem emitList_complete {n m : Nat} :
    ∀ (fuel : Nat) (t : FDTreeElement) (P : List Nat) (k : Nat) (q : List Nat)
      (v : FDTreeElement), height t ≤ fuel → WF n k t → lookup t q = some v →
      Bitset.any v.is_fd_ = true → (lhsOf n (P ++ q)).count ≤ m →
      (⟨lhsOf n (P ++ q), BitsetToDynamicBitset v.is_fd_ n⟩ : algos.StrippedFd) ∈
        emitList m fuel t (lhsOf n P)
  | 0, t, _, _, _, _, hh, _, _, _, _ => by
    have := height_pos t
    omega
  | fuel + 1, t, P, k, q, v, hh, hwf, hl, hany, hcnt => by
    unfold emitList
    have hc : ¬ (lhsOf n P).count > m := by
      have := lhsOf_count_mono n P (P ++ q) (List.subset_append_left P q)
      omega
    simp only [hc, if_false, lhsOf_size, List.mem_append, List.mem_flatMap]
    cases q with
    | nil =>
      left
      simp only [lookup_nil, Option.some.injEq] at hl
      subst hl
      simp [hany]
    | cons i q =>
      right
      cases hch : t.GetChild i with
      | none =>
        rw [lookup_cons_none hch] at hl
        cases hl
      | some c =>
        rw [lookup_cons_some hch] at hl
        have hcw := hwf.child hch
        refine ⟨i, List.mem_range.2 hcw.2.1, ?_⟩
        rw [hch, ← lhsOf_snoc]
        have := emitList_complete fuel c (P ++ [i]) (i + 1) q v
          (by have := height_child hch; omega) hcw.2.2 hl hany (by simpa using hcnt)
        simpa using this

/-- The emission under a cap is the emission without cap, filtered. -/
theorem emitList_filter {n m U : Nat} (hU : n ≤ U) :
    ∀ (fuel : Nat) (t : FDTreeElement) (P : List Nat),
      emitList m fuel t (lhsOf n P) =
        (emitList U fuel t (lhsOf n P)).filter (fun fd => decide (fd.lhs.count ≤ m))
  | 0, t, P => by
    unfold emitList
    rfl
  | fuel + 1, t, P => by
    have hU' : ¬ (lhsOf n P).count > U := by
      have := count_le_size (lhsOf n P)
      rw [lhsOf_size] at this
      omega
    by_cases hc : (lhsOf n P).count > m
    · have h1 : emitList m (fuel + 1) t (lhsOf n P) = [] := by
        unfold emitList
        simp only [hc, if_true]
      rw [h1]
      symm
      rw [List.filter_eq_nil_iff]
      intro fd hfd
      obtain ⟨q, v, _, _, h3, _⟩ := emitList_sound (fuel + 1) t P fd hfd
      have := lhsOf_count_mono n P (P ++ q) (List.subset_append_left P q)
      rw [h3]
      simp only [decide_eq_true_eq]
      omega
    · unfold emitList
      simp only [hc, hU', if_false, lhsOf_size, List.filter_append, filter_flatMap']
      congr 1
      · by_cases hany : Bitset.any t.is_fd_ = true
        · simp only [hany, if_true]
          rw [List.filter_cons_of_pos (by simpa using hc)]
          rfl
        · simp only [hany, if_false, Bool.false_eq_true]
          rfl
      · apply flatMap_congr'
        intro attr _
        cases hch : t.GetChild attr with
        | none => rfl
        | some c =>
          simp only
          rw [← lhsOf_snoc]
          exact emitList_filter hU fuel c (P ++ [attr])

end FDTreeElement

namespace algos.FDep

open FDTreeElement

/-- The negative cover built from the rows: every FD it records is violated by a pair
of rows that agree on its LHS, and every violation by a pair of rows is covered by a
recorded FD whose LHS contains the agree set of the pair. -/
theorem BuildNegativeCover_spec {n : Nat} (hn : n ≤ 30) (tuples : List (List Nat)) :
    WF n 0 (BuildNegativeCover n tuples) ∧
    (∀ X b, Rec (BuildNegativeCover n tuples) X b →
      ∃ t1 ∈ tuples, ∃ t2 ∈ tuples, cell t1 b ≠ cell t2 b ∧ ∀ j ∈ X, cell t1 j = cell t2 j) ∧
    (∀ t1 ∈ tuples, ∀ t2 ∈ tuples, ∀ b, b < n → cell t1 b ≠ cell t2 b →
      ∃ X, Rec (BuildNegativeCover n tuples) X b ∧
        ∀ j, j < n → cell t1 j = cell t2 j → j ∈ X) := by
  have hn' : n < kMaxAttrNum := by unfold kMaxAttrNum; omega
  obtain ⟨hraw, hrec⟩ := BuildNegativeCover.pairs_spec hn tuples (new n) (WF_new n 0)
  obtain ⟨h1, h2, h3⟩ := FilterSpecializations_spec hn' hraw
  unfold BuildNegativeCover
  refine ⟨h1, ?_, ?_⟩
  · intro X b hX
    obtain ⟨X0, hX0, hsub⟩ := h2 X b hX
    rcases (hrec X0 b).1 hX0 with h | ⟨t1, t2, hs, hq, _, hdiff⟩
    · exact absurd h (Rec_new n X0 b)
    · have hm1 : t1 ∈ tuples := hs.subset (by simp)
      have hm2 : t2 ∈ tuples := hs.subset (by simp)
      refine ⟨t1, hm1, t2, hm2, hdiff, ?_⟩
      intro j hj
      have := hsub hj
      rw [hq, mem_pathOf_equalAttr hn] at this
      exact this.2
  · intro t1 ht1 t2 ht2 b hb hdiff
    have hcases := mem_pair_cases tuples t1 t2 ht1 ht2
    rcases hcases with h | h | h
    · rw [h] at hdiff
      exact absurd rfl hdiff
    · obtain ⟨X, hX, hsub⟩ := h3 (pathOf (equalAttr n t1 t2)) b
        ((hrec _ b).2 (Or.inr ⟨t1, t2, h, rfl, hb, hdiff⟩)) hb
      refine ⟨X, hX, fun j hj he => hsub ?_⟩
      rw [mem_pathOf_equalAttr hn]
      exact ⟨hj, he⟩
    · obtain ⟨X, hX, hsub⟩ := h3 (pathOf (equalAttr n t2 t1)) b
        ((hrec _ b).2 (Or.inr ⟨t2, t1, h, rfl, hb, fun e => hdiff e.symm⟩)) hb
      refine ⟨X, hX, fun j hj he => hsub ?_⟩
      rw [mem_pathOf_equalAttr hn]
      exact ⟨hj, he.symm⟩

theorem Inv_AddMostGeneral (n : Nat) :
    CalculatePositiveCover.Inv n (fun _ _ => False) (new n).AddMostGeneralDependencies := by
  refine ⟨WF_AddMostGeneral n, Over_AddMostGeneral n, ?_, ?_, ?_, ?_⟩
  · intro p q a hp hq _
    rw [((Rec_AddMostGeneral n p a).1 hp).1, ((Rec_AddMostGeneral n q a).1 hq).1]
  · intro p a hp
    rw [((Rec_AddMostGeneral n p a).1 hp).1]
    simp
  · intro X a h
    exact absurd h id
  · intro Z a ha _ _ _
    exact ⟨[], (Rec_AddMostGeneral n [] a).2 ⟨rfl, ha⟩, by simp⟩

/-- The run of `ExecuteInternal`: it finishes, and the storage holds the emission of a
positive cover tree that satisfies the invariant for all FDs of the negative cover. -/
theorem ExecuteInternal_result (self : FDep)
    (hn : self.table_header_.column_names.length ≤ 30) :
    ∃ pos,
      CalculatePositiveCover self.table_header_.column_names.length
        (BuildNegativeCover self.table_header_.column_names.length self.tuples_).height
        (BuildNegativeCover self.table_header_.column_names.length self.tuples_)
        ((new self.table_header_.column_names.length).AddMostGeneralDependencies, 0)
        = some (pos, 0) ∧
      CalculatePositiveCover.Inv self.table_header_.column_names.length
        (fun X b => Rec (BuildNegativeCover self.table_header_.column_names.length
          self.tuples_) X b ∧ b < self.table_header_.column_names.length) pos ∧
      self.ExecuteInternal = some
        { self with
          neg_cover_tree_ := some (BuildNegativeCover self.table_header_.column_names.length
            self.tuples_)
          pos_cover_tree_ := some pos
          fd_storage_ := some ⟨self.table_header_,
            emitList self.max_lhs_ pos.height pos
              (lhsOf self.table_header_.column_names.length [])⟩ } := by
  generalize hnn : self.table_header_.column_names.length = n at *
  have hn' : n < kMaxAttrNum := by unfold kMaxAttrNum; omega
  obtain ⟨hneg, _, _⟩ := BuildNegativeCover_spec hn self.tuples_
  obtain ⟨pos, hrun, hinv⟩ := CalculatePositiveCover_spec hn'
    (BuildNegativeCover n self.tuples_).height (BuildNegativeCover n self.tuples_) [] 0
    (new n).AddMostGeneralDependencies (fun _ _ => False) 0 (le_refl _) hneg
    (by intro i hi; cases hi) PathBits_nil (Inv_AddMostGeneral n)
  refine ⟨pos, hrun, hinv.congr (fun X b => by simp), ?_⟩
  unfold ExecuteInternal
  simp only [hnn, hrun, Option.map_some']
  have hT := @TransformTreeFdCollection_eq n self.max_lhs_ pos.height pos []
    (LhsLimFdStorageBuilder.new self.max_lhs_) 0 hinv.wf (by intro i hi; cases hi) rfl
  unfold CreateAnswer
  have hz : DynamicBitset.zeros n = lhsOf n [] := rfl
  rw [hz, hT]
  rfl

end algos.FDep

namespace algos.FDep

open FDTreeElement

theorem lhsOf_count_le_card (n : Nat) (q : List Nat) (X : Finset Nat) (h : ∀ j ∈ q, j ∈ X) :
    (lhsOf n q).count ≤ X.card := by
  unfold DynamicBitset.count
  rw [lhsOf_size, List.countP_eq_length_filter]
  have hnd : ((List.range n).filter (fun i => Nat.testBit (lhsOf n q).bits i)).Nodup :=
    (List.nodup_range n).filter _
  rw [← List.toFinset_card_of_nodup hnd]
  apply Finset.card_le_card
  intro j hj
  rw [List.mem_toFinset, List.mem_filter] at hj
  exact h j ((lhsOf_test n q j).1 hj.2)

/-- What membership in the storage means in terms of the positive cover tree. -/
theorem mem_emitList {n m : Nat} {pos : FDTreeElement} (hwf : WF n 0 pos)
    {fd : StrippedFd} (hfd : fd ∈ emitList m pos.height pos (lhsOf n [])) :
    ∃ q, fd.lhs = lhsOf n q ∧ fd.rhs.size = n ∧ (lhsOf n q).count ≤ m ∧
      (∀ j ∈ q, j < n) ∧ ∀ a, fd.rhs.test a = true → Rec pos q a := by
  obtain ⟨q, v, h1, _, h3, h4⟩ := emitList_sound pos.height pos [] fd hfd
  simp only [List.nil_append] at h3 h4
  refine ⟨q, by rw [h3], by rw [h3]; exact (BitsetToDynamicBitset_spec _ _).1, h4,
    fun j hj => ((hwf.lookup q h1).2.1 j hj).2, ?_⟩
  intro a ha
  rw [h3] at ha
  exact ⟨v, h1, ((BitsetToDynamicBitset_spec _ _).2 a).1 ha |>.2⟩

end algos.FDep

/-! ## The miner: what the storage holds where the mask of `AddViolatedFDs` is exact -/

set_option maxRecDepth 20000 in
/-- The run on the table with 31 columns and the rows `row31a`, `row31b` leaves the child
vectors: building the negative cover is the one call
`AddFunctionalDependency(equal_attr, 1)`, and the path of `equal_attr` contains the child
position 31, while a node for 31 attributes has the child positions `0 .. 30`. -/
theorem wide31_leaves_child_slots :
    algos.FDep.wide31.Loaded ∧ algos.FDep.wide31.table_header_.column_names.length = 31 ∧
    algos.FDep.BuildNegativeCover.pairs 31 algos.FDep.wide31.tuples_ (FDTreeElement.new 31) =
      (FDTreeElement.new 31).AddFunctionalDependency
        (algos.FDep.equalAttr 31 algos.FDep.row31a algos.FDep.row31b) 1 ∧
    31 ∈ pathOf (algos.FDep.equalAttr 31 algos.FDep.row31a algos.FDep.row31b) ∧
    ¬ 31 < (FDTreeElement.new 31).children_.length := by
  have hd : Bitset.indices (algos.FDep.diffAttr 31 algos.FDep.row31a algos.FDep.row31b) =
      [1] := by decide
  refine ⟨by decide, by decide, ?_, by decide, by simp⟩
  show algos.FDep.AddViolatedFDs 31 (FDTreeElement.new 31) algos.FDep.row31a
    algos.FDep.row31b = _
  unfold algos.FDep.AddViolatedFDs
  rw [hd]
  rfl

/-- Soundness of the run on the model, for at most 30 columns: `ExecuteInternal`
finishes and every FD encoded by a stripped FD of the storage holds on the rows. -/
theorem ExecuteInternal_sound (self : algos.FDep)
    (hn : self.table_header_.column_names.length ≤ 30) :
    ∃ self' st, self.ExecuteInternal = some self' ∧ self'.GetFdStorage = some st ∧
      ∀ fd ∈ st.GetStripped, ∀ a, fd.rhs.test a = true →
        ∀ t1 ∈ self.tuples_, ∀ t2 ∈ self.tuples_,
          (∀ x, fd.lhs.test x = true → algos.FDep.cell t1 x = algos.FDep.cell t2 x) →
          algos.FDep.cell t1 a = algos.FDep.cell t2 a := by
  obtain ⟨pos, _, hinv, hexec⟩ := algos.FDep.ExecuteInternal_result self hn
  obtain ⟨_, _, hneg⟩ := algos.FDep.BuildNegativeCover_spec hn self.tuples_
  refine ⟨_, _, hexec, rfl, ?_⟩
  intro fd hfd a ha t1 ht1 t2 ht2 hagree
  obtain ⟨q, h1, h2, _, h4, h5⟩ := algos.FDep.mem_emitList hinv.wf hfd
  by_contra hdiff
  have han : a < self.table_header_.column_names.length := by
    obtain ⟨q', v, _, _, h3, _⟩ := FDTreeElement.emitList_sound _ _ _ fd hfd
    rw [h3] at ha
    exact (((BitsetToDynamicBitset_spec _ _).2 a).1 ha).1
  obtain ⟨X, hX, hsub⟩ := hneg t1 ht1 t2 ht2 a han hdiff
  apply hinv.sound X a ⟨hX, han⟩
  refine ⟨q, h5 a ha, ?_⟩
  intro j hj
  apply hsub j (h4 j hj)
  apply hagree
  rw [h1]
  exact (lhsOf_test _ q j).2 hj

/-- Completeness of the run on the model, for at most 30 columns: whenever an FD
`X → a` with `a ∉ X` and `|X| ≤ max_lhs` holds on the rows, the storage contains a
stripped FD whose `lhs` lies within `X` and whose `rhs` has bit `a`. -/
theorem ExecuteInternal_complete (self : algos.FDep)
    (hn : self.table_header_.column_names.length ≤ 30)
    (X : Finset Nat) (a : Nat)
    (hX : ∀ x ∈ X, x < self.table_header_.column_names.length)
    (ha : a < self.table_header_.column_names.length) (haX : a ∉ X)
    (hcard : X.card ≤ self.max_lhs_)
    (hholds : ∀ t1 ∈ self.tuples_, ∀ t2 ∈ self.tuples_,
      (∀ x ∈ X, algos.FDep.cell t1 x = algos.FDep.cell t2 x) →
      algos.FDep.cell t1 a = algos.FDep.cell t2 a) :
    ∃ self' st, self.ExecuteInternal = some self' ∧ self'.GetFdStorage = some st ∧
      ∃ fd ∈ st.GetStripped, fd.rhs.test a = true ∧ ∀ y, fd.lhs.test y = true → y ∈ X := by
  obtain ⟨pos, _, hinv, hexec⟩ := algos.FDep.ExecuteInternal_result self hn
  obtain ⟨_, hneg, _⟩ := algos.FDep.BuildNegativeCover_spec hn self.tuples_
  refine ⟨_, _, hexec, rfl, ?_⟩
  obtain ⟨q, hq, hqs⟩ := hinv.complete X.toList a ha
    (fun z hz => hX z (Finset.mem_toList.1 hz))
    (fun h => haX (Finset.mem_toList.1 h))
    (by
      rintro Y ⟨hY, _⟩ hsub
      obtain ⟨t1, ht1, t2, ht2, hdiff, hag⟩ := hneg Y a hY
      exact hdiff (hholds t1 ht1 t2 ht2 (fun x hx => hag x (hsub (Finset.mem_toList.2 hx)))))
  obtain ⟨v, hv, hbit⟩ := hq
  have hany : Bitset.any v.is_fd_ = true := by
    unfold Bitset.any
    simp only [bne_iff_ne, ne_eq]
    intro h0
    rw [h0] at hbit
    simp at hbit
  have hqX : ∀ j ∈ q, j ∈ X := fun j hj => Finset.mem_toList.1 (hqs hj)
  have hcnt : (lhsOf self.table_header_.column_names.length ([] ++ q)).count ≤ self.max_lhs_ :=
    le_trans (algos.FDep.lhsOf_count_le_card _ _ X hqX) hcard
  have hmem := FDTreeElement.emitList_complete pos.height pos [] 0 q v (le_refl _) hinv.wf hv
    hany hcnt
  refine ⟨_, hmem, ?_, ?_⟩
  · exact ((BitsetToDynamicBitset_spec _ _).2 a).2 ⟨ha, hbit⟩
  · intro y hy
    exact hqX y ((lhsOf_test _ _ y).1 hy)

/-- Minimality of the run on the model, for at most 30 columns: whenever the `lhs` of
one stripped FD lies within the `lhs` of another and both have bit `a` in `rhs`, the two
`lhs` have the same bits. -/
theorem ExecuteInternal_minimal (self : algos.FDep)
    (hn : self.table_header_.column_names.length ≤ 30) :
    ∃ self' st, self.ExecuteInternal = some self' ∧ self'.GetFdStorage = some st ∧
      ∀ fdX ∈ st.GetStripped, ∀ fdY ∈ st.GetStripped, ∀ a,
        fdX.rhs.test a = true → fdY.rhs.test a = true →
        (∀ y, fdY.lhs.test y = true → fdX.lhs.test y = true) →
        ∀ x, fdX.lhs.test x = true → fdY.lhs.test x = true := by
  obtain ⟨pos, _, hinv, hexec⟩ := algos.FDep.ExecuteInternal_result self hn
  refine ⟨_, _, hexec, rfl, ?_⟩
  intro fdX hX fdY hY a haX haY hsub x hx
  obtain ⟨p, hp1, _, _, _, hp5⟩ := algos.FDep.mem_emitList hinv.wf hX
  obtain ⟨q, hq1, _, _, _, hq5⟩ := algos.FDep.mem_emitList hinv.wf hY
  have hqp : q ⊆ p := by
    intro j hj
    have h1 : fdY.lhs.test j = true := by rw [hq1]; exact (lhsOf_test _ q j).2 hj
    have h2 := hsub j h1
    rw [hp1] at h2
    exact (lhsOf_test _ p j).1 h2
  have heq := hinv.antichain q p a (hq5 a haY) (hp5 a haX) hqp
  rw [hq1, heq, ← hp1]
  exact hx

/-- No trivial FDs in the run on the model, for at most 30 columns: every stripped FD of
the storage has `lhs` and `rhs` of the width of the header and no column set in both. -/
theorem ExecuteInternal_nontrivial (self : algos.FDep)
    (hn : self.table_header_.column_names.length ≤ 30) :
    ∃ self' st, self.ExecuteInternal = some self' ∧ self'.GetFdStorage = some st ∧
      ∀ fd ∈ st.GetStripped,
        fd.lhs.size = self.table_header_.column_names.length ∧
        fd.rhs.size = self.table_header_.column_names.length ∧
        ∀ i, ¬ (fd.lhs.test i = true ∧ fd.rhs.test i = true) := by
  obtain ⟨pos, _, hinv, hexec⟩ := algos.FDep.ExecuteInternal_result self hn
  refine ⟨_, _, hexec, rfl, ?_⟩
  intro fd hfd
  obtain ⟨q, h1, h2, _, _, h5⟩ := algos.FDep.mem_emitList hinv.wf hfd
  refine ⟨by rw [h1]; exact lhsOf_size _ _, h2, ?_⟩
  rintro i ⟨hl, hr⟩
  rw [h1] at hl
  exact hinv.nontrivial q i (h5 i hr) ((lhsOf_test _ q i).1 hl)

/-- The cap of the run on the model, for at most 30 columns: the stripped FDs of the run
with `max_lhs = m` are those of the run with `max_lhs` unlimited whose `lhs` has at most
`m` bits, in the same order. -/
theorem ExecuteInternal_cap (self : algos.FDep) (m : Nat)
    (hn : self.table_header_.column_names.length ≤ 30) :
    ∃ capped unlimited stm stu,
      algos.FDep.ExecuteInternal { self with max_lhs_ := m } = some capped ∧
      algos.FDep.ExecuteInternal { self with max_lhs_ := algos.kMaxLhsUnlimited }
        = some unlimited ∧
      capped.GetFdStorage = some stm ∧ unlimited.GetFdStorage = some stu ∧
      stm.GetStripped = stu.GetStripped.filter (fun fd => decide (fd.lhs.count ≤ m)) ∧
      ∀ fd ∈ stm.GetStripped, fd.lhs.count ≤ m := by
  obtain ⟨pos1, hrun1, hinv1, hexec1⟩ :=
    algos.FDep.ExecuteInternal_result { self with max_lhs_ := m } hn
  obtain ⟨pos2, hrun2, _, hexec2⟩ :=
    algos.FDep.ExecuteInternal_result { self with max_lhs_ := algos.kMaxLhsUnlimited } hn
  simp only at hrun1 hrun2
  have hpos : pos2 = pos1 := by
    rw [hrun1] at hrun2
    simp only [Option.some.injEq, Prod.mk.injEq] at hrun2
    exact hrun2.1.symm
  subst hpos
  refine ⟨_, _, _, _, hexec1, hexec2, rfl, rfl, ?_, ?_⟩
  · exact @FDTreeElement.emitList_filter self.table_header_.column_names.length m
      algos.kMaxLhsUnlimited (by unfold algos.kMaxLhsUnlimited; omega) pos2.height pos2 []
  · intro fd hfd
    obtain ⟨q, h1, _, h3, _, _⟩ := algos.FDep.mem_emitList hinv1.wf hfd
    rw [h1]
    exact h3

set_option maxRecDepth 20000 in
/-- C1 (soundness of FDep), as far as the mask `(2 << n) - 1` of `AddViolatedFDs` lets it
hold.  The failing input is the table with 31 columns and the rows `row31a`, `row31b`: the
negative cover is built by the call `AddFunctionalDependency(equal_attr, 1)`, and the
path of `equal_attr` contains the child position 31, which a node for 31 attributes does
not have (the source indexes `children_[31]` of a vector of 31 elements), so that no
storage comes out of the run.  For every loaded table with at most 29
columns, where the mask does not overflow, `ExecuteInternal` finishes and every FD
`X → a` encoded by a stripped FD of the storage (`X` the set bits of `lhs`, `a` a set bit
of `rhs`) holds on the rows: two rows that agree on every column of `X` agree on `a`.
The sample table is an instance. -/
theorem FDep_emitted_fds_hold_up_to_29_columns :
    (algos.FDep.wide31.Loaded ∧ algos.FDep.wide31.table_header_.column_names.length = 31 ∧
      algos.FDep.BuildNegativeCover.pairs 31 algos.FDep.wide31.tuples_ (FDTreeElement.new 31) =
        (FDTreeElement.new 31).AddFunctionalDependency
          (algos.FDep.equalAttr 31 algos.FDep.row31a algos.FDep.row31b) 1 ∧
      31 ∈ pathOf (algos.FDep.equalAttr 31 algos.FDep.row31a algos.FDep.row31b) ∧
      ¬ 31 < (FDTreeElement.new 31).children_.length) ∧
    (∀ self : algos.FDep, self.table_header_.column_names.length ≤ 29 → self.Loaded →
      ∃ self' st, self.ExecuteInternal = some self' ∧ self'.GetFdStorage = some st ∧
        ∀ fd ∈ st.GetStripped, ∀ a, fd.rhs.test a = true →
          ∀ t1 ∈ self.tuples_, ∀ t2 ∈ self.tuples_,
            (∀ x, fd.lhs.test x = true → algos.FDep.cell t1 x = algos.FDep.cell t2 x) →
            algos.FDep.cell t1 a = algos.FDep.cell t2 a) ∧
    (∃ self' st, algos.FDep.sample.ExecuteInternal = some self' ∧
      self'.GetFdStorage = some st ∧
      ∀ fd ∈ st.GetStripped, ∀ a, fd.rhs.test a = true →
        ∀ t1 ∈ algos.FDep.sample.tuples_, ∀ t2 ∈ algos.FDep.sample.tuples_,
          (∀ x, fd.lhs.test x = true → algos.FDep.cell t1 x = algos.FDep.cell t2 x) →
          algos.FDep.cell t1 a = algos.FDep.cell t2 a) :=
  ⟨wide31_leaves_child_slots,
    fun self hn _ => ExecuteInternal_sound self (Nat.le_succ_of_le hn),
    ExecuteInternal_sound algos.FDep.sample (by decide)⟩

set_option maxRecDepth 20000 in
/-- C2 (completeness up to the cap), as far as the mask `(2 << n) - 1` of
`AddViolatedFDs` lets it hold.  The failing input is the table with 31 columns and the rows `row31a`, `row31b`: the
negative cover is built by the call `AddFunctionalDependency(equal_attr, 1)`, and the
path of `equal_attr` contains the child position 31, which a node for 31 attributes does
not have (the source indexes `children_[31]` of a vector of 31 elements), so that no
storage comes out of the run.  For every
loaded table with at most 29 columns: whenever an FD `X → a` with `a ∉ X` and
`|X| ≤ max_lhs` holds on the rows, the storage contains a stripped FD whose `lhs` lies
within `X` and whose `rhs` has bit `a`.  The sample table with `V → K` is an instance. -/
theorem FDep_complete_up_to_29_columns :
    (algos.FDep.wide31.Loaded ∧ algos.FDep.wide31.table_header_.column_names.length = 31 ∧
      algos.FDep.BuildNegativeCover.pairs 31 algos.FDep.wide31.tuples_ (FDTreeElement.new 31) =
        (FDTreeElement.new 31).AddFunctionalDependency
          (algos.FDep.equalAttr 31 algos.FDep.row31a algos.FDep.row31b) 1 ∧
      31 ∈ pathOf (algos.FDep.equalAttr 31 algos.FDep.row31a algos.FDep.row31b) ∧
      ¬ 31 < (FDTreeElement.new 31).children_.length) ∧
    (∀ self : algos.FDep, self.table_header_.column_names.length ≤ 29 → self.Loaded →
      ∀ (X : Finset Nat) (a : Nat), (∀ x ∈ X, x < self.table_header_.column_names.length) →
        a < self.table_header_.column_names.length → a ∉ X → X.card ≤ self.max_lhs_ →
        (∀ t1 ∈ self.tuples_, ∀ t2 ∈ self.tuples_,
          (∀ x ∈ X, algos.FDep.cell t1 x = algos.FDep.cell t2 x) →
          algos.FDep.cell t1 a = algos.FDep.cell t2 a) →
        ∃ self' st, self.ExecuteInternal = some self' ∧ self'.GetFdStorage = some st ∧
          ∃ fd ∈ st.GetStripped, fd.rhs.test a = true ∧
            ∀ y, fd.lhs.test y = true → y ∈ X) ∧
    ((∀ t1 ∈ algos.FDep.sample.tuples_, ∀ t2 ∈ algos.FDep.sample.tuples_,
        (∀ x ∈ ({1} : Finset Nat), algos.FDep.cell t1 x = algos.FDep.cell t2 x) →
        algos.FDep.cell t1 0 = algos.FDep.cell t2 0) ∧
      ∃ self' st, algos.FDep.sample.ExecuteInternal = some self' ∧
        self'.GetFdStorage = some st ∧
        ∃ fd ∈ st.GetStripped, fd.rhs.test 0 = true ∧
          ∀ y, fd.lhs.test y = true → y ∈ ({1} : Finset Nat)) :=
  ⟨wide31_leaves_child_slots,
    fun self hn _ X a hX ha haX hcard hholds =>
      ExecuteInternal_complete self (Nat.le_succ_of_le hn) X a hX ha haX hcard hholds,
    by decide,
    ExecuteInternal_complete algos.FDep.sample (by decide) {1} 0 (by decide) (by decide)
      (by decide) (by decide) (by decide)⟩

set_option maxRecDepth 20000 in
/-- C3 (minimality), as far as the mask `(2 << n) - 1` of `AddViolatedFDs` lets it hold.
The failing input is the table with 31 columns and the rows `row31a`, `row31b`: the
negative cover is built by the call `AddFunctionalDependency(equal_attr, 1)`, and the
path of `equal_attr` contains the child position 31, which a node for 31 attributes does
not have (the source indexes `children_[31]` of a vector of 31 elements), so that no
storage comes out of the run.  For every loaded table with at most 29
columns, no emitted FD `X → a` has an emitted FD `Y → a` with `Y` a strict subset of `X`:
whenever the `lhs` of one stripped FD lies within the `lhs` of another and both have bit
`a` in `rhs`, the two `lhs` have the same bits.  The sample table is an instance. -/
theorem FDep_emitted_fds_minimal_up_to_29_columns :
    (algos.FDep.wide31.Loaded ∧ algos.FDep.wide31.table_header_.column_names.length = 31 ∧
      algos.FDep.BuildNegativeCover.pairs 31 algos.FDep.wide31.tuples_ (FDTreeElement.new 31) =
        (FDTreeElement.new 31).AddFunctionalDependency
          (algos.FDep.equalAttr 31 algos.FDep.row31a algos.FDep.row31b) 1 ∧
      31 ∈ pathOf (algos.FDep.equalAttr 31 algos.FDep.row31a algos.FDep.row31b) ∧
      ¬ 31 < (FDTreeElement.new 31).children_.length) ∧
    (∀ self : algos.FDep, self.table_header_.column_names.length ≤ 29 → self.Loaded →
      ∃ self' st, self.ExecuteInternal = some self' ∧ self'.GetFdStorage = some st ∧
        ∀ fdX ∈ st.GetStripped, ∀ fdY ∈ st.GetStripped, ∀ a,
          fdX.rhs.test a = true → fdY.rhs.test a = true →
          (∀ y, fdY.lhs.test y = true → fdX.lhs.test y = true) →
          ∀ x, fdX.lhs.test x = true → fdY.lhs.test x = true) ∧
    (∃ self' st, algos.FDep.sample.ExecuteInternal = some self' ∧
      self'.GetFdStorage = some st ∧
      ∀ fdX ∈ st.GetStripped, ∀ fdY ∈ st.GetStripped, ∀ a,
        fdX.rhs.test a = true → fdY.rhs.test a = true →
        (∀ y, fdY.lhs.test y = true → fdX.lhs.test y = true) →
        ∀ x, fdX.lhs.test x = true → fdY.lhs.test x = true) :=
  ⟨wide31_leaves_child_slots,
    fun self hn _ => ExecuteInternal_minimal self (Nat.le_succ_of_le hn),
    ExecuteInternal_minimal algos.FDep.sample (by decide)⟩

set_option maxRecDepth 20000 in
/-- C4 (no trivial FDs), as far as the mask `(2 << n) - 1` of `AddViolatedFDs` lets it
hold.  The failing input is the table with 31 columns and the rows `row31a`, `row31b`: the
negative cover is built by the call `AddFunctionalDependency(equal_attr, 1)`, and the
path of `equal_attr` contains the child position 31, which a node for 31 attributes does
not have (the source indexes `children_[31]` of a vector of 31 elements), so that no
storage comes out of the run.  For every loaded table with
`n ≤ 29` columns, every stripped FD of the storage has `lhs` and `rhs` of width `n` and no
column set in both.  The sample table is an instance. -/
theorem FDep_emitted_fds_nontrivial_up_to_29_columns :
    (algos.FDep.wide31.Loaded ∧ algos.FDep.wide31.table_header_.column_names.length = 31 ∧
      algos.FDep.BuildNegativeCover.pairs 31 algos.FDep.wide31.tuples_ (FDTreeElement.new 31) =
        (FDTreeElement.new 31).AddFunctionalDependency
          (algos.FDep.equalAttr 31 algos.FDep.row31a algos.FDep.row31b) 1 ∧
      31 ∈ pathOf (algos.FDep.equalAttr 31 algos.FDep.row31a algos.FDep.row31b) ∧
      ¬ 31 < (FDTreeElement.new 31).children_.length) ∧
    (∀ self : algos.FDep, self.table_header_.column_names.length ≤ 29 → self.Loaded →
      ∃ self' st, self.ExecuteInternal = some self' ∧ self'.GetFdStorage = some st ∧
        ∀ fd ∈ st.GetStripped,
          fd.lhs.size = self.table_header_.column_names.length ∧
          fd.rhs.size = self.table_header_.column_names.length ∧
          ∀ i, ¬ (fd.lhs.test i = true ∧ fd.rhs.test i = true)) ∧
    (∃ self' st, algos.FDep.sample.ExecuteInternal = some self' ∧
      self'.GetFdStorage = some st ∧
      ∀ fd ∈ st.GetStripped,
        fd.lhs.size = algos.FDep.sample.table_header_.column_names.length ∧
        fd.rhs.size = algos.FDep.sample.table_header_.column_names.length ∧
        ∀ i, ¬ (fd.lhs.test i = true ∧ fd.rhs.test i = true)) :=
  ⟨wide31_leaves_child_slots,
    fun self hn _ => ExecuteInternal_nontrivial self (Nat.le_succ_of_le hn),
    ExecuteInternal_nontrivial algos.FDep.sample (by decide)⟩

set_option maxRecDepth 20000 in
/-- C5 (the `max_lhs` cap), as far as the mask `(2 << n) - 1` of `AddViolatedFDs` lets it
hold.  The failing input is the table with 31 columns and the rows `row31a`, `row31b`: the
negative cover is built by the call `AddFunctionalDependency(equal_attr, 1)`, and the
path of `equal_attr` contains the child position 31, which a node for 31 attributes does
not have (the source indexes `children_[31]` of a vector of 31 elements), so that no
storage comes out of the run.  For every loaded table with at
most 29 columns and every cap `m`, the run with `max_lhs = m` and the run with `max_lhs`
unlimited both finish, and the stripped FDs of the first are exactly those of the second
whose `lhs` has at most `m` bits, in the same order; in particular every emitted `lhs`
has at most `m` bits.  The sample table with the cap 0 is an instance. -/
theorem FDep_max_lhs_cap_up_to_29_columns :
    (algos.FDep.wide31.Loaded ∧ algos.FDep.wide31.table_header_.column_names.length = 31 ∧
      algos.FDep.BuildNegativeCover.pairs 31 algos.FDep.wide31.tuples_ (FDTreeElement.new 31) =
        (FDTreeElement.new 31).AddFunctionalDependency
          (algos.FDep.equalAttr 31 algos.FDep.row31a algos.FDep.row31b) 1 ∧
      31 ∈ pathOf (algos.FDep.equalAttr 31 algos.FDep.row31a algos.FDep.row31b) ∧
      ¬ 31 < (FDTreeElement.new 31).children_.length) ∧
    (∀ (self : algos.FDep) (m : Nat), self.table_header_.column_names.length ≤ 29 →
      self.Loaded →
      ∃ capped unlimited stm stu,
        algos.FDep.ExecuteInternal { self with max_lhs_ := m } = some capped ∧
        algos.FDep.ExecuteInternal { self with max_lhs_ := algos.kMaxLhsUnlimited }
          = some unlimited ∧
        capped.GetFdStorage = some stm ∧ unlimited.GetFdStorage = some stu ∧
        stm.GetStripped = stu.GetStripped.filter (fun fd => decide (fd.lhs.count ≤ m)) ∧
        ∀ fd ∈ stm.GetStripped, fd.lhs.count ≤ m) ∧
    (∃ capped unlimited stm stu,
      algos.FDep.ExecuteInternal { algos.FDep.sample with max_lhs_ := 0 } = some capped ∧
      algos.FDep.ExecuteInternal
        { algos.FDep.sample with max_lhs_ := algos.kMaxLhsUnlimited } = some unlimited ∧
      capped.GetFdStorage = some stm ∧ unlimited.GetFdStorage = some stu ∧
      stm.GetStripped = stu.GetStripped.filter (fun fd => decide (fd.lhs.count ≤ 0)) ∧
      ∀ fd ∈ stm.GetStripped, fd.lhs.count ≤ 0) :=
  ⟨wide31_leaves_child_slots,
    fun self m hn _ => ExecuteInternal_cap self m (Nat.le_succ_of_le hn),
    ExecuteInternal_cap algos.FDep.sample 0 (by decide)⟩

/-- C7, the input on which the verifier's decision is not the FD semantics: on the
relation `K = (10, 10, 10)`, `V = (1, 1, 2)` the test of `VerifyFD` for `K → V`
succeeds (both PLIs have one cluster, the row lost from the cluster is not counted),
although rows 0 and 2 agree on `K` and differ on `V`. -/
theorem VerifyFD_accepts_violated_fd :
    algos.fd_verifier.VerifyFD algos.fd_verifier.lostRowRelation [0] [1] = some true ∧
    (algos.fd_verifier.lostRowRelation.columns.getD 0 []).getD 0 none =
      (algos.fd_verifier.lostRowRelation.columns.getD 0 []).getD 2 none ∧
    (algos.fd_verifier.lostRowRelation.columns.getD 1 []).getD 0 none ≠
      (algos.fd_verifier.lostRowRelation.columns.getD 1 []).getD 2 none := by
  decide

set_option maxRecDepth 20000 in
/-- C8, the input on which the verifier does not confirm a mined FD: for the table
`K = (10, 11, 12)`, `V = (1, 1, 1)` the miner emits the single stripped FD with empty
`lhs` and `rhs = {V}`, and the verifier rejects the input `(lhs = [], rhs = [V])` with
a `ConfigurationError`. -/
theorem verifier_rejects_mined_empty_lhs_fd :
    ((algos.FDep.constantColumn.ExecuteInternal.bind algos.FDep.GetFdStorage).map
        algos.FdStorage.GetStripped = some [⟨⟨2, 0⟩, ⟨2, 2⟩⟩]) ∧
    algos.fd_verifier.not_empty ⟨[], [model.ColumnId.index 1]⟩ =
      Except.error ⟨"FDs with empty LHS are unsupported"⟩ ∧
    algos.fd_verifier.verify ["K", "V"] algos.fd_verifier.constantColumnRelation
        ⟨[], [model.ColumnId.index 1]⟩ =
      Except.error ⟨"FDs with empty LHS are unsupported"⟩ := by
  refine ⟨?_, ?_, ?_⟩
  · decide
  · rfl
  · rfl

namespace model.PLI

theorem bucketInsert_rows (key row : Nat) (bs : List (Nat × List Nat)) :
    (((bucketInsert key row bs).map Prod.snd).map List.length).sum
      = ((bs.map Prod.snd).map List.length).sum + 1 := by
  induction bs with
  | nil => simp [bucketInsert]
  | cons b rest ih =>
    unfold bucketInsert
    by_cases h : b.1 = key
    · simp only [if_pos h, List.map_cons, List.sum_cons, List.length_append, List.length_singleton]
      omega
    · simp only [if_neg h, List.map_cons, List.sum_cons, ih]
      omega

theorem bucketInsert_sublist (key row : Nat) (pre : List Nat) (bs : List (Nat × List Nat))
    (h : ∀ b ∈ bs, List.Sublist b.2 pre) :
    ∀ b ∈ bucketInsert key row bs, List.Sublist b.2 (pre ++ [row]) := by
  induction bs with
  | nil =>
    intro b hb
    simp only [bucketInsert, List.mem_singleton] at hb
    subst hb
    exact List.sublist_append_right _ _
  | cons b0 rest ih =>
    intro b hb
    unfold bucketInsert at hb
    by_cases hk : b0.1 = key
    · simp only [if_pos hk, List.mem_cons] at hb
      rcases hb with rfl | hb
      · exact List.Sublist.append (h b0 (List.mem_cons_self _ _)) (List.Sublist.refl _)
      · exact (h b (List.mem_cons_of_mem _ hb)).trans (List.sublist_append_left _ _)
    · simp only [if_neg hk, List.mem_cons] at hb
      rcases hb with rfl | hb
      · exact (h b (List.mem_cons_self _ _)).trans (List.sublist_append_left _ _)
      · exact ih (fun b' hb' => h b' (List.mem_cons_of_mem _ hb')) b hb

theorem buckets_fold_inv (q : PLI) (c pre : List Nat) (bs : List (Nat × List Nat))
    (hsub : ∀ b ∈ bs, List.Sublist b.2 pre)
    (hsum : ((bs.map Prod.snd).map List.length).sum ≤ pre.length) :
    (∀ b ∈ c.foldl (fun bs row =>
        match q.probe row with
        | some key => bucketInsert key row bs
        | none => bs) bs, List.Sublist b.2 (pre ++ c)) ∧
    (((c.foldl (fun bs row =>
        match q.probe row with
        | some key => bucketInsert key row bs
        | none => bs) bs).map Prod.snd).map List.length).sum ≤ (pre ++ c).length := by
  induction c generalizing pre bs with
  | nil =>
    simp only [List.foldl_nil, List.append_nil]
    exact ⟨hsub, hsum⟩
  | cons row rest ih =>
    simp only [List.foldl_cons]
    have hpre : pre ++ row :: rest = (pre ++ [row]) ++ rest := by simp
    rw [hpre]
    cases hp : q.probe row with
    | none =>
      simp only []
      apply ih
      · intro b hb
        exact (hsub b hb).trans (List.sublist_append_left _ _)
      · simp only [List.length_append, List.length_singleton]
        omega
    | some key =>
      simp only []
      apply ih
      · exact bucketInsert_sublist key row pre bs hsub
      · rw [bucketInsert_rows]
        simp only [List.length_append, List.length_singleton]
        omega

theorem buckets_sublist (q : PLI) (c : List Nat) :
    ∀ b ∈ buckets q c, List.Sublist b.2 c := by
  have h := (buckets_fold_inv q c [] [] (by simp) (by simp)).1
  simpa [buckets] using h

theorem buckets_rows (q : PLI) (c : List Nat) :
    (((buckets q c).map Prod.snd).map List.length).sum ≤ c.length := by
  have h := (buckets_fold_inv q c [] [] (by simp) (by simp)).2
  simpa [buckets] using h

theorem filter_rows_le (p : List Nat → Bool) (l : List (List Nat)) :
    ((l.filter p).map List.length).sum ≤ (l.map List.length).sum := by
  induction l with
  | nil => simp
  | cons a rest ih =>
    by_cases h : p a
    · simp only [List.filter_cons_of_pos h, List.map_cons, List.sum_cons]
      omega
    · simp only [List.filter_cons_of_neg h, List.map_cons, List.sum_cons]
      omega

theorem two_mul_length_le (l : List (List Nat)) (h : ∀ c ∈ l, 2 ≤ c.length) :
    2 * l.length ≤ (l.map List.length).sum := by
  induction l with
  | nil => simp
  | cons c rest ih =>
    have h1 := h c (List.mem_cons_self _ _)
    have h2 := ih (fun d hd => h d (List.mem_cons_of_mem _ hd))
    simp only [List.length_cons, List.map_cons, List.sum_cons]
    omega

end model.PLI

/-- C9 as stated fails: the cluster `{0,1,2,3}` of the PLI of the column `(5,5,5,5)`
is split by the PLI of the column `(1,1,2,2)` into two clusters, so the intersection
has more clusters than its first argument. -/
theorem Intersect_cluster_count_can_grow :
    ¬ ((model.PLI.ofColumn true [some 5, some 5, some 5, some 5]).Intersect
          (model.PLI.ofColumn true [some 1, some 1, some 2, some 2])).GetNumCluster
        ≤ (model.PLI.ofColumn true [some 5, some 5, some 5, some 5]).GetNumCluster := by
  decide

/-- C9, amended: every cluster of `P ∩ Q` has at least two rows and is a part (in
order) of some cluster of `P`; the clusters of `P ∩ Q` hold at most as many rows as
those of `P`; and the number of clusters of `P ∩ Q` is at most half the number of
rows held by `P`. -/
theorem Intersect_clusters_refine (p q : model.PLI) :
    (∀ c ∈ (p.Intersect q).clusters, 2 ≤ c.length ∧ ∃ c0 ∈ p.clusters, List.Sublist c c0) ∧
      (p.Intersect q).numRows ≤ p.numRows ∧
      2 * (p.Intersect q).GetNumCluster ≤ p.numRows := by
  have hparts : ∀ c ∈ (p.Intersect q).clusters,
      2 ≤ c.length ∧ ∃ c0 ∈ p.clusters, List.Sublist c c0 := by
    intro c hc
    simp only [model.PLI.Intersect, List.mem_flatMap, List.mem_filter, List.mem_map] at hc
    obtain ⟨c0, hc0, ⟨b, hb, rfl⟩, hlen⟩ := hc
    exact ⟨by simpa using hlen, c0, hc0, model.PLI.buckets_sublist q c0 b hb⟩
  have hrows : (p.Intersect q).numRows ≤ p.numRows := by
    unfold model.PLI.numRows model.PLI.Intersect
    simp only
    generalize p.clusters = cs
    induction cs with
    | nil => simp
    | cons c0 rest ih =>
      simp only [List.flatMap_cons, List.map_append, List.sum_append, List.map_cons, List.sum_cons]
      have h1 := model.PLI.filter_rows_le (fun b => decide (2 ≤ b.length))
        ((model.PLI.buckets q c0).map Prod.snd)
      have h2 := model.PLI.buckets_rows q c0
      omega
  refine ⟨hparts, hrows, ?_⟩
  have h2 := model.PLI.two_mul_length_le (p.Intersect q).clusters (fun c hc => (hparts c hc).1)
  unfold model.PLI.GetNumCluster
  unfold model.PLI.numRows at hrows ⊢
  omega

namespace util

theorem unique_cons_cons {α : Type} [DecidableEq α] (x y : α) (rest : List α) :
    unique (x :: y :: rest) = if x = y then unique (y :: rest) else x :: unique (y :: rest) := by
  simp [unique]

theorem mem_unique {α : Type} [DecidableEq α] (l : List α) (x : α) : x ∈ unique l ↔ x ∈ l := by
  induction l with
  | nil => simp [unique]
  | cons a rest ih =>
    cases rest with
    | nil => simp [unique]
    | cons b rest2 =>
      rw [unique_cons_cons]
      by_cases h : a = b
      · subst h
        simp only [if_true, ih]
        simp
      · simp only [if_neg h, List.mem_cons, ih]

theorem unique_head_le {α : Type} [LinearOrder α] (a : α) (l : List α)
    (h : ∀ y ∈ l, a < y) : ∀ y ∈ unique l, a < y :=
  fun y hy => h y ((mem_unique l y).1 hy)

theorem unique_pairwise_lt {α : Type} [LinearOrder α] (l : List α)
    (h : l.Pairwise (fun a b => a ≤ b)) : (unique l).Pairwise (fun a b => a < b) := by
  induction l with
  | nil => simp [unique]
  | cons a rest ih =>
    cases rest with
    | nil => simp [unique]
    | cons b rest2 =>
      rw [unique_cons_cons]
      have hrest := (List.pairwise_cons.1 h).2
      have hhead := (List.pairwise_cons.1 h).1
      by_cases hab : a = b
      · simp only [if_pos hab]
        exact ih hrest
      · simp only [if_neg hab]
        refine List.pairwise_cons.2 ⟨?_, ih hrest⟩
        intro y hy
        have hy' := (mem_unique _ y).1 hy
        have hb : a < b := lt_of_le_of_ne (hhead b (List.mem_cons_self _ _)) hab
        rcases List.mem_cons.1 hy' with rfl | hy2
        · exact hb
        · exact lt_of_lt_of_le hb ((List.pairwise_cons.1 hrest).1 y hy2)

end util

/-- C10 (`util::NormalizeIndices`).  The result is strictly ascending (sorted, no two
equal elements) and has the same elements as the input. -/
theorem NormalizeIndices_strictly_ascending_same_elements {α : Type} [LinearOrder α]
    (indices : List α) :
    (util.NormalizeIndices indices).Pairwise (fun a b => a < b) ∧
      ∀ x, x ∈ util.NormalizeIndices indices ↔ x ∈ indices := by
  constructor
  · exact util.unique_pairwise_lt _ (List.sorted_insertionSort (fun a b => a ≤ b) indices)
  · intro x
    unfold util.NormalizeIndices
    rw [util.mem_unique]
    exact (List.perm_insertionSort (fun a b => a ≤ b) indices).mem_iff

namespace util

theorem unique_of_pairwise_lt {α : Type} [LinearOrder α] (l : List α)
    (h : l.Pairwise (fun a b => a < b)) : unique l = l := by
  induction l with
  | nil => simp [unique]
  | cons a rest ih =>
    cases rest with
    | nil => simp [unique]
    | cons b rest2 =>
      rw [unique_cons_cons]
      have hab : a < b := (List.pairwise_cons.1 h).1 b (List.mem_cons_self _ _)
      rw [if_neg (ne_of_lt hab), ih (List.pairwise_cons.1 h).2]

theorem NormalizeIndices_of_pairwise_lt {α : Type} [LinearOrder α] (l : List α)
    (h : l.Pairwise (fun a b => a < b)) : NormalizeIndices l = l := by
  unfold NormalizeIndices
  have hs : l.Sorted (fun a b => a ≤ b) := h.imp (fun hab => le_of_lt hab)
  rw [List.Sorted.insertionSort_eq hs]
  exact unique_of_pairwise_lt l h

theorem mem_NormalizeIndices {α : Type} [LinearOrder α] (l : List α) (x : α) :
    x ∈ NormalizeIndices l ↔ x ∈ l := by
  unfold NormalizeIndices
  rw [mem_unique]
  exact (List.perm_insertionSort (fun a b => a ≤ b) l).mem_iff

theorem NormalizeIndices_twice {α : Type} [LinearOrder α] (l : List α) :
    NormalizeIndices (NormalizeIndices l) = NormalizeIndices l :=
  NormalizeIndices_of_pairwise_lt _
    (unique_pairwise_lt _ (List.sorted_insertionSort (fun a b => a ≤ b) l))

end util

namespace algos.fd_verifier

theorem mapM_ok_cons {α β ε : Type} (f : α → Except ε β) (a : α) (l : List α) (r : List β) :
    (a :: l).mapM f = Except.ok r ↔
      ∃ b bs, f a = Except.ok b ∧ l.mapM f = Except.ok bs ∧ r = b :: bs := by
  rw [List.mapM_cons]
  cases hfa : f a with
  | error e =>
    simp [bind, Except.bind]
  | ok b =>
    cases hl : l.mapM f with
    | error e => simp [bind, Except.bind]
    | ok bs =>
      simp [bind, Except.bind, pure, Except.pure]
      exact eq_comm

theorem normalize_index_index (column_names : List String) (k i : Nat) :
    normalize_index column_names (model.ColumnId.index k) = Except.ok i ↔
      (k < column_names.length ∧ i = k) := by
  unfold normalize_index
  by_cases h : k ≥ column_names.length
  · simp only [h, if_true]
    constructor
    · intro h'; cases h'
    · intro h'; omega
  · simp only [h, if_false]
    constructor
    · intro h'
      cases h'
      exact ⟨by omega, rfl⟩
    · rintro ⟨_, rfl⟩; rfl

theorem normalize_index_lt (column_names : List String) (c : model.ColumnId) (i : Nat)
    (h : normalize_index column_names c = Except.ok i) : i < column_names.length := by
  cases c with
  | index k =>
    obtain ⟨h1, h2⟩ := (normalize_index_index column_names k i).1 h
    omega
  | name s =>
    unfold normalize_index at h
    simp only at h
    split at h
    · cases h
    · split at h
      · cases h
      · cases h
        have := @List.indexOf_le_length _ _ s column_names
        omega

theorem mapM_normalize_index_lt (column_names : List String) :
    ∀ (l : List model.ColumnId) (r : List Nat),
      l.mapM (normalize_index column_names) = Except.ok r → ∀ k ∈ r, k < column_names.length
  | [], r, h => by
    rw [List.mapM_nil] at h
    cases h
    intro k hk
    cases hk
  | c :: l, r, h => by
    obtain ⟨b, bs, h1, h2, rfl⟩ := (mapM_ok_cons _ c l r).1 h
    intro k hk
    rcases List.mem_cons.1 hk with rfl | hk
    · exact normalize_index_lt column_names c _ h1
    · exact mapM_normalize_index_lt column_names l bs h2 k hk

theorem mapM_normalize_index_indices (column_names : List String) :
    ∀ (L : List Nat), (∀ k ∈ L, k < column_names.length) →
      (L.map model.ColumnId.index).mapM (normalize_index column_names) = Except.ok L
  | [], _ => by
    rw [List.map_nil, List.mapM_nil]
    rfl
  | k :: L, h => by
    rw [List.map_cons, mapM_ok_cons]
    exact ⟨k, L, (normalize_index_index column_names k k).2
        ⟨h k (List.mem_cons_self _ _), rfl⟩,
      mapM_normalize_index_indices column_names L
        (fun j hj => h j (List.mem_cons_of_mem _ hj)), rfl⟩

theorem normalize_fd_input_ok (column_names : List String) (x y : model.FdInput) :
    normalize_fd_input column_names x = Except.ok y ↔
      ∃ lhs rhs, x.lhs.mapM (normalize_index column_names) = Except.ok lhs ∧
        x.rhs.mapM (normalize_index column_names) = Except.ok rhs ∧
        y = ⟨(util.NormalizeIndices lhs).map model.ColumnId.index,
          (util.NormalizeIndices rhs).map model.ColumnId.index⟩ := by
  unfold normalize_fd_input
  cases hl : x.lhs.mapM (normalize_index column_names) with
  | error e =>
    simp only
    constructor
    · intro h; cases h
    · rintro ⟨lhs, rhs, h1, _, _⟩; cases h1
  | ok lhs =>
    cases hr : x.rhs.mapM (normalize_index column_names) with
    | error e =>
      simp only
      constructor
      · intro h; cases h
      · rintro ⟨lhs', rhs, _, h2, _⟩; cases h2
    | ok rhs =>
      simp only
      constructor
      · intro h
        cases h
        exact ⟨lhs, rhs, rfl, rfl, rfl⟩
      · rintro ⟨lhs', rhs', h1, h2, rfl⟩
        cases h1
        cases h2
        rfl

end algos.fd_verifier

/-- C11 (`normalize_fd_input`).  When normalization of an `FdInput` against a table
header succeeds with result `y`, normalizing `y` against the same header succeeds
again and returns `y`. -/
theorem normalize_fd_input_idempotent (column_names : List String) (x y : model.FdInput)
    (h : algos.fd_verifier.normalize_fd_input column_names x = Except.ok y) :
    algos.fd_verifier.normalize_fd_input column_names y = Except.ok y := by
  obtain ⟨lhs, rhs, h1, h2, rfl⟩ := (algos.fd_verifier.normalize_fd_input_ok column_names x y).1 h
  have hl := algos.fd_verifier.mapM_normalize_index_lt column_names _ _ h1
  have hr := algos.fd_verifier.mapM_normalize_index_lt column_names _ _ h2
  have hmem : ∀ (L : List Nat) (k : Nat), k ∈ util.NormalizeIndices L → k ∈ L :=
    fun L k hk => (util.mem_NormalizeIndices L k).1 hk
  rw [algos.fd_verifier.normalize_fd_input_ok]
  refine ⟨util.NormalizeIndices lhs, util.NormalizeIndices rhs,
    algos.fd_verifier.mapM_normalize_index_indices column_names _
      (fun k hk => hl k (hmem lhs k hk)),
    algos.fd_verifier.mapM_normalize_index_indices column_names _
      (fun k hk => hr k (hmem rhs k hk)), ?_⟩
  rw [util.NormalizeIndices_twice, util.NormalizeIndices_twice]

/-- Witness for C11: the input `(lhs = ["V", 0, "V"], rhs = [1, 1])` over the header
`K, V` normalizes to `(lhs = [0, 1], rhs = [1])`, and that result normalizes to
itself. -/
theorem normalize_fd_input_idempotent_witness :
    algos.fd_verifier.normalize_fd_input ["K", "V"]
        ⟨[model.ColumnId.name "V", model.ColumnId.index 0, model.ColumnId.name "V"],
          [model.ColumnId.index 1, model.ColumnId.index 1]⟩ =
      Except.ok ⟨[model.ColumnId.index 0, model.ColumnId.index 1], [model.ColumnId.index 1]⟩ ∧
    algos.fd_verifier.normalize_fd_input ["K", "V"]
        ⟨[model.ColumnId.index 0, model.ColumnId.index 1], [model.ColumnId.index 1]⟩ =
      Except.ok ⟨[model.ColumnId.index 0, model.ColumnId.index 1], [model.ColumnId.index 1]⟩ :=
  ⟨by rfl, normalize_fd_input_idempotent ["K", "V"]
    ⟨[model.ColumnId.name "V", model.ColumnId.index 0, model.ColumnId.name "V"],
      [model.ColumnId.index 1, model.ColumnId.index 1]⟩ _ (by rfl)⟩

namespace algos.fd_verifier

theorem getElem?_indexOf : ∀ (l : List String) (s : String), s ∈ l →
    l[l.indexOf s]? = some s
  | [], s, h => by cases h
  | c :: rest, s, h => by
    by_cases hc : c = s
    · subst hc
      rw [List.indexOf_cons_self, List.getElem?_cons_zero]
    · rw [List.indexOf_cons_ne _ hc, List.getElem?_cons_succ]
      rcases List.mem_cons.1 h with h | h
      · exact absurd h.symm hc
      · exact getElem?_indexOf rest s h

theorem indexOf_le_of_getElem? : ∀ (l : List String) (s : String) (j : Nat),
    l[j]? = some s → l.indexOf s ≤ j
  | [], s, j, h => by simp at h
  | c :: rest, s, j, h => by
    by_cases hc : c = s
    · subst hc
      rw [List.indexOf_cons_self]
      exact Nat.zero_le _
    · rw [List.indexOf_cons_ne _ hc]
      cases j with
      | zero =>
        rw [List.getElem?_cons_zero] at h
        cases h
        exact absurd rfl hc
      | succ j =>
        rw [List.getElem?_cons_succ] at h
        have := indexOf_le_of_getElem? rest s j h
        omega

theorem mem_drop_iff (l : List String) (s : String) (i : Nat) :
    s ∈ l.drop i ↔ ∃ j, i ≤ j ∧ l[j]? = some s := by
  rw [List.mem_iff_getElem?]
  constructor
  · rintro ⟨m, hm⟩
    rw [List.getElem?_drop] at hm
    exact ⟨i + m, by omega, hm⟩
  · rintro ⟨j, hij, hj⟩
    refine ⟨j - i, ?_⟩
    rw [List.getElem?_drop]
    have : i + (j - i) = j := by omega
    rw [this]; exact hj

theorem mem_drop_indexOf_iff_count : ∀ (l : List String) (s : String),
    s ∈ l.drop (l.indexOf s + 1) ↔ 2 ≤ l.count s
  | [], s => by simp
  | c :: rest, s => by
    by_cases hc : c = s
    · subst hc
      rw [List.indexOf_cons_self, List.count_cons_self]
      simp only [Nat.zero_add, List.drop_succ_cons, List.drop_zero]
      rw [← List.count_pos_iff]
      omega
    · rw [List.indexOf_cons_ne _ hc, List.count_cons_of_ne (fun h => hc h.symm),
        List.drop_succ_cons]
      exact mem_drop_indexOf_iff_count rest s

theorem normalize_index_name_ok (column_names : List String) (s : String) (i : Nat) :
    normalize_index column_names (model.ColumnId.name s) = Except.ok i ↔
      (column_names[i]? = some s ∧ ∀ j, column_names[j]? = some s → j = i) := by
  unfold normalize_index
  simp only
  by_cases hmem : s ∈ column_names
  · have hne : column_names.indexOf s ≠ column_names.length := by
      intro h
      exact (List.indexOf_eq_length.1 h) hmem
    rw [if_neg hne]
    by_cases hdup : s ∈ column_names.drop (column_names.indexOf s + 1)
    · rw [if_pos hdup]
      constructor
      · intro h; cases h
      · rintro ⟨h1, h2⟩
        exfalso
        obtain ⟨j, hj1, hj2⟩ := (mem_drop_iff _ _ _).1 hdup
        have e1 := h2 j hj2
        have e2 := h2 _ (getElem?_indexOf column_names s hmem)
        omega
    · rw [if_neg hdup]
      constructor
      · intro h
        cases h
        refine ⟨getElem?_indexOf column_names s hmem, ?_⟩
        intro j hj
        have h1 := indexOf_le_of_getElem? column_names s j hj
        by_contra hne'
        exact hdup ((mem_drop_iff _ _ _).2 ⟨j, by omega, hj⟩)
      · rintro ⟨h1, h2⟩
        rw [h2 _ (getElem?_indexOf column_names s hmem)]
  · rw [if_pos (List.indexOf_eq_length.2 hmem)]
    constructor
    · intro h; cases h
    · rintro ⟨h1, _⟩
      exact absurd (List.mem_iff_getElem?.2 ⟨i, h1⟩) hmem

theorem normalize_index_name_error (column_names : List String) (s : String) :
    (∃ e, normalize_index column_names (model.ColumnId.name s) = Except.error e) ↔
      (s ∉ column_names ∨ 2 ≤ column_names.count s) := by
  unfold normalize_index
  simp only
  by_cases hmem : s ∈ column_names
  · have hne : column_names.indexOf s ≠ column_names.length := by
      intro h
      exact (List.indexOf_eq_length.1 h) hmem
    rw [if_neg hne, ← mem_drop_indexOf_iff_count]
    by_cases hdup : s ∈ column_names.drop (column_names.indexOf s + 1)
    · rw [if_pos hdup]
      exact ⟨fun _ => Or.inr hdup, fun _ => ⟨_, rfl⟩⟩
    · rw [if_neg hdup]
      constructor
      · rintro ⟨e, h⟩; cases h
      · rintro (h | h)
        · exact absurd hmem h
        · exact absurd h hdup
  · rw [if_pos (List.indexOf_eq_length.2 hmem)]
    exact ⟨fun _ => Or.inl hmem, fun _ => ⟨_, rfl⟩⟩

theorem normalize_index_index_error (column_names : List String) (k : Nat) :
    (∃ e, normalize_index column_names (model.ColumnId.index k) = Except.error e) ↔
      column_names.length ≤ k := by
  unfold normalize_index
  simp only
  by_cases h : k ≥ column_names.length
  · rw [if_pos h]
    exact ⟨fun _ => h, fun _ => ⟨_, rfl⟩⟩
  · rw [if_neg h]
    constructor
    · rintro ⟨e, h'⟩; cases h'
    · intro h'; exact absurd h' h

end algos.fd_verifier

/-- C12 (`normalize_index`, `normalize_fd_input`).  For a header with `n` column names:
a name is rejected with a `ConfigurationError` exactly when it does not occur in the
header or occurs at least twice, and it resolves to `i` exactly when `i` is the only
position holding the name; an index `k` is rejected exactly when `k ≥ n` and otherwise
resolves to `k`; and after a successful `normalize_fd_input` every element of both
sides is an index below `n`. -/
theorem normalize_index_resolves_columns (column_names : List String) :
    (∀ name : String,
      ((∃ e : config.ConfigurationError,
          algos.fd_verifier.normalize_index column_names (model.ColumnId.name name) =
            Except.error e) ↔
        (name ∉ column_names ∨ 2 ≤ column_names.count name)) ∧
      (∀ i, algos.fd_verifier.normalize_index column_names (model.ColumnId.name name) =
            Except.ok i ↔
          (column_names[i]? = some name ∧ ∀ j, column_names[j]? = some name → j = i))) ∧
    (∀ k : Nat,
      ((∃ e : config.ConfigurationError,
          algos.fd_verifier.normalize_index column_names (model.ColumnId.index k) =
            Except.error e) ↔
        column_names.length ≤ k) ∧
      (∀ i, algos.fd_verifier.normalize_index column_names (model.ColumnId.index k) =
            Except.ok i ↔ (k < column_names.length ∧ i = k))) ∧
    (∀ x y : model.FdInput, algos.fd_verifier.normalize_fd_input column_names x = Except.ok y →
      (∀ c ∈ y.lhs, ∃ k, c = model.ColumnId.index k ∧ k < column_names.length) ∧
      (∀ c ∈ y.rhs, ∃ k, c = model.ColumnId.index k ∧ k < column_names.length)) := by
  refine ⟨fun name => ⟨algos.fd_verifier.normalize_index_name_error column_names name,
      fun i => algos.fd_verifier.normalize_index_name_ok column_names name i⟩,
    fun k => ⟨algos.fd_verifier.normalize_index_index_error column_names k,
      fun i => algos.fd_verifier.normalize_index_index column_names k i⟩, ?_⟩
  intro x y h
  obtain ⟨lhs, rhs, h1, h2, rfl⟩ := (algos.fd_verifier.normalize_fd_input_ok column_names x y).1 h
  have hl := algos.fd_verifier.mapM_normalize_index_lt column_names _ _ h1
  have hr := algos.fd_verifier.mapM_normalize_index_lt column_names _ _ h2
  constructor
  · intro c hc
    obtain ⟨k, hk, rfl⟩ := List.mem_map.1 hc
    exact ⟨k, rfl, hl k ((util.mem_NormalizeIndices lhs k).1 hk)⟩
  · intro c hc
    obtain ⟨k, hk, rfl⟩ := List.mem_map.1 hc
    exact ⟨k, rfl, hr k ((util.mem_NormalizeIndices rhs k).1 hk)⟩

/-- C13 (`not_empty`).  The value check of the verifier raises a `ConfigurationError`
exactly when the `rhs` or the `lhs` of the input is empty, and passes exactly when
both sides are non-empty. -/
theorem not_empty_rejects_exactly_empty_sides (fd_input : model.FdInput) :
    ((∃ e : config.ConfigurationError, algos.fd_verifier.not_empty fd_input = Except.error e) ↔
      (fd_input.rhs = [] ∨ fd_input.lhs = [])) ∧
    (algos.fd_verifier.not_empty fd_input = Except.ok () ↔
      (fd_input.rhs ≠ [] ∧ fd_input.lhs ≠ [])) := by
  obtain ⟨lhs, rhs⟩ := fd_input
  unfold algos.fd_verifier.not_empty
  cases rhs with
  | nil => simp
  | cons r rs =>
    cases lhs with
    | nil => simp
    | cons l ls => simp

namespace FDTreeElement

/-! ### AddFunctionalDependency: the path, and calling it twice -/

theorem walk_path_rhs (n a : Nat) : ∀ (L : List Nat) {k : Nat} {t : FDTreeElement}, WF n k t →
    (∀ i ∈ L, 1 ≤ i ∧ i ≤ n) → ∀ q, q <+: L.map (fun i => i - 1) →
    ∃ u, lookup (AddFunctionalDependency.walk n a L (t.AddRhsAttribute a)) q = some u ∧
      Nat.testBit u.rhs_attributes_ a = true
  | L, k, t, h, hL, [], _ => by
    refine ⟨_, lookup_nil _, ?_⟩
    rw [walk_rhs, rhs_AddRhs]
    have := Bitset.test_set_self t.rhs_attributes_ a
    simpa [Bitset.test] using this
  | [], k, t, h, hL, j :: q, hq => by
    simp at hq
  | i :: rest, k, t, h, hL, j :: q, hq => by
    rw [List.map_cons, List.cons_prefix_cons] at hq
    obtain ⟨hj, hq⟩ := hq
    have hi := hL i (List.mem_cons_self _ _)
    have hrest : ∀ j ∈ rest, 1 ≤ j ∧ j ≤ n := fun j hj => hL j (List.mem_cons_of_mem _ hj)
    obtain ⟨c, hc, hw⟩ := walk_cons n a i rest (t.AddRhsAttribute a)
    have hlen : i - 1 < (t.AddRhsAttribute a).children_.length := by
      rw [children_AddRhs, h.len]; omega
    rw [hw, hj, lookup_cons_some (GetChild_setChild_same _ hlen)]
    rcases hc with hc | ⟨_, hc⟩
    · rw [GetChild_AddRhs] at hc
      exact walk_path_rhs n a rest (h.child hc).2.2 hrest q hq
    · subst hc
      exact walk_path_rhs n a rest (WF_new n 0) hrest q hq

theorem set_set (b i : Nat) : Bitset.set (Bitset.set b i) i = Bitset.set b i := by
  unfold Bitset.set
  rw [Nat.lor_assoc, Nat.or_self]

theorem AddRhs_AddRhs (t : FDTreeElement) (a : Nat) :
    (t.AddRhsAttribute a).AddRhsAttribute a = t.AddRhsAttribute a := by
  unfold AddRhsAttribute
  simp only [children_, rhs_attributes_, max_attribute_number_, is_fd_, set_set]

theorem setChild_setChild (t : FDTreeElement) (j : Nat) (c d : FDTreeElement) :
    (t.setChild j c).setChild j d = t.setChild j d := by
  unfold setChild
  simp only [children_, rhs_attributes_, max_attribute_number_, is_fd_, List.set_set]

theorem AddRhs_setChild (t : FDTreeElement) (j a : Nat) (c : FDTreeElement) :
    (t.setChild j c).AddRhsAttribute a = (t.AddRhsAttribute a).setChild j c := rfl

theorem setChild_of_le (t : FDTreeElement) {j : Nat} (c : FDTreeElement)
    (h : t.children_.length ≤ j) : t.setChild j c = t := by
  conv_rhs => rw [eta t]
  unfold setChild
  rw [List.set_eq_of_length_le h]

theorem GetChild_of_le (t : FDTreeElement) {j : Nat} (h : t.children_.length ≤ j) :
    t.GetChild j = none := by
  unfold GetChild
  rw [List.getD_eq_default _ _ h]

/-- A second walk of `AddFunctionalDependency` along the same indices changes nothing. -/
theorem walk_walk (n a : Nat) : ∀ (L : List Nat) (t : FDTreeElement),
    AddFunctionalDependency.walk n a L
        ((AddFunctionalDependency.walk n a L (t.AddRhsAttribute a)).AddRhsAttribute a) =
      AddFunctionalDependency.walk n a L (t.AddRhsAttribute a)
  | [], t => by
    rw [walk_nil, walk_nil]
    unfold MarkAsLast AddRhsAttribute
    simp only [children_, rhs_attributes_, max_attribute_number_, is_fd_, set_set]
  | i :: rest, t => by
    obtain ⟨c, hc, hw⟩ := walk_cons n a i rest (t.AddRhsAttribute a)
    rw [hw, AddRhs_setChild, AddRhs_AddRhs]
    by_cases hlen : i - 1 < (t.AddRhsAttribute a).children_.length
    · rw [walk_cons_some n a i rest (GetChild_setChild_same _ hlen), setChild_setChild,
        walk_walk n a rest c]
    · rw [setChild_of_le _ _ (not_lt.1 hlen)]
      have hnone := GetChild_of_le (t.AddRhsAttribute a) (not_lt.1 hlen)
      rw [walk_cons_none n a i rest hnone, setChild_of_le _ _ (not_lt.1 hlen)]

theorem walk_max (n a : Nat) (L : List Nat) (t : FDTreeElement) :
    (AddFunctionalDependency.walk n a L t).max_attribute_number_ = t.max_attribute_number_ := by
  cases L with
  | nil => rw [walk_nil, max_MarkAsLast]
  | cons i rest =>
    obtain ⟨c, _, hw⟩ := walk_cons n a i rest t
    rw [hw, max_setChild]

end FDTreeElement

/-- An even number below `2 ^ (n + 1)` is a bitset within the attribute numbers
`1 .. n`. -/
theorem LhsOk_of_lt {n lhs : Nat} (h : lhs < 2 ^ (n + 1)) (h0 : lhs % 2 = 0) : LhsOk n lhs := by
  intro i _ hbit
  constructor
  · rcases Nat.eq_zero_or_pos i with rfl | hpos
    · rw [Nat.testBit_zero] at hbit
      simp [h0] at hbit
    · exact hpos
  · by_contra hlt
    have : lhs < 2 ^ i := lt_of_lt_of_le h (Nat.pow_le_pow_right (by decide) (by omega))
    rw [Nat.testBit_lt_two_pow this] at hbit
    cases hbit

/-- C15 (`AddFunctionalDependency`).  For a tree for `n < 256` attributes (so that the
attribute numbers `1 .. n` are positions of the 256-bit bitsets), `lhs` within `{1..n}`
and `1 ≤ a ≤ n`: after `AddFunctionalDependency(lhs, a)` the node at the end
of the ascending indices of `lhs` exists and has bit `a - 1` of `is_fd_` set; every node
on that path, the root included, exists and has bit `a` of `rhs_attributes_` set; and
the recorded FDs are those recorded before together with `(lhs, a)`. -/
theorem AddFunctionalDependency_adds_exactly_one {n : Nat} (_ : n < kMaxAttrNum)
    (t : FDTreeElement) (hwf : FDTreeElement.WF n 0 t) (lhs a : Nat) (hl : LhsOk n lhs)
    (_ : 1 ≤ a) (_ : a ≤ n) :
    (∃ v, FDTreeElement.lookup (t.AddFunctionalDependency lhs a) (pathOf lhs) = some v ∧
      Nat.testBit v.is_fd_ (a - 1) = true) ∧
    (∀ q, q <+: pathOf lhs →
      ∃ u, FDTreeElement.lookup (t.AddFunctionalDependency lhs a) q = some u ∧
        Nat.testBit u.rhs_attributes_ a = true) ∧
    (∀ q b, FDTreeElement.Rec (t.AddFunctionalDependency lhs a) q b ↔
      (FDTreeElement.Rec t q b ∨ (q = pathOf lhs ∧ b = a - 1))) := by
  have hrec := FDTreeElement.AddFunctionalDependency_Rec hwf hl a
  refine ⟨(hrec _ _).2 (Or.inr ⟨rfl, rfl⟩), ?_, hrec⟩
  intro q hq
  unfold FDTreeElement.AddFunctionalDependency
  rw [hwf.max]
  exact FDTreeElement.walk_path_rhs n a _ hwf hl.indices q hq

/-- Witness for C15: adding `{1, 2} → 3` to the tree for 3 attributes that records
`{1} → 3`. -/
theorem AddFunctionalDependency_adds_exactly_one_witness :
    3 < kMaxAttrNum ∧
    FDTreeElement.WF 3 0 ((FDTreeElement.new 3).AddFunctionalDependency 2 3) ∧ LhsOk 3 6 ∧
    1 ≤ 3 ∧ 3 ≤ 3 ∧
    (∃ v, FDTreeElement.lookup
        (((FDTreeElement.new 3).AddFunctionalDependency 2 3).AddFunctionalDependency 6 3)
        (pathOf 6) = some v ∧ Nat.testBit v.is_fd_ (3 - 1) = true) ∧
    (∀ q, q <+: pathOf 6 →
      ∃ u, FDTreeElement.lookup
        (((FDTreeElement.new 3).AddFunctionalDependency 2 3).AddFunctionalDependency 6 3) q =
          some u ∧ Nat.testBit u.rhs_attributes_ 3 = true) ∧
    (∀ q b, FDTreeElement.Rec
        (((FDTreeElement.new 3).AddFunctionalDependency 2 3).AddFunctionalDependency 6 3) q b ↔
      (FDTreeElement.Rec ((FDTreeElement.new 3).AddFunctionalDependency 2 3) q b ∨
        (q = pathOf 6 ∧ b = 3 - 1))) :=
  have hwf : FDTreeElement.WF 3 0 ((FDTreeElement.new 3).AddFunctionalDependency 2 3) :=
    FDTreeElement.AddFunctionalDependency_WF (FDTreeElement.WF_new 3 0)
      (LhsOk_of_lt (by decide) (by decide)) 3
  ⟨by decide, hwf, LhsOk_of_lt (by decide) (by decide), by decide, by decide,
    AddFunctionalDependency_adds_exactly_one (by decide)
      ((FDTreeElement.new 3).AddFunctionalDependency 2 3)
      hwf 6 3 (LhsOk_of_lt (by decide) (by decide)) (by decide) (by decide)⟩

/-- C16 (`AddFunctionalDependency`).  Calling `AddFunctionalDependency(lhs, a)` a second
time leaves the tree exactly as the first call left it. -/
theorem AddFunctionalDependency_idempotent (t : FDTreeElement) (lhs a : Nat) :
    (t.AddFunctionalDependency lhs a).AddFunctionalDependency lhs a =
      t.AddFunctionalDependency lhs a := by
  unfold FDTreeElement.AddFunctionalDependency
  rw [FDTreeElement.walk_max, FDTreeElement.max_AddRhs]
  exact FDTreeElement.walk_walk _ a _ t

namespace FDTreeElement

/-! ### GetSpecialization finds everything that is recorded -/

theorem GetSpecialization.scan_found (self : FDTreeElement) (a : Nat)
    (rec : FDTreeElement → Nat → Bool × Nat) (target : Nat) (c : FDTreeElement)
    (hc : self.GetChild (target - 1) = some c)
    (hrhs : Bitset.test c.GetRhsAttributes a = true)
    (hrec : ∀ out, (rec c out).1 = true) :
    ∀ (steps attr out : Nat) (found : Bool), 1 ≤ attr →
      (found = false → attr ≤ target ∧ target < attr + steps) →
      (GetSpecialization.scan self a rec steps attr found out).1 = true
  | 0, attr, out, found, _, h => by
    unfold GetSpecialization.scan
    cases found with
    | true => rfl
    | false =>
      have := h rfl
      omega
  | steps + 1, attr, out, found, h1, h => by
    unfold GetSpecialization.scan
    cases found with
    | true => rfl
    | false =>
      simp only [Bool.false_eq_true, if_false]
      have hb := h rfl
      by_cases heq : attr = target
      · subst heq
        rw [hc]
        simp only [hrhs, if_true]
        exact GetSpecialization.scan_found self a rec attr c hc hrhs hrec steps (attr + 1) _ _
          (by omega) (fun hf => by rw [hrec out] at hf; cases hf)
      · have hnext : ∀ (f : Bool) (o : Nat),
            (GetSpecialization.scan self a rec steps (attr + 1) f o).1 = true := fun f o =>
          GetSpecialization.scan_found self a rec target c hc hrhs hrec steps (attr + 1) o f
            (by omega) (fun _ => by omega)
        cases hch : self.GetChild (attr - 1) with
        | none => exact hnext _ _
        | some d =>
          simp only
          split
          · exact hnext _ _
          · exact hnext _ _

/-- When the subtree records an FD for `attr_num` whose path contains every column of
`lhs` above the cursor, `GetSpecialization` answers `true`. -/
theorem GetSpecialization_complete {n : Nat} (lhs a : Nat) (ha : 1 ≤ a) :
    ∀ (fuel : Nat) (t : FDTreeElement) (cur out k : Nat), height t ≤ fuel → WF n k t → Over t →
      cur ≤ k → cur < kMaxAttrNum →
      (∃ q, Rec t q (a - 1) ∧
        ∀ j, cur < j → j < kMaxAttrNum → Nat.testBit lhs j = true → j - 1 ∈ q) →
      (GetSpecialization fuel t lhs a cur out).1 = true
  | 0, t, _, _, _, hh, _, _, _, _, _ => by
    have := height_pos t
    omega
  | fuel + 1, t, cur, out, k, hh, hwf, ho, hck, hcur, ⟨q, hq, hsup⟩ => by
    unfold GetSpecialization
    have ea : a - 1 + 1 = a := by omega
    have hrhs : Bitset.test t.rhs_attributes_ a = true := by
      have := ho.root hq
      rw [ea] at this
      exact this
    simp only [hrhs, Bool.not_true, Bool.false_eq_true, if_false]
    rcases Bitset.Find_next_spec lhs cur hcur with ⟨hn, _⟩ | ⟨hn1, hn2, hn3, hn4⟩
    · simp only [hn, if_true]
    · have hne : Bitset.Find_next lhs cur ≠ kMaxAttrNum := by omega
      simp only [hne, if_false]
      have hmem := hsup _ hn1 hn2 hn3
      cases q with
      | nil => cases hmem
      | cons i q' =>
        obtain ⟨c, hc, hrc⟩ := Rec_cons hq
        obtain ⟨hki, hin, hcw⟩ := hwf.child hc
        have hco := ho.child_over hc
        have hcrhs : Bitset.test c.GetRhsAttributes a = true := by
          have := hco.root hrc
          rw [ea] at this
          exact this
        have hq' : ∀ j ∈ q', i + 1 ≤ j := by
          obtain ⟨v, hv, _⟩ := hrc
          intro j hj
          exact ((hcw.lookup q' hv).2.1 j hj).1
        have hle : i + 1 ≤ Bitset.Find_next lhs cur := by
          rcases List.mem_cons.1 hmem with h | h
          · omega
          · have := hq' _ h
            omega
        have hhc : height c ≤ fuel := by
          have := height_child hc
          omega
        generalize hscan : GetSpecialization.scan t a
          (fun child out => GetSpecialization fuel child lhs a cur out)
          (Bitset.Find_next lhs cur - if cur > 1 then cur else 1)
          (if cur > 1 then cur else 1) false out = r
        cases hr1 : r.1 with
        | true => simp only [Bool.not_true, Bool.false_and, Bool.false_eq_true, if_false]
        | false =>
          have heq : i + 1 = Bitset.Find_next lhs cur := by
            by_contra hne'
            have hlt : i + 1 < Bitset.Find_next lhs cur := by omega
            have hrec : ∀ out', (GetSpecialization fuel c lhs a cur out').1 = true := by
              intro out'
              apply GetSpecialization_complete lhs a ha fuel c cur out' (i + 1) hhc hcw hco
                (by omega) hcur
              refine ⟨q', hrc, ?_⟩
              intro j h1 h2 h3
              rcases List.mem_cons.1 (hsup j h1 h2 h3) with h | h
              · exfalso
                have hji : j = i + 1 := by omega
                rw [hn4 j h1 (by omega)] at h3
                cases h3
              · exact h
            have := GetSpecialization.scan_found t a
              (fun child out => GetSpecialization fuel child lhs a cur out) (i + 1) c
              (by simpa using hc) hcrhs hrec
              (Bitset.Find_next lhs cur - if cur > 1 then cur else 1)
              (if cur > 1 then cur else 1) out false
              (by split <;> omega) (fun _ => by split <;> omega)
            rw [hscan, hr1] at this
            cases this
          have hc' : t.GetChild (Bitset.Find_next lhs cur - 1) = some c := by
            rw [← heq]
            simpa using hc
          have hch : t.childHasRhs (Bitset.Find_next lhs cur - 1) a = true := by
            unfold childHasRhs
            rw [hc']
            exact hcrhs
          simp only [Bool.not_false, Bool.true_and, hch, if_true, hc']
          apply GetSpecialization_complete lhs a ha fuel c _ _ (i + 1) hhc hcw hco (by omega) hn2
          refine ⟨q', hrc, ?_⟩
          intro j h1 h2 h3
          rcases List.mem_cons.1 (hsup j (by omega) h2 h3) with h | h
          · omega
          · exact h

end FDTreeElement

/-- An invariant of a left fold over `List.range'` that may refer to the position
reached. -/
theorem foldl_range'_inv {β : Type} (f : β → Nat → β) (Q : Nat → β → Prop) :
    ∀ (n s0 : Nat) (init : β), Q s0 init →
      (∀ i s, s0 ≤ i → i < s0 + n → Q i s → Q (i + 1) (f s i)) →
      Q (s0 + n) ((List.range' s0 n).foldl f init)
  | 0, s0, init, h, _ => by simpa using h
  | n + 1, s0, init, h, hstep => by
    rw [List.range'_succ, List.foldl_cons]
    have := foldl_range'_inv f Q n (s0 + 1) (f init s0) (hstep s0 init (le_refl _) (by omega) h)
      (fun i s h1 h2 hq => hstep i s (by omega) (by omega) hq)
    have e : s0 + 1 + n = s0 + (n + 1) := by omega
    rw [e] at this
    exact this

theorem sorted_eq_of_subset {P Q : List Nat} (hP : P.Pairwise (fun x y => x < y))
    (hQ : Q.Pairwise (fun x y => x < y)) (h1 : P ⊆ Q) (h2 : Q ⊆ P) : P = Q := by
  have hp : P.Nodup := hP.imp (fun h => Nat.ne_of_lt h)
  have hq : Q.Nodup := hQ.imp (fun h => Nat.ne_of_lt h)
  have hperm : P.Perm Q := (List.perm_ext_iff_of_nodup hp hq).2 (fun a => ⟨fun h => h1 h, fun h => h2 h⟩)
  exact List.eq_of_perm_of_sorted hperm hP hQ

theorem pathOf_eq_of_PathBits {n : Nat} (hn : n < kMaxAttrNum) {P : List Nat} {ap : Nat}
    (hs : P.Pairwise (fun x y => x < y)) (hPn : ∀ i ∈ P, i < n) (h : PathBits P ap) :
    pathOf ap = P := by
  have hok : LhsOk n ap := h.lhsOk hPn
  apply sorted_eq_of_subset (pathOf_pairwise hok) hs
  · intro j hj
    obtain ⟨_, hb⟩ := (mem_pathOf hok j).1 hj
    obtain ⟨i, hi, he⟩ := (h (j + 1)).1 hb
    have : j = i := by omega
    rw [this]; exact hi
  · intro j hj
    have := hPn j hj
    exact (mem_pathOf hok j).2 ⟨by omega, (h (j + 1)).2 ⟨j, hj, rfl⟩⟩

namespace FDTreeElement

theorem FilterSpecializations.Exact.congr_handled {n : Nat} {D D' : List Nat → Nat → Prop}
    {f : FDTreeElement} (h : FilterSpecializations.Exact n D f)
    (hD : ∀ X b, D X b ↔ D' X b) : FilterSpecializations.Exact n D' f :=
  ⟨h.wf, h.over, h.under, h.antichain, fun X b hr => (hD X b).1 (h.sub X b hr),
    fun Z b hz => h.covers Z b ((hD Z b).2 hz)⟩

end FDTreeElement

namespace FDTreeElement

/-- One round of the second loop of `FilterSpecializationsHelper` at the node with path
`P`: when nothing handled so far lies strictly inside `P`, the FD `P → attr` is handled
and the state of `filtered_tree` is kept. -/
theorem FilterSpecializationsHelper.own_exact {n : Nat} (hn : n < kMaxAttrNum)
    {v : FDTreeElement} {P : List Nat} {ap : Nat} {f : FDTreeElement}
    {D : List Nat → Nat → Prop} {attr : Nat} (h1 : 1 ≤ attr) (_ : attr ≤ n)
    (hsorted : P.Pairwise (fun x y => x < y)) (hPn : ∀ i ∈ P, i < n) (hap : PathBits P ap)
    (hinv : FilterSpecializations.Exact n D f)
    (hns : Nat.testBit v.is_fd_ (attr - 1) = true → ∀ X, D X (attr - 1) → X ⊆ P → P ⊆ X) :
    FilterSpecializations.Exact n
      (fun X b => D X b ∨ (X = P ∧ b = attr - 1 ∧ Nat.testBit v.is_fd_ b = true))
      (FilterSpecializationsHelper.own v ap f attr) := by
  have hok : LhsOk n ap := hap.lhsOk hPn
  have hpath : pathOf ap = P := pathOf_eq_of_PathBits hn hsorted hPn hap
  have hsub_of : ∀ q, P ⊆ q →
      ∀ j, 0 < j → j < kMaxAttrNum → Nat.testBit ap j = true → j - 1 ∈ q := by
    intro q hq j _ _ hj
    obtain ⟨i, hi, he⟩ := (hap j).1 hj
    have : j - 1 = i := by omega
    rw [this]; exact hq hi
  unfold FilterSpecializationsHelper.own
  by_cases hcond : (Bitset.test v.is_fd_ (attr - 1) &&
      !(GetSpecialization f.height f ap attr 0 0).1) = true
  · simp only [hcond, if_true]
    simp only [Bool.and_eq_true, Bool.not_eq_true'] at hcond
    obtain ⟨hbit, hspec⟩ := hcond
    have hnospec : ∀ q, Rec f q (attr - 1) → ¬ P ⊆ q := by
      intro q hq hPq
      have := GetSpecialization_complete ap attr h1 f.height f 0 0 0 (le_refl _) hinv.wf
        hinv.over (le_refl _) (by decide) ⟨q, hq, hsub_of q hPq⟩
      rw [hspec] at this
      cases this
    have hrec := AddFunctionalDependency_Rec hinv.wf hok attr
    rw [hpath] at hrec
    refine ⟨AddFunctionalDependency_WF hinv.wf hok attr,
      AddFunctionalDependency_Over hinv.wf hinv.over hok h1,
      AddFunctionalDependency_Under hinv.wf hinv.under hok h1, ?_, ?_, ?_⟩
    · intro p q a hp hq hpq
      rcases (hrec p a).1 hp with hp | ⟨hp1, hp2⟩
      · rcases (hrec q a).1 hq with hq | ⟨hq1, hq2⟩
        · exact hinv.antichain p q a hp hq hpq
        · exfalso
          subst hq1
          subst hq2
          exact hnospec p hp (hns hbit p (hinv.sub p _ hp) hpq)
      · rcases (hrec q a).1 hq with hq | ⟨hq1, hq2⟩
        · exfalso
          subst hp1
          subst hp2
          exact hnospec q hq hpq
        · rw [hp1, hq1]
    · intro X b hX
      rcases (hrec X b).1 hX with h | ⟨hx1, hx2⟩
      · exact Or.inl (hinv.sub X b h)
      · refine Or.inr ⟨hx1, hx2, ?_⟩
        rw [hx2]
        exact hbit
    · intro Z b hZ
      rcases hZ with hZ | ⟨hz1, hz2, _⟩
      · obtain ⟨X, hX, hZX⟩ := hinv.covers Z b hZ
        exact ⟨X, (hrec X b).2 (Or.inl hX), hZX⟩
      · exact ⟨P, (hrec P b).2 (Or.inr ⟨rfl, hz2⟩), by rw [hz1]; exact List.Subset.refl _⟩
  · simp only [hcond, if_false, Bool.false_eq_true]
    refine ⟨hinv.wf, hinv.over, hinv.under, hinv.antichain,
      fun X b h => Or.inl (hinv.sub X b h), ?_⟩
    intro Z b hZ
    rcases hZ with hZ | ⟨hz1, hz2, hz3⟩
    · exact hinv.covers Z b hZ
    · subst hz2
      have hspec : (GetSpecialization f.height f ap attr 0 0).1 = true := by
        cases h : (GetSpecialization f.height f ap attr 0 0).1 with
        | true => rfl
        | false =>
          exfalso
          apply hcond
          simp only [Bitset.test, hz3, h, Bool.not_false, Bool.and_self]
      obtain ⟨q, hq, hqs⟩ := GetSpecialization_sound ap attr h1 _ f 0 0
        hinv.under (by decide) hspec
      refine ⟨q, hq, ?_⟩
      rw [hz1]
      intro j hj
      have := hPn j hj
      have := hqs (j + 1) (by omega) (by omega) ((hap (j + 1)).2 ⟨j, hj, rfl⟩)
      simpa using this

end FDTreeElement

namespace FDTreeElement

/-- `FilterSpecializationsHelper` on the subtree `v` with path `P`: when no FD handled so
far lies strictly inside an FD of the subtree, the FDs of the subtree are handled and
the state of `filtered_tree` is kept. -/
theorem FilterSpecializationsHelper_exact {n : Nat} (hn : n < kMaxAttrNum) :
    ∀ (fuel : Nat) (v : FDTreeElement) (P : List Nat) (ap : Nat) (f : FDTreeElement) (k : Nat)
      (D : List Nat → Nat → Prop),
      height v ≤ fuel → WF n k v → (∀ i ∈ P, i < k) → (∀ i ∈ P, i < n) →
      P.Pairwise (fun x y => x < y) → PathBits P ap →
      FilterSpecializations.Exact n D f →
      (∀ X b q, D X b → Rec v q b → X ⊆ P ++ q → P ++ q ⊆ X) →
      (FilterSpecializationsHelper fuel v f ap).2 = ap ∧
      FilterSpecializations.Exact n
        (fun X b => D X b ∨ (b < n ∧ ∃ q, X = P ++ q ∧ Rec v q b))
        (FilterSpecializationsHelper fuel v f ap).1
  | 0, v, _, _, _, _, _, hh, _, _, _, _, _, _, _ => by
    have := height_pos v
    omega
  | fuel + 1, v, P, ap, f, k, D, hh, hwf, hPk, hPn, hsorted, hap, hinv, hns => by
    unfold FilterSpecializationsHelper
    simp only [hwf.max]
    have h1 := foldl_range'_inv
      (FilterSpecializationsHelper.child (FilterSpecializationsHelper fuel) v)
      (fun pos s => s.2 = ap ∧ FilterSpecializations.Exact n
        (fun X b => D X b ∨ (b < n ∧ ∃ i c q, i + 1 < pos ∧ v.GetChild i = some c ∧
          X = P ++ i :: q ∧ Rec c q b)) s.1)
      n 1 (f, ap)
      ⟨rfl, hinv.congr_handled (fun X b => ⟨Or.inl, fun h => by
        rcases h with h | ⟨_, i, c, q, hi, _⟩
        · exact h
        · omega⟩)⟩ ?_
    · generalize List.foldl (FilterSpecializationsHelper.child (FilterSpecializationsHelper fuel) v)
        (f, ap) (List.range' 1 n) = s1 at h1
      obtain ⟨f1, ap1⟩ := s1
      obtain ⟨e1, inv1⟩ := h1
      simp only at e1 inv1
      subst e1
      have h2 := foldl_range'_inv (FilterSpecializationsHelper.own v ap1)
        (fun pos f' => FilterSpecializations.Exact n
          (fun X b => (D X b ∨ (b < n ∧ ∃ i c q, i + 1 < 1 + n ∧ v.GetChild i = some c ∧
              X = P ++ i :: q ∧ Rec c q b)) ∨
            (X = P ∧ b + 1 < pos ∧ Nat.testBit v.is_fd_ b = true)) f')
        n 1 f1
        (inv1.congr_handled (fun X b => ⟨Or.inl, fun h => by
          rcases h with h | ⟨_, h, _⟩
          · exact h
          · omega⟩)) ?_
      · refine ⟨rfl, h2.congr_handled ?_⟩
        intro X b
        constructor
        · rintro ((h | ⟨hb, i, c, q, _, hc, hX, hr⟩) | ⟨hX, hb, hbit⟩)
          · exact Or.inl h
          · exact Or.inr ⟨hb, i :: q, hX, (Rec_cons_some hc q b).2 hr⟩
          · exact Or.inr ⟨by omega, [], by simpa using hX, (Rec_nil v b).2 hbit⟩
        · rintro (h | ⟨hb, q, hX, hr⟩)
          · exact Or.inl (Or.inl h)
          · cases q with
            | nil =>
              exact Or.inr ⟨by simpa using hX, by omega, (Rec_nil v b).1 hr⟩
            | cons i q =>
              obtain ⟨c, hc, hrc⟩ := Rec_cons hr
              have := (hwf.child hc).2.1
              exact Or.inl (Or.inr ⟨hb, i, c, q, by omega, hc, hX, hrc⟩)
      · intro attr f' ha1 ha2 inv'
        have hstep := @FilterSpecializationsHelper.own_exact n hn v P ap1 f' _ attr ha1
          (by omega) hsorted hPn hap inv' ?_
        · refine hstep.congr_handled ?_
          intro X b
          constructor
          · rintro ((h | h) | ⟨hX, hb, hbit⟩)
            · exact Or.inl h
            · exact Or.inr ⟨h.1, by omega, h.2.2⟩
            · exact Or.inr ⟨hX, by omega, hbit⟩
          · rintro (h | ⟨hX, hb, hbit⟩)
            · exact Or.inl (Or.inl h)
            · by_cases hlt : b + 1 < attr
              · exact Or.inl (Or.inr ⟨hX, hlt, hbit⟩)
              · exact Or.inr ⟨hX, by omega, hbit⟩
        · intro hbit X hX hXP
          rcases hX with (hX | ⟨_, i, c, q, _, hc, hXe, _⟩) | ⟨hXe, _, _⟩
          · have := hns X (attr - 1) [] hX ((Rec_nil v _).2 hbit) (by simpa using hXP)
            simpa using this
          · exfalso
            have hi : i ∈ X := by rw [hXe]; simp
            have := hPk i (hXP hi)
            have := (hwf.child hc).1
            omega
          · rw [hXe]
            exact List.Subset.refl _
    · rintro attr ⟨f', ap'⟩ ha1 ha2 ⟨e', inv'⟩
      simp only at e' inv'
      subst e'
      unfold FilterSpecializationsHelper.child
      cases hc : v.GetChild (attr - 1) with
      | none =>
        simp only
        refine ⟨trivial, inv'.congr_handled ?_⟩
        intro X b
        constructor
        · rintro (h | ⟨hb, i, c, q, hi, hic, hrest⟩)
          · exact Or.inl h
          · exact Or.inr ⟨hb, i, c, q, by omega, hic, hrest⟩
        · rintro (h | ⟨hb, i, c, q, hi, hic, hrest⟩)
          · exact Or.inl h
          · by_cases hlt : i + 1 < attr
            · exact Or.inr ⟨hb, i, c, q, hlt, hic, hrest⟩
            · exfalso
              have : i = attr - 1 := by omega
              rw [this, hc] at hic
              cases hic
      | some c =>
        simp only
        have hcw := hwf.child hc
        have e : attr - 1 + 1 = attr := by omega
        have hnotin : attr - 1 ∉ P := fun h => by
          have := hPk _ h
          omega
        have hap' : PathBits (P ++ [attr - 1]) (Bitset.set ap' attr) := by
          have := hap.snoc (attr - 1)
          rwa [e] at this
        obtain ⟨r1, r2⟩ := FilterSpecializationsHelper_exact hn fuel c
          (P ++ [attr - 1]) (Bitset.set ap' attr) f' (attr - 1 + 1) _
          (by have := height_child hc; omega) hcw.2.2
          (by
            intro i hi
            rcases List.mem_append.1 hi with hi | hi
            · have := hPk i hi; omega
            · simp only [List.mem_singleton] at hi; omega)
          (by
            intro i hi
            rcases List.mem_append.1 hi with hi | hi
            · exact hPn i hi
            · simp only [List.mem_singleton] at hi; omega)
          (by
            rw [List.pairwise_append]
            refine ⟨hsorted, List.pairwise_singleton _ _, ?_⟩
            intro x hx y hy
            simp only [List.mem_singleton] at hy
            have := hPk x hx
            omega)
          hap' inv'
          (by
            intro X b q hX hq hXP
            have hXP' : X ⊆ P ++ (attr - 1) :: q := by simpa using hXP
            rcases hX with hX | ⟨_, i, ci, qi, hi, hic, hXe, hri⟩
            · have := hns X b ((attr - 1) :: q) hX ((Rec_cons_some hc q b).2 hq) hXP'
              simpa using this
            · exfalso
              have hiX : i ∈ X := by rw [hXe]; simp
              have hmem := hXP' hiX
              have hki := (hwf.child hic).1
              rcases List.mem_append.1 hmem with h | h
              · have := hPk i h
                omega
              · rcases List.mem_cons.1 h with h | h
                · omega
                · obtain ⟨u, hu, _⟩ := hq
                  have := ((hcw.2.2.lookup q hu).2.1 i h).1
                  omega)
        refine ⟨?_, r2.congr_handled ?_⟩
        · rw [r1]
          have := hap.reset_snoc hnotin
          rwa [e] at this
        · intro X b
          constructor
          · rintro ((h | ⟨hb, i, ci, q, hi, hic, hrest⟩) | ⟨hb, q, hX, hr⟩)
            · exact Or.inl h
            · exact Or.inr ⟨hb, i, ci, q, by omega, hic, hrest⟩
            · exact Or.inr ⟨hb, attr - 1, c, q, by omega, hc, by simpa using hX, hr⟩
          · rintro (h | ⟨hb, i, ci, q, hi, hic, hX, hr⟩)
            · exact Or.inl (Or.inl h)
            · by_cases hlt : i + 1 < attr
              · exact Or.inl (Or.inr ⟨hb, i, ci, q, hlt, hic, hX, hr⟩)
              · have hi' : i = attr - 1 := by omega
                subst hi'
                rw [hc] at hic
                cases hic
                exact Or.inr ⟨hb, q, by simpa using hX, hr⟩

end FDTreeElement

namespace FDTreeElement

/-- `FilterSpecializations` keeps the shape of the tree and the `rhs_attributes_`
invariant, leaves pairwise incomparable LHSs, and records exactly the FDs of the tree
that have no recorded FD with a strictly larger LHS. -/
theorem FilterSpecializations_exact {n : Nat} (hn : n < kMaxAttrNum) {raw : FDTreeElement}
    (hwf : WF n 0 raw) :
    WF n 0 raw.FilterSpecializations ∧ (Over raw → Over raw.FilterSpecializations) ∧
    Antichain raw.FilterSpecializations ∧
    (∀ X b, Rec raw.FilterSpecializations X b ↔
      (b < n ∧ Rec raw X b ∧ ∀ Z, Rec raw Z b → X ⊆ Z → Z ⊆ X)) := by
  have h0 : FilterSpecializations.Exact n (fun _ _ => False) (new raw.max_attribute_number_) := by
    rw [hwf.max]
    exact ⟨WF_new n 0, Over_new n, Under_new n,
      fun p q a hp => absurd hp (Rec_new n p a),
      fun X b hX => absurd hX (Rec_new n X b), fun Z b hZ => False.elim hZ⟩
  obtain ⟨_, hex⟩ := FilterSpecializationsHelper_exact hn raw.height raw [] 0
    (new raw.max_attribute_number_) 0 _ (le_refl _) hwf
    (by intro i hi; cases hi) (by intro i hi; cases hi) List.Pairwise.nil PathBits_nil h0
    (by intro X b q hX; exact False.elim hX)
  have hex' : FilterSpecializations.Exact n (fun X b => b < n ∧ Rec raw X b)
      (FilterSpecializationsHelper raw.height raw (new raw.max_attribute_number_) 0).1 := by
    refine hex.congr_handled ?_
    intro X b
    constructor
    · rintro (h | ⟨hb, q, hX, hr⟩)
      · exact False.elim h
      · rw [hX]
        exact ⟨hb, by simpa using hr⟩
    · rintro ⟨hb, hr⟩
      exact Or.inr ⟨hb, X, by simp, hr⟩
  have hrec : ∀ p b, Rec raw.FilterSpecializations p b ↔
      Rec (FilterSpecializationsHelper raw.height raw (new raw.max_attribute_number_) 0).1 p b :=
    fun p b => @Rec_congr raw.FilterSpecializations
      (FilterSpecializationsHelper raw.height raw (new raw.max_attribute_number_) 0).1 rfl rfl p b
  have hsorted : ∀ {t : FDTreeElement} {X : List Nat} {b : Nat}, WF n 0 t → Rec t X b →
      X.Pairwise (fun x y => x < y) := by
    intro t X b ht hr
    obtain ⟨v, hv, _⟩ := hr
    exact (ht.lookup X hv).1
  refine ⟨WF_congr hex'.wf rfl hwf.max, ?_, ?_, ?_⟩
  · intro ho
    refine Over.mk _ ?_ ?_
    · intro q a hq
      exact ho.root (hex'.sub q a ((hrec q a).1 hq)).2
    · intro i c hc
      exact hex'.over.child_over hc
  · intro p q a hp hq hpq
    exact hex'.antichain p q a ((hrec p a).1 hp) ((hrec q a).1 hq) hpq
  · intro X b
    rw [hrec]
    constructor
    · intro hX
      obtain ⟨hb, hr⟩ := hex'.sub X b hX
      refine ⟨hb, hr, ?_⟩
      intro Z hZ hXZ
      obtain ⟨X', hX', hZX'⟩ := hex'.covers Z b ⟨hb, hZ⟩
      have := hex'.antichain X X' b hX hX' (fun x hx => hZX' (hXZ hx))
      rw [this]
      exact hZX'
    · rintro ⟨hb, hr, hmax⟩
      obtain ⟨X', hX', hXX'⟩ := hex'.covers X b ⟨hb, hr⟩
      have hraw := (hex'.sub X' b hX').2
      have := sorted_eq_of_subset (hsorted hwf hr) (hsorted hex'.wf hX') hXX' (hmax X' hraw hXX')
      rw [this]
      exact hX'

/-! ### AddMostGeneralDependencies on any tree -/

theorem GetChild_AddMostGeneralDependencies (t : FDTreeElement) (i : Nat) :
    t.AddMostGeneralDependencies.GetChild i = t.GetChild i := rfl

theorem Rec_AddMostGeneralDependencies (t : FDTreeElement) (p : List Nat) (b : Nat) :
    Rec t.AddMostGeneralDependencies p b ↔
      (Rec t p b ∨ (p = [] ∧ b < t.max_attribute_number_)) := by
  cases p with
  | nil =>
    rw [Rec_nil, Rec_nil]
    show Nat.testBit ((List.range t.max_attribute_number_).foldl
      (fun b i => Bitset.assign b i true) t.is_fd_) b = true ↔ _
    rw [testBit_foldl_assign_true]
    simp
  | cons i p =>
    have : Rec t.AddMostGeneralDependencies (i :: p) b ↔ Rec t (i :: p) b := by
      unfold Rec
      rw [lookup_cons, lookup_cons, GetChild_AddMostGeneralDependencies]
    rw [this]
    simp

theorem WF_AddMostGeneralDependencies {n k : Nat} {t : FDTreeElement} (h : WF n k t) :
    WF n k t.AddMostGeneralDependencies :=
  WF_congr h rfl h.max

theorem Over_AddMostGeneralDependencies {t : FDTreeElement} (h : Over t) :
    Over t.AddMostGeneralDependencies := by
  refine Over.mk _ ?_ ?_
  · intro q a hr
    show Nat.testBit ((List.range' 1 t.max_attribute_number_).foldl
      (fun b i => Bitset.set b i) t.rhs_attributes_) (a + 1) = true
    rw [testBit_foldl_set]
    rcases (Rec_AddMostGeneralDependencies t q a).1 hr with h1 | ⟨_, h1⟩
    · exact Or.inl (h.root h1)
    · right
      rw [List.mem_range'_1]
      omega
  · intro i c hc
    rw [GetChild_AddMostGeneralDependencies] at hc
    exact h.child_over hc

/-! ### The invariants of the trees that the operations produce -/

theorem BuiltByAdd.built_inv {n : Nat} {t : FDTreeElement} (h : BuiltByAdd n t) :
    WF n 0 t ∧ Over t ∧ Under t ∧ ∀ q b, Rec t q b → b < n := by
  induction h with
  | fresh => exact ⟨WF_new n 0, Over_new n, Under_new n, fun q b hr => absurd hr (Rec_new n q b)⟩
  | add t lhs a _ hl ha han ih =>
    obtain ⟨h1, h2, h3, h4⟩ := ih
    refine ⟨AddFunctionalDependency_WF h1 hl a, AddFunctionalDependency_Over h1 h2 hl ha,
      AddFunctionalDependency_Under h1 h3 hl ha, ?_⟩
    intro q b hr
    rcases (AddFunctionalDependency_Rec h1 hl a q b).1 hr with h | ⟨_, h⟩
    · exact h4 q b h
    · omega

theorem BuiltByAddAndMostGeneral.seeded_inv {n : Nat} {t : FDTreeElement}
    (h : BuiltByAddAndMostGeneral n t) : WF n 0 t ∧ Over t := by
  induction h with
  | fresh => exact ⟨WF_new n 0, Over_new n⟩
  | add t lhs a _ hl ha han ih =>
    exact ⟨AddFunctionalDependency_WF ih.1 hl a, AddFunctionalDependency_Over ih.1 ih.2 hl ha⟩
  | mostGeneral t _ ih =>
    exact ⟨WF_AddMostGeneralDependencies ih.1, Over_AddMostGeneralDependencies ih.2⟩

theorem Reachable.guarded_inv {n : Nat} (hn : n < kMaxAttrNum) {t : FDTreeElement}
    (h : Reachable n (fun t a => NoNested t (a - 1)) t) : WF n 0 t ∧ Over t := by
  induction h with
  | fresh => exact ⟨WF_new n 0, Over_new n⟩
  | add t lhs a _ hl ha han ih =>
    exact ⟨AddFunctionalDependency_WF ih.1 hl a, AddFunctionalDependency_Over ih.1 ih.2 hl ha⟩
  | mostGeneral t _ ih =>
    exact ⟨WF_AddMostGeneralDependencies ih.1, Over_AddMostGeneralDependencies ih.2⟩
  | filter t _ ih =>
    obtain ⟨h1, h2, _, _⟩ := FilterSpecializations_exact hn ih.1
    exact ⟨h1, h2 ih.2⟩
  | getGeneralization t lhs a cur spec _ hl ha han hcur hguard ih =>
    have hpost := GetGeneralizationAndDelete_post n lhs a ha kMaxAttrNum t cur spec 0 ih.1 ih.2
      hguard hcur (by omega)
    cases hr : (GetGeneralizationAndDelete kMaxAttrNum t lhs a cur spec).1 with
    | false =>
      rw [(hpost.1 hr).2.1]
      exact ih
    | true =>
      obtain ⟨p, _, _, _, _, h5, h6⟩ := hpost.2 hr
      exact ⟨h5, h6⟩

theorem lookup_append : ∀ (q r : List Nat) (t : FDTreeElement),
    lookup t (q ++ r) = (lookup t q).bind (fun u => lookup u r)
  | [], r, t => by
    rw [List.nil_append, lookup_nil]
    rfl
  | i :: q, r, t => by
    rw [List.cons_append, lookup_cons, lookup_cons]
    cases t.GetChild i with
    | none => rfl
    | some c => exact lookup_append q r c

theorem Over.lookup_over : ∀ (q : List Nat) {t u : FDTreeElement}, Over t →
    lookup t q = some u → Over u
  | [], t, u, h, hl => by
    rw [lookup_nil] at hl
    cases hl
    exact h
  | i :: q, t, u, h, hl => by
    cases hc : t.GetChild i with
    | none => rw [lookup_cons_none hc] at hl; cases hl
    | some c =>
      rw [lookup_cons_some hc] at hl
      exact Over.lookup_over q (h.child_over hc) hl

theorem Over.rhsOnPath {t : FDTreeElement} (h : Over t) : RhsOnPath t := by
  intro p v a hv ha hbit q u hq hu
  obtain ⟨r, rfl⟩ := hq
  rw [lookup_append, hu] at hv
  have hrec : Rec u r (a - 1) := ⟨v, hv, hbit⟩
  have := (h.lookup_over q hu).root hrec
  have e : a - 1 + 1 = a := by omega
  rwa [e] at this

end FDTreeElement

namespace FDTreeElement

/-! ### The shape of the tree under every operation -/

theorem WF_setChild {n k j : Nat} {t c : FDTreeElement} (h : WF n k t) (hj : k ≤ j)
    (hc : WF n (j + 1) c) : WF n k (t.setChild j c) := by
  refine WF.mk k _ (by rw [children_setChild, List.length_set]; exact h.len) h.max ?_ ?_
  · intro i d hd
    rw [GetChild_setChild] at hd
    split at hd
    · rename_i hij
      omega
    · exact (h.child hd).1
  · intro i d hd
    rw [GetChild_setChild] at hd
    split at hd
    · rename_i hij
      cases hd
      rw [hij.1]
      exact hc
    · exact (h.child hd).2.2

theorem WF_resetRhs {n k : Nat} {t : FDTreeElement} (h : WF n k t) (a : Nat) :
    WF n k (t.resetRhsAttribute a) :=
  WF_congr h rfl h.max

theorem WF_resetIsFd {n k : Nat} {t : FDTreeElement} (h : WF n k t) (a : Nat) :
    WF n k (t.resetIsFd a) :=
  WF_congr h rfl h.max

/-- `GetGeneralizationAndDelete` keeps the shape of the tree, whatever it records. -/
theorem GetGeneralizationAndDelete_WF (n lhs a : Nat) :
    ∀ (fuel : Nat) (t : FDTreeElement) (cur spec k : Nat), WF n k t →
      WF n k (GetGeneralizationAndDelete fuel t lhs a cur spec).2.1
  | 0, t, cur, spec, k, h => by
    unfold GetGeneralizationAndDelete
    exact h
  | fuel + 1, t, cur, spec, k, hwf => by
    unfold GetGeneralizationAndDelete
    by_cases hfd : Bitset.test t.is_fd_ (a - 1) = true
    · simp only [hfd, if_true]
      exact WF_resetRhs (WF_resetIsFd hwf _) _
    · simp only [hfd, if_false, Bool.false_eq_true]
      by_cases hn : Bitset.Find_next lhs cur = kMaxAttrNum
      · simp only [hn, if_true]
        exact hwf
      · simp only [hn, if_false]
        have ihself := GetGeneralizationAndDelete_WF n lhs a fuel t
          (Bitset.Find_next lhs cur) spec k hwf
        cases hc : t.GetChild (Bitset.Find_next lhs cur - 1) with
        | none =>
          simp only
          exact ihself
        | some c =>
          simp only
          by_cases hrhs : Bitset.test c.GetRhsAttributes a = true
          · simp only [hrhs, if_true]
            have hcw := hwf.child hc
            have ihc := GetGeneralizationAndDelete_WF n lhs a fuel c
              (Bitset.Find_next lhs cur) spec _ hcw.2.2
            rcases hres : GetGeneralizationAndDelete fuel c lhs a (Bitset.Find_next lhs cur) spec
              with ⟨f, c1, s1⟩
            rw [hres] at ihc
            simp only at ihc
            have hset := WF_setChild hwf hcw.1 ihc
            cases f with
            | false =>
              simp only
              exact GetGeneralizationAndDelete_WF n lhs a fuel _ _ _ k hset
            | true =>
              simp only
              split
              · exact WF_resetRhs hset _
              · exact hset
          · simp only [hrhs, if_false, Bool.false_eq_true]
            exact ihself

/-- Every tree that the public operations produce, in whatever order, has the shape of
a cover tree for `n` attributes. -/
theorem Reachable.wf {n : Nat} (hn : n < kMaxAttrNum) {guard : FDTreeElement → Nat → Prop}
    {t : FDTreeElement} (h : Reachable n guard t) : WF n 0 t := by
  induction h with
  | fresh => exact WF_new n 0
  | add t lhs a _ hl ha han ih => exact AddFunctionalDependency_WF ih hl a
  | mostGeneral t _ ih => exact WF_AddMostGeneralDependencies ih
  | filter t _ ih => exact (FilterSpecializations_exact hn ih).1
  | getGeneralization t lhs a cur spec _ hl ha han hcur hguard ih =>
    exact GetGeneralizationAndDelete_WF n lhs a kMaxAttrNum t cur spec 0 ih

end FDTreeElement

namespace FDTreeElement

theorem IsFinalNode_false {t : FDTreeElement} {a : Nat}
    (hrhs : Bitset.test t.rhs_attributes_ a = true) (h : t.IsFinalNode a = false) :
    ∃ i d, t.GetChild i = some d ∧ Nat.testBit d.rhs_attributes_ a = true := by
  unfold IsFinalNode at h
  simp only [hrhs, Bool.not_true, Bool.false_eq_true, if_false, Bool.not_eq_false',
    List.any_eq_true, List.mem_range] at h
  obtain ⟨i, _, hi⟩ := h
  unfold childHasRhs at hi
  cases hd : t.GetChild i with
  | none => rw [hd] at hi; cases hi
  | some d =>
    rw [hd] at hi
    exact ⟨i, d, hd, hi⟩

/-- `GetGeneralizationAndDelete` keeps every set bit of `rhs_attributes_` witnessed by a
recorded FD. -/
theorem GetGeneralizationAndDelete_under (n lhs a : Nat) (ha : 1 ≤ a) :
    ∀ (fuel : Nat) (t : FDTreeElement) (cur spec k : Nat), WF n k t → Over t → Under t →
      NoNested t (a - 1) → cur < kMaxAttrNum → kMaxAttrNum ≤ cur + fuel →
      Under (GetGeneralizationAndDelete fuel t lhs a cur spec).2.1
  | 0, t, cur, spec, k, _, _, _, _, h1, h2 => by omega
  | fuel + 1, t, cur, spec, k, hwf, ho, hu, hnn, h1, h2 => by
    unfold GetGeneralizationAndDelete
    have ea : a - 1 + 1 = a := by omega
    have hroot_other : ∀ b, Nat.testBit t.rhs_attributes_ (b + 1) = true → b ≠ a - 1 →
        ∃ q, Rec t q b ∧ ¬ (b = a - 1) := fun b hb hne => by
      obtain ⟨q, hq⟩ := hu.root_witness hb
      exact ⟨q, hq, hne⟩
    have hreset : ∀ b, Nat.testBit (Bitset.reset t.rhs_attributes_ a) (b + 1) = true →
        Nat.testBit t.rhs_attributes_ (b + 1) = true ∧ b ≠ a - 1 := fun b hb => by
      have := Bitset.test_reset t.rhs_attributes_ a (b + 1)
      simp only [Bitset.test] at this
      rw [this] at hb
      simp only [Bool.and_eq_true, Bool.not_eq_true', decide_eq_false_iff_not] at hb
      exact ⟨hb.1, by omega⟩
    by_cases hfd : Bitset.test t.is_fd_ (a - 1) = true
    · simp only [hfd, if_true]
      refine Under.mk _ ?_ (fun i c hc => hu.child_under hc)
      intro b hb
      rw [rhs_resetRhs, rhs_resetIsFd] at hb
      obtain ⟨hb1, hb2⟩ := hreset b hb
      obtain ⟨q, hq, _⟩ := hroot_other b hb1 hb2
      refine ⟨q, ?_⟩
      rw [Rec_resetRhs, Rec_resetIsFd]
      exact ⟨hq, fun h => hb2 h.2⟩
    · simp only [hfd, if_false, Bool.false_eq_true]
      rcases Bitset.Find_next_spec lhs cur h1 with ⟨hn, _⟩ | ⟨hn1, hn2, hn3, hn4⟩
      · simp only [hn, if_true]
        exact hu
      · have hne : Bitset.Find_next lhs cur ≠ kMaxAttrNum := by omega
        simp only [hne, if_false]
        have ihself := GetGeneralizationAndDelete_under n lhs a ha fuel t
          (Bitset.Find_next lhs cur) spec k hwf ho hu hnn hn2 (by omega)
        cases hc : t.GetChild (Bitset.Find_next lhs cur - 1) with
        | none =>
          simp only
          exact ihself
        | some c =>
          simp only
          by_cases hrhs : Bitset.test c.GetRhsAttributes a = true
          · simp only [hrhs, if_true]
            have hcw := hwf.child hc
            have ihc := GetGeneralizationAndDelete_post n lhs a ha fuel c
              (Bitset.Find_next lhs cur) spec _ hcw.2.2 (ho.child_over hc)
              (hnn.child_noNested hc) hn2 (by omega)
            have ihu := GetGeneralizationAndDelete_under n lhs a ha fuel c
              (Bitset.Find_next lhs cur) spec _ hcw.2.2 (ho.child_over hc) (hu.child_under hc)
              (hnn.child_noNested hc) hn2 (by omega)
            rcases hres : GetGeneralizationAndDelete fuel c lhs a (Bitset.Find_next lhs cur) spec
              with ⟨f, c1, s1⟩
            rw [hres] at ihc ihu
            simp only at ihu
            cases f with
            | false =>
              simp only
              obtain ⟨_, hc1, hs1⟩ := ihc.1 rfl
              simp only at hc1 hs1
              subst hc1 hs1
              rw [setChild_self hc]
              exact ihself
            | true =>
              simp only
              obtain ⟨p, _, _, _, hrec, _, _⟩ := ihc.2 rfl
              simp only at hrec
              have hlen : Bitset.Find_next lhs cur - 1 < t.children_.length := GetChild_lt hc
              have hrec1 : ∀ q b, Rec (t.setChild (Bitset.Find_next lhs cur - 1) c1) q b ↔
                  (Rec t q b ∧ ¬ (q = (Bitset.Find_next lhs cur - 1) :: p ∧ b = a - 1)) := by
                intro q b
                cases q with
                | nil => rw [Rec_setChild_nil]; simp
                | cons j q =>
                  by_cases hj : j = Bitset.Find_next lhs cur - 1
                  · subst hj
                    rw [Rec_setChild_same _ hlen, hrec, Rec_cons_some hc]
                    simp
                  · rw [Rec_setChild_ne _ _ hj]
                    simp [hj]
              have hchild1 : ∀ j d, (t.setChild (Bitset.Find_next lhs cur - 1) c1).GetChild j
                  = some d → Under d := by
                intro j d hd
                by_cases hj : j = Bitset.Find_next lhs cur - 1
                · subst hj
                  rw [GetChild_setChild_same _ hlen] at hd
                  cases hd
                  exact ihu
                · rw [GetChild_setChild_ne _ _ hj] at hd
                  exact hu.child_under hd
              have hother : ∀ b, Nat.testBit t.rhs_attributes_ (b + 1) = true → b ≠ a - 1 →
                  ∃ q, Rec (t.setChild (Bitset.Find_next lhs cur - 1) c1) q b := fun b hb hne => by
                obtain ⟨q, hq, _⟩ := hroot_other b hb hne
                exact ⟨q, (hrec1 q b).2 ⟨hq, fun h => hne h.2⟩⟩
              cases hfin : (t.setChild (Bitset.Find_next lhs cur - 1) c1).IsFinalNode a with
              | true =>
                simp only [if_true]
                refine Under.mk _ ?_ (fun j d hd => hchild1 j d hd)
                intro b hb
                rw [rhs_resetRhs, rhs_setChild] at hb
                obtain ⟨hb1, hb2⟩ := hreset b hb
                obtain ⟨q, hq⟩ := hother b hb1 hb2
                exact ⟨q, (Rec_resetRhs _ _ _ _).2 hq⟩
              | false =>
                simp only [Bool.false_eq_true, if_false]
                refine Under.mk _ ?_ (fun j d hd => hchild1 j d hd)
                intro b hb
                rw [rhs_setChild] at hb
                by_cases hba : b = a - 1
                · subst hba
                  rw [ea] at hb
                  obtain ⟨i, d, hd, hbit⟩ := IsFinalNode_false
                    (by rw [rhs_setChild]; exact hb) hfin
                  obtain ⟨q, hq⟩ := (hchild1 i d hd).root_witness (by rw [ea]; exact hbit)
                  exact ⟨i :: q, (Rec_cons_some hd q _).2 hq⟩
                · exact hother b hb hba
          · simp only [hrhs, if_false, Bool.false_eq_true]
            exact ihself

end FDTreeElement

namespace FDTreeElement

/-! ### Exact `rhs_attributes_` -/

theorem Under.lookup_under : ∀ (q : List Nat) {t u : FDTreeElement}, Under t →
    lookup t q = some u → Under u
  | [], t, u, h, hl => by
    rw [lookup_nil] at hl
    cases hl
    exact h
  | i :: q, t, u, h, hl => by
    cases hc : t.GetChild i with
    | none => rw [lookup_cons_none hc] at hl; cases hl
    | some c =>
      rw [lookup_cons_some hc] at hl
      exact Under.lookup_under q (h.child_under hc) hl

theorem Over_of_nodes : ∀ (fuel : Nat) (t : FDTreeElement), height t ≤ fuel →
    (∀ q u, lookup t q = some u → ∀ s b, Rec u s b →
      Nat.testBit u.rhs_attributes_ (b + 1) = true) → Over t
  | 0, t, hh, _ => by
    have := height_pos t
    omega
  | fuel + 1, t, hh, h => by
    refine Over.mk t (fun s b hr => h [] t (lookup_nil t) s b hr) ?_
    intro i c hc
    apply Over_of_nodes fuel c (by have := height_child hc; omega)
    intro q u hu
    exact h (i :: q) u (by rw [lookup_cons_some hc]; exact hu)

theorem Under_of_nodes : ∀ (fuel : Nat) (t : FDTreeElement), height t ≤ fuel →
    (∀ q u, lookup t q = some u → ∀ b, Nat.testBit u.rhs_attributes_ (b + 1) = true →
      ∃ s, Rec u s b) → Under t
  | 0, t, hh, _ => by
    have := height_pos t
    omega
  | fuel + 1, t, hh, h => by
    refine Under.mk t (fun b hb => h [] t (lookup_nil t) b hb) ?_
    intro i c hc
    apply Under_of_nodes fuel c (by have := height_child hc; omega)
    intro q u hu
    exact h (i :: q) u (by rw [lookup_cons_some hc]; exact hu)

/-- The flags are exact when they hide no recorded FD and every set flag is
witnessed. -/
theorem ExactRhs_iff (t : FDTreeElement) : ExactRhs t ↔ (Over t ∧ Under t) := by
  constructor
  · intro h
    constructor
    · apply Over_of_nodes t.height t (le_refl _)
      intro q u hu s b hr
      exact (h q u hu (b + 1) (by omega)).2 ⟨s, hr⟩
    · apply Under_of_nodes t.height t (le_refl _)
      intro q u hu b hb
      exact (h q u hu (b + 1) (by omega)).1 hb
  · rintro ⟨ho, hu⟩ q u hq a ha
    have e : a - 1 + 1 = a := by omega
    constructor
    · intro hb
      exact (hu.lookup_under q hq).root_witness (by rw [e]; exact hb)
    · rintro ⟨s, hs⟩
      have := (ho.lookup_over q hq).root hs
      rwa [e] at this

end FDTreeElement

/-- C18 (`GetGeneralizationAndDelete`).  For a tree for `n < 256` attributes whose
`rhs_attributes_` flags are exact and whose recorded LHSs for `a` are pairwise
incomparable, `lhs` within `{1..n}`, `1 ≤ a ≤ n` and `spec_lhs` all-zero before the
call: the call returns `true` exactly when some recorded `Y → a` has all columns of `Y`
in `lhs`; when it returns `true`, `spec_lhs` holds exactly the columns of one such `Y`,
that FD is no longer recorded, every other recorded FD is untouched, and the flags are
exact again (bit `a` is cleared exactly at the nodes whose subtree no longer records an
FD for `a`); when it returns `false`, the tree and `spec_lhs` are unchanged. -/
theorem GetGeneralizationAndDelete_removes_one_generalization {n : Nat}
    (hn : n < kMaxAttrNum) (t : FDTreeElement) (hwf : FDTreeElement.WF n 0 t)
    (hex : FDTreeElement.ExactRhs t) (lhs a : Nat) (_ : LhsOk n lhs) (ha : 1 ≤ a) (_ : a ≤ n)
    (hanti : ∀ p q, FDTreeElement.Rec t p (a - 1) → FDTreeElement.Rec t q (a - 1) → p ⊆ q →
      p = q) :
    ((FDTreeElement.GetGeneralizationAndDelete kMaxAttrNum t lhs a 0 0).1 = true ↔
      ∃ Y, FDTreeElement.Rec t Y (a - 1) ∧ Within Y lhs) ∧
    ((FDTreeElement.GetGeneralizationAndDelete kMaxAttrNum t lhs a 0 0).1 = true →
      ∃ Y, FDTreeElement.Rec t Y (a - 1) ∧ Within Y lhs ∧
        PathBits Y (FDTreeElement.GetGeneralizationAndDelete kMaxAttrNum t lhs a 0 0).2.2 ∧
        ¬ FDTreeElement.Rec
          (FDTreeElement.GetGeneralizationAndDelete kMaxAttrNum t lhs a 0 0).2.1 Y (a - 1) ∧
        (∀ q b, ¬ (q = Y ∧ b = a - 1) →
          (FDTreeElement.Rec
              (FDTreeElement.GetGeneralizationAndDelete kMaxAttrNum t lhs a 0 0).2.1 q b ↔
            FDTreeElement.Rec t q b)) ∧
        FDTreeElement.ExactRhs
          (FDTreeElement.GetGeneralizationAndDelete kMaxAttrNum t lhs a 0 0).2.1) ∧
    ((FDTreeElement.GetGeneralizationAndDelete kMaxAttrNum t lhs a 0 0).1 = false →
      (FDTreeElement.GetGeneralizationAndDelete kMaxAttrNum t lhs a 0 0).2.1 = t ∧
      (FDTreeElement.GetGeneralizationAndDelete kMaxAttrNum t lhs a 0 0).2.2 = 0) := by
  obtain ⟨ho, hu⟩ := (FDTreeElement.ExactRhs_iff t).1 hex
  have hnn : FDTreeElement.NoNested t (a - 1) := by
    intro p q h1 h2
    have := hanti p (p ++ q) h1 h2 (List.subset_append_left p q)
    have hl := congrArg List.length this
    simp only [List.length_append] at hl
    exact List.eq_nil_of_length_eq_zero (by omega)
  have hpost := FDTreeElement.GetGeneralizationAndDelete_post n lhs a ha kMaxAttrNum t 0 0 0
    hwf ho hnn (by decide) (by omega)
  have hunder := FDTreeElement.GetGeneralizationAndDelete_under n lhs a ha kMaxAttrNum t 0 0 0
    hwf ho hu hnn (by decide) (by omega)
  have htrue : (FDTreeElement.GetGeneralizationAndDelete kMaxAttrNum t lhs a 0 0).1 = true →
      ∃ Y, FDTreeElement.Rec t Y (a - 1) ∧ Within Y lhs ∧
        PathBits Y (FDTreeElement.GetGeneralizationAndDelete kMaxAttrNum t lhs a 0 0).2.2 ∧
        ¬ FDTreeElement.Rec
          (FDTreeElement.GetGeneralizationAndDelete kMaxAttrNum t lhs a 0 0).2.1 Y (a - 1) ∧
        (∀ q b, ¬ (q = Y ∧ b = a - 1) →
          (FDTreeElement.Rec
              (FDTreeElement.GetGeneralizationAndDelete kMaxAttrNum t lhs a 0 0).2.1 q b ↔
            FDTreeElement.Rec t q b)) ∧
        FDTreeElement.ExactRhs
          (FDTreeElement.GetGeneralizationAndDelete kMaxAttrNum t lhs a 0 0).2.1 := by
    intro hr
    obtain ⟨p, h1, h2, h3, h4, _, h6⟩ := hpost.2 hr
    refine ⟨p, h2, h1.within, ?_, ?_, ?_, (FDTreeElement.ExactRhs_iff _).2 ⟨h6, hunder⟩⟩
    · intro j
      rw [h3 j]
      simp
    · intro h
      exact ((h4 p (a - 1)).1 h).2 ⟨rfl, rfl⟩
    · intro q b hne
      rw [h4 q b]
      exact ⟨fun h => h.1, fun h => ⟨h, hne⟩⟩
  refine ⟨⟨fun hr => ?_, fun hex' => ?_⟩, htrue, fun hr => ?_⟩
  · obtain ⟨Y, hY, hw, _⟩ := htrue hr
    exact ⟨Y, hY, hw⟩
  · cases hr : (FDTreeElement.GetGeneralizationAndDelete kMaxAttrNum t lhs a 0 0).1 with
    | true => rfl
    | false =>
      exfalso
      obtain ⟨Y, hY, hw⟩ := hex'
      exact (hpost.1 hr).1 ⟨Y, FDTreeElement.PathIn_of_Rec hn hwf hY hw, hY⟩
  · exact ⟨(hpost.1 hr).2.1, (hpost.1 hr).2.2⟩

/-- Witness for C18: the tree for 2 attributes that records only `{1} → 2`, asked for
`lhs = {1}` and `a = 2`. -/
theorem GetGeneralizationAndDelete_removes_one_generalization_witness :
    2 < kMaxAttrNum ∧ FDTreeElement.WF 2 0 FDTreeElement.singleFd ∧
    FDTreeElement.ExactRhs FDTreeElement.singleFd ∧ LhsOk 2 2 ∧ 1 ≤ 2 ∧ 2 ≤ 2 ∧
    (∀ p q, FDTreeElement.Rec FDTreeElement.singleFd p (2 - 1) →
      FDTreeElement.Rec FDTreeElement.singleFd q (2 - 1) → p ⊆ q → p = q) ∧
    (FDTreeElement.GetGeneralizationAndDelete kMaxAttrNum FDTreeElement.singleFd 2 2 0 0).1 =
      true ∧
    ∃ Y, FDTreeElement.Rec FDTreeElement.singleFd Y (2 - 1) ∧ Within Y 2 ∧
      PathBits Y
        (FDTreeElement.GetGeneralizationAndDelete kMaxAttrNum FDTreeElement.singleFd 2 2 0 0).2.2 ∧
      ¬ FDTreeElement.Rec
        (FDTreeElement.GetGeneralizationAndDelete kMaxAttrNum FDTreeElement.singleFd 2 2 0 0).2.1
        Y (2 - 1) ∧
      (∀ q b, ¬ (q = Y ∧ b = 2 - 1) →
        (FDTreeElement.Rec
            (FDTreeElement.GetGeneralizationAndDelete kMaxAttrNum FDTreeElement.singleFd
              2 2 0 0).2.1 q b ↔
          FDTreeElement.Rec FDTreeElement.singleFd q b)) ∧
      FDTreeElement.ExactRhs
        (FDTreeElement.GetGeneralizationAndDelete kMaxAttrNum FDTreeElement.singleFd 2 2 0 0).2.1 :=
  have hb : FDTreeElement.BuiltByAdd 2 FDTreeElement.singleFd :=
    FDTreeElement.BuiltByAdd.add _ 2 2 FDTreeElement.BuiltByAdd.fresh
      (LhsOk_of_lt (by decide) (by decide)) (by decide) (by decide)
  have hex : FDTreeElement.ExactRhs FDTreeElement.singleFd :=
    (FDTreeElement.ExactRhs_iff _).2 ⟨hb.built_inv.2.1, hb.built_inv.2.2.1⟩
  have hanti : ∀ p q, FDTreeElement.Rec FDTreeElement.singleFd p (2 - 1) →
      FDTreeElement.Rec FDTreeElement.singleFd q (2 - 1) → p ⊆ q → p = q := by
    have hone : ∀ p, FDTreeElement.Rec FDTreeElement.singleFd p (2 - 1) → p = pathOf 2 := by
      intro p hp
      rcases (FDTreeElement.AddFunctionalDependency_Rec (FDTreeElement.WF_new 2 0)
        (LhsOk_of_lt (by decide) (by decide)) 2 p (2 - 1)).1 hp with h | ⟨h, _⟩
      · exact absurd h (FDTreeElement.Rec_new 2 p _)
      · exact h
    intro p q hp hq _
    rw [hone p hp, hone q hq]
  have h := GetGeneralizationAndDelete_removes_one_generalization (by decide)
    FDTreeElement.singleFd hb.built_inv.1 hex 2 2 (LhsOk_of_lt (by decide) (by decide)) (by decide)
    (by decide) hanti
  have hr : (FDTreeElement.GetGeneralizationAndDelete kMaxAttrNum FDTreeElement.singleFd
      2 2 0 0).1 = true :=
    h.1.2 ⟨pathOf 2, (FDTreeElement.AddFunctionalDependency_Rec (FDTreeElement.WF_new 2 0)
      (LhsOk_of_lt (by decide) (by decide)) 2 _ _).2 (Or.inr ⟨rfl, rfl⟩),
      fun i hi => ((mem_pathOf (LhsOk_of_lt (by decide) (by decide) : LhsOk 2 2) i).1 hi).2⟩
  ⟨by decide, hb.built_inv.1, hex, LhsOk_of_lt (by decide) (by decide), by decide, by decide, hanti,
    hr, h.2.1 hr⟩

set_option maxRecDepth 20000 in
/-- C14, the sequence of operations that breaks the invariant: for 2 attributes,
`AddFunctionalDependency({}, 1)`, `AddFunctionalDependency({2}, 1)` and then
`GetGeneralizationAndDelete({2}, 1, 0, {})` give a tree whose node at path `[1]` (the
child for attribute 2) still records an FD for attribute 1, while bit 1 of the root's
`rhs_attributes_` has been cleared. -/
theorem GetGeneralizationAndDelete_breaks_rhs_on_path :
    FDTreeElement.Reachable 2 (fun _ _ => True) FDTreeElement.nestedThenDeleted ∧
    ¬ FDTreeElement.RhsOnPath FDTreeElement.nestedThenDeleted := by
  constructor
  · exact FDTreeElement.Reachable.getGeneralization _ 4 1 0 0
      (FDTreeElement.Reachable.add _ 4 1
        (FDTreeElement.Reachable.add _ 0 1 FDTreeElement.Reachable.fresh (LhsOk_zero 2)
          (by decide) (by decide))
        (LhsOk_of_lt (by decide) (by decide)) (by decide) (by decide))
      (LhsOk_of_lt (by decide) (by decide)) (by decide) (by decide) (by decide) trivial
  · intro h
    have hchild : (FDTreeElement.nestedThenDeleted.GetChild 1).map FDTreeElement.is_fd_ =
        some 1 := by decide
    have hroot : FDTreeElement.nestedThenDeleted.rhs_attributes_ = 0 := by decide
    cases hc : FDTreeElement.nestedThenDeleted.GetChild 1 with
    | none =>
      rw [hc] at hchild
      cases hchild
    | some v =>
      rw [hc] at hchild
      simp only [Option.map_some', Option.some.injEq] at hchild
      have := h [1] v 1
        (by rw [FDTreeElement.lookup_cons_some hc, FDTreeElement.lookup_nil]) (le_refl _)
        (by rw [hchild]; decide) [] _ (List.nil_prefix) (FDTreeElement.lookup_nil _)
      rw [hroot] at this
      simp at this

/-- C14 as amended (the invariant of the cover tree).  For `n < 256` attributes, in every
tree reachable from a fresh `FDTreeElement(n)` by `AddFunctionalDependency`,
`AddMostGeneralDependencies`, `FilterSpecializations` and `GetGeneralizationAndDelete`
(with `lhs` within `{1..n}` and `1 ≤ a ≤ n`), where `GetGeneralizationAndDelete` for `a`
is only applied to trees in which no node recording an FD for `a` has a proper
descendant recording one: whenever a node records an FD for `a`, every node on the path
from the root to it, itself included, has bit `a` of `rhs_attributes_` set. -/
theorem Reachable_keeps_rhs_on_path {n : Nat} (hn : n < kMaxAttrNum) (t : FDTreeElement)
    (h : FDTreeElement.Reachable n (fun t a => FDTreeElement.NoNested t (a - 1)) t) :
    FDTreeElement.RhsOnPath t :=
  (FDTreeElement.Reachable.guarded_inv hn h).2.rhsOnPath

/-- Witness for C14 as amended: the tree for 3 attributes after
`AddFunctionalDependency({1}, 3)`, `AddFunctionalDependency({1, 2}, 3)` and
`FilterSpecializations()`. -/
theorem Reachable_keeps_rhs_on_path_witness :
    3 < kMaxAttrNum ∧
    FDTreeElement.Reachable 3 (fun t a => FDTreeElement.NoNested t (a - 1))
      FDTreeElement.nestedPair.FilterSpecializations ∧
    FDTreeElement.RhsOnPath FDTreeElement.nestedPair.FilterSpecializations :=
  have hr : FDTreeElement.Reachable 3 (fun t a => FDTreeElement.NoNested t (a - 1))
      FDTreeElement.nestedPair.FilterSpecializations :=
    FDTreeElement.Reachable.filter _
      (FDTreeElement.Reachable.add _ 6 3
        (FDTreeElement.Reachable.add _ 2 3 FDTreeElement.Reachable.fresh
          (LhsOk_of_lt (by decide) (by decide)) (by decide) (by decide))
        (LhsOk_of_lt (by decide) (by decide)) (by decide) (by decide))
  ⟨by decide, hr, Reachable_keeps_rhs_on_path (by decide) _ hr⟩

/-- C17 (`ContainsGeneralization`).  For `n < 256` attributes, a tree built from a fresh
`FDTreeElement(n)` by `AddFunctionalDependency` and `AddMostGeneralDependencies` calls,
`lhs` within `{1..n}` and `1 ≤ a ≤ n`: `ContainsGeneralization(lhs, a, 0)` is `true`
exactly when the tree records an FD `Y → a` whose columns `Y` all lie in `lhs`. -/
theorem ContainsGeneralization_decides_subset {n : Nat} (hn : n < kMaxAttrNum)
    (t : FDTreeElement) (ht : FDTreeElement.BuiltByAddAndMostGeneral n t) (lhs a : Nat)
    (_ : LhsOk n lhs) (ha : 1 ≤ a) (_ : a ≤ n) :
    FDTreeElement.ContainsGeneralization kMaxAttrNum t lhs a 0 = true ↔
      ∃ Y, FDTreeElement.Rec t Y (a - 1) ∧ Within Y lhs :=
  FDTreeElement.ContainsGeneralization_top hn ht.seeded_inv.1 ht.seeded_inv.2 lhs ha

/-- Witness for C17: the tree for 3 attributes after `AddMostGeneralDependencies()` and
`AddFunctionalDependency({1, 2}, 3)`, asked for `lhs = {1}` and `a = 3`. -/
theorem ContainsGeneralization_decides_subset_witness :
    3 < kMaxAttrNum ∧
    FDTreeElement.BuiltByAddAndMostGeneral 3
      ((FDTreeElement.new 3).AddMostGeneralDependencies.AddFunctionalDependency 6 3) ∧
    LhsOk 3 2 ∧ 1 ≤ 3 ∧ 3 ≤ 3 ∧
    (FDTreeElement.ContainsGeneralization kMaxAttrNum
        ((FDTreeElement.new 3).AddMostGeneralDependencies.AddFunctionalDependency 6 3) 2 3 0 =
        true ↔
      ∃ Y, FDTreeElement.Rec
        ((FDTreeElement.new 3).AddMostGeneralDependencies.AddFunctionalDependency 6 3) Y (3 - 1) ∧
        Within Y 2) :=
  have hb : FDTreeElement.BuiltByAddAndMostGeneral 3
      ((FDTreeElement.new 3).AddMostGeneralDependencies.AddFunctionalDependency 6 3) :=
    FDTreeElement.BuiltByAddAndMostGeneral.add _ 6 3
      (FDTreeElement.BuiltByAddAndMostGeneral.mostGeneral _
        FDTreeElement.BuiltByAddAndMostGeneral.fresh)
      (LhsOk_of_lt (by decide) (by decide)) (by decide) (by decide)
  ⟨by decide, hb, LhsOk_of_lt (by decide) (by decide), by decide, by decide,
    ContainsGeneralization_decides_subset (by decide) _ hb 2 3
      (LhsOk_of_lt (by decide) (by decide)) (by decide) (by decide)⟩

set_option maxRecDepth 20000 in
/-- C19, the input on which `GetSpecialization` answers `true` without a proper
superset: the tree for 2 attributes that records only `{1} → 2`, asked for
`lhs = {1}` and `a = 2`. -/
theorem GetSpecialization_accepts_equal_lhs :
    FDTreeElement.BuiltByAdd 2 FDTreeElement.singleFd ∧ LhsOk 2 2 ∧
    (FDTreeElement.GetSpecialization FDTreeElement.singleFd.height FDTreeElement.singleFd
      2 2 0 0).1 = true ∧
    ¬ ∃ Z, FDTreeElement.Rec FDTreeElement.singleFd Z (2 - 1) ∧ pathOf 2 ⊆ Z ∧
      ¬ Z ⊆ pathOf 2 := by
  refine ⟨FDTreeElement.BuiltByAdd.add _ 2 2 FDTreeElement.BuiltByAdd.fresh
      (LhsOk_of_lt (by decide) (by decide)) (by decide) (by decide),
    LhsOk_of_lt (by decide) (by decide), by decide, ?_⟩
  rintro ⟨Z, hZ, _, hne⟩
  rcases (FDTreeElement.AddFunctionalDependency_Rec (FDTreeElement.WF_new 2 0)
    (LhsOk_of_lt (by decide) (by decide)) 2 Z (2 - 1)).1 hZ with h | ⟨h, _⟩
  · exact FDTreeElement.Rec_new 2 Z _ h
  · apply hne
    rw [h]
    exact List.Subset.refl _

/-- C19 as amended (`GetSpecialization`).  For `n < 256` attributes, a tree built from a
fresh `FDTreeElement(n)` by `AddFunctionalDependency` calls, `lhs` within `{1..n}` and
`1 ≤ a ≤ n`: `GetSpecialization(lhs, a, 0, out)` returns `true` exactly when the tree
records an FD `Z → a` whose LHS `Z` contains every column of `lhs` (a superset of `lhs`
or `lhs` itself). -/
theorem GetSpecialization_decides_superset_or_equal {n : Nat} (_ : n < kMaxAttrNum)
    (t : FDTreeElement) (ht : FDTreeElement.BuiltByAdd n t) (lhs a out : Nat)
    (hl : LhsOk n lhs) (ha : 1 ≤ a) (_ : a ≤ n) :
    (FDTreeElement.GetSpecialization t.height t lhs a 0 out).1 = true ↔
      ∃ Z, FDTreeElement.Rec t Z (a - 1) ∧ pathOf lhs ⊆ Z := by
  obtain ⟨hwf, ho, hu, _⟩ := ht.built_inv
  constructor
  · intro h
    obtain ⟨q, hq, hqs⟩ := FDTreeElement.GetSpecialization_sound lhs a ha _ t 0 out hu
      (by decide) h
    refine ⟨q, hq, ?_⟩
    intro j hj
    obtain ⟨h1, h2⟩ := (mem_pathOf hl j).1 hj
    have := hqs (j + 1) (by omega) h1 h2
    simpa using this
  · rintro ⟨Z, hZ, hsub⟩
    apply FDTreeElement.GetSpecialization_complete lhs a ha _ t 0 out 0 (le_refl _) hwf ho
      (le_refl _) (by decide)
    refine ⟨Z, hZ, ?_⟩
    intro j h1 h2 h3
    apply hsub
    rw [mem_pathOf hl]
    have e : j - 1 + 1 = j := by omega
    rw [e]
    exact ⟨h2, h3⟩

/-- Witness for C19 as amended: the tree for 2 attributes that records only `{1} → 2`,
asked for `lhs = {1}` and `a = 2`. -/
theorem GetSpecialization_decides_superset_or_equal_witness :
    2 < kMaxAttrNum ∧ FDTreeElement.BuiltByAdd 2 FDTreeElement.singleFd ∧ LhsOk 2 2 ∧
    1 ≤ 2 ∧ 2 ≤ 2 ∧
    ((FDTreeElement.GetSpecialization FDTreeElement.singleFd.height FDTreeElement.singleFd
        2 2 0 0).1 = true ↔
      ∃ Z, FDTreeElement.Rec FDTreeElement.singleFd Z (2 - 1) ∧ pathOf 2 ⊆ Z) :=
  have hb : FDTreeElement.BuiltByAdd 2 FDTreeElement.singleFd :=
    FDTreeElement.BuiltByAdd.add _ 2 2 FDTreeElement.BuiltByAdd.fresh
      (LhsOk_of_lt (by decide) (by decide)) (by decide) (by decide)
  ⟨by decide, hb, LhsOk_of_lt (by decide) (by decide), by decide, by decide,
    GetSpecialization_decides_superset_or_equal (by decide) _ hb 2 2 0
      (LhsOk_of_lt (by decide) (by decide)) (by decide) (by decide)⟩

set_option maxRecDepth 20000 in
/-- C20, the tree on which `FilterSpecializations` removes an LHS-minimal FD: the tree
for 3 attributes that records `{1} → 3` and `{1, 2} → 3` (paths `[0]` and `[0, 1]`,
RHS position 2).  No recorded LHS for attribute 3 is a strict subset of `{1}`, and yet
after `FilterSpecializations` the FD `{1} → 3` is not recorded, while `{1, 2} → 3`,
whose LHS has the strict subset `{1}`, is. -/
theorem FilterSpecializations_drops_minimal_lhs :
    FDTreeElement.BuiltByAdd 3 FDTreeElement.nestedPair ∧
    FDTreeElement.Rec FDTreeElement.nestedPair [0] 2 ∧
    (¬ ∃ Y, FDTreeElement.Rec FDTreeElement.nestedPair Y 2 ∧ Y ⊆ [0] ∧ ¬ [0] ⊆ Y) ∧
    ¬ FDTreeElement.Rec FDTreeElement.nestedPair.FilterSpecializations [0] 2 ∧
    FDTreeElement.Rec FDTreeElement.nestedPair.FilterSpecializations [0, 1] 2 := by
  have hb1 : FDTreeElement.BuiltByAdd 3 ((FDTreeElement.new 3).AddFunctionalDependency 2 3) :=
    FDTreeElement.BuiltByAdd.add _ 2 3 FDTreeElement.BuiltByAdd.fresh
      (LhsOk_of_lt (by decide) (by decide)) (by decide) (by decide)
  refine ⟨FDTreeElement.BuiltByAdd.add _ 6 3 hb1 (LhsOk_of_lt (by decide) (by decide))
    (by decide) (by decide), by decide, ?_, by decide, by decide⟩
  rintro ⟨Y, hY, hsub, hne⟩
  rcases (FDTreeElement.AddFunctionalDependency_Rec hb1.built_inv.1
    (LhsOk_of_lt (by decide) (by decide)) 3 Y 2).1 hY with h | ⟨h, _⟩
  · rcases (FDTreeElement.AddFunctionalDependency_Rec (FDTreeElement.WF_new 3 0)
      (LhsOk_of_lt (by decide) (by decide)) 3 Y 2).1 h with h' | ⟨h', _⟩
    · exact FDTreeElement.Rec_new 3 Y _ h'
    · apply hne
      rw [h']
      decide
  · rw [h] at hsub
    have : (1 : Nat) ∈ [0] := hsub (by decide)
    simp at this

/-- C20 as amended (`FilterSpecializations`).  For `n < 256` attributes and a tree
built from a fresh `FDTreeElement(n)` by `AddFunctionalDependency` calls: after
`FilterSpecializations` the recorded FDs are exactly those FDs `X → a` of the original
tree for which the original tree records no `Z → a` with `Z` a strict superset of `X`
(FDs whose LHS lies strictly inside another recorded LHS are removed). -/
theorem FilterSpecializations_keeps_lhs_maximal {n : Nat} (hn : n < kMaxAttrNum)
    (t : FDTreeElement) (ht : FDTreeElement.BuiltByAdd n t) (X : List Nat) (a : Nat) :
    FDTreeElement.Rec t.FilterSpecializations X a ↔
      (FDTreeElement.Rec t X a ∧
        ¬ ∃ Z, FDTreeElement.Rec t Z a ∧ X ⊆ Z ∧ ¬ Z ⊆ X) := by
  obtain ⟨hwf, _, _, hbound⟩ := ht.built_inv
  rw [(FDTreeElement.FilterSpecializations_exact hn hwf).2.2.2 X a]
  constructor
  · rintro ⟨_, hr, hmax⟩
    refine ⟨hr, ?_⟩
    rintro ⟨Z, hZ, h1, h2⟩
    exact h2 (hmax Z hZ h1)
  · rintro ⟨hr, hno⟩
    refine ⟨hbound X a hr, hr, ?_⟩
    intro Z hZ h1
    by_contra h2
    exact hno ⟨Z, hZ, h1, h2⟩

/-- Witness for C20 as amended: the tree for 3 attributes that records `{1} → 3` and
`{1, 2} → 3`, asked about `{1, 2} → 3`. -/
theorem FilterSpecializations_keeps_lhs_maximal_witness :
    3 < kMaxAttrNum ∧ FDTreeElement.BuiltByAdd 3 FDTreeElement.nestedPair ∧
    (FDTreeElement.Rec FDTreeElement.nestedPair.FilterSpecializations [0, 1] 2 ↔
      (FDTreeElement.Rec FDTreeElement.nestedPair [0, 1] 2 ∧
        ¬ ∃ Z, FDTreeElement.Rec FDTreeElement.nestedPair Z 2 ∧ [0, 1] ⊆ Z ∧ ¬ Z ⊆ [0, 1])) :=
  have hb : FDTreeElement.BuiltByAdd 3 FDTreeElement.nestedPair :=
    FDTreeElement.BuiltByAdd.add _ 6 3
      (FDTreeElement.BuiltByAdd.add _ 2 3 FDTreeElement.BuiltByAdd.fresh
        (LhsOk_of_lt (by decide) (by decide)) (by decide) (by decide))
      (LhsOk_of_lt (by decide) (by decide)) (by decide) (by decide)
  ⟨by decide, hb, FilterSpecializations_keeps_lhs_maximal (by decide) _ hb [0, 1] 2⟩

/-! ## The storage builder and the storage -/

namespace algos

theorem foldl_AddFd (max_lhs : Nat) : ∀ (fds acc : List StrippedFd),
    (fds.foldl LhsLimFdStorageBuilder.AddFd ⟨acc, max_lhs⟩) =
      ⟨acc ++ fds.filter (fun fd => decide (fd.lhs.count ≤ max_lhs)), max_lhs⟩
  | [], acc => by simp
  | fd :: rest, acc => by
    rw [List.foldl_cons]
    by_cases h : fd.lhs.count > max_lhs
    · have hstep : LhsLimFdStorageBuilder.AddFd ⟨acc, max_lhs⟩ fd = ⟨acc, max_lhs⟩ := by
        unfold LhsLimFdStorageBuilder.AddFd
        simp only [h, if_true]
      rw [hstep, foldl_AddFd max_lhs rest acc, List.filter_cons_of_neg (by simpa using h)]
    · have hstep : LhsLimFdStorageBuilder.AddFd ⟨acc, max_lhs⟩ fd =
          ⟨acc ++ [fd], max_lhs⟩ := by
        unfold LhsLimFdStorageBuilder.AddFd
        simp only [h, if_false]
      rw [hstep, foldl_AddFd max_lhs rest (acc ++ [fd]),
        List.filter_cons_of_pos (by simpa using h)]
      simp

theorem foldl_append_singleton {α β : Type} (g : β → α) : ∀ (l : List β) (acc : List α),
    l.foldl (fun attrs i => attrs ++ [g i]) acc = acc ++ l.map g
  | [], acc => by simp
  | x :: rest, acc => by
    rw [List.foldl_cons, foldl_append_singleton g rest]
    simp

theorem ToFd_lhs (fd : StrippedFd) (h : model.TableHeader) :
    (fd.ToFd h).lhs = ((List.range fd.lhs.size).filter (fun i => fd.lhs.test i)).map
      (fun i => (⟨h.column_names.getD i "", i⟩ : model.Attribute)) := by
  show util.ForEachIndex fd.lhs _ [] = _
  unfold util.ForEachIndex
  rw [foldl_append_singleton (fun i => (⟨h.column_names.getD i "", i⟩ : model.Attribute))]
  rfl

theorem ToFd_rhs (fd : StrippedFd) (h : model.TableHeader) :
    (fd.ToFd h).rhs = ((List.range fd.rhs.size).filter (fun i => fd.rhs.test i)).map
      (fun i => (⟨h.column_names.getD i "", i⟩ : model.Attribute)) := by
  show util.ForEachIndex fd.rhs _ [] = _
  unfold util.ForEachIndex
  rw [foldl_append_singleton (fun i => (⟨h.column_names.getD i "", i⟩ : model.Attribute))]
  rfl

/-- The attributes made from the set bits of a bitset of the header's width: their
indices are the set bits in ascending order, their number is the popcount, and each
carries the column name at its index. -/
theorem attrs_of_bits (b : DynamicBitset) (h : model.TableHeader)
    (hw : b.size = h.column_names.length) :
    (((List.range b.size).filter (fun i => b.test i)).map
      (fun i => (⟨h.column_names.getD i "", i⟩ : model.Attribute))).map model.Attribute.id =
      (List.range b.size).filter (fun i => b.test i) ∧
    (((List.range b.size).filter (fun i => b.test i)).map
      (fun i => (⟨h.column_names.getD i "", i⟩ : model.Attribute))).length = b.count ∧
    ∀ a ∈ ((List.range b.size).filter (fun i => b.test i)).map
      (fun i => (⟨h.column_names.getD i "", i⟩ : model.Attribute)),
      h.column_names[a.id]? = some a.name ∧ b.test a.id = true := by
  refine ⟨?_, ?_, ?_⟩
  · rw [List.map_map]
    exact List.map_id _
  · rw [List.length_map]
    unfold DynamicBitset.count DynamicBitset.test
    rw [List.countP_eq_length_filter]
  · intro a ha
    obtain ⟨i, hi, rfl⟩ := List.mem_map.1 ha
    obtain ⟨hi1, hi2⟩ := List.mem_filter.1 hi
    rw [List.mem_range, hw] at hi1
    refine ⟨?_, hi2⟩
    simp only
    rw [List.getD_eq_getElem?_getD, List.getElem?_eq_getElem hi1]
    rfl

end algos

/-- C26 (`LhsLimFdStorageBuilder`).  For every `max_lhs`, every sequence of `AddFd`
calls on a builder constructed with `max_lhs` and every table header: `Build` returns
the storage with that header and exactly the added stripped FDs whose `lhs.count()` is
at most `max_lhs`, in insertion order; and `Build` after `Reset` returns a storage
with no FDs. -/
theorem LhsLimFdStorageBuilder_builds_capped_subsequence (max_lhs : Nat)
    (fds : List algos.StrippedFd) (table_header : model.TableHeader) :
    (fds.foldl algos.LhsLimFdStorageBuilder.AddFd
        (algos.LhsLimFdStorageBuilder.new max_lhs)).Build table_header =
      ⟨table_header, fds.filter (fun fd => decide (fd.lhs.count ≤ max_lhs))⟩ ∧
    ((fds.foldl algos.LhsLimFdStorageBuilder.AddFd
        (algos.LhsLimFdStorageBuilder.new max_lhs)).Reset.Build table_header).GetStripped =
      [] ∧
    ((fds.foldl algos.LhsLimFdStorageBuilder.AddFd
        (algos.LhsLimFdStorageBuilder.new max_lhs)).Reset.Build table_header).table_header_ =
      table_header := by
  unfold algos.LhsLimFdStorageBuilder.new
  rw [algos.foldl_AddFd max_lhs fds []]
  exact ⟨rfl, rfl, rfl⟩

/-- C27 (`FdStorage::StrippedFd::ToFd`), the part of the claim that the code delivers.
For a table header with `n` column names and a stripped FD whose bitsets have width `n`:
`ToFd` carries the header's table name; the indices of its `lhs` (resp. `rhs`) attributes
are the set bits of `lhs` (resp. `rhs`) in ascending order, their number is the popcount,
and every attribute carries the column name at its index.  (Nothing is stated about
iterating a storage: `begin()` and `end()` of `FdStorage` each return an iterator into a
temporary view that is destroyed when they return.) -/
theorem ToFd_materializes_set_bits (table_header : model.TableHeader) (fd : algos.StrippedFd)
    (hl : fd.lhs.size = table_header.column_names.length)
    (hr : fd.rhs.size = table_header.column_names.length) :
    (fd.ToFd table_header).table_name = table_header.table_name ∧
    ((fd.ToFd table_header).lhs.map model.Attribute.id =
        (List.range fd.lhs.size).filter (fun i => fd.lhs.test i) ∧
      (fd.ToFd table_header).lhs.length = fd.lhs.count ∧
      ∀ a ∈ (fd.ToFd table_header).lhs,
        table_header.column_names[a.id]? = some a.name ∧ fd.lhs.test a.id = true) ∧
    ((fd.ToFd table_header).rhs.map model.Attribute.id =
        (List.range fd.rhs.size).filter (fun i => fd.rhs.test i) ∧
      (fd.ToFd table_header).rhs.length = fd.rhs.count ∧
      ∀ a ∈ (fd.ToFd table_header).rhs,
        table_header.column_names[a.id]? = some a.name ∧ fd.rhs.test a.id = true) := by
  refine ⟨rfl, ?_, ?_⟩
  · rw [algos.ToFd_lhs]
    exact algos.attrs_of_bits fd.lhs table_header hl
  · rw [algos.ToFd_rhs]
    exact algos.attrs_of_bits fd.rhs table_header hr

/-- Witness for C27: the stripped FD `lhs = {K}`, `rhs = {V}` over the header `K, V`. -/
theorem ToFd_materializes_set_bits_witness :
    (⟨2, 1⟩ : DynamicBitset).size = (["K", "V"] : List String).length ∧
    (⟨2, 2⟩ : DynamicBitset).size = (["K", "V"] : List String).length ∧
    (⟨⟨2, 1⟩, ⟨2, 2⟩⟩ : algos.StrippedFd).ToFd ⟨"S1", ["K", "V"]⟩ =
      ⟨"S1", [⟨"K", 0⟩], [⟨"V", 1⟩]⟩ ∧
    (((⟨⟨2, 1⟩, ⟨2, 2⟩⟩ : algos.StrippedFd).ToFd ⟨"S1", ["K", "V"]⟩).lhs.map model.Attribute.id =
      (List.range 2).filter (fun i => (⟨2, 1⟩ : DynamicBitset).test i)) :=
  ⟨rfl, rfl, by decide,
    (ToFd_materializes_set_bits ⟨"S1", ["K", "V"]⟩ ⟨⟨2, 1⟩, ⟨2, 2⟩⟩ rfl rfl).2.1.1⟩

/-! ## The scenarios -/

set_option maxRecDepth 20000 in
/-- C28, the FD that scenario S1 mines besides `K → V`: on the table with columns `K`,
`V` and rows `(a,1)`, `(b,2)`, `(c,3)` the storage also holds `V → K` (the stripped FD
with `lhs = {V}`, `rhs = {K}`), so the mined set in single-RHS form is not `{K → V}`. -/
theorem scenarioS1_also_mines_V_determines_K :
    ∃ st, (algos.FDep.scenarioS1.ExecuteInternal.bind algos.FDep.GetFdStorage) = some st ∧
      (⟨⟨2, 2⟩, ⟨2, 1⟩⟩ : algos.StrippedFd) ∈ st.GetStripped ∧
      ([1], 0) ∈ algos.singleRhs st.GetStripped ∧
      ¬ (∀ x, x ∈ algos.singleRhs st.GetStripped ↔ x ∈ [([0], 1)]) := by
  have h : (algos.FDep.scenarioS1.ExecuteInternal.bind algos.FDep.GetFdStorage).map
      algos.FdStorage.GetStripped = some [⟨⟨2, 1⟩, ⟨2, 2⟩⟩, ⟨⟨2, 2⟩, ⟨2, 1⟩⟩] := by decide
  cases hst : algos.FDep.scenarioS1.ExecuteInternal.bind algos.FDep.GetFdStorage with
  | none =>
    rw [hst] at h
    cases h
  | some st =>
    rw [hst] at h
    simp only [Option.map_some', Option.some.injEq] at h
    refine ⟨st, rfl, ?_, ?_, ?_⟩
    · rw [h]
      decide
    · rw [h]
      decide
    · rw [h]
      intro hall
      have := (hall ([1], 0)).1 (by decide)
      revert this
      decide

set_option maxRecDepth 20000 in
/-- C28 as amended (scenario S1).  Mining the table with columns `K`, `V` and rows
`(a,1)`, `(b,2)`, `(c,3)` with unlimited `max_lhs` finishes with a storage whose FDs, in
single-RHS form, are exactly `K → V` and `V → K`. -/
theorem scenarioS1_mines_both_directions :
    ∃ st, (algos.FDep.scenarioS1.ExecuteInternal.bind algos.FDep.GetFdStorage) = some st ∧
      st.GetStripped = [⟨⟨2, 1⟩, ⟨2, 2⟩⟩, ⟨⟨2, 2⟩, ⟨2, 1⟩⟩] ∧
      algos.singleRhs st.GetStripped = [([0], 1), ([1], 0)] := by
  have h : (algos.FDep.scenarioS1.ExecuteInternal.bind algos.FDep.GetFdStorage).map
      algos.FdStorage.GetStripped = some [⟨⟨2, 1⟩, ⟨2, 2⟩⟩, ⟨⟨2, 2⟩, ⟨2, 1⟩⟩] := by decide
  cases hst : algos.FDep.scenarioS1.ExecuteInternal.bind algos.FDep.GetFdStorage with
  | none =>
    rw [hst] at h
    cases h
  | some st =>
    rw [hst] at h
    simp only [Option.map_some', Option.some.injEq] at h
    refine ⟨st, rfl, h, ?_⟩
    rw [h]
    decide

set_option maxRecDepth 20000 in
/-- C29 (scenario S2, constant column).  Mining the table with columns `K`, `V` and rows
`(x,1)`, `(y,1)`, `(z,1)` finishes with a storage that holds a stripped FD whose `lhs`
has no bit set and whose `rhs` has bit 1 (column `V`) set. -/
theorem scenarioS2_mines_empty_lhs_for_constant_column :
    ∃ st, (algos.FDep.constantColumn.ExecuteInternal.bind algos.FDep.GetFdStorage) = some st ∧
      ∃ fd ∈ st.GetStripped, fd.lhs.size = 2 ∧ fd.lhs.any = false ∧ fd.rhs.test 1 = true ∧
        ([], 1) ∈ algos.singleRhs st.GetStripped := by
  have h : (algos.FDep.constantColumn.ExecuteInternal.bind algos.FDep.GetFdStorage).map
      algos.FdStorage.GetStripped = some [⟨⟨2, 0⟩, ⟨2, 2⟩⟩] := by decide
  cases hst : algos.FDep.constantColumn.ExecuteInternal.bind algos.FDep.GetFdStorage with
  | none =>
    rw [hst] at h
    cases h
  | some st =>
    rw [hst] at h
    simp only [Option.map_some', Option.some.injEq] at h
    refine ⟨st, rfl, ⟨⟨2, 0⟩, ⟨2, 2⟩⟩, ?_, ?_⟩
    · rw [h]
      decide
    · rw [h]
      decide

set_option maxRecDepth 20000 in
/-- C30 (scenario S3, violation).  Mining the table with columns `K`, `V` and rows
`(a,1)`, `(a,2)`, `(b,3)` finishes with a storage in which no stripped FD with bit 1
(column `V`) in its `rhs` has its `lhs` within `{K}`: neither `K → V` nor its
generalization `∅ → V` is stored. -/
theorem scenarioS3_does_not_mine_K_determines_V :
    ∃ st, (algos.FDep.sample.ExecuteInternal.bind algos.FDep.GetFdStorage) = some st ∧
      (∀ fd ∈ st.GetStripped, fd.rhs.test 1 = true →
        ¬ ∀ x, fd.lhs.test x = true → x = 0) ∧
      ([0], 1) ∉ algos.singleRhs st.GetStripped ∧ ([], 1) ∉ algos.singleRhs st.GetStripped := by
  have h : (algos.FDep.sample.ExecuteInternal.bind algos.FDep.GetFdStorage).map
      algos.FdStorage.GetStripped = some [⟨⟨2, 2⟩, ⟨2, 1⟩⟩] := by decide
  cases hst : algos.FDep.sample.ExecuteInternal.bind algos.FDep.GetFdStorage with
  | none =>
    rw [hst] at h
    cases h
  | some st =>
    rw [hst] at h
    simp only [Option.map_some', Option.some.injEq] at h
    refine ⟨st, rfl, ?_, ?_, ?_⟩
    · rw [h]
      intro fd hfd hbit
      simp only [List.mem_singleton] at hfd
      subst hfd
      exact absurd hbit (by decide)
    · rw [h]
      decide
    · rw [h]
      decide

namespace FDTreeElement

/-- The children of the tree rebuilt by `FilterSpecializations` have every set bit of
`rhs_attributes_` witnessed by a recorded FD. -/
theorem FilterSpecializations_children_under {n : Nat} (hn : n < kMaxAttrNum)
    {raw : FDTreeElement} (hwf : WF n 0 raw) :
    ∀ i c, raw.FilterSpecializations.GetChild i = some c → Under c := by
  have h0 : FilterSpecializations.Exact n (fun _ _ => False) (new raw.max_attribute_number_) := by
    rw [hwf.max]
    exact ⟨WF_new n 0, Over_new n, Under_new n,
      fun p q a hp => absurd hp (Rec_new n p a),
      fun X b hX => absurd hX (Rec_new n X b), fun Z b hZ => False.elim hZ⟩
  obtain ⟨_, hex⟩ := FilterSpecializationsHelper_exact hn raw.height raw [] 0
    (new raw.max_attribute_number_) 0 _ (le_refl _) hwf
    (by intro i hi; cases hi) (by intro i hi; cases hi) List.Pairwise.nil PathBits_nil h0
    (by intro X b q hX; exact False.elim hX)
  intro i c hc
  exact hex.under.child_under hc

end FDTreeElement

/-- C21 (`FilterSpecializations`).  For `n < 256` attributes and a tree built from a
fresh `FDTreeElement(n)` by `AddFunctionalDependency` calls: after
`FilterSpecializations` the recorded FDs are exactly the FDs `X → a` of the original
tree that have no recorded `Z → a` with `Z` a strict superset of `X`; every original FD
`X → a` lies within a recorded `Z → a`; the root keeps its `rhs_attributes_`; and in the
rebuilt tree, the root included, every node on the path to a recorded FD for `a` has
bit `a` of `rhs_attributes_` set, the flags being exact at every node. -/
theorem FilterSpecializations_keeps_exactly_maximal_witnesses {n : Nat}
    (hn : n < kMaxAttrNum) (t : FDTreeElement) (ht : FDTreeElement.BuiltByAdd n t) :
    (∀ X a, FDTreeElement.Rec t.FilterSpecializations X a ↔
      (FDTreeElement.Rec t X a ∧ ¬ ∃ Z, FDTreeElement.Rec t Z a ∧ X ⊆ Z ∧ ¬ Z ⊆ X)) ∧
    (∀ X a, FDTreeElement.Rec t X a →
      ∃ Z, FDTreeElement.Rec t.FilterSpecializations Z a ∧ X ⊆ Z) ∧
    t.FilterSpecializations.rhs_attributes_ = t.rhs_attributes_ ∧
    FDTreeElement.RhsOnPath t.FilterSpecializations ∧
    FDTreeElement.ExactRhs t.FilterSpecializations := by
  obtain ⟨hwf, ho, hu, hbound⟩ := ht.built_inv
  obtain ⟨_, hover, _, hexact⟩ := FDTreeElement.FilterSpecializations_exact hn hwf
  obtain ⟨_, _, hcov⟩ := FDTreeElement.FilterSpecializations_spec hn hwf
  have hkeep : ∀ X a, FDTreeElement.Rec t X a →
      ∃ Z, FDTreeElement.Rec t.FilterSpecializations Z a ∧ X ⊆ Z :=
    fun X a hX => hcov X a hX (hbound X a hX)
  refine ⟨?_, hkeep, rfl, (hover ho).rhsOnPath, ?_⟩
  · intro X a
    rw [hexact X a]
    constructor
    · rintro ⟨_, hr, hmax⟩
      refine ⟨hr, ?_⟩
      rintro ⟨Z, hZ, h1, h2⟩
      exact h2 (hmax Z hZ h1)
    · rintro ⟨hr, hno⟩
      refine ⟨hbound X a hr, hr, ?_⟩
      intro Z hZ h1
      by_contra h2
      exact hno ⟨Z, hZ, h1, h2⟩
  · rw [FDTreeElement.ExactRhs_iff]
    refine ⟨hover ho, FDTreeElement.Under.mk _ ?_
      (FDTreeElement.FilterSpecializations_children_under hn hwf)⟩
    intro a ha
    obtain ⟨q, hq⟩ := hu.root_witness (show Nat.testBit t.rhs_attributes_ (a + 1) = true from ha)
    obtain ⟨Z, hZ, _⟩ := hkeep q a hq
    exact ⟨Z, hZ⟩

/-- Witness for C21: the tree for 3 attributes that records `{1} → 3` and
`{1, 2} → 3`. -/
theorem FilterSpecializations_keeps_exactly_maximal_witnesses_witness :
    3 < kMaxAttrNum ∧ FDTreeElement.BuiltByAdd 3 FDTreeElement.nestedPair ∧
    (∀ X a, FDTreeElement.Rec FDTreeElement.nestedPair X a →
      ∃ Z, FDTreeElement.Rec FDTreeElement.nestedPair.FilterSpecializations Z a ∧ X ⊆ Z) ∧
    FDTreeElement.RhsOnPath FDTreeElement.nestedPair.FilterSpecializations :=
  have hb : FDTreeElement.BuiltByAdd 3 FDTreeElement.nestedPair :=
    FDTreeElement.BuiltByAdd.add _ 6 3
      (FDTreeElement.BuiltByAdd.add _ 2 3 FDTreeElement.BuiltByAdd.fresh
        (LhsOk_of_lt (by decide) (by decide)) (by decide) (by decide))
      (LhsOk_of_lt (by decide) (by decide)) (by decide) (by decide)
  ⟨by decide, hb,
    (FilterSpecializations_keeps_exactly_maximal_witnesses (by decide) _ hb).2.1,
    (FilterSpecializations_keeps_exactly_maximal_witnesses (by decide) _ hb).2.2.2.1⟩

set_option maxRecDepth 20000 in
/-- C24, the column count at which the mask of `AddViolatedFDs` is wrong: with 31
columns the `int` expression `(2 << 31) - 1` is `-1`, the bitset is constructed from
`2 ^ 64 - 1`, and for two rows that differ in column 0 only `equal_attr` has bit 32
set, a position outside `1 .. 31`, although no column 31 exists (the rows have 31
cells); the path walked by `AddFunctionalDependency(equal_attr, 1)` then asks for the
child slot 31 of nodes that have 31 slots. -/
theorem AddViolatedFDs_mask_wrong_at_31_columns :
    algos.FDep.row31a.length = 31 ∧ algos.FDep.row31b.length = 31 ∧
    algos.FDep.equalAttrInit 31 = 2 ^ 64 - 1 ∧
    Bitset.indices (algos.FDep.diffAttr 31 algos.FDep.row31a algos.FDep.row31b) = [1] ∧
    Nat.testBit (algos.FDep.equalAttr 31 algos.FDep.row31a algos.FDep.row31b) 32 = true ∧
    31 ∈ pathOf (algos.FDep.equalAttr 31 algos.FDep.row31a algos.FDep.row31b) := by
  refine ⟨by decide, by decide, by decide, by decide, by decide, by decide⟩

set_option maxRecDepth 20000 in
/-- C25, the column counts at which positions leave the bitsets and the child
vectors: with 256 columns `AddMostGeneralDependencies` sets bit 256 of
`rhs_attributes_` and `AddViolatedFDs` writes bit 256 of `diff_attr` (for two rows that
differ in the last column), positions that a bitset of `kMaxAttrNum = 256` bits does
not have; with 31 columns `AddFunctionalDependency`, called by `AddViolatedFDs`, walks
to the child position 31 of a node with 31 child slots. -/
theorem column_cap_256_leaves_the_bitset :
    ¬ (256 < kMaxAttrNum) ∧
    Nat.testBit (FDTreeElement.new 256).AddMostGeneralDependencies.rhs_attributes_ 256 = true ∧
    algos.FDep.row256a.length = 256 ∧ algos.FDep.row256b.length = 256 ∧
    Nat.testBit (algos.FDep.diffAttr 256 algos.FDep.row256a algos.FDep.row256b) 256 = true ∧
    31 ∈ pathOf (algos.FDep.equalAttr 31 algos.FDep.row31a algos.FDep.row31b) ∧
    ¬ (31 < (FDTreeElement.new 31).children_.length) := by
  refine ⟨by decide, ?_, by decide, by decide, by decide, by decide, by simp⟩
  show Nat.testBit ((List.range' 1 256).foldl (fun b i => Bitset.set b i) 0) 256 = true
  rw [FDTreeElement.testBit_foldl_set]
  right
  rw [List.mem_range'_1]
  omega

namespace FDTreeElement

/-! ### Emission into a builder with any cap -/

/-- `TransformTreeFdCollection` restores `lhs` and appends `emitList` to a builder that
rejects nothing of what the traversal hands over. -/
theorem TransformTreeFdCollection_records {n m M : Nat} (hM : m ≤ M ∨ n ≤ M) :
    ∀ (fuel : Nat) (t : FDTreeElement) (P : List Nat) (b : algos.LhsLimFdStorageBuilder)
      (k : Nat), WF n k t → (∀ i ∈ P, i < k) → b.max_lhs_ = M →
      TransformTreeFdCollection fuel t (lhsOf n P) b m =
        (lhsOf n P, ⟨b.stripped_fds_ ++ emitList m fuel t (lhsOf n P), M⟩)
  | 0, t, P, b, k, _, _, hb => by
    unfold TransformTreeFdCollection emitList
    cases b
    simp only at hb
    simp [hb]
  | fuel + 1, t, P, b, k, hwf, hP, hb => by
    unfold TransformTreeFdCollection emitList
    by_cases hc : (lhsOf n P).count > m
    · simp only [hc, if_true]
      cases b
      simp only at hb
      simp [hb]
    · simp only [hc, if_false]
      rw [lhsOf_size]
      have hacc : ¬ (lhsOf n P).count > M := by
        have := count_le_size (lhsOf n P)
        rw [lhsOf_size] at this
        omega
      have hb1 : ∀ (own : List algos.StrippedFd) (b1 : algos.LhsLimFdStorageBuilder),
          b1 = ⟨b.stripped_fds_ ++ own, M⟩ →
          List.foldl (TransformTreeFdCollection.child
              (fun child l b => TransformTreeFdCollection fuel child l b m) t)
            (lhsOf n P, b1) (List.range n) =
          (lhsOf n P, ⟨b.stripped_fds_ ++ (own ++ (List.range n).flatMap fun attr =>
            match t.GetChild attr with
            | some child => emitList m fuel child ((lhsOf n P).set attr)
            | none => []), M⟩) := by
        intro own b1 hb1
        have key := foldl_prefix_inv
          (TransformTreeFdCollection.child
            (fun child l b => TransformTreeFdCollection fuel child l b m) t)
          (fun done s => s = (lhsOf n P, (⟨b.stripped_fds_ ++ (own ++ done.flatMap fun attr =>
            match t.GetChild attr with
            | some child => emitList m fuel child ((lhsOf n P).set attr)
            | none => []), M⟩ : algos.LhsLimFdStorageBuilder)))
          (List.range n) [] (lhsOf n P, b1) (by simp [hb1]) ?_
        · simpa using key
        · rintro done attr s _ hs
          subst hs
          unfold TransformTreeFdCollection.child
          cases hch : t.GetChild attr with
          | none => simp [hch]
          | some c =>
            simp only
            have hcw := hwf.child hch
            have hnotin : attr ∉ P := fun h => by
              have := hP _ h
              omega
            have ih := TransformTreeFdCollection_records hM fuel c (P ++ [attr])
              ⟨b.stripped_fds_ ++ (own ++ done.flatMap fun attr =>
                match t.GetChild attr with
                | some child => emitList m fuel child ((lhsOf n P).set attr)
                | none => []), M⟩ (attr + 1) hcw.2.2
              (by
                intro i hi
                rcases List.mem_append.1 hi with hi | hi
                · have := hP i hi; omega
                · simp only [List.mem_singleton] at hi; omega)
              rfl
            rw [lhsOf_snoc] at ih
            rw [ih]
            simp only [lhsOf_reset_snoc n P hnotin, List.flatMap_append, List.flatMap_cons,
              List.flatMap_nil, List.append_nil, hch, List.append_assoc]
      by_cases hany : Bitset.any t.is_fd_ = true
      · simp only [hany, if_true]
        apply hb1
        unfold algos.LhsLimFdStorageBuilder.AddFd
        simp only [hb, hacc, if_false]
      · simp only [hany, if_false, Bool.false_eq_true]
        apply hb1
        cases b
        simp only at hb
        simp [hb]

/-! ### The nodes in pre-order -/

theorem mem_preorder_elim : ∀ (fuel : Nat) (t : FDTreeElement) (P p : List Nat)
    (v : FDTreeElement), (p, v) ∈ preorder fuel t P → ∃ q, p = P ++ q ∧ lookup t q = some v
  | 0, t, P, p, v, h => by
    unfold preorder at h
    cases h
  | fuel + 1, t, P, p, v, h => by
    unfold preorder at h
    rcases List.mem_cons.1 h with h | h
    · cases h
      exact ⟨[], by simp, lookup_nil t⟩
    · obtain ⟨i, _, hi⟩ := List.mem_flatMap.1 h
      cases hc : t.GetChild i with
      | none => rw [hc] at hi; cases hi
      | some c =>
        rw [hc] at hi
        obtain ⟨q, hq, hl⟩ := mem_preorder_elim fuel c (P ++ [i]) p v hi
        exact ⟨i :: q, by simpa using hq, by rw [lookup_cons_some hc]; exact hl⟩

theorem mem_preorder_intro : ∀ (fuel : Nat) (t : FDTreeElement) (P q : List Nat)
    (v : FDTreeElement), height t ≤ fuel → lookup t q = some v →
    (P ++ q, v) ∈ preorder fuel t P
  | 0, t, _, _, _, hh, _ => by
    have := height_pos t
    omega
  | fuel + 1, t, P, q, v, hh, hl => by
    unfold preorder
    cases q with
    | nil =>
      rw [lookup_nil] at hl
      cases hl
      simp
    | cons i q =>
      cases hc : t.GetChild i with
      | none => rw [lookup_cons_none hc] at hl; cases hl
      | some c =>
        rw [lookup_cons_some hc] at hl
        apply List.mem_cons_of_mem
        rw [List.mem_flatMap]
        refine ⟨i, List.mem_range.2 (GetChild_lt hc), ?_⟩
        rw [hc]
        have := mem_preorder_intro fuel c (P ++ [i]) q v (by have := height_child hc; omega) hl
        simpa using this

theorem preorder_paths_nodup : ∀ (fuel : Nat) (t : FDTreeElement) (P : List Nat),
    ((preorder fuel t P).map Prod.fst).Nodup
  | 0, t, P => by
    unfold preorder
    exact List.nodup_nil
  | fuel + 1, t, P => by
    unfold preorder
    rw [List.map_cons, List.map_flatMap, List.nodup_cons]
    constructor
    · intro hmem
      obtain ⟨i, _, hi⟩ := List.mem_flatMap.1 hmem
      obtain ⟨⟨p, v⟩, hpv, hp⟩ := List.mem_map.1 hi
      simp only at hp
      cases hc : t.GetChild i with
      | none => rw [hc] at hpv; cases hpv
      | some c =>
        rw [hc] at hpv
        obtain ⟨q, hq, _⟩ := mem_preorder_elim fuel c (P ++ [i]) p v hpv
        rw [hp] at hq
        have := congrArg List.length hq
        simp only [List.length_append, List.length_singleton] at this
        omega
    · rw [List.nodup_flatMap]
      constructor
      · intro i _
        cases hc : t.GetChild i with
        | none => exact List.nodup_nil
        | some c => exact preorder_paths_nodup fuel c (P ++ [i])
      · refine List.Pairwise.imp_of_mem ?_ (List.pairwise_lt_range _)
        intro i j _ _ hij
        show List.Disjoint _ _
        intro p hpi hpj
        obtain ⟨⟨p1, v1⟩, h1, e1⟩ := List.mem_map.1 hpi
        obtain ⟨⟨p2, v2⟩, h2, e2⟩ := List.mem_map.1 hpj
        simp only at e1 e2
        subst e1
        subst e2
        cases hci : t.GetChild i with
        | none => rw [hci] at h1; cases h1
        | some ci =>
          cases hcj : t.GetChild j with
          | none => rw [hcj] at h2; cases h2
          | some cj =>
            rw [hci] at h1
            rw [hcj] at h2
            obtain ⟨q1, hq1, _⟩ := mem_preorder_elim fuel ci (P ++ [i]) _ v1 h1
            obtain ⟨q2, hq2, _⟩ := mem_preorder_elim fuel cj (P ++ [j]) _ v2 h2
            rw [hq1] at hq2
            simp only [List.append_assoc, List.singleton_append, List.append_cancel_left_eq,
              List.cons.injEq] at hq2
            omega

end FDTreeElement

theorem lhsOf_count (n : Nat) (P : List Nat) (hnd : P.Nodup) (hP : ∀ i ∈ P, i < n) :
    (lhsOf n P).count = P.length := by
  unfold DynamicBitset.count
  rw [lhsOf_size, List.countP_eq_length_filter]
  have hnd' : ((List.range n).filter (fun i => Nat.testBit (lhsOf n P).bits i)).Nodup :=
    (List.nodup_range n).filter _
  apply List.Perm.length_eq
  rw [List.perm_ext_iff_of_nodup hnd' hnd]
  intro j
  rw [List.mem_filter, List.mem_range]
  have := lhsOf_test n P j
  simp only [DynamicBitset.test] at this
  rw [this]
  exact ⟨fun h => h.2, fun h => ⟨hP j h, h⟩⟩

theorem lhsOf_injective (n : Nat) {P Q : List Nat} (hP : P.Pairwise (fun x y => x < y))
    (hQ : Q.Pairwise (fun x y => x < y)) (h : lhsOf n P = lhsOf n Q) : P = Q := by
  apply sorted_eq_of_subset hP hQ
  · intro j hj
    have := (lhsOf_test n P j).2 hj
    rw [h] at this
    exact (lhsOf_test n Q j).1 this
  · intro j hj
    have := (lhsOf_test n Q j).2 hj
    rw [← h] at this
    exact (lhsOf_test n P j).1 this

namespace FDTreeElement

/-- What `TransformTreeFdCollection` hands to the builder is the list of the nodes in
pre-order, reduced to the nodes with a non-empty `is_fd_` and a path of at most
`max_lhs` columns. -/
theorem emitList_eq_preorder {n m : Nat} :
    ∀ (fuel : Nat) (t : FDTreeElement) (P : List Nat) (k : Nat), WF n k t →
      (∀ i ∈ P, i < k) → (∀ i ∈ P, i < n) → P.Nodup →
      emitList m fuel t (lhsOf n P) =
        ((preorder fuel t P).filter fun e =>
            Bitset.any e.2.is_fd_ && decide (e.1.length ≤ m)).map
          fun e => ⟨lhsOf n e.1, BitsetToDynamicBitset e.2.is_fd_ n⟩
  | 0, t, P, k, _, _, _, _ => by
    unfold emitList preorder
    rfl
  | fuel + 1, t, P, k, hwf, hPk, hPn, hnd => by
    have hcount := lhsOf_count n P hnd hPn
    by_cases hc : (lhsOf n P).count > m
    · have h1 : emitList m (fuel + 1) t (lhsOf n P) = [] := by
        unfold emitList
        simp only [hc, if_true]
      rw [h1]
      symm
      rw [List.map_eq_nil_iff, List.filter_eq_nil_iff]
      rintro ⟨p, v⟩ hpv
      obtain ⟨q, hq, _⟩ := mem_preorder_elim _ _ _ _ _ hpv
      have hlen : ¬ p.length ≤ m := by
        rw [hq, List.length_append]
        omega
      simp [hlen]
    · unfold emitList preorder
      have hlen : P.length ≤ m := by omega
      simp only [hc, if_false, lhsOf_size, hwf.len, List.filter_cons, hlen, decide_True,
        Bool.and_true]
      have hrest : ((List.range n).flatMap fun attr =>
            match t.GetChild attr with
            | some child => emitList m fuel child ((lhsOf n P).set attr)
            | none => []) =
          List.map (fun e => (⟨lhsOf n e.1, BitsetToDynamicBitset e.2.is_fd_ n⟩ : algos.StrippedFd))
            (List.filter (fun e => Bitset.any e.2.is_fd_ && decide (e.1.length ≤ m))
              ((List.range n).flatMap fun i =>
                match t.GetChild i with
                | some child => preorder fuel child (P ++ [i])
                | none => [])) := by
        rw [List.filter_flatMap, List.map_flatMap]
        apply flatMap_congr'
        intro attr _
        cases hch : t.GetChild attr with
        | none => rfl
        | some c =>
          simp only
          have hcw := hwf.child hch
          rw [← lhsOf_snoc]
          apply emitList_eq_preorder fuel c (P ++ [attr]) (attr + 1) hcw.2.2
          · intro i hi
            rcases List.mem_append.1 hi with hi | hi
            · have := hPk i hi; omega
            · simp only [List.mem_singleton] at hi; omega
          · intro i hi
            rcases List.mem_append.1 hi with hi | hi
            · exact hPn i hi
            · simp only [List.mem_singleton] at hi; omega
          · rw [List.nodup_append]
            refine ⟨hnd, List.nodup_singleton _, ?_⟩
            intro x hx hx'
            simp only [List.mem_singleton] at hx'
            have := hPk x hx
            omega
      by_cases hany : Bitset.any t.is_fd_ = true
      · simp only [hany, if_true, List.map_cons, List.singleton_append]
        congr 1
      · simp only [hany, if_false, Bool.false_eq_true, List.nil_append]
        exact hrest

end FDTreeElement

/-- C23 (`CreateAnswer`, `TransformTreeFdCollection`).  For a tree for `n` attributes
whose recorded RHS positions are below `n`, every `max_lhs` and a builder that rejects
nothing of what it is handed: `CreateAnswer` appends to the builder, in depth-first
pre-order with the children in ascending order, one stripped FD for each node whose
`is_fd_` is non-empty and whose path has at most `max_lhs` columns, and nothing else;
every node occurs once in the pre-order; the `lhs` of an entry is the width-`n` bitset
of the node's path, its `rhs` is the node's `is_fd_` restricted to `0 .. n - 1` and is
non-empty; and no two entries have the same `lhs`. -/
theorem CreateAnswer_emits_nodes_in_preorder {n : Nat} (t : FDTreeElement)
    (hwf : FDTreeElement.WF n 0 t) (hb : ∀ q b, FDTreeElement.Rec t q b → b < n)
    (max_lhs : Nat) (builder : algos.LhsLimFdStorageBuilder)
    (hacc : max_lhs ≤ builder.max_lhs_ ∨ n ≤ builder.max_lhs_) :
    (t.CreateAnswer n builder max_lhs).stripped_fds_ =
      builder.stripped_fds_ ++ FDTreeElement.emissionSpec n max_lhs t ∧
    (∀ p v, (p, v) ∈ FDTreeElement.preorder t.height t [] ↔ FDTreeElement.lookup t p = some v) ∧
    ((FDTreeElement.preorder t.height t []).map Prod.fst).Nodup ∧
    ((FDTreeElement.emissionSpec n max_lhs t).map algos.StrippedFd.lhs).Nodup ∧
    (∀ fd ∈ FDTreeElement.emissionSpec n max_lhs t,
      ∃ p v, FDTreeElement.lookup t p = some v ∧ Bitset.any v.is_fd_ = true ∧
        p.length ≤ max_lhs ∧ fd.lhs.size = n ∧ fd.rhs.size = n ∧
        (∀ j, fd.lhs.test j = true ↔ j ∈ p) ∧
        (∀ j, fd.rhs.test j = true ↔ (j < n ∧ Nat.testBit v.is_fd_ j = true)) ∧
        fd.rhs.any = true) := by
  have hmem : ∀ p v, (p, v) ∈ FDTreeElement.preorder t.height t [] ↔
      FDTreeElement.lookup t p = some v := by
    intro p v
    constructor
    · intro h
      obtain ⟨q, hq, hl⟩ := FDTreeElement.mem_preorder_elim _ _ _ _ _ h
      rw [hq]
      simpa using hl
    · intro h
      have := FDTreeElement.mem_preorder_intro t.height t [] p v (le_refl _) h
      simpa using this
  have hsorted : ∀ p v, (p, v) ∈ FDTreeElement.preorder t.height t [] →
      p.Pairwise (fun x y => x < y) := fun p v h => (hwf.lookup p ((hmem p v).1 h)).1
  refine ⟨?_, hmem, FDTreeElement.preorder_paths_nodup _ _ _, ?_, ?_⟩
  · unfold FDTreeElement.CreateAnswer
    have hz : DynamicBitset.zeros n = lhsOf n [] := rfl
    rw [hz, FDTreeElement.TransformTreeFdCollection_records hacc t.height t [] builder 0 hwf
      (by intro i hi; cases hi) rfl,
      FDTreeElement.emitList_eq_preorder t.height t [] 0 hwf (by intro i hi; cases hi)
        (by intro i hi; cases hi) List.nodup_nil]
    rfl
  · unfold FDTreeElement.emissionSpec
    rw [List.map_map]
    have hnd : ((List.filter (fun e => Bitset.any e.2.is_fd_ && decide (e.1.length ≤ max_lhs))
        (FDTreeElement.preorder t.height t [])).map Prod.fst).Nodup :=
      List.Nodup.sublist ((List.filter_sublist _).map _)
        (FDTreeElement.preorder_paths_nodup _ _ _)
    have hcomp : (algos.StrippedFd.lhs ∘ fun (e : List Nat × FDTreeElement) =>
        (⟨lhsOf n e.1, BitsetToDynamicBitset e.2.is_fd_ n⟩ : algos.StrippedFd)) =
        (fun p => lhsOf n p) ∘ Prod.fst := rfl
    rw [hcomp, ← List.map_map]
    apply List.Nodup.map_on _ hnd
    intro p hp q hq hpq
    obtain ⟨⟨p', v⟩, hpv, rfl⟩ := List.mem_map.1 hp
    obtain ⟨⟨q', w⟩, hqw, rfl⟩ := List.mem_map.1 hq
    exact lhsOf_injective n (hsorted _ _ (List.mem_filter.1 hpv).1)
      (hsorted _ _ (List.mem_filter.1 hqw).1) hpq
  · intro fd hfd
    unfold FDTreeElement.emissionSpec at hfd
    obtain ⟨⟨p, v⟩, hpv, rfl⟩ := List.mem_map.1 hfd
    obtain ⟨hin, hcond⟩ := List.mem_filter.1 hpv
    simp only [Bool.and_eq_true, decide_eq_true_eq] at hcond
    have hl := (hmem p v).1 hin
    have hspec := BitsetToDynamicBitset_spec v.is_fd_ n
    refine ⟨p, v, hl, hcond.1, hcond.2, lhsOf_size n p, hspec.1, lhsOf_test n p, hspec.2, ?_⟩
    have hne : v.is_fd_ ≠ 0 := by
      have := hcond.1
      unfold Bitset.any at this
      simpa using this
    obtain ⟨i, hi⟩ := Nat.ne_zero_implies_bit_true hne
    have hin' : i < n := hb p i ⟨v, hl, hi⟩
    unfold DynamicBitset.any
    rw [List.any_eq_true]
    refine ⟨i, ?_, ?_⟩
    · rw [hspec.1]
      exact List.mem_range.2 hin'
    · exact (hspec.2 i).2 ⟨hin', hi⟩

set_option maxRecDepth 20000 in
/-- Witness for C23: the tree for 3 attributes that records `{1} → 3` and
`{1, 2} → 3`, emitted with `max_lhs = 1` into a fresh builder with the same cap: only the
node of `{1}` is emitted. -/
theorem CreateAnswer_emits_nodes_in_preorder_witness :
    FDTreeElement.WF 3 0 FDTreeElement.nestedPair ∧
    (∀ q b, FDTreeElement.Rec FDTreeElement.nestedPair q b → b < 3) ∧
    (1 ≤ (algos.LhsLimFdStorageBuilder.new 1).max_lhs_ ∨
      3 ≤ (algos.LhsLimFdStorageBuilder.new 1).max_lhs_) ∧
    FDTreeElement.emissionSpec 3 1 FDTreeElement.nestedPair = [⟨⟨3, 1⟩, ⟨3, 4⟩⟩] ∧
    (FDTreeElement.nestedPair.CreateAnswer 3 (algos.LhsLimFdStorageBuilder.new 1) 1).stripped_fds_ =
      (algos.LhsLimFdStorageBuilder.new 1).stripped_fds_ ++
        FDTreeElement.emissionSpec 3 1 FDTreeElement.nestedPair :=
  have hb : FDTreeElement.BuiltByAdd 3 FDTreeElement.nestedPair :=
    FDTreeElement.BuiltByAdd.add _ 6 3
      (FDTreeElement.BuiltByAdd.add _ 2 3 FDTreeElement.BuiltByAdd.fresh
        (LhsOk_of_lt (by decide) (by decide)) (by decide) (by decide))
      (LhsOk_of_lt (by decide) (by decide)) (by decide) (by decide)
  ⟨hb.built_inv.1, hb.built_inv.2.2.2, Or.inl (le_refl _), by decide,
    (CreateAnswer_emits_nodes_in_preorder FDTreeElement.nestedPair hb.built_inv.1
      hb.built_inv.2.2.2 1 (algos.LhsLimFdStorageBuilder.new 1) (Or.inl (le_refl _))).1⟩

/-! ## Loading the table -/

namespace algos.FDep

theorem LoadDataInternal.read_nil (hash : String → Nat) (attr_num : Nat)
    (tuples : List (List Nat)) : LoadDataInternal.read hash attr_num [] tuples = tuples := by
  unfold LoadDataInternal.read
  rfl

theorem LoadDataInternal.read_length (hash : String → Nat) (attr_num : Nat) :
    ∀ (rows : List (List String)) (tuples : List (List Nat)),
      (∀ t ∈ tuples, t.length = attr_num) →
      ∀ t ∈ LoadDataInternal.read hash attr_num rows tuples, t.length = attr_num
  | [], tuples, h => by
    rw [LoadDataInternal.read_nil]
    exact h
  | next_line :: rest, tuples, h => by
    unfold LoadDataInternal.read
    by_cases he : next_line.isEmpty = true
    · simp only [he, if_true]
      exact h
    · simp only [he, if_false, Bool.false_eq_true]
      apply LoadDataInternal.read_length hash attr_num rest
      intro t ht
      rcases List.mem_append.1 ht with ht | ht
      · exact h t ht
      · rw [List.mem_singleton] at ht
        rw [ht, List.length_map, List.length_range]

theorem LoadDataInternal_ok (hash : String → Nat) (self : FDep)
    (input_table : model.IDatasetStream) (h0 : input_table.GetNumberOfColumns ≠ 0) :
    LoadDataInternal hash self input_table =
      Except.ok { self with
        table_header_ := ⟨input_table.relation_name, input_table.column_names⟩
        tuples_ := LoadDataInternal.read hash input_table.GetNumberOfColumns input_table.rows
          self.tuples_ } := by
  have hnames : (List.range input_table.GetNumberOfColumns).map
      (fun i => input_table.GetColumnName i) = input_table.column_names := by
    apply List.ext_getElem
    · simp [model.IDatasetStream.GetNumberOfColumns]
    · intro i h1 h2
      simp only [List.getElem_map, List.getElem_range, model.IDatasetStream.GetColumnName]
      rw [List.getD_eq_getElem?_getD, List.getElem?_eq_getElem h2]
      rfl
  have htuples : (if input_table.HasNextRow then
        LoadDataInternal.read hash input_table.GetNumberOfColumns input_table.rows self.tuples_
      else self.tuples_) =
      LoadDataInternal.read hash input_table.GetNumberOfColumns input_table.rows
        self.tuples_ := by
    unfold model.IDatasetStream.HasNextRow
    cases hr : input_table.rows with
    | nil => simp [LoadDataInternal.read_nil]
    | cons r rest => simp
  unfold LoadDataInternal
  simp only [h0, if_false, hnames, htuples]
  rfl

end algos.FDep

/-- C31, the counterexample: a table with one column and no rows is not an input error
for `LoadDataInternal`: the call returns normally, with the table header set and no
tuple stored. -/
theorem LoadDataInternal_accepts_table_without_rows :
    algos.FDep.LoadDataInternal algos.FDep.sampleHash algos.FDep.unloaded ⟨"T", ["K"], []⟩ =
      Except.ok { algos.FDep.unloaded with table_header_ := ⟨"T", ["K"]⟩, tuples_ := [] } := by
  rfl

/-- C31, amended: `LoadDataInternal` fails with an error exactly when the table has no
columns, and it has then stored nothing (the error is raised before any data member is
assigned); a table with at least one column and no rows is loaded without an error, its
header is taken over and no tuple is added; in general the rows up to the first empty
one are added, each as a vector of one hash per column. -/
theorem LoadDataInternal_fails_exactly_without_columns (hash : String → Nat)
    (self : algos.FDep) (input_table : model.IDatasetStream) :
    (input_table.GetNumberOfColumns = 0 →
      algos.FDep.LoadDataInternal hash self input_table =
        Except.error "Unable to work on an empty dataset.") ∧
    (input_table.GetNumberOfColumns ≠ 0 →
      ∃ self', algos.FDep.LoadDataInternal hash self input_table = Except.ok self' ∧
        self'.table_header_ = ⟨input_table.relation_name, input_table.column_names⟩ ∧
        self'.tuples_ = algos.FDep.LoadDataInternal.read hash input_table.GetNumberOfColumns
          input_table.rows self.tuples_ ∧
        (input_table.rows = [] → self'.tuples_ = self.tuples_) ∧
        (self.Loaded → self.table_header_.column_names.length = input_table.GetNumberOfColumns →
          self'.Loaded)) := by
  refine ⟨fun h0 => ?_, fun h0 => ?_⟩
  · unfold algos.FDep.LoadDataInternal
    simp only [h0, if_true]
  · refine ⟨_, algos.FDep.LoadDataInternal_ok hash self input_table h0, rfl, rfl, ?_, ?_⟩
    · intro hr
      simp only [hr, algos.FDep.LoadDataInternal.read_nil]
    · intro hl hlen t ht
      have := algos.FDep.LoadDataInternal.read_length hash input_table.GetNumberOfColumns
        input_table.rows self.tuples_ (fun t ht => by rw [hl t ht, hlen]) t ht
      rw [this]
      rfl

/-! ## Tables with at most one row -/

namespace FDTreeElement

end FDTreeElement

namespace algos.FDep

open FDTreeElement

end algos.FDep

set_option maxRecDepth 20000 in
/-- C39, the input on which `spec_lhs_out` is not the LHS that was found: the tree for 3
attributes that records only `{1, 2} → 3`.  Asked for `lhs = {2}` and `a = 3`,
`GetSpecialization` returns `true` and leaves `spec_lhs_out = {1}` (the number 2),
although no FD with the LHS `{1}` is recorded; asked for `lhs = {1, 2}` it leaves bits 0
and 1 set, bit 0 lying outside the positions `1 .. n`.  Only for the empty `lhs`, where
every level is left through the first branch, the output is the recorded LHS
`{1, 2}` (the number 6). -/
theorem GetSpecialization_out_is_not_the_found_lhs :
    FDTreeElement.BuiltByAdd 3 FDTreeElement.twoColumnFd ∧ LhsOk 3 4 ∧ LhsOk 3 6 ∧
    (∀ Z, FDTreeElement.Rec FDTreeElement.twoColumnFd Z (3 - 1) ↔ Z = pathOf 6) ∧
    FDTreeElement.GetSpecialization FDTreeElement.twoColumnFd.height FDTreeElement.twoColumnFd
      4 3 0 0 = (true, 2) ∧
    ¬ FDTreeElement.Rec FDTreeElement.twoColumnFd (pathOf 2) (3 - 1) ∧
    FDTreeElement.GetSpecialization FDTreeElement.twoColumnFd.height FDTreeElement.twoColumnFd
      6 3 0 0 = (true, 3) ∧
    ¬ LhsOk 3 3 ∧
    FDTreeElement.GetSpecialization FDTreeElement.twoColumnFd.height FDTreeElement.twoColumnFd
      0 3 0 0 = (true, 6) := by
  refine ⟨FDTreeElement.BuiltByAdd.add _ 6 3 FDTreeElement.BuiltByAdd.fresh
      (LhsOk_of_lt (by decide) (by decide)) (by decide) (by decide),
    LhsOk_of_lt (by decide) (by decide), LhsOk_of_lt (by decide) (by decide), ?_,
    by decide, by decide, by decide, ?_, by decide⟩
  · intro Z
    rw [FDTreeElement.twoColumnFd, FDTreeElement.AddFunctionalDependency_Rec
      (FDTreeElement.WF_new 3 0) (LhsOk_of_lt (by decide) (by decide)) 3 Z (3 - 1)]
    constructor
    · rintro (h | ⟨h, _⟩)
      · exact absurd h (FDTreeElement.Rec_new 3 Z _)
      · exact h
    · intro h
      exact Or.inr ⟨h, rfl⟩
  · intro h
    have := h 0 (by decide) (by decide)
    omega

/-! ## String forms of FDs -/

namespace std.stringstream

/-- Writing at the end of the character sequence appends. -/
theorem put_end (buf : List Char) (s : String) :
    put ⟨buf, buf.length, false⟩ s = ⟨buf ++ s.data, (buf ++ s.data).length, false⟩ := by
  unfold put
  have hd : buf.drop (buf.length + s.length) = [] :=
    List.drop_eq_nil_of_le (Nat.le_add_right _ _)
  have hl : buf.length + s.length = (buf ++ s.data).length := by
    rw [List.length_append]
    rfl
  simp only [Bool.false_eq_true, if_false, List.take_length, hd, List.append_nil]
  rw [hl]

/-- Stepping back from the end and writing one character replaces the last character. -/
theorem put_seekpBack_end (buf : List Char) (c d : Char) :
    put (seekpBack ⟨buf ++ [c], (buf ++ [c]).length, false⟩) ⟨[d]⟩ =
      ⟨buf ++ [d], (buf ++ [d]).length, false⟩ := by
  have hpos : (buf ++ [c]).length ≠ 0 := by simp
  have hsub : (buf ++ [c]).length - 1 = buf.length := by simp
  have ht : (buf ++ [c]).take buf.length = buf := by simp
  have hd : (buf ++ [c]).drop (buf.length + 1) = [] :=
    List.drop_eq_nil_of_le (by simp)
  have hl : buf.length + 1 = (buf ++ [d]).length := by simp
  unfold seekpBack put
  simp only [Bool.false_eq_true, if_false, hpos, hsub, ht]
  have hs : (⟨[d]⟩ : String).length = 1 := rfl
  rw [hs, hd, List.append_nil, hl]

end std.stringstream

namespace python_bindings

/-- The loop `for (attr : attrs) ss << AttributeStr(attr) << ' '` at the end of the
character sequence appends every name followed by a space. -/
theorem put_names_end : ∀ (attrs : List model.Attribute) (buf : List Char),
    attrs.foldl (fun ss attr => (ss.put (AttributeStr attr)).put " ")
        (⟨buf, buf.length, false⟩ : std.stringstream) =
      ⟨buf ++ (attrs.map fun attr => attr.name.data ++ " ".data).flatten,
        (buf ++ (attrs.map fun attr => attr.name.data ++ " ".data).flatten).length, false⟩
  | [], buf => by simp
  | attr :: rest, buf => by
    rw [List.foldl_cons, std.stringstream.put_end, std.stringstream.put_end,
      put_names_end rest]
    simp [AttributeStr]

/-- Names that are each followed by a space are the names joined by spaces, and one
space. -/
theorem flatten_names_eq_intercalate : ∀ (names : List (List Char)), names ≠ [] →
    (names.map fun name => name ++ " ".data).flatten =
      List.intercalate " ".data names ++ " ".data
  | [], h => absurd rfl h
  | [name], _ => by simp [List.intercalate]
  | name :: name2 :: rest, _ => by
    have ih := flatten_names_eq_intercalate (name2 :: rest) (by simp)
    rw [List.map_cons, List.flatten_cons, ih]
    simp [List.intercalate]

theorem put_names_seekpBack (attrs : List model.Attribute) (h : attrs ≠ []) (buf : List Char) :
    ((attrs.foldl (fun ss attr => (ss.put (AttributeStr attr)).put " ")
        (⟨buf, buf.length, false⟩ : std.stringstream)).seekpBack).put "]" =
      ⟨buf ++ List.intercalate " ".data (attrs.map fun attr => attr.name.data) ++ "]".data,
        (buf ++ List.intercalate " ".data (attrs.map fun attr => attr.name.data) ++
          "]".data).length, false⟩ := by
  rw [put_names_end]
  have hm : (attrs.map fun attr => attr.name.data ++ " ".data) =
      (attrs.map fun attr => attr.name.data).map fun name => name ++ " ".data := by
    rw [List.map_map]
    rfl
  rw [hm, flatten_names_eq_intercalate _ (by simpa using h), ← List.append_assoc]
  exact std.stringstream.put_seekpBack_end _ ' ' ']'

end python_bindings

/-- C38: `FdToStringShort` on an FD with an empty `lhs`, as the miner emits for a
constant column: for `[] -> [V]` the function returns `] -> [V]`, not the form
`[] -> [V]` of the specification, because the step back by one character, meant for the
space behind the last name, lands on the opening bracket, which the closing bracket then
overwrites.  On every FD whose `lhs` and `rhs` are both non-empty the function returns
the form of the specification. -/
theorem FdToStringShort_loses_bracket_of_empty_lhs :
    python_bindings.FdToStringShort ⟨"T", [], [⟨"V", 1⟩]⟩ = "] -> [V]" ∧
    python_bindings.FdToStringShortSpec ⟨"T", [], [⟨"V", 1⟩]⟩ = "[] -> [V]" ∧
    python_bindings.FdToStringShort ⟨"T", [], [⟨"V", 1⟩]⟩ ≠
      python_bindings.FdToStringShortSpec ⟨"T", [], [⟨"V", 1⟩]⟩ ∧
    (∀ fd : model.FunctionalDependency, fd.lhs ≠ [] → fd.rhs ≠ [] →
      python_bindings.FdToStringShort fd = python_bindings.FdToStringShortSpec fd) := by
  refine ⟨by decide, by decide, by decide, ?_⟩
  intro fd hl hr
  unfold python_bindings.FdToStringShort python_bindings.FdToStringShortSpec
  simp only
  have h1 : std.stringstream.empty.put "[" = ⟨"[".data, "[".data.length, false⟩ := rfl
  rw [h1, python_bindings.put_names_seekpBack fd.lhs hl, std.stringstream.put_end,
    std.stringstream.put_end, python_bindings.put_names_seekpBack fd.rhs hr]
  unfold std.stringstream.str
  simp

/-! ## The serialization behind the test hash -/

namespace algos

theorem singleRhs_cons (fd : StrippedFd) (rest : List StrippedFd) :
    singleRhs (fd :: rest) = singleRhs [fd] ++ singleRhs rest := by
  unfold singleRhs
  rw [List.flatMap_cons, List.flatMap_singleton]

theorem singleRhs_append (xs ys : List StrippedFd) :
    singleRhs (xs ++ ys) = singleRhs xs ++ singleRhs ys := by
  unfold singleRhs
  rw [List.flatMap_append]

/-- Of the positions below `n`, only `a` is equal to `a`. -/
theorem filter_range_eq {n a : Nat} (ha : a < n) :
    (List.range n).filter (fun i => decide (a = i)) = [a] := by
  induction n with
  | zero => omega
  | succ n ih =>
    rw [List.range_succ, List.filter_append]
    by_cases h : a < n
    · rw [ih h]
      have : ¬ a = n := by omega
      simp [this]
    · have hn : a = n := by omega
      subst hn
      have : (List.range a).filter (fun i => decide (a = i)) = [] := by
        rw [List.filter_eq_nil_iff]
        intro i hi
        have := List.mem_range.1 hi
        simp
        omega
      rw [this]
      simp

/-- Taking a stripped FD apart leaves the single-RHS FDs that it encodes as they are. -/
theorem singleRhs_split (fd : StrippedFd) : singleRhs fd.split = singleRhs [fd] := by
  unfold singleRhs StrippedFd.split
  rw [List.flatMap_map, List.flatMap_singleton]
  have h : ∀ (L : List Nat), (∀ a ∈ L, a < fd.rhs.size) →
      (L.flatMap fun a =>
        ((List.range (⟨fd.lhs, (DynamicBitset.zeros fd.rhs.size).set a⟩ : StrippedFd).rhs.size).filter
          (fun a' => (⟨fd.lhs, (DynamicBitset.zeros fd.rhs.size).set a⟩ : StrippedFd).rhs.test a')).map
          fun a' => ((List.range (⟨fd.lhs, (DynamicBitset.zeros fd.rhs.size).set a⟩ :
            StrippedFd).lhs.size).filter
              (fun x => (⟨fd.lhs, (DynamicBitset.zeros fd.rhs.size).set a⟩ : StrippedFd).lhs.test x),
            a')) =
      L.map fun a => ((List.range fd.lhs.size).filter (fun x => fd.lhs.test x), a) := by
    intro L
    induction L with
    | nil => intro _; rfl
    | cons a rest ih =>
      intro hL
      rw [List.flatMap_cons, List.map_cons, ih (fun b hb => hL b (List.mem_cons_of_mem _ hb))]
      have ha := hL a (List.mem_cons_self _ _)
      have hf : (List.range fd.rhs.size).filter
          (fun a' => ((DynamicBitset.zeros fd.rhs.size).set a).test a') = [a] := by
        rw [← filter_range_eq ha]
        apply List.filter_congr
        intro i _
        show Bitset.test (Bitset.set 0 a) i = decide (a = i)
        rw [Bitset.test_set, Bitset.test_zero, Bool.false_or]
      show (List.map _ ((List.range fd.rhs.size).filter
        (fun a' => ((DynamicBitset.zeros fd.rhs.size).set a).test a'))) ++ _ = _
      rw [hf]
      rfl
  exact h _ (fun a ha => List.mem_range.1 (List.mem_filter.1 ha).1)

end algos

namespace tests.AlgorithmTestNew

theorem FDToJsonStrings_eq (fd : algos.StrippedFd) :
    FDToJsonStrings fd = (algos.singleRhs [fd]).map FDToJsonStrings.single := by
  unfold FDToJsonStrings util.ForEachIndex algos.singleRhs
  rw [algos.foldl_append_singleton, List.flatMap_singleton, List.map_map, List.nil_append]
  rfl

theorem discovered_fd_strings_eq : ∀ (fds : List algos.StrippedFd) (acc : List String),
    fds.foldl
        (fun discovered_fd_strings fd =>
          (FDToJsonStrings fd).foldl (fun strings s => strings ++ [s]) discovered_fd_strings)
        acc =
      acc ++ (algos.singleRhs fds).map FDToJsonStrings.single
  | [], acc => by simp [algos.singleRhs]
  | fd :: rest, acc => by
    rw [List.foldl_cons, discovered_fd_strings_eq rest, algos.singleRhs_cons, List.map_append,
      algos.foldl_append_singleton (fun s : String => s), FDToJsonStrings_eq, List.map_id',
      List.append_assoc]

theorem FDsToJson.sorted_eq (fds : List algos.StrippedFd) :
    FDsToJson.sorted fds =
      ((algos.singleRhs fds).map FDToJsonStrings.single).insertionSort
        (fun a b => a.data ≤ b.data) := by
  unfold FDsToJson.sorted
  rw [discovered_fd_strings_eq, List.nil_append]

/-- The order of `std::sort` on strings is total, transitive and antisymmetric, so a
sorted sequence is determined by its elements with their multiplicities. -/
theorem FDsToJson.sorted_congr (fds1 fds2 : List algos.StrippedFd)
    (h : (algos.singleRhs fds1).Perm (algos.singleRhs fds2)) :
    FDsToJson.sorted fds1 = FDsToJson.sorted fds2 := by
  haveI : IsAntisymm String (fun a b => a.data ≤ b.data) :=
    ⟨fun a b h1 h2 => String.ext (le_antisymm h1 h2)⟩
  haveI : IsTotal String (fun a b => a.data ≤ b.data) := ⟨fun a b => le_total a.data b.data⟩
  haveI : IsTrans String (fun a b => a.data ≤ b.data) := ⟨fun a b c h1 h2 => le_trans h1 h2⟩
  rw [FDsToJson.sorted_eq, FDsToJson.sorted_eq]
  refine @List.eq_of_perm_of_sorted String (fun a b : String => a.data ≤ b.data) _ _ _ ?_ ?_ ?_
  · exact (List.perm_insertionSort _ _).trans
      ((h.map FDToJsonStrings.single).trans (List.perm_insertionSort _ _).symm)
  · exact List.sorted_insertionSort _ _
  · exact List.sorted_insertionSort _ _

theorem FDsToJson.sorted_sorted (fds : List algos.StrippedFd) :
    (FDsToJson.sorted fds).Pairwise (fun a b => a.data ≤ b.data) := by
  haveI : IsTotal String (fun a b => a.data ≤ b.data) := ⟨fun a b => le_total a.data b.data⟩
  haveI : IsTrans String (fun a b => a.data ≤ b.data) := ⟨fun a b c h1 h2 => le_trans h1 h2⟩
  exact List.sorted_insertionSort _ _

end tests.AlgorithmTestNew

set_option maxRecDepth 20000 in
/-- C32: `FDsToJson`, and with it `Fletcher16` of its result, depends only on the
single-RHS FDs that the container encodes, with their multiplicities: two containers
whose single-RHS expansions are permutations of each other give the same string.  In
particular the string is the same after permuting the container and after replacing a
stripped FD by the stripped FDs `(lhs, {a})` for the set bits `a` of its `rhs`.  The FD
strings are listed in lexicographically ascending order.  (One instance is evaluated:
the container `({0, 2}, {1})`, `({}, {0, 1})`.) -/
theorem FDsToJson_depends_on_single_rhs_fds_only :
    (∀ fds1 fds2 : List algos.StrippedFd,
      (algos.singleRhs fds1).Perm (algos.singleRhs fds2) →
      tests.AlgorithmTestNew.FDsToJson fds1 = tests.AlgorithmTestNew.FDsToJson fds2 ∧
      tests.AlgorithmTestNew.Fletcher16 (tests.AlgorithmTestNew.FDsToJson fds1) =
        tests.AlgorithmTestNew.Fletcher16 (tests.AlgorithmTestNew.FDsToJson fds2)) ∧
    (∀ fds1 fds2 : List algos.StrippedFd, fds1.Perm fds2 →
      tests.AlgorithmTestNew.FDsToJson fds1 = tests.AlgorithmTestNew.FDsToJson fds2) ∧
    (∀ (before after : List algos.StrippedFd) (fd : algos.StrippedFd),
      tests.AlgorithmTestNew.FDsToJson (before ++ fd.split ++ after) =
        tests.AlgorithmTestNew.FDsToJson (before ++ [fd] ++ after)) ∧
    (∀ fds : List algos.StrippedFd,
      (tests.AlgorithmTestNew.FDsToJson.sorted fds).Pairwise (fun a b => a.data ≤ b.data) ∧
      (tests.AlgorithmTestNew.FDsToJson.sorted fds).Perm
        ((algos.singleRhs fds).map tests.AlgorithmTestNew.FDToJsonStrings.single) ∧
      tests.AlgorithmTestNew.FDsToJson fds =
        tests.AlgorithmTestNew.FDsToJson.join (tests.AlgorithmTestNew.FDsToJson.sorted fds)) ∧
    tests.AlgorithmTestNew.FDsToJson [⟨⟨3, 5⟩, ⟨3, 2⟩⟩, ⟨⟨3, 0⟩, ⟨3, 3⟩⟩] =
      "\x7b\"fds\": [\x7b\"lhs\": [0,2], \"rhs\": 1\x7d,\x7b\"lhs\": [], \"rhs\": 0\x7d,\x7b\"lhs\": [], \"rhs\": 1\x7d]\x7d" ∧
    tests.AlgorithmTestNew.Fletcher16
      (tests.AlgorithmTestNew.FDsToJson [⟨⟨3, 5⟩, ⟨3, 2⟩⟩, ⟨⟨3, 0⟩, ⟨3, 3⟩⟩]) = 59261 := by
  have key : ∀ fds1 fds2 : List algos.StrippedFd,
      (algos.singleRhs fds1).Perm (algos.singleRhs fds2) →
      tests.AlgorithmTestNew.FDsToJson fds1 = tests.AlgorithmTestNew.FDsToJson fds2 := by
    intro fds1 fds2 h
    unfold tests.AlgorithmTestNew.FDsToJson
    rw [tests.AlgorithmTestNew.FDsToJson.sorted_congr fds1 fds2 h]
  refine ⟨fun fds1 fds2 h => ⟨key fds1 fds2 h, by rw [key fds1 fds2 h]⟩, ?_, ?_, ?_,
    by decide, by decide⟩
  · intro fds1 fds2 h
    exact key fds1 fds2 (List.Perm.flatMap_right _ h)
  · intro before after fd
    apply key
    rw [algos.singleRhs_append, algos.singleRhs_append, algos.singleRhs_append,
      algos.singleRhs_append, algos.singleRhs_split]
  · intro fds
    refine ⟨tests.AlgorithmTestNew.FDsToJson.sorted_sorted fds, ?_, rfl⟩
    rw [tests.AlgorithmTestNew.FDsToJson.sorted_eq]
    exact List.perm_insertionSort _ _

/-! ## The states of the positive cover tree -/

namespace FDTreeElement

theorem Under_AddMostGeneral (n : Nat) : Under (new n).AddMostGeneralDependencies := by
  refine Under.mk _ ?_ ?_
  · intro a ha
    have ha' : Nat.testBit ((List.range' 1 n).foldl (fun b i => Bitset.set b i) 0) (a + 1) =
        true := ha
    rw [testBit_foldl_set] at ha'
    rcases ha' with h | h
    · simp at h
    · rw [List.mem_range'_1] at h
      exact ⟨[], (Rec_AddMostGeneral n [] a).2 ⟨rfl, by omega⟩⟩
  · intro i c hc
    have : (new n).AddMostGeneralDependencies.GetChild i = none := GetChild_new n i
    rw [this] at hc; cases hc

theorem mem_generalizations (t : FDTreeElement) (lhs a : Nat) (p : List Nat) :
    p ∈ t.generalizations lhs a ↔ (Rec t p (a - 1) ∧ Within p lhs) := by
  unfold generalizations
  rw [List.mem_map]
  constructor
  · rintro ⟨⟨q, v⟩, he, rfl⟩
    rw [List.mem_filter] at he
    obtain ⟨hm, hc⟩ := he
    obtain ⟨q', hq', hl⟩ := mem_preorder_elim _ _ _ _ _ hm
    rw [List.nil_append] at hq'
    subst hq'
    simp only [Bool.and_eq_true, List.all_eq_true] at hc
    exact ⟨⟨v, hl, hc.1⟩, fun i hi => hc.2 i hi⟩
  · rintro ⟨⟨v, hl, hb⟩, hw⟩
    refine ⟨(p, v), ?_, rfl⟩
    rw [List.mem_filter]
    refine ⟨?_, ?_⟩
    · have := mem_preorder_intro t.height t [] p v (le_refl _) hl
      simpa using this
    · simp only [Bool.and_eq_true, List.all_eq_true]
      exact ⟨hb, fun i hi => hw i hi⟩

theorem generalizations_nodup (t : FDTreeElement) (lhs a : Nat) :
    (t.generalizations lhs a).Nodup := by
  unfold generalizations
  exact List.Nodup.sublist (List.Sublist.map _ (List.filter_sublist _))
    (preorder_paths_nodup t.height t [])

end FDTreeElement

namespace algos.FDep

open FDTreeElement

/-- The `for` loop of `SpecializePositiveCover` keeps the shape of the tree and the
exactness of `rhs_attributes_` (every set bit is witnessed by a recorded FD). -/
theorem SpecializePositiveCover.body_under {n lhs a : Nat} (ha : 1 ≤ a) {p0 : List Nat}
    {t1 : FDTreeElement} {spec0 : Nat}
    (F4 : ∀ j, Nat.testBit spec0 j = true → ∃ i ∈ p0, j = i + 1) (F5 : ∀ i ∈ p0, i < n)
    (hwf : WF n 0 t1) (hu : Under t1) :
    Under (SpecializePositiveCover.body n lhs a t1 spec0).1 := by
  unfold SpecializePositiveCover.body
  have key := foldl_prefix_inv (SpecializePositiveCover.step lhs a)
    (fun _ s => WF n 0 s.1 ∧ Under s.1 ∧ ∀ j, Nat.testBit s.2 j = true → ∃ i ∈ p0, j = i + 1)
    (List.range' 1 n).reverse [] (t1, spec0) ⟨hwf, hu, F4⟩ ?_
  · exact key.2.1
  · rintro done attr ⟨tree, spec⟩ hattr ⟨h1, h2, h3⟩
    simp only at h1 h2 h3
    have hrange : 1 ≤ attr ∧ attr ≤ n := by
      rw [List.mem_reverse, List.mem_range'_1] at hattr
      omega
    unfold SpecializePositiveCover.step
    by_cases hcond : (!Bitset.test lhs attr && attr != a) = true
    · simp only [hcond, if_true]
      have hok : LhsOk n (Bitset.set spec attr) := by
        intro i _ hi
        have := Bitset.test_set spec attr i
        simp only [Bitset.test] at this
        rw [this] at hi
        simp only [Bool.or_eq_true, decide_eq_true_eq] at hi
        rcases hi with hi | hi
        · obtain ⟨j, hj, rfl⟩ := h3 i hi
          have := F5 j hj
          omega
        · omega
      have hspec : ∀ j, Nat.testBit (Bitset.reset (Bitset.set spec attr) attr) j = true →
          ∃ i ∈ p0, j = i + 1 := by
        intro j hj
        have e1 := Bitset.test_reset (Bitset.set spec attr) attr j
        have e2 := Bitset.test_set spec attr j
        simp only [Bitset.test] at e1 e2
        rw [e1, e2] at hj
        simp only [Bool.and_eq_true, Bool.or_eq_true, decide_eq_true_eq, Bool.not_eq_true',
          decide_eq_false_iff_not] at hj
        rcases hj.1 with h | h
        · exact h3 j h
        · exact absurd h hj.2
      by_cases hcg : ContainsGeneralization kMaxAttrNum tree (Bitset.set spec attr) a 0 = true
      · simp only [hcg, Bool.not_true, Bool.false_eq_true, if_false]
        exact ⟨h1, h2, hspec⟩
      · have hcg' : ContainsGeneralization kMaxAttrNum tree (Bitset.set spec attr) a 0 =
            false := by simpa using hcg
        simp only [hcg', Bool.not_false, if_true]
        exact ⟨AddFunctionalDependency_WF h1 hok a, AddFunctionalDependency_Under h1 h2 hok ha,
          hspec⟩
    · simp only [hcond, if_false, Bool.false_eq_true]
      exact ⟨h1, h2, h3⟩

/-- One round of the `while` of `SpecializePositiveCover(lhs, a)` on a tree that has the
invariants of the positive cover: the recorded FD `p0 → a` that is taken out, and the
state after the `for` loop. -/
theorem SpecializePositiveCover.round_spec {n lhs a : Nat} (hn : n < kMaxAttrNum) (ha : 1 ≤ a)
    {t : FDTreeElement} (hwf : WF n 0 t) (hov : Over t) (hu : Under t) (hac : Antichain t)
    (hnt : NonTrivial t)
    (hfound : (GetGeneralizationAndDelete kMaxAttrNum t lhs a 0 0).1 = true) :
    ∃ p0, Rec t p0 (a - 1) ∧ Within p0 lhs ∧
      (∀ q b, Rec (GetGeneralizationAndDelete kMaxAttrNum t lhs a 0 0).2.1 q b ↔
        (Rec t q b ∧ ¬ (q = p0 ∧ b = a - 1))) ∧
      SpecializePositiveCover.BodyInv n lhs a p0
        (GetGeneralizationAndDelete kMaxAttrNum t lhs a 0 0).2.1 (List.range' 1 n).reverse
        (SpecializePositiveCover.body n lhs a
          (GetGeneralizationAndDelete kMaxAttrNum t lhs a 0 0).2.1
          (GetGeneralizationAndDelete kMaxAttrNum t lhs a 0 0).2.2).1 ∧
      Under (SpecializePositiveCover.body n lhs a
          (GetGeneralizationAndDelete kMaxAttrNum t lhs a 0 0).2.1
          (GetGeneralizationAndDelete kMaxAttrNum t lhs a 0 0).2.2).1 := by
  have htop := GetGeneralizationAndDelete_top hn hwf hov hac lhs ha
  simp only at htop
  have hu1 := GetGeneralizationAndDelete_under n lhs a ha kMaxAttrNum t 0 0 0 hwf hov hu
    (hac.noNested _) (by decide) (by omega)
  obtain ⟨p0, hp0, hw0, hbits, hrec, hwf1, hov1⟩ := htop.2 hfound
  have hsub1 : ∀ q b, Rec (GetGeneralizationAndDelete kMaxAttrNum t lhs a 0 0).2.1 q b →
      Rec t q b := fun q b h => ((hrec q b).1 h).1
  have F1 : ∀ r, Rec (GetGeneralizationAndDelete kMaxAttrNum t lhs a 0 0).2.1 r (a - 1) →
      ¬ p0 ⊆ r := by
    intro r hr hsub
    have h1 := (hrec r _).1 hr
    exact h1.2 ⟨(hac p0 r _ hp0 h1.1 hsub).symm, rfl⟩
  have F3 : a - 1 ∉ p0 := hnt p0 _ hp0
  have F5 : ∀ i ∈ p0, i < n := by
    obtain ⟨v, hv, _⟩ := hp0
    intro i hi
    exact ((hwf.lookup p0 hv).2.1 i hi).2
  have hac1 : Antichain (GetGeneralizationAndDelete kMaxAttrNum t lhs a 0 0).2.1 :=
    fun p q b hp hq hs => hac p q b (hsub1 p b hp) (hsub1 q b hq) hs
  have hnt1 : NonTrivial (GetGeneralizationAndDelete kMaxAttrNum t lhs a 0 0).2.1 :=
    fun p b hp => hnt p b (hsub1 p b hp)
  obtain ⟨hb, _⟩ := SpecializePositiveCover.body_inv hn ha F1 hw0 F3 hbits F5 hwf1 hov1
    hac1 hnt1
  exact ⟨p0, hp0, hw0, hrec, hb,
    SpecializePositiveCover.body_under ha (fun j hj => (hbits j).1 hj) F5 hwf1 hu1⟩

/-- Every state of the positive cover tree has the shape of a tree for `n` attributes,
exact `rhs_attributes_`, pairwise incomparable LHSs per RHS, and no trivial FD. -/
theorem PosCoverState.state_inv {n : Nat} (hn : n < kMaxAttrNum) {t : FDTreeElement}
    (ht : PosCoverState n t) :
    WF n 0 t ∧ Over t ∧ Under t ∧ Antichain t ∧ NonTrivial t := by
  induction ht with
  | seeded =>
    have h := Inv_AddMostGeneral n
    exact ⟨h.wf, h.over, Under_AddMostGeneral n, h.antichain, h.nontrivial⟩
  | round t lhs a _ ha hfound ih =>
    obtain ⟨hwf, hov, hu, hac, hnt⟩ := ih
    obtain ⟨p0, _, _, _, hb, hu'⟩ :=
      SpecializePositiveCover.round_spec hn ha hwf hov hu hac hnt hfound
    exact ⟨hb.wf, hb.over, hu', hb.antichain, hb.nontrivial⟩

/-- The `while` of `SpecializePositiveCover` leads from a state of the positive cover
tree to a state of the positive cover tree. -/
theorem SpecializePositiveCover.loop_state {n lhs a : Nat} (hn : n < kMaxAttrNum) (ha : 1 ≤ a) :
    ∀ (fuel : Nat) (t t' : FDTreeElement), PosCoverState n t →
      SpecializePositiveCover.loop n lhs a fuel t 0 = some t' → PosCoverState n t'
  | 0, t, t', _, h => by
    unfold SpecializePositiveCover.loop at h
    cases h
  | fuel + 1, t, t', ht, h => by
    obtain ⟨hwf, hov, _, hac, _⟩ := ht.state_inv hn
    have htop := GetGeneralizationAndDelete_top hn hwf hov hac lhs ha
    simp only at htop
    have hround := PosCoverState.round t lhs a ht ha
    unfold SpecializePositiveCover.loop at h
    rcases hres : GetGeneralizationAndDelete kMaxAttrNum t lhs a 0 0 with ⟨fl, t1, spec1⟩
    rw [hres] at htop hround h
    cases fl with
    | false =>
      simp only [Option.some.injEq] at h
      obtain ⟨_, h2⟩ := htop.1 rfl
      simp only at h2
      rw [← h, h2]
      exact ht
    | true =>
      simp only at h
      exact SpecializePositiveCover.loop_state hn ha fuel _ t' (hround rfl) h

end algos.FDep

namespace algos.FDep

open FDTreeElement

/-- The result of `SpecializePositiveCover` in a state of the positive cover tree is a
state of the positive cover tree. -/
theorem SpecializePositiveCover_state {n lhs a : Nat} (hn : n < kMaxAttrNum) (ha : 1 ≤ a)
    {t t' : FDTreeElement} (ht : PosCoverState n t)
    (h : SpecializePositiveCover n t lhs a = some t') : PosCoverState n t' :=
  SpecializePositiveCover.loop_state hn ha (2 ^ n + 1) t t' ht h

/-- `CalculatePositiveCover` leads from a state of the positive cover tree to a state of
the positive cover tree. -/
theorem CalculatePositiveCover_state {n : Nat} (hn : n < kMaxAttrNum) :
    ∀ (fuel : Nat) (v : FDTreeElement) (s s' : FDTreeElement × Nat), PosCoverState n s.1 →
      CalculatePositiveCover n fuel v s = some s' → PosCoverState n s'.1
  | 0, v, s, s', _, h => by
    unfold CalculatePositiveCover at h
    cases h
  | fuel + 1, v, s, s', hs, h => by
    unfold CalculatePositiveCover at h
    have hown := foldl_prefix_inv (CalculatePositiveCover.own n v)
      (fun _ acc => ∀ st, acc = some st → PosCoverState n st.1)
      (List.range' 1 n) [] (some s) (fun st hst => by cases hst; exact hs) ?_
    · have hchild := foldl_prefix_inv
        (CalculatePositiveCover.child (CalculatePositiveCover n fuel) v)
        (fun _ acc => ∀ st, acc = some st → PosCoverState n st.1)
        (List.range' 1 n) [] _ hown ?_
      · exact hchild s' h
      · intro done attr acc _ hacc st hst
        unfold CalculatePositiveCover.child at hst
        cases acc with
        | none => cases hst
        | some st0 =>
          simp only [Option.some_bind] at hst
          cases hc : v.GetChild (attr - 1) with
          | none =>
            rw [hc] at hst
            simp only [Option.some.injEq] at hst
            rw [← hst]
            exact hacc st0 rfl
          | some child =>
            rw [hc] at hst
            simp only [Option.map_eq_some'] at hst
            obtain ⟨r, hr, rfl⟩ := hst
            exact CalculatePositiveCover_state hn fuel child (st0.1, Bitset.set st0.2 attr) r
              (hacc st0 rfl) hr
    · intro done attr acc hattr hacc st hst
      have hrange : 1 ≤ attr := by
        rw [List.mem_range'_1] at hattr
        omega
      unfold CalculatePositiveCover.own at hst
      cases acc with
      | none => cases hst
      | some st0 =>
        simp only [Option.some_bind] at hst
        by_cases hfd : v.CheckFd (attr - 1) = true
        · simp only [hfd, if_true, Option.map_eq_some'] at hst
          obtain ⟨tree, htree, rfl⟩ := hst
          exact SpecializePositiveCover_state hn hrange (hacc st0 rfl) htree
        · simp only [hfd, if_false, Bool.false_eq_true, Option.some.injEq] at hst
          rw [← hst]
          exact hacc st0 rfl

/-- The positive cover tree that `ExecuteInternal` leaves behind is a state of the
positive cover tree. -/
theorem ExecuteInternal_state (self self' : FDep)
    (hn : self.table_header_.column_names.length < kMaxAttrNum)
    (h : self.ExecuteInternal = some self') :
    ∃ pos, self'.pos_cover_tree_ = some pos ∧
      PosCoverState self.table_header_.column_names.length pos := by
  unfold ExecuteInternal at h
  simp only [Option.map_eq_some'] at h
  obtain ⟨r, hr, rfl⟩ := h
  exact ⟨r.1, rfl, CalculatePositiveCover_state hn _ _ _ r PosCoverState.seeded hr⟩

/-- One round of the `while` of `SpecializePositiveCover(lhs, a)` leaves fewer recorded
generalizations of `lhs → a` than there were. -/
theorem SpecializePositiveCover.round_decreases {n lhs a : Nat} (hn : n < kMaxAttrNum)
    (ha : 1 ≤ a) {t : FDTreeElement} (hwf : WF n 0 t) (hov : Over t) (hu : Under t)
    (hac : Antichain t) (hnt : NonTrivial t)
    (hfound : (GetGeneralizationAndDelete kMaxAttrNum t lhs a 0 0).1 = true) :
    ((SpecializePositiveCover.body n lhs a
        (GetGeneralizationAndDelete kMaxAttrNum t lhs a 0 0).2.1
        (GetGeneralizationAndDelete kMaxAttrNum t lhs a 0 0).2.2).1.generalizations lhs
        a).length < (t.generalizations lhs a).length := by
  obtain ⟨p0, hp0, hw0, hrec, hb, _⟩ :=
    SpecializePositiveCover.round_spec hn ha hwf hov hu hac hnt hfound
  have hmem0 : p0 ∈ t.generalizations lhs a := (mem_generalizations t lhs a p0).2 ⟨hp0, hw0⟩
  have hsub : ∀ q, q ∈ (SpecializePositiveCover.body n lhs a
      (GetGeneralizationAndDelete kMaxAttrNum t lhs a 0 0).2.1
      (GetGeneralizationAndDelete kMaxAttrNum t lhs a 0 0).2.2).1.generalizations lhs a →
      q ∈ (t.generalizations lhs a).erase p0 := by
    intro q hq
    obtain ⟨hq1, hq2⟩ := (mem_generalizations _ lhs a q).1 hq
    rcases hb.gains q _ hq1 with h1 | ⟨_, attr, h1, h2, _, h4⟩
    · have h3 := (hrec q _).1 h1
      have hne : q ≠ p0 := fun h => h3.2 ⟨h, rfl⟩
      exact (List.mem_erase_of_ne hne).2 ((mem_generalizations t lhs a q).2 ⟨h3.1, hq2⟩)
    · exfalso
      have := hq2 (attr - 1) ((h4 _).2 (Or.inr rfl))
      have e : attr - 1 + 1 = attr := by omega
      rw [e, h2] at this
      cases this
  have hle := (List.subperm_of_subset (generalizations_nodup _ lhs a) hsub).length_le
  rw [List.length_erase_of_mem hmem0] at hle
  have hpos : 0 < (t.generalizations lhs a).length := List.length_pos_of_mem hmem0
  omega

/-- The `while` of `SpecializePositiveCover(lhs, a)` ends within as many rounds as
there are recorded generalizations of `lhs → a`. -/
theorem SpecializePositiveCover.loop_ends {n lhs a : Nat} (hn : n < kMaxAttrNum) (ha : 1 ≤ a)
    {t : FDTreeElement} (hwf : WF n 0 t) (hov : Over t) (hac : Antichain t)
    (hnt : NonTrivial t) (fuel : Nat) (hfuel : (t.generalizations lhs a).length < fuel) :
    ∃ t', SpecializePositiveCover.loop n lhs a fuel t 0 = some t' := by
  obtain ⟨t', h, _⟩ := SpecializePositiveCover.loop_spec hn ha t
    (t.generalizations lhs a).length fuel t hfuel
    ⟨hwf, hov, hac, hnt, fun _ _ _ => Iff.rfl, fun q hq => ⟨q, hq, fun _ h => h⟩,
      fun Z hZ _ _ _ => hZ⟩
    ⟨((t.generalizations lhs a).map List.toFinset).toFinset,
      (List.toFinset_card_le _).trans (by rw [List.length_map]),
      fun p hp hw => by
        rw [List.mem_toFinset, List.mem_map]
        exact ⟨p, (mem_generalizations t lhs a p).2 ⟨hp, hw⟩, rfl⟩⟩
  exact ⟨t', h⟩

end algos.FDep

namespace FDTreeElement

/-- The recursion of `ContainsGeneralization` ends before the cursor reaches
`kMaxAttrNum`: the result is the same for every amount of fuel that covers the
positions above the cursor. -/
theorem ContainsGeneralization_fuel (lhs a : Nat) :
    ∀ (fuel fuel' : Nat) (t : FDTreeElement) (cur : Nat), cur < kMaxAttrNum →
      kMaxAttrNum ≤ cur + fuel → kMaxAttrNum ≤ cur + fuel' →
      ContainsGeneralization fuel t lhs a cur = ContainsGeneralization fuel' t lhs a cur
  | 0, _, _, cur, h1, h2, _ => by omega
  | _ + 1, 0, _, cur, h1, _, h3 => by omega
  | fuel + 1, fuel' + 1, t, cur, h1, h2, h3 => by
    unfold ContainsGeneralization
    by_cases hfd : Bitset.test t.is_fd_ (a - 1) = true
    · simp only [hfd, if_true]
    · simp only [hfd, if_false, Bool.false_eq_true]
      rcases Bitset.Find_next_spec lhs cur h1 with ⟨hk, _⟩ | ⟨hlt, hlt2, _, _⟩
      · simp only [hk, if_true]
      · have hne : Bitset.Find_next lhs cur ≠ kMaxAttrNum := by omega
        simp only [hne, if_false]
        have ih := fun u => ContainsGeneralization_fuel lhs a fuel fuel' u
          (Bitset.Find_next lhs cur) hlt2 (by omega) (by omega)
        rw [ih t]
        cases hc : t.GetChild (Bitset.Find_next lhs cur - 1) with
        | none => rfl
        | some child => simp only [ih child]

/-- The recursion of `GetGeneralizationAndDelete` ends before the cursor reaches
`kMaxAttrNum`: the result is the same for every amount of fuel that covers the
positions above the cursor. -/
theorem GetGeneralizationAndDelete_fuel (lhs a : Nat) :
    ∀ (fuel fuel' : Nat) (t : FDTreeElement) (cur spec : Nat), cur < kMaxAttrNum →
      kMaxAttrNum ≤ cur + fuel → kMaxAttrNum ≤ cur + fuel' →
      GetGeneralizationAndDelete fuel t lhs a cur spec =
        GetGeneralizationAndDelete fuel' t lhs a cur spec
  | 0, _, _, cur, _, h1, h2, _ => by omega
  | _ + 1, 0, _, cur, _, h1, _, h3 => by omega
  | fuel + 1, fuel' + 1, t, cur, spec, h1, h2, h3 => by
    unfold GetGeneralizationAndDelete
    by_cases hfd : Bitset.test t.is_fd_ (a - 1) = true
    · simp only [hfd, if_true]
    · simp only [hfd, if_false, Bool.false_eq_true]
      rcases Bitset.Find_next_spec lhs cur h1 with ⟨hk, _⟩ | ⟨hlt, hlt2, _, _⟩
      · simp only [hk, if_true]
      · have hne : Bitset.Find_next lhs cur ≠ kMaxAttrNum := by omega
        simp only [hne, if_false]
        have ih := fun u sp => GetGeneralizationAndDelete_fuel lhs a fuel fuel' u
          (Bitset.Find_next lhs cur) sp hlt2 (by omega) (by omega)
        cases hc : t.GetChild (Bitset.Find_next lhs cur - 1) with
        | none =>
          simp only
          exact ih t spec
        | some child =>
          simp only
          by_cases hrhs : Bitset.test child.GetRhsAttributes a = true
          · simp only [hrhs, if_true]
            rw [ih child spec]
            rcases GetGeneralizationAndDelete fuel' child lhs a (Bitset.Find_next lhs cur)
              spec with ⟨fl, c1, s1⟩
            cases fl with
            | true => rfl
            | false =>
              simp only
              exact ih _ _
          · simp only [hrhs, if_false, Bool.false_eq_true]
            exact ih t spec

end FDTreeElement

/-! ## The positive cover: inversion step, termination, state invariant -/

/-- C33: in a state `t` of the positive cover tree for `n < 256` attributes, for a
negative witness `lhs ↛ a` (`1 ≤ a`, `a` not in `lhs`), `SpecializePositiveCover(lhs, a)`
finishes in a state `t'` such that for every column set `Z` (within the `n` columns,
without the column of `a`): `t'` records a generalization `Y → a`, `Y ⊆ Z`, exactly when
`t` recorded one and `Z` is not within `lhs`; and the FDs for the other right-hand sides
are the same in `t'` as in `t`. -/
theorem SpecializePositiveCover_inverts_cover {n : Nat} (hn : n < kMaxAttrNum)
    {t : FDTreeElement} (ht : algos.FDep.PosCoverState n t) (lhs a : Nat) (ha : 1 ≤ a)
    (_ : Nat.testBit lhs a = false) :
    ∃ t', algos.FDep.SpecializePositiveCover n t lhs a = some t' ∧
      algos.FDep.PosCoverState n t' ∧
      (∀ Z : List Nat, (∀ z ∈ Z, z < n) → a - 1 ∉ Z →
        ((∃ Y, FDTreeElement.Rec t' Y (a - 1) ∧ Y ⊆ Z) ↔
          ((∃ Y, FDTreeElement.Rec t Y (a - 1) ∧ Y ⊆ Z) ∧ ¬ Within Z lhs))) ∧
      (∀ q b, b ≠ a - 1 → (FDTreeElement.Rec t' q b ↔ FDTreeElement.Rec t q b)) := by
  obtain ⟨hwf, hov, _, hac, hnt⟩ := ht.state_inv hn
  obtain ⟨t', hrun, hinv, hnone⟩ :=
    @algos.FDep.SpecializePositiveCover_spec n lhs a hn ha t hwf hov hac hnt
  refine ⟨t', hrun, algos.FDep.SpecializePositiveCover_state hn ha ht hrun, ?_, hinv.frame⟩
  intro Z hZn hZa
  constructor
  · rintro ⟨Y, hY, hYZ⟩
    obtain ⟨Y0, hY0, hY0Y⟩ := hinv.refines Y hY
    refine ⟨⟨Y0, hY0, fun j hj => hYZ (hY0Y hj)⟩, ?_⟩
    intro hw
    exact hnone ⟨Y, hY, fun i hi => hw i (hYZ hi)⟩
  · rintro ⟨hcov, hw⟩
    exact hinv.covers Z hcov hZn hZa hw

set_option maxRecDepth 20000 in
/-- C33, witness: the tree for 2 attributes after `AddMostGeneralDependencies`, and the
negative witness `{2} ↛ 1`. -/
theorem SpecializePositiveCover_inverts_cover_witness :
    2 < kMaxAttrNum ∧
    algos.FDep.PosCoverState 2 (FDTreeElement.new 2).AddMostGeneralDependencies ∧
    1 ≤ 1 ∧ Nat.testBit 4 1 = false ∧
    ∃ t', algos.FDep.SpecializePositiveCover 2 (FDTreeElement.new 2).AddMostGeneralDependencies
        4 1 = some t' ∧
      algos.FDep.PosCoverState 2 t' ∧
      (∀ Z : List Nat, (∀ z ∈ Z, z < 2) → 1 - 1 ∉ Z →
        ((∃ Y, FDTreeElement.Rec t' Y (1 - 1) ∧ Y ⊆ Z) ↔
          ((∃ Y, FDTreeElement.Rec (FDTreeElement.new 2).AddMostGeneralDependencies Y (1 - 1) ∧
            Y ⊆ Z) ∧ ¬ Within Z 4))) ∧
      (∀ q b, b ≠ 1 - 1 → (FDTreeElement.Rec t' q b ↔
        FDTreeElement.Rec (FDTreeElement.new 2).AddMostGeneralDependencies q b)) :=
  ⟨by decide, algos.FDep.PosCoverState.seeded, by decide, by decide,
    SpecializePositiveCover_inverts_cover (by decide) algos.FDep.PosCoverState.seeded 4 1
      (by decide) (by decide)⟩

/-- C34: in a state `t` of the positive cover tree for `n < 256` attributes, for
`lhs`, `a` with `1 ≤ a` and `a` not in `lhs`: `SpecializePositiveCover(lhs, a)` returns,
and its `while` ends within as many rounds as `t` records generalizations of `lhs → a`;
a round takes out one recorded `Y → a` with `Y` within `lhs`, which is not recorded
afterwards, adds only FDs for `a` whose LHS is not within `lhs`, and so leaves fewer
recorded generalizations of `lhs → a`.  The recursions of `ContainsGeneralization` and
`GetGeneralizationAndDelete` (the cursor rises and stays below 256) and of
`GetSpecialization` (every call descends to a child) end: their results are the same
for every amount of fuel from `256 - current_attr`, resp. the height of the tree, on. -/
theorem SpecializePositiveCover_loop_terminates {n : Nat} (hn : n < kMaxAttrNum)
    {t : FDTreeElement} (ht : algos.FDep.PosCoverState n t) (lhs a : Nat) (ha : 1 ≤ a)
    (_ : Nat.testBit lhs a = false) :
    (∃ t', algos.FDep.SpecializePositiveCover n t lhs a = some t') ∧
    (∀ fuel, (t.generalizations lhs a).length < fuel →
      ∃ t', algos.FDep.SpecializePositiveCover.loop n lhs a fuel t 0 = some t') ∧
    ((FDTreeElement.GetGeneralizationAndDelete kMaxAttrNum t lhs a 0 0).1 = true →
      (∃ Y, FDTreeElement.Rec t Y (a - 1) ∧ Within Y lhs ∧
        ¬ FDTreeElement.Rec
          (FDTreeElement.GetGeneralizationAndDelete kMaxAttrNum t lhs a 0 0).2.1 Y (a - 1) ∧
        ¬ FDTreeElement.Rec (algos.FDep.SpecializePositiveCover.body n lhs a
          (FDTreeElement.GetGeneralizationAndDelete kMaxAttrNum t lhs a 0 0).2.1
          (FDTreeElement.GetGeneralizationAndDelete kMaxAttrNum t lhs a 0 0).2.2).1 Y (a - 1)) ∧
      (∀ q b, FDTreeElement.Rec (algos.FDep.SpecializePositiveCover.body n lhs a
          (FDTreeElement.GetGeneralizationAndDelete kMaxAttrNum t lhs a 0 0).2.1
          (FDTreeElement.GetGeneralizationAndDelete kMaxAttrNum t lhs a 0 0).2.2).1 q b →
        FDTreeElement.Rec
          (FDTreeElement.GetGeneralizationAndDelete kMaxAttrNum t lhs a 0 0).2.1 q b ∨
        (b = a - 1 ∧ ¬ Within q lhs)) ∧
      ((algos.FDep.SpecializePositiveCover.body n lhs a
          (FDTreeElement.GetGeneralizationAndDelete kMaxAttrNum t lhs a 0 0).2.1
          (FDTreeElement.GetGeneralizationAndDelete kMaxAttrNum t lhs a 0 0).2.2).1.generalizations
          lhs a).length < (t.generalizations lhs a).length) ∧
    (∀ (fuel : Nat) (u : FDTreeElement) (l b cur : Nat), cur < kMaxAttrNum →
      kMaxAttrNum - cur ≤ fuel →
      FDTreeElement.ContainsGeneralization fuel u l b cur =
        FDTreeElement.ContainsGeneralization (kMaxAttrNum - cur) u l b cur) ∧
    (∀ (fuel : Nat) (u : FDTreeElement) (l b cur spec : Nat), cur < kMaxAttrNum →
      kMaxAttrNum - cur ≤ fuel →
      FDTreeElement.GetGeneralizationAndDelete fuel u l b cur spec =
        FDTreeElement.GetGeneralizationAndDelete (kMaxAttrNum - cur) u l b cur spec) ∧
    (∀ (fuel : Nat) (u : FDTreeElement) (l b cur out : Nat), u.height ≤ fuel →
      FDTreeElement.GetSpecialization fuel u l b cur out =
        FDTreeElement.GetSpecialization u.height u l b cur out) := by
  obtain ⟨hwf, hov, hu, hac, hnt⟩ := ht.state_inv hn
  refine ⟨?_, ?_, ?_, ?_, ?_, ?_⟩
  · obtain ⟨t', hrun, _⟩ :=
      @algos.FDep.SpecializePositiveCover_spec n lhs a hn ha t hwf hov hac hnt
    exact ⟨t', hrun⟩
  · intro fuel hfuel
    exact algos.FDep.SpecializePositiveCover.loop_ends hn ha hwf hov hac hnt fuel hfuel
  · intro hfound
    obtain ⟨p0, hp0, hw0, hrec, hb, _⟩ :=
      algos.FDep.SpecializePositiveCover.round_spec hn ha hwf hov hu hac hnt hfound
    have hgone : ¬ FDTreeElement.Rec
        (FDTreeElement.GetGeneralizationAndDelete kMaxAttrNum t lhs a 0 0).2.1 p0 (a - 1) :=
      fun h => ((hrec p0 _).1 h).2 ⟨rfl, rfl⟩
    have hnew : ∀ q b, FDTreeElement.Rec (algos.FDep.SpecializePositiveCover.body n lhs a
          (FDTreeElement.GetGeneralizationAndDelete kMaxAttrNum t lhs a 0 0).2.1
          (FDTreeElement.GetGeneralizationAndDelete kMaxAttrNum t lhs a 0 0).2.2).1 q b →
        FDTreeElement.Rec
          (FDTreeElement.GetGeneralizationAndDelete kMaxAttrNum t lhs a 0 0).2.1 q b ∨
        (b = a - 1 ∧ ¬ Within q lhs) := by
      intro q b hq
      rcases hb.gains q b hq with h1 | ⟨hba, attr, h1, h2, _, h4⟩
      · exact Or.inl h1
      · refine Or.inr ⟨hba, fun hw => ?_⟩
        have := hw (attr - 1) ((h4 _).2 (Or.inr rfl))
        have e : attr - 1 + 1 = attr := by omega
        rw [e, h2] at this
        cases this
    refine ⟨⟨p0, hp0, hw0, hgone, fun h => ?_⟩, hnew,
      algos.FDep.SpecializePositiveCover.round_decreases hn ha hwf hov hu hac hnt hfound⟩
    rcases hnew p0 _ h with h1 | ⟨_, h2⟩
    · exact hgone h1
    · exact h2 hw0
  · intro fuel u l b cur hcur hfuel
    exact FDTreeElement.ContainsGeneralization_fuel l b fuel (kMaxAttrNum - cur) u cur hcur
      (by omega) (by omega)
  · intro fuel u l b cur spec hcur hfuel
    exact FDTreeElement.GetGeneralizationAndDelete_fuel l b fuel (kMaxAttrNum - cur) u cur spec
      hcur (by omega) (by omega)
  · intro fuel u l b cur out hfuel
    exact FDTreeElement.GetSpecialization_fuel l b fuel u.height u cur out hfuel (le_refl _)

set_option maxRecDepth 20000 in
/-- C34, witness: the tree for 2 attributes after `AddMostGeneralDependencies`, with
`lhs = {2}` and `a = 1`; the first round of the loop finds the recorded FD `{} → 1`. -/
theorem SpecializePositiveCover_loop_terminates_witness :
    2 < kMaxAttrNum ∧
    algos.FDep.PosCoverState 2 (FDTreeElement.new 2).AddMostGeneralDependencies ∧
    1 ≤ 1 ∧ Nat.testBit 4 1 = false ∧
    (FDTreeElement.GetGeneralizationAndDelete kMaxAttrNum
      (FDTreeElement.new 2).AddMostGeneralDependencies 4 1 0 0).1 = true ∧
    ((FDTreeElement.new 2).AddMostGeneralDependencies.generalizations 4 1).length = 1 ∧
    ((algos.FDep.SpecializePositiveCover.body 2 4 1
        (FDTreeElement.GetGeneralizationAndDelete kMaxAttrNum
          (FDTreeElement.new 2).AddMostGeneralDependencies 4 1 0 0).2.1
        (FDTreeElement.GetGeneralizationAndDelete kMaxAttrNum
          (FDTreeElement.new 2).AddMostGeneralDependencies 4 1 0 0).2.2).1.generalizations
        4 1).length < ((FDTreeElement.new 2).AddMostGeneralDependencies.generalizations 4
          1).length :=
  ⟨by decide, algos.FDep.PosCoverState.seeded, by decide, by decide, by decide, by decide,
    ((SpecializePositiveCover_loop_terminates (by decide) algos.FDep.PosCoverState.seeded 4 1
      (by decide) (by decide)).2.2.1 (by decide)).2.2⟩

/-- C35: every state `t` of the positive cover tree for `n < 256` attributes (the tree
after `AddMostGeneralDependencies` and after each round of the loop of
`SpecializePositiveCover`): the LHSs recorded for one RHS are pairwise incomparable
under inclusion; no recorded LHS contains its RHS; at every node, bit `a` of
`rhs_attributes_` is set exactly when the node or a descendant records an FD for `a`;
and so `ContainsGeneralization` and `GetGeneralizationAndDelete` find a recorded
generalization whenever there is one.  The positive cover tree that `ExecuteInternal`
leaves behind is such a state. -/
theorem PosCoverState_invariant {n : Nat} (hn : n < kMaxAttrNum) {t : FDTreeElement}
    (ht : algos.FDep.PosCoverState n t) :
    FDTreeElement.Antichain t ∧ FDTreeElement.NonTrivial t ∧ FDTreeElement.ExactRhs t ∧
    (∀ lhs a, 1 ≤ a →
      (FDTreeElement.ContainsGeneralization kMaxAttrNum t lhs a 0 = true ↔
        ∃ p, FDTreeElement.Rec t p (a - 1) ∧ Within p lhs)) ∧
    (∀ lhs a, 1 ≤ a →
      ((FDTreeElement.GetGeneralizationAndDelete kMaxAttrNum t lhs a 0 0).1 = true ↔
        ∃ p, FDTreeElement.Rec t p (a - 1) ∧ Within p lhs)) ∧
    (∀ self self' : algos.FDep, self.table_header_.column_names.length = n →
      self.ExecuteInternal = some self' →
      ∃ pos, self'.pos_cover_tree_ = some pos ∧ algos.FDep.PosCoverState n pos) := by
  obtain ⟨hwf, hov, hu, hac, hnt⟩ := ht.state_inv hn
  refine ⟨hac, hnt, (FDTreeElement.ExactRhs_iff t).2 ⟨hov, hu⟩, ?_, ?_, ?_⟩
  · intro lhs a ha
    exact FDTreeElement.ContainsGeneralization_top hn hwf hov lhs ha
  · intro lhs a ha
    have htop := FDTreeElement.GetGeneralizationAndDelete_top hn hwf hov hac lhs ha
    simp only at htop
    constructor
    · intro h
      obtain ⟨p, hp, hw, _⟩ := htop.2 h
      exact ⟨p, hp, hw⟩
    · intro h
      cases hr : (FDTreeElement.GetGeneralizationAndDelete kMaxAttrNum t lhs a 0 0).1 with
      | true => rfl
      | false => exact absurd h (htop.1 hr).1
  · intro self self' hlen h
    subst hlen
    exact algos.FDep.ExecuteInternal_state self self' hn h

set_option maxRecDepth 20000 in
/-- C35, witness: the tree for 2 attributes after `AddMostGeneralDependencies` and one
round of the loop of `SpecializePositiveCover({2}, 1)`. -/
theorem PosCoverState_invariant_witness :
    2 < kMaxAttrNum ∧
    algos.FDep.PosCoverState 2
      (algos.FDep.SpecializePositiveCover.body 2 4 1
        (FDTreeElement.GetGeneralizationAndDelete kMaxAttrNum
          (FDTreeElement.new 2).AddMostGeneralDependencies 4 1 0 0).2.1
        (FDTreeElement.GetGeneralizationAndDelete kMaxAttrNum
          (FDTreeElement.new 2).AddMostGeneralDependencies 4 1 0 0).2.2).1 ∧
    FDTreeElement.ExactRhs
      (algos.FDep.SpecializePositiveCover.body 2 4 1
        (FDTreeElement.GetGeneralizationAndDelete kMaxAttrNum
          (FDTreeElement.new 2).AddMostGeneralDependencies 4 1 0 0).2.1
        (FDTreeElement.GetGeneralizationAndDelete kMaxAttrNum
          (FDTreeElement.new 2).AddMostGeneralDependencies 4 1 0 0).2.2).1 :=
  ⟨by decide,
    algos.FDep.PosCoverState.round _ 4 1 algos.FDep.PosCoverState.seeded (by decide) (by decide),
    (PosCoverState_invariant (by decide)
      (algos.FDep.PosCoverState.round _ 4 1 algos.FDep.PosCoverState.seeded (by decide)
        (by decide))).2.2.1⟩

/-! ## The mined FDs depend on the set of rows only -/

namespace FDTreeElement

/-- A subtree that records nothing emits nothing. -/
theorem emitList_of_no_rec (m : Nat) : ∀ (fuel : Nat) (t : FDTreeElement) (lhs : DynamicBitset),
    (∀ q a, ¬ Rec t q a) → emitList m fuel t lhs = []
  | 0, t, lhs, _ => by
    unfold emitList
    rfl
  | fuel + 1, t, lhs, h => by
    unfold emitList
    by_cases hc : lhs.count > m
    · simp only [hc, if_true]
    · simp only [hc, if_false]
      have hfd : t.is_fd_ = 0 := by
        apply Nat.eq_of_testBit_eq
        intro i
        rw [Nat.zero_testBit]
        cases hb : Nat.testBit t.is_fd_ i with
        | false => rfl
        | true => exact absurd ((Rec_nil t i).2 hb) (h [] i)
      have hany : Bitset.any t.is_fd_ = false := by
        rw [hfd]
        rfl
      simp only [hany, Bool.false_eq_true, if_false, List.nil_append]
      rw [List.flatMap_eq_nil_iff]
      intro attr _
      cases hch : t.GetChild attr with
      | none => rfl
      | some c =>
        simp only
        exact emitList_of_no_rec m fuel c _
          (fun q a hr => h (attr :: q) a ((Rec_cons_some hch q a).2 hr))

/-- Two trees that record the same FDs emit the same stripped FDs, in the same order. -/
theorem emitList_congr (m : Nat) : ∀ (fuel1 fuel2 : Nat) (t1 t2 : FDTreeElement)
    (lhs : DynamicBitset), height t1 ≤ fuel1 → height t2 ≤ fuel2 →
    (∀ q a, Rec t1 q a ↔ Rec t2 q a) → emitList m fuel1 t1 lhs = emitList m fuel2 t2 lhs
  | 0, _, t1, _, _, h1, _, _ => by
    have := height_pos t1
    omega
  | _ + 1, 0, _, t2, _, _, h2, _ => by
    have := height_pos t2
    omega
  | fuel1 + 1, fuel2 + 1, t1, t2, lhs, h1, h2, h => by
    unfold emitList
    by_cases hc : lhs.count > m
    · simp only [hc, if_true]
    · simp only [hc, if_false]
      have hfd : t1.is_fd_ = t2.is_fd_ := by
        apply Nat.eq_of_testBit_eq
        intro i
        rw [Bool.eq_iff_iff, ← Rec_nil, ← Rec_nil]
        exact h [] i
      rw [hfd]
      congr 1
      apply flatMap_congr'
      intro attr _
      cases hc1 : t1.GetChild attr with
      | none =>
        cases hc2 : t2.GetChild attr with
        | none => rfl
        | some c2 =>
          simp only
          symm
          apply emitList_of_no_rec
          intro q a hr
          have := (h (attr :: q) a).2 ((Rec_cons_some hc2 q a).2 hr)
          exact Rec_cons_none hc1 q a this
      | some c1 =>
        cases hc2 : t2.GetChild attr with
        | none =>
          simp only
          apply emitList_of_no_rec
          intro q a hr
          have := (h (attr :: q) a).1 ((Rec_cons_some hc1 q a).2 hr)
          exact Rec_cons_none hc2 q a this
        | some c2 =>
          simp only
          apply emitList_congr m fuel1 fuel2 c1 c2
          · have := height_child hc1
            omega
          · have := height_child hc2
            omega
          · intro q a
            rw [← Rec_cons_some hc1 q a, ← Rec_cons_some hc2 q a]
            exact h (attr :: q) a

end FDTreeElement

namespace algos.FDep

open FDTreeElement

theorem Holds_congr {rows1 rows2 : List (List Nat)} (h : ∀ t, t ∈ rows1 ↔ t ∈ rows2)
    (Z : List Nat) (a : Nat) : Holds rows1 Z a ↔ Holds rows2 Z a := by
  unfold Holds
  constructor
  · intro h1 t1 ht1 t2 ht2
    exact h1 t1 ((h t1).2 ht1) t2 ((h t2).2 ht2)
  · intro h1 t1 ht1 t2 ht2
    exact h1 t1 ((h t1).1 ht1) t2 ((h t2).1 ht2)

/-- The seeded positive cover tree satisfies the invariant also with every RHS outside
the columns counted as handled. -/
theorem Inv_AddMostGeneral_bounded (n : Nat) :
    CalculatePositiveCover.Inv n (fun _ b => n ≤ b) (new n).AddMostGeneralDependencies := by
  have h := Inv_AddMostGeneral n
  refine ⟨h.wf, h.over, h.antichain, h.nontrivial, ?_, ?_⟩
  · rintro X a ha ⟨p, hp, _⟩
    have := ((Rec_AddMostGeneral n p a).1 hp).2
    omega
  · intro Z a ha _ _ _
    exact ⟨[], (Rec_AddMostGeneral n [] a).2 ⟨rfl, ha⟩, by simp⟩

/-- What the positive cover tree records at the end of `ExecuteInternal`: exactly the
FDs `q → a` with `a` a column, `q` an ascending list of columns without `a`, that hold
on the rows and have no proper subset of `q` as the LHS of an FD that holds. -/
theorem ExecuteInternal_records (self : FDep)
    (hn : self.table_header_.column_names.length ≤ 30) :
    ∃ pos, self.ExecuteInternal = some
        { self with
          neg_cover_tree_ := some (BuildNegativeCover self.table_header_.column_names.length
            self.tuples_)
          pos_cover_tree_ := some pos
          fd_storage_ := some ⟨self.table_header_,
            emitList self.max_lhs_ pos.height pos
              (lhsOf self.table_header_.column_names.length [])⟩ } ∧
      ∀ q a, Rec pos q a ↔
        (a < self.table_header_.column_names.length ∧ q.Pairwise (fun x y => x < y) ∧
          (∀ i ∈ q, i < self.table_header_.column_names.length) ∧ a ∉ q ∧
          Holds self.tuples_ q a ∧ ∀ Z, Z ⊆ q → Holds self.tuples_ Z a → q ⊆ Z) := by
  obtain ⟨pos, hrun, _, hexec⟩ := ExecuteInternal_result self hn
  refine ⟨pos, hexec, ?_⟩
  generalize self.table_header_.column_names.length = n at *
  have hn' : n < kMaxAttrNum := by unfold kMaxAttrNum; omega
  obtain ⟨hneg, hneg2, hneg3⟩ := BuildNegativeCover_spec hn self.tuples_
  obtain ⟨pos', hrun', hinv⟩ := CalculatePositiveCover_spec hn'
    (BuildNegativeCover n self.tuples_).height (BuildNegativeCover n self.tuples_) [] 0
    (new n).AddMostGeneralDependencies (fun _ b => n ≤ b) 0 (le_refl _) hneg
    (by intro i hi; cases hi) PathBits_nil (Inv_AddMostGeneral_bounded n)
  rw [hrun] at hrun'
  simp only [Option.some.injEq, Prod.mk.injEq, and_true] at hrun'
  subst hrun'
  -- the handled witnesses, in terms of the rows
  have hlink : ∀ (Z : List Nat) (a : Nat), a < n → (∀ z ∈ Z, z < n) →
      ((∀ X, (n ≤ a ∨ ∃ q, X = [] ++ q ∧ Rec (BuildNegativeCover n self.tuples_) q a ∧ a < n) →
        ¬ Z ⊆ X) ↔ Holds self.tuples_ Z a) := by
    intro Z a ha hZ
    constructor
    · intro h t1 ht1 t2 ht2 hagree
      by_contra hne
      obtain ⟨X, hX, hXall⟩ := hneg3 t1 ht1 t2 ht2 a ha hne
      exact h X (Or.inr ⟨X, by simp, hX, ha⟩) (fun j hj => hXall j (hZ j hj) (hagree j hj))
    · rintro h X (hX | ⟨q, hq, hX, _⟩) hsub
      · omega
      · simp only [List.nil_append] at hq
        subst hq
        obtain ⟨t1, ht1, t2, ht2, hne, hag⟩ := hneg2 X a hX
        exact hne (h t1 ht1 t2 ht2 (fun j hj => hag j (hsub hj)))
  have hfwd : ∀ q a, Rec pos q a →
      (a < n ∧ q.Pairwise (fun x y => x < y) ∧ (∀ i ∈ q, i < n) ∧ a ∉ q ∧
        Holds self.tuples_ q a ∧ ∀ Z, Z ⊆ q → Holds self.tuples_ Z a → q ⊆ Z) := by
    intro q a hr
    have ha : a < n := by
      by_contra hcon
      exact hinv.sound q a (Or.inl (by omega)) ⟨q, hr, fun _ h => h⟩
    obtain ⟨v, hv, _⟩ := hr
    have hl := hinv.wf.lookup q hv
    have hr : Rec pos q a := ⟨v, hv, by assumption⟩
    have hqn : ∀ i ∈ q, i < n := fun i hi => (hl.2.1 i hi).2
    refine ⟨ha, hl.1, hqn, hinv.nontrivial q a hr, ?_, ?_⟩
    · apply (hlink q a ha hqn).1
      intro X hX hsub
      exact hinv.sound X a hX ⟨q, hr, hsub⟩
    · intro Z hZq hZ
      have hZn : ∀ z ∈ Z, z < n := fun z hz => hqn z (hZq hz)
      have hZa : a ∉ Z := fun h => hinv.nontrivial q a hr (hZq h)
      obtain ⟨q', hq', hq'Z⟩ := hinv.complete Z a ha hZn hZa ((hlink Z a ha hZn).2 hZ)
      have := hinv.antichain q' q a hq' hr (fun j hj => hZq (hq'Z hj))
      rw [← this]
      exact hq'Z
  intro q a
  constructor
  · exact hfwd q a
  · rintro ⟨ha, hsorted, hqn, haq, hholds, hmin⟩
    obtain ⟨q', hq', hq'q⟩ := hinv.complete q a ha hqn haq ((hlink q a ha hqn).2 hholds)
    obtain ⟨_, hsorted', _, _, hholds', _⟩ := hfwd q' a hq'
    have hqq' := hmin q' hq'q hholds'
    rw [sorted_eq_of_subset hsorted hsorted' hqq' hq'q]
    exact hq'

/-- A pair of identical rows adds nothing to the negative cover. -/
theorem AddViolatedFDs_same_row (n : Nat) (tree : FDTreeElement) (t : List Nat) :
    AddViolatedFDs n tree t t = tree := by
  have hd : diffAttr n t t = 0 := by
    apply Nat.eq_of_testBit_eq
    intro j
    rw [Nat.zero_testBit]
    cases hb : Nat.testBit (diffAttr n t t) j with
    | false => rfl
    | true => exact absurd rfl ((testBit_diffAttr n t t j).1 hb).2.2
  unfold AddViolatedFDs
  rw [hd]
  have : Bitset.indices 0 = [] := by
    unfold Bitset.indices
    rw [List.filter_eq_nil_iff]
    intro i _
    simp
  rw [this]
  rfl

end algos.FDep

/-- The run on the model depends on the set of rows only, for at most 30 columns: a row
list with the same rows gives the same sequence of stripped FDs. -/
theorem ExecuteInternal_row_set (self : algos.FDep) (rows : List (List Nat))
    (hn : self.table_header_.column_names.length ≤ 30)
    (hrows : ∀ t, t ∈ rows ↔ t ∈ self.tuples_) :
    (∃ first second st1 st2, self.ExecuteInternal = some first ∧
      algos.FDep.ExecuteInternal { self with tuples_ := rows } = some second ∧
      first.GetFdStorage = some st1 ∧ second.GetFdStorage = some st2 ∧
      st1.GetStripped = st2.GetStripped) ∧
    (∀ (tree : FDTreeElement) (t : List Nat),
      algos.FDep.AddViolatedFDs self.table_header_.column_names.length tree t t = tree) := by
  refine ⟨?_, fun tree t => algos.FDep.AddViolatedFDs_same_row _ tree t⟩
  obtain ⟨pos1, hexec1, hrec1⟩ := algos.FDep.ExecuteInternal_records self hn
  obtain ⟨pos2, hexec2, hrec2⟩ := algos.FDep.ExecuteInternal_records
    { self with tuples_ := rows } hn
  refine ⟨_, _, _, _, hexec1, hexec2, rfl, rfl, ?_⟩
  show FDTreeElement.emitList self.max_lhs_ pos1.height pos1 _ =
    FDTreeElement.emitList self.max_lhs_ pos2.height pos2 _
  apply FDTreeElement.emitList_congr _ _ _ _ _ _ (le_refl _) (le_refl _)
  intro q a
  rw [hrec1 q a, hrec2 q a]
  simp only [algos.FDep.Holds_congr hrows]

set_option maxRecDepth 20000 in
/-- C36 (independence from row order and duplicates), as far as the mask `(2 << n) - 1`
of `AddViolatedFDs` lets it hold.  The failing input is the table with 31 columns and the rows `row31a`, `row31b`: the
negative cover is built by the call `AddFunctionalDependency(equal_attr, 1)`, and the
path of `equal_attr` contains the child position 31, which a node for 31 attributes does
not have (the source indexes `children_[31]` of a vector of 31 elements), so that no
storage comes out of the run.  For
every loaded table with at most 29 columns, the sequence of stripped FDs that the miner
produces depends only on which rows occur in the table: if `rows` holds the same rows as
`tuples_` (as after permuting the rows, or after adding or removing a row equal to
another one), mining `rows` with the same header and `max_lhs` finishes with the same
sequence of stripped FDs, and a pair of identical rows adds nothing to the negative
cover.  The sample table, with its rows in another order and one of them twice, is an
instance. -/
theorem FDep_row_set_only_up_to_29_columns :
    (algos.FDep.wide31.Loaded ∧ algos.FDep.wide31.table_header_.column_names.length = 31 ∧
      algos.FDep.BuildNegativeCover.pairs 31 algos.FDep.wide31.tuples_ (FDTreeElement.new 31) =
        (FDTreeElement.new 31).AddFunctionalDependency
          (algos.FDep.equalAttr 31 algos.FDep.row31a algos.FDep.row31b) 1 ∧
      31 ∈ pathOf (algos.FDep.equalAttr 31 algos.FDep.row31a algos.FDep.row31b) ∧
      ¬ 31 < (FDTreeElement.new 31).children_.length) ∧
    (∀ (self : algos.FDep) (rows : List (List Nat)),
      self.table_header_.column_names.length ≤ 29 → self.Loaded →
      (∀ t, t ∈ rows ↔ t ∈ self.tuples_) →
      ∃ first second st1 st2, self.ExecuteInternal = some first ∧
        algos.FDep.ExecuteInternal { self with tuples_ := rows } = some second ∧
        first.GetFdStorage = some st1 ∧ second.GetFdStorage = some st2 ∧
        st1.GetStripped = st2.GetStripped) ∧
    (∀ (n : Nat) (tree : FDTreeElement) (t : List Nat), n ≤ 29 →
      algos.FDep.AddViolatedFDs n tree t t = tree) ∧
    ((∀ t, t ∈ algos.FDep.sampleShuffled.tuples_ ↔ t ∈ algos.FDep.sample.tuples_) ∧
      ∃ first second st1 st2, algos.FDep.sample.ExecuteInternal = some first ∧
        algos.FDep.ExecuteInternal
          { algos.FDep.sample with tuples_ := algos.FDep.sampleShuffled.tuples_ } =
            some second ∧
        first.GetFdStorage = some st1 ∧ second.GetFdStorage = some st2 ∧
        st1.GetStripped = st2.GetStripped) :=
  have hrows : ∀ t, t ∈ algos.FDep.sampleShuffled.tuples_ ↔ t ∈ algos.FDep.sample.tuples_ := by
    intro t
    simp only [algos.FDep.sampleShuffled, algos.FDep.sample, List.mem_cons, List.mem_singleton,
      List.not_mem_nil, or_false]
    tauto
  ⟨wide31_leaves_child_slots,
    fun self rows hn _ h => (ExecuteInternal_row_set self rows (Nat.le_succ_of_le hn) h).1,
    fun n tree t _ => algos.FDep.AddViolatedFDs_same_row n tree t,
    hrows,
    (ExecuteInternal_row_set algos.FDep.sample algos.FDep.sampleShuffled.tuples_ (by decide)
      hrows).1⟩
